import Mathlib

/-! # The player `rufus` (AIrufus.cc): a shallow embedding

The definitions below follow `src/AIrufus.cc` function by function.

* C++ `int` is modelled by `Int`; board coordinates, distances and counters stay far from
  the range where a 32-bit `int` would overflow.
* C++ `double` scores are modelled by an arbitrary carrier `α` whose arithmetic and
  comparison are supplied by `DoubleOps α`, so nothing proved for every carrier depends on
  how sums, products, quotients or powers are rounded.  `Score` is a concrete carrier for
  worked examples: exact rationals with the two infinities and NaN.
* `std::map<Pos, Ticket>` is modelled by a function `Pos → Option Ticket`, a map iterator by
  the key it points to.
* `while` loops take a fuel argument; `none` means that the fuel ran out or an `assert` failed.
-/

namespace Rufus

/-! ## Geometry (Structs.hh) -/

/-- Modelled from the spec: the direction enumeration of `Structs.hh`, which is not under
`src/`.  The spec fixes exactly four cardinal values with stable indices 0..3; the order
`BOTTOM, RIGHT, TOP, LEFT` is the one `DirectionEvaluation`'s constructor and
`POSSIBLE_DIRECTIONS` rely on. -/
inductive Dir where
  | BOTTOM
  | RIGHT
  | TOP
  | LEFT
deriving DecidableEq, Repr

/-- Position on the board: row `i`, column `j`. -/
structure Pos where
  i : Int
  j : Int
deriving DecidableEq, Repr

/-- Modelled from the spec: `Pos + Dir` of `Structs.hh`.  Rows grow downwards and columns
to the right, so that `(5,8)` lies to the `RIGHT` of `(5,5)` and `(3,5)` lies to its `TOP`. -/
def Pos.step (p : Pos) : Dir → Pos
  | Dir.BOTTOM => ⟨p.i + 1, p.j⟩
  | Dir.RIGHT => ⟨p.i, p.j + 1⟩
  | Dir.TOP => ⟨p.i - 1, p.j⟩
  | Dir.LEFT => ⟨p.i, p.j - 1⟩

/-- The list returned by `POSSIBLE_DIRECTIONS()`. -/
def POSSIBLE_DIRECTIONS : List Dir := [Dir.BOTTOM, Dir.RIGHT, Dir.TOP, Dir.LEFT]

/-- The sentinel `NullPos`, `Pos(-1, -1)`. -/
def NullPos : Pos := ⟨-1, -1⟩

/-- `isNull(p)`: only the row is inspected. -/
def isNull (p : Pos) : Bool := decide (p.i = -1)

/-- `manhattanDistance(a, b)`. -/
def manhattanDistance (a b : Pos) : Int := |a.i - b.i| + |a.j - b.j|

/-! ## Direction vectors -/

/-- `DirectionEvaluation`: one score per direction (`array<double, 4>`). -/
structure DirectionEvaluation (α : Type) where
  bottom : α
  right : α
  top : α
  left : α
deriving DecidableEq, Repr

/-- `DirectionEvaluation(double all)`. -/
def DirectionEvaluation.all {α : Type} (a : α) : DirectionEvaluation α := ⟨a, a, a, a⟩

/-- `DirectionEvaluation(function<double(const Dir)>)`. -/
def DirectionEvaluation.ofFn {α : Type} (f : Dir → α) : DirectionEvaluation α :=
  ⟨f Dir.BOTTOM, f Dir.RIGHT, f Dir.TOP, f Dir.LEFT⟩

/-- `operator[](direction) const` of `DirectionEvaluation`. -/
def DirectionEvaluation.get {α : Type} (e : DirectionEvaluation α) : Dir → α
  | Dir.BOTTOM => e.bottom
  | Dir.RIGHT => e.right
  | Dir.TOP => e.top
  | Dir.LEFT => e.left

/-- `evaluation[direction] += x` through the reference returned by `operator[]`. -/
def DirectionEvaluation.addAt {α : Type} (plus : α → α → α) (e : DirectionEvaluation α)
    (d : Dir) (x : α) : DirectionEvaluation α :=
  match d with
  | Dir.BOTTOM => ⟨plus e.bottom x, e.right, e.top, e.left⟩
  | Dir.RIGHT => ⟨e.bottom, plus e.right x, e.top, e.left⟩
  | Dir.TOP => ⟨e.bottom, e.right, plus e.top x, e.left⟩
  | Dir.LEFT => ⟨e.bottom, e.right, e.top, plus e.left x⟩

/-- `operator+` of `DirectionEvaluation` (and `operator+=`, which assigns its result). -/
def DirectionEvaluation.add {α : Type} (plus : α → α → α) (a b : DirectionEvaluation α) :
    DirectionEvaluation α :=
  DirectionEvaluation.ofFn (fun d => plus (a.get d) (b.get d))

/-- `DirectionBooleans`: one flag per direction (`array<bool, 4>`). -/
structure DirectionBooleans where
  bottom : Bool
  right : Bool
  top : Bool
  left : Bool
deriving DecidableEq, Repr

/-- `DirectionBooleans(bool all)`. -/
def DirectionBooleans.all (b : Bool) : DirectionBooleans := ⟨b, b, b, b⟩

/-- `DirectionBooleans(Dir directionTrue)`. -/
def DirectionBooleans.single : Dir → DirectionBooleans
  | Dir.BOTTOM => ⟨true, false, false, false⟩
  | Dir.RIGHT => ⟨false, true, false, false⟩
  | Dir.TOP => ⟨false, false, true, false⟩
  | Dir.LEFT => ⟨false, false, false, true⟩

/-- `operator[](direction) const` of `DirectionBooleans`. -/
def DirectionBooleans.get (b : DirectionBooleans) : Dir → Bool
  | Dir.BOTTOM => b.bottom
  | Dir.RIGHT => b.right
  | Dir.TOP => b.top
  | Dir.LEFT => b.left

/-- `operator+=` of `DirectionBooleans`: slot-wise `|=`. -/
def DirectionBooleans.or (a b : DirectionBooleans) : DirectionBooleans :=
  ⟨a.bottom || b.bottom, a.right || b.right, a.top || b.top, a.left || b.left⟩

/-! ## The game interface (Player.hh, Structs.hh) -/

/-- Modelled from the spec: the cell types of `Structs.hh` (empty, path, city, wall). -/
inductive CellType where
  | EMPTY
  | PATH
  | CITY
  | WALL
deriving DecidableEq, Repr

/-- The fields of `Cell` that the player reads. -/
structure Cell where
  type : CellType
  unit_id : Int
  mask : Bool
  virus : Int
deriving DecidableEq, Repr

/-- The fields of `Unit` that the player reads. -/
structure Unit where
  pos : Pos
  health : Int
  damage : Int
  player : Int
deriving DecidableEq, Repr

/-- The read-only queries of `Player.hh` that the player uses, taken as parameters:
the board, the unit registry, the city and path registries, the mover and its budget. -/
structure Game where
  cell : Pos → Cell
  unit : Int → Unit
  me : Int
  status : Int → ℚ
  round : Int
  my_units : Int → List Int
  nb_cities : Int
  city_owner : Int → Int
  city : Int → List Pos
  nb_paths : Int
  path_owner : Int → Int
  path : Int → (Int × Int) × List Pos

/-! ## Scores -/

/-- The operations on `double` that the player uses: conversion from `int`, `+`, `*`, `/`,
unary minus, `pow`, the constant `INFINITY` and the comparison `isgreater`.  No law is
assumed of them. -/
class DoubleOps (α : Type) extends Add α, Mul α, Div α, Neg α where
  ofInt : Int → α
  pow : α → α → α
  INFINITY : α
  isgreater : α → α → Bool

/-- `chosenDirection(evaluation)`. -/
def chosenDirection {α : Type} [DoubleOps α] (evaluation : DirectionEvaluation α) : Dir :=
  let maxHorizontal :=
    if DoubleOps.isgreater (evaluation.get Dir.LEFT) (evaluation.get Dir.RIGHT) then Dir.LEFT
    else Dir.RIGHT
  let maxVertical :=
    if DoubleOps.isgreater (evaluation.get Dir.BOTTOM) (evaluation.get Dir.TOP) then Dir.BOTTOM
    else Dir.TOP
  if DoubleOps.isgreater (evaluation.get maxHorizontal) (evaluation.get maxVertical) then
    maxHorizontal
  else maxVertical

/-- The four scores of `evaluation` are comparable (none is NaN): they have numeric values
`val` in a linear order, and `isgreater` on them is the strict order of these values. -/
def Comparable {α β : Type} [DoubleOps α] [LinearOrder β] (val : α → β)
    (evaluation : DirectionEvaluation α) : Prop :=
  ∀ d1 d2 : Dir, DoubleOps.isgreater (evaluation.get d1) (evaluation.get d2) = true ↔
    val (evaluation.get d2) < val (evaluation.get d1)

/-- A concrete carrier for worked examples: the values of a `double` with exact rational
arithmetic on the finite ones (rounding and signed zeros are not modelled). -/
inductive Score where
  | nan
  | negInf
  | fin (q : ℚ)
  | posInf
deriving DecidableEq

/-- Sum of two scores; opposite infinities give NaN. -/
def Score.add : Score → Score → Score
  | Score.nan, _ => Score.nan
  | _, Score.nan => Score.nan
  | Score.posInf, Score.negInf => Score.nan
  | Score.negInf, Score.posInf => Score.nan
  | Score.posInf, _ => Score.posInf
  | _, Score.posInf => Score.posInf
  | Score.negInf, _ => Score.negInf
  | _, Score.negInf => Score.negInf
  | Score.fin a, Score.fin b => Score.fin (a + b)

/-- Unary minus. -/
def Score.neg : Score → Score
  | Score.nan => Score.nan
  | Score.negInf => Score.posInf
  | Score.fin a => Score.fin (-a)
  | Score.posInf => Score.negInf

/-- The infinity of the sign of `a` (NaN for zero), as produced by `∞ * a`. -/
def Score.signedInf (a : ℚ) : Score :=
  if 0 < a then Score.posInf else if a < 0 then Score.negInf else Score.nan

/-- Product of two scores; zero times an infinity gives NaN. -/
def Score.mul : Score → Score → Score
  | Score.nan, _ => Score.nan
  | _, Score.nan => Score.nan
  | Score.posInf, Score.posInf => Score.posInf
  | Score.posInf, Score.negInf => Score.negInf
  | Score.negInf, Score.posInf => Score.negInf
  | Score.negInf, Score.negInf => Score.posInf
  | Score.posInf, Score.fin b => Score.signedInf b
  | Score.negInf, Score.fin b => Score.signedInf (-b)
  | Score.fin a, Score.posInf => Score.signedInf a
  | Score.fin a, Score.negInf => Score.signedInf (-a)
  | Score.fin a, Score.fin b => Score.fin (a * b)

/-- Quotient of two scores; a finite nonzero value over zero is an infinity, zero over zero
and infinity over infinity are NaN. -/
def Score.div : Score → Score → Score
  | Score.nan, _ => Score.nan
  | _, Score.nan => Score.nan
  | Score.fin _, Score.posInf => Score.fin 0
  | Score.fin _, Score.negInf => Score.fin 0
  | Score.fin a, Score.fin b => if b = 0 then Score.signedInf a else Score.fin (a / b)
  | Score.posInf, Score.fin b => if b < 0 then Score.negInf else Score.posInf
  | Score.negInf, Score.fin b => if b < 0 then Score.posInf else Score.negInf
  | _, _ => Score.nan

/-- The power `pow(x, y)` for a finite base and an exponent that is a natural number, the
only case the scorers use; NaN stands for every other case. -/
def Score.pow : Score → Score → Score
  | Score.fin a, Score.fin b =>
    if b.den = 1 ∧ 0 ≤ b.num then Score.fin (a ^ b.num.toNat) else Score.nan
  | _, _ => Score.nan

/-- The comparison `isgreater(x, y)`: false when either argument is NaN. -/
def Score.isgreater : Score → Score → Bool
  | Score.nan, _ => false
  | _, Score.nan => false
  | Score.posInf, Score.posInf => false
  | Score.posInf, _ => true
  | _, Score.posInf => false
  | Score.negInf, _ => false
  | Score.fin _, Score.negInf => true
  | Score.fin a, Score.fin b => decide (b < a)

instance : DoubleOps Score where
  add := Score.add
  mul := Score.mul
  div := Score.div
  neg := Score.neg
  ofInt := fun n => Score.fin n
  pow := Score.pow
  INFINITY := Score.posInf
  isgreater := Score.isgreater

/-- The numeric value of a finite score (zero stands for the others). -/
def Score.toRat : Score → ℚ
  | Score.fin q => q
  | _ => 0

/-- The constant parameters of the player.  `LOCAL_BFS_RANGE` is a `double` in the source
that is only ever passed as the `int` argument `RANGE`, so it is kept as an integer. -/
structure Params (α : Type) where
  NULL_EVALUATION : α
  LOCAL_BFS_RANGE : Int
  MASK_EVALUATION : α
  MASK_EVALUATION_IF_INFECTED : α
  VIRUS_EVALUATION : α
  VIRUS_EVALUATION_IF_INFECTED : α
  ENEMY_UNIT_EVALUATION : α
  INFECTED_ENEMY_UNIT_EVALUATION : α
  ENEMY_UNIT_EVALUATION_IF_INFECTED : α
  INFECTED_ENEMY_UNIT_EVALUATION_IF_INFECTED : α
  ALLIED_UNIT_EVALUATION : α
  INFECTED_ALLIED_UNIT_EVALUATION : α
  ALLIED_UNIT_EVALUATION_IF_INFECTED : α
  INFECTED_ALLIED_UNIT_EVALUATION_IF_INFECTED : α
  LOCAL_CITY_EVALUATION : α
  LOCAL_CITY_EVALUATION_IF_INFECTED : α
  LOCAL_PATH_EVALUATION : α
  LOCAL_PATH_EVALUATION_IF_INFECTED : α
  LOCAL_WALL_EVALUATION : α
  LOCAL_WALL_EVALUATION_IF_INFECTED : α
  GLOBAL_CITY_OR_PATH_EVALUATION : α
  ADJACENT_WALL_EVALUATION : α
  ADJACENT_ENEMY_EVALUATION : α
  ADJACENT_ALLIED_EVALUATION : α
  GLOBAL_OWNED_CITIES : Bool

/-- The default parameters set by the constructor `PLAYER_NAME()`. -/
def defaultParams (α : Type) [DoubleOps α] : Params α where
  NULL_EVALUATION := DoubleOps.ofInt 0
  LOCAL_BFS_RANGE := 25
  MASK_EVALUATION := DoubleOps.ofInt 50
  MASK_EVALUATION_IF_INFECTED := DoubleOps.ofInt 0
  VIRUS_EVALUATION := DoubleOps.ofInt (-20)
  VIRUS_EVALUATION_IF_INFECTED := DoubleOps.ofInt 5
  ENEMY_UNIT_EVALUATION := DoubleOps.ofInt 25
  INFECTED_ENEMY_UNIT_EVALUATION := DoubleOps.ofInt (-25)
  ENEMY_UNIT_EVALUATION_IF_INFECTED := DoubleOps.ofInt 30
  INFECTED_ENEMY_UNIT_EVALUATION_IF_INFECTED := DoubleOps.ofInt 25
  ALLIED_UNIT_EVALUATION := DoubleOps.ofInt 70
  INFECTED_ALLIED_UNIT_EVALUATION := DoubleOps.ofInt (-5)
  ALLIED_UNIT_EVALUATION_IF_INFECTED := DoubleOps.ofInt (-20)
  INFECTED_ALLIED_UNIT_EVALUATION_IF_INFECTED := DoubleOps.ofInt 70
  LOCAL_CITY_EVALUATION := DoubleOps.ofInt 50
  LOCAL_CITY_EVALUATION_IF_INFECTED := DoubleOps.ofInt 25
  LOCAL_PATH_EVALUATION := DoubleOps.ofInt 50
  LOCAL_PATH_EVALUATION_IF_INFECTED := DoubleOps.ofInt 25
  LOCAL_WALL_EVALUATION := DoubleOps.ofInt 0
  LOCAL_WALL_EVALUATION_IF_INFECTED := DoubleOps.ofInt 0
  GLOBAL_CITY_OR_PATH_EVALUATION := DoubleOps.ofInt 70
  ADJACENT_WALL_EVALUATION := -DoubleOps.INFINITY
  ADJACENT_ENEMY_EVALUATION := DoubleOps.INFINITY
  ADJACENT_ALLIED_EVALUATION := -DoubleOps.INFINITY
  GLOBAL_OWNED_CITIES := false

/-- `pow(n, k)` with `int` arguments, both converted to `double`. -/
def powInt {α : Type} [DoubleOps α] (n k : Int) : α :=
  DoubleOps.pow (DoubleOps.ofInt n) (DoubleOps.ofInt k)

/-- `MASK_EVALUATION_FUNCTION`; `none` is the failed `assert(distance != 0)`. -/
def MASK_EVALUATION_FUNCTION {α : Type} [DoubleOps α] (P : Params α) (distance : Int)
    (myUnit : Unit) : Option α :=
  if distance = 0 then none
  else
    let maskEvaluation :=
      if myUnit.damage > 0 then P.MASK_EVALUATION_IF_INFECTED else P.MASK_EVALUATION
    some (maskEvaluation / powInt distance 3)

/-- `VIRUS_EVALUATION_FUNCTION`; `none` is the failed `assert(distance != 0)`. -/
def VIRUS_EVALUATION_FUNCTION {α : Type} [DoubleOps α] (P : Params α) (distance : Int)
    (virus : Int) (myUnit : Unit) : Option α :=
  if distance = 0 then none
  else
    let virusEvaluation :=
      if myUnit.damage > 0 then P.VIRUS_EVALUATION_IF_INFECTED
      else P.VIRUS_EVALUATION * DoubleOps.ofInt virus
    some (virusEvaluation / powInt distance 3)

/-- `ENEMY_UNIT_EVALUATION_FUNCTION`; `none` is the failed `assert(distance > 1)`. -/
def ENEMY_UNIT_EVALUATION_FUNCTION {α : Type} [DoubleOps α] (P : Params α) (distance : Int)
    (myUnit enemyUnit : Unit) (foundAlliesCounter foundEnemiesCounter : Int) : Option α :=
  if ¬ (distance > 1) then none
  else
    let enemyEvaluation :=
      if myUnit.damage > 0 then
        (if enemyUnit.damage > 0 then P.INFECTED_ENEMY_UNIT_EVALUATION_IF_INFECTED
         else P.ENEMY_UNIT_EVALUATION_IF_INFECTED)
      else
        (if enemyUnit.damage > 0 then P.INFECTED_ENEMY_UNIT_EVALUATION
         else P.ENEMY_UNIT_EVALUATION)
    let healthDifference := myUnit.health - enemyUnit.health
    some (DoubleOps.ofInt (100 + healthDifference) * enemyEvaluation
      * powInt (foundAlliesCounter - foundEnemiesCounter) 5 / powInt distance 6)

/-- `ADJACENT_COMBAT_EVALUATION`. -/
def ADJACENT_COMBAT_EVALUATION {α : Type} (EVALUATION_CONSTANT : α) (_myUnit _enemyUnit : Unit) :
    α :=
  EVALUATION_CONSTANT

/-- `ALLIED_UNIT_EVALUATION_FUNCTION`; `none` is the failed `assert(distance != 0)`. -/
def ALLIED_UNIT_EVALUATION_FUNCTION {α : Type} [DoubleOps α] (P : Params α) (distance : Int)
    (myUnit alliedUnit : Unit) (foundAlliesCounter _foundEnemiesCounter : Int) : Option α :=
  if distance = 0 then none
  else
    let alliedEvaluation :=
      if myUnit.damage > 0 then
        (if alliedUnit.damage > 0 then P.INFECTED_ALLIED_UNIT_EVALUATION_IF_INFECTED
         else P.ALLIED_UNIT_EVALUATION_IF_INFECTED)
      else
        (if alliedUnit.damage > 0 then P.INFECTED_ALLIED_UNIT_EVALUATION
         else P.ALLIED_UNIT_EVALUATION)
    some (alliedEvaluation / powInt foundAlliesCounter 2)

/-- `LOCAL_UNIT_EVALUATION_FUNCTION`: the score together with the two counters, which the
source updates through references before the ally or enemy scorer is called. -/
def LOCAL_UNIT_EVALUATION_FUNCTION {α : Type} [DoubleOps α] (G : Game) (P : Params α)
    (distance : Int) (myUnit otherUnit : Unit) (foundAlliesCounter foundEnemiesCounter : Int) :
    Option (α × Int × Int) :=
  let alliedUnit := decide (otherUnit.player = G.me)
  let allies := if alliedUnit then foundAlliesCounter + 1 else foundAlliesCounter
  let enemies := if alliedUnit then foundEnemiesCounter else foundEnemiesCounter + 1
  (if alliedUnit then ALLIED_UNIT_EVALUATION_FUNCTION P distance myUnit otherUnit allies enemies
   else ENEMY_UNIT_EVALUATION_FUNCTION P distance myUnit otherUnit allies enemies).map
    (fun x => (x, allies, enemies))

/-- `LOCAL_CITY_EVALUATION_FUNCTION`; `none` is the failed `assert(distance != 0)`. -/
def LOCAL_CITY_EVALUATION_FUNCTION {α : Type} [DoubleOps α] (P : Params α) (distance : Int)
    (myUnit : Unit) : Option α :=
  if distance = 0 then none
  else
    let cityEvaluation :=
      if myUnit.damage > 0 then P.LOCAL_CITY_EVALUATION_IF_INFECTED else P.LOCAL_CITY_EVALUATION
    some (cityEvaluation / powInt distance 2)

/-- `LOCAL_PATH_EVALUATION_FUNCTION`; `none` is the failed `assert(distance != 0)`. -/
def LOCAL_PATH_EVALUATION_FUNCTION {α : Type} [DoubleOps α] (P : Params α) (distance : Int)
    (myUnit : Unit) : Option α :=
  if distance = 0 then none
  else
    let pathEvaluation :=
      if myUnit.damage > 0 then P.LOCAL_PATH_EVALUATION_IF_INFECTED else P.LOCAL_PATH_EVALUATION
    some (pathEvaluation / powInt distance 2)

/-- `LOCAL_WALL_EVALUATION_FUNCTION`; `none` is the failed `assert(distance != 0)`. -/
def LOCAL_WALL_EVALUATION_FUNCTION {α : Type} [DoubleOps α] (P : Params α) (distance : Int)
    (myUnit : Unit) : Option α :=
  if distance = 0 then none
  else
    let wallEvaluation :=
      if myUnit.damage > 0 then P.LOCAL_WALL_EVALUATION_IF_INFECTED else P.LOCAL_WALL_EVALUATION
    some (wallEvaluation / powInt distance 3)

/-- `LOCAL_CELLTYPE_EVALUATION_FUNCTION`: the `switch` over the cell type. -/
def LOCAL_CELLTYPE_EVALUATION_FUNCTION {α : Type} [DoubleOps α] (P : Params α) (distance : Int)
    (myUnit : Unit) (cellType : CellType) : Option α :=
  match cellType with
  | CellType.CITY => LOCAL_CITY_EVALUATION_FUNCTION P distance myUnit
  | CellType.PATH => LOCAL_PATH_EVALUATION_FUNCTION P distance myUnit
  | CellType.WALL => LOCAL_WALL_EVALUATION_FUNCTION P distance myUnit
  | CellType.EMPTY => some P.NULL_EVALUATION

/-- `cellEvaluation`: the vector added for one cell and the updated counters. -/
def cellEvaluation {α : Type} [DoubleOps α] (G : Game) (P : Params α) (distance : Int) (c : Cell)
    (u : Unit) (reachableFrom : DirectionBooleans) (foundAlliesCounter foundEnemiesCounter : Int) :
    Option (DirectionEvaluation α × Int × Int) := do
  let cellTypeEvaluation ← LOCAL_CELLTYPE_EVALUATION_FUNCTION P distance u c.type
  let (cellUnitEvaluation, allies, enemies) ←
    if c.unit_id ≠ -1 then
      LOCAL_UNIT_EVALUATION_FUNCTION G P distance u (G.unit c.unit_id) foundAlliesCounter
        foundEnemiesCounter
    else some (P.NULL_EVALUATION, foundAlliesCounter, foundEnemiesCounter)
  let cellMaskEvaluation ←
    if c.mask then MASK_EVALUATION_FUNCTION P distance u else some P.NULL_EVALUATION
  let cellVirusEvaluation ← VIRUS_EVALUATION_FUNCTION P distance c.virus u
  let cellEvaluation :=
    cellTypeEvaluation + cellUnitEvaluation + cellMaskEvaluation + cellVirusEvaluation
  pure (DirectionEvaluation.ofFn
    (fun direction => if reachableFrom.get direction then cellEvaluation else P.NULL_EVALUATION),
    allies, enemies)

/-! ## Local evaluation: the bounded flood -/

/-- The `Ticket` of `localEvaluation`. -/
structure SearchTicket where
  distance : Int
  reachableFrom : DirectionBooleans
deriving DecidableEq, Repr

/-- Writing one entry of a `std::map<Pos, T>`. -/
def mapSet {T : Type} (m : Pos → Option T) (p : Pos) (t : T) : Pos → Option T :=
  fun q => if q = p then some t else m q

/-- The local variables of `localEvaluation`.  `scored` is a ghost record of the calls of
`cellEvaluation` made so far, oldest first: the cell and the ticket (distance and
reachability set) it was scored with. -/
structure FloodState (α : Type) where
  evaluation : DirectionEvaluation α
  foundAlliesCounter : Int
  foundEnemiesCounter : Int
  visited : Pos → Option SearchTicket
  scheduledAppointments : List Pos
  scored : List (Pos × SearchTicket)

/-- The state before the seeding loop: only the unit's own cell has a ticket. -/
def floodInit {α : Type} (P : Params α) (u : Unit) : FloodState α where
  evaluation := DirectionEvaluation.all P.NULL_EVALUATION
  foundAlliesCounter := 0
  foundEnemiesCounter := 0
  visited := mapSet (fun _ => none) u.pos ⟨0, DirectionBooleans.all false⟩
  scheduledAppointments := []
  scored := []

/-- One round of the seeding loop (lines 147-167); `none` is the failed
`assert(beenInserted)`. -/
def floodSeed {α : Type} [DoubleOps α] (G : Game) (P : Params α) (u : Unit) (st : FloodState α)
    (direction : Dir) : Option (FloodState α) :=
  let position := u.pos.step direction
  match st.visited position with
  | some _ => none
  | none =>
    let visited := mapSet st.visited position ⟨1, DirectionBooleans.single direction⟩
    let c := G.cell position
    let unitID := c.unit_id
    if c.type = CellType.WALL then
      some { st with
        visited := visited
        evaluation := st.evaluation.addAt (· + ·) direction P.ADJACENT_WALL_EVALUATION }
    else if unitID ≠ -1 then
      let foundUnit := G.unit unitID
      let alliedUnit := decide (foundUnit.player = G.me)
      some { st with
        visited := visited
        foundAlliesCounter :=
          if alliedUnit then st.foundAlliesCounter + 1 else st.foundAlliesCounter
        foundEnemiesCounter :=
          if alliedUnit then st.foundEnemiesCounter else st.foundEnemiesCounter + 1
        evaluation := st.evaluation.addAt (· + ·) direction
          (if alliedUnit then P.ADJACENT_ALLIED_EVALUATION
           else ADJACENT_COMBAT_EVALUATION P.ADJACENT_ENEMY_EVALUATION u foundUnit) }
    else
      some { st with
        visited := visited
        scheduledAppointments := st.scheduledAppointments ++ [position] }

/-- The state when the `while` loop of `localEvaluation` is entered. -/
def floodStart {α : Type} [DoubleOps α] (G : Game) (P : Params α) (u : Unit) :
    Option (FloodState α) :=
  POSSIBLE_DIRECTIONS.foldlM (floodSeed G P u) (floodInit P u)

/-- One round of the inner loop (lines 180-199) on the ticket map and the queue.
`currentTicket` is a reference into the map in the source; no neighbour is the current cell,
so the entry it refers to is not written while the loop runs. -/
def floodNeighbour (G : Game) (currentPosition : Pos) (currentTicket : SearchTicket)
    (vq : (Pos → Option SearchTicket) × List Pos) (currentDirection : Dir) :
    (Pos → Option SearchTicket) × List Pos :=
  let neighbourPosition := currentPosition.step currentDirection
  match vq.1 neighbourPosition with
  | some found =>
    (mapSet vq.1 neighbourPosition
      ⟨found.distance, found.reachableFrom.or currentTicket.reachableFrom⟩, vq.2)
  | none =>
    let c := G.cell neighbourPosition
    if c.type ≠ CellType.WALL then
      (mapSet vq.1 neighbourPosition ⟨currentTicket.distance + 1, currentTicket.reachableFrom⟩,
        vq.2 ++ [neighbourPosition])
    else vq

/-- What one pass through the body of a `while` loop leads to. -/
inductive Step (σ ρ : Type) where
  | running (st : σ)
  | returned (result : ρ)
  | failed

/-- One pass through the body of the `while` loop of `localEvaluation` (lines 169-200).
`returned` carries the state at the `return`; `failed` is a failed `assert` in a scorer. -/
def floodStep {α : Type} [DoubleOps α] (G : Game) (P : Params α) (u : Unit) (RANGE : Int)
    (st : FloodState α) : Step (FloodState α) (FloodState α) :=
  match st.scheduledAppointments with
  | [] => Step.returned st
  | currentPosition :: rest =>
    match st.visited currentPosition with
    | none => Step.failed
    | some currentTicket =>
      if currentTicket.distance > RANGE then
        Step.returned { st with scheduledAppointments := rest }
      else
        match cellEvaluation G P currentTicket.distance (G.cell currentPosition) u
            currentTicket.reachableFrom st.foundAlliesCounter st.foundEnemiesCounter with
        | none => Step.failed
        | some (cellScore, allies, enemies) =>
          let vq := POSSIBLE_DIRECTIONS.foldl (floodNeighbour G currentPosition currentTicket)
            (st.visited, rest)
          Step.running
            { evaluation := st.evaluation.add (· + ·) cellScore
              foundAlliesCounter := allies
              foundEnemiesCounter := enemies
              visited := vq.1
              scheduledAppointments := vq.2
              scored := st.scored ++ [(currentPosition, currentTicket)] }

/-- The `while` loop of `localEvaluation`, with fuel: the state at the `return`. -/
def floodLoop {α : Type} [DoubleOps α] (G : Game) (P : Params α) (u : Unit) (RANGE : Int) :
    Nat → FloodState α → Option (FloodState α)
  | 0, _ => none
  | fuel + 1, st =>
    match floodStep G P u RANGE st with
    | Step.running st1 => floodLoop G P u RANGE fuel st1
    | Step.returned st1 => some st1
    | Step.failed => none

/-- The state of the flood after at most `n` passes through the loop body (it stays where
the loop returned or an assertion failed). -/
def floodAfter {α : Type} [DoubleOps α] (G : Game) (P : Params α) (u : Unit) (RANGE : Int) :
    Nat → FloodState α → FloodState α
  | 0, st => st
  | n + 1, st =>
    match floodStep G P u RANGE st with
    | Step.running st1 => floodAfter G P u RANGE n st1
    | Step.returned st1 => st1
    | Step.failed => st

/-- The whole of `localEvaluation`, returning its final state. -/
def localFlood {α : Type} [DoubleOps α] (G : Game) (P : Params α) (fuel : Nat) (u : Unit)
    (RANGE : Int) : Option (FloodState α) :=
  (floodStart G P u).bind (floodLoop G P u RANGE fuel)

/-- `localEvaluation(u, RANGE)`. -/
def localEvaluation {α : Type} [DoubleOps α] (G : Game) (P : Params α) (fuel : Nat) (u : Unit)
    (RANGE : Int) : Option (DirectionEvaluation α) :=
  (localFlood G P fuel u RANGE).map (fun st => st.evaluation)

/-! ## Global evaluation: nearest target and A* -/

/-- The constant `INT_INFINITY`. -/
def INT_INFINITY : Int := 99999999

/-- The inner loop of `updateClosest` over the tiles of one city or path; the accumulator is
`(closestPosition, shortestDistance)`. -/
def updateCandidates (source : Pos) (acc : Pos × Int) (positions : List Pos) : Pos × Int :=
  positions.foldl (fun acc candidatePosition =>
    let distanceCandidate := manhattanDistance source candidatePosition
    if distanceCandidate < acc.2 then (candidatePosition, distanceCandidate) else acc) acc

/-- The lambda `updateClosest` of `closestCityOrPathEstimation`. -/
def updateClosest {α : Type} (G : Game) (P : Params α) (source : Pos) (numberOfIDs : Int)
    (ownerID : Int → Int) (positions : Int → List Pos) (acc : Pos × Int) : Pos × Int :=
  (List.range numberOfIDs.toNat).foldl (fun acc (id : Nat) =>
    if ownerID id ≠ G.me ∨ P.GLOBAL_OWNED_CITIES = true then
      updateCandidates source acc (positions id)
    else acc) acc

/-- `closestCityOrPathEstimation(source)`. -/
def closestCityOrPathEstimation {α : Type} (G : Game) (P : Params α) (source : Pos) : Pos :=
  let start : Pos × Int := (⟨-1, -1⟩, INT_INFINITY)
  let afterCities := updateClosest G P source G.nb_cities G.city_owner G.city start
  let afterPaths :=
    updateClosest G P source G.nb_paths G.path_owner (fun pathID => (G.path pathID).2) afterCities
  afterPaths.1

/-- The `Ticket` of `shortestPathDirections`. -/
structure PathTicket where
  localGoal : Int
  globalGoal : Int
  reachableFrom : DirectionBooleans
  visited : Bool
deriving DecidableEq, Repr

/-- How `std::priority_queue::top` breaks ties, which C++ leaves open: at the given pass
through the loop, from the priorities (`globalGoal`) of the queued entries in insertion
order, the index of the entry that `top()` yields. -/
abbrev TopChoice := Nat → List Int → Nat

/-- A choice behaves like a priority queue when it always yields an entry of least priority. -/
def TopChoice.Valid (top : TopChoice) : Prop :=
  ∀ (n : Nat) (keys : List Int), keys ≠ [] →
    ∃ k, keys.get? (top n keys) = some k ∧ ∀ k1 ∈ keys, k ≤ k1

/-- The least index holding a minimum of `keys`. -/
def firstMin : List Int → Nat
  | [] => 0
  | k :: ks => if ks.all (fun k1 => decide (k ≤ k1)) then 0 else firstMin ks + 1

/-- The greatest index holding a minimum of `keys`. -/
def lastMin (keys : List Int) : Nat :=
  keys.length - 1 - firstMin keys.reverse

/-- The local variables of `shortestPathDirections`; `pass` counts the passes through the
`while` loop made so far. -/
structure PathState where
  visited : Pos → Option PathTicket
  scheduledAppointments : List Pos
  pass : Nat

/-- The value-initialised `Ticket` that `visited[p]` inserts when `p` has no entry. -/
def PathTicket.fresh : PathTicket := ⟨0, 0, DirectionBooleans.all false, false⟩

/-- One round of the seeding loop (lines 394-403); `none` is the failed
`assert(beenInserted)`. -/
def pathSeed (G : Game) (source destination : Pos) (st : PathState) (direction : Dir) :
    Option PathState :=
  let position := source.step direction
  match st.visited position with
  | some _ => none
  | none =>
    let visited := mapSet st.visited position
      ⟨1, 1 + manhattanDistance position destination, DirectionBooleans.single direction, false⟩
    let c := G.cell position
    if c.type ≠ CellType.WALL ∧ c.unit_id = -1 then
      some { st with
        visited := visited
        scheduledAppointments := st.scheduledAppointments ++ [position] }
    else some { st with visited := visited }

/-- The state when the `while` loop of `shortestPathDirections` is entered. -/
def pathStart (G : Game) (source destination : Pos) : Option PathState :=
  POSSIBLE_DIRECTIONS.foldlM (pathSeed G source destination)
    { visited := mapSet (fun _ => none) source
        ⟨0, manhattanDistance source destination, DirectionBooleans.all false, true⟩
      scheduledAppointments := []
      pass := 0 }

/-- One round of the inner loop (lines 413-443) on the ticket map and the queue.
`currentTicket` is a reference into the map in the source; no neighbour is the current cell,
so the entry it refers to is not written while the loop runs. -/
def pathNeighbour (G : Game) (destination currentPosition : Pos) (currentTicket : PathTicket)
    (vq : (Pos → Option PathTicket) × List Pos) (currentDirection : Dir) :
    (Pos → Option PathTicket) × List Pos :=
  let neighbourPosition := currentPosition.step currentDirection
  if (G.cell neighbourPosition).type = CellType.WALL then
    (mapSet vq.1 neighbourPosition
      { (vq.1 neighbourPosition).getD PathTicket.fresh with visited := true }, vq.2)
  else
    match vq.1 neighbourPosition with
    | some neighbourTicket =>
      let candidateLocal := currentTicket.localGoal + 1
      let relaxed : PathTicket :=
        if candidateLocal < neighbourTicket.localGoal then
          { neighbourTicket with
            localGoal := candidateLocal
            globalGoal := candidateLocal + manhattanDistance neighbourPosition destination
            reachableFrom := currentTicket.reachableFrom }
        else if candidateLocal = neighbourTicket.localGoal then
          { neighbourTicket with
            reachableFrom := neighbourTicket.reachableFrom.or currentTicket.reachableFrom }
        else neighbourTicket
      (mapSet vq.1 neighbourPosition relaxed, vq.2 ++ [neighbourPosition])
    | none =>
      (mapSet vq.1 neighbourPosition
        ⟨currentTicket.localGoal + 1,
          currentTicket.localGoal + 1 + manhattanDistance neighbourPosition destination,
          currentTicket.reachableFrom, false⟩,
        vq.2 ++ [neighbourPosition])

/-- The two `return` statements of `shortestPathDirections`. -/
inductive PathExit where
  | dequeued
  | exhausted
deriving DecidableEq, Repr

/-- The priority under which a queued position is currently filed. -/
def queueKey (visited : Pos → Option PathTicket) (p : Pos) : Int :=
  ((visited p).getD PathTicket.fresh).globalGoal

/-- One pass through the body of the `while` loop of `shortestPathDirections`
(lines 405-446), and the `return` after it when the queue is empty. -/
def pathStep (G : Game) (top : TopChoice) (destination : Pos) (st : PathState) :
    Step PathState (PathExit × DirectionBooleans) :=
  match st.scheduledAppointments with
  | [] =>
    Step.returned
      (PathExit.exhausted, ((st.visited destination).getD PathTicket.fresh).reachableFrom)
  | q :: qs =>
    let index := top st.pass ((q :: qs).map (queueKey st.visited))
    match (q :: qs).get? index with
    | none => Step.failed
    | some currentPosition =>
      let rest := (q :: qs).eraseIdx index
      match st.visited currentPosition with
      | none => Step.failed
      | some currentTicket =>
        if currentPosition = destination then
          Step.returned (PathExit.dequeued, currentTicket.reachableFrom)
        else if ¬ currentTicket.visited then
          let current : PathTicket := { currentTicket with visited := true }
          let vq := POSSIBLE_DIRECTIONS.foldl (pathNeighbour G destination currentPosition current)
            (mapSet st.visited currentPosition current, rest)
          Step.running
            { visited := vq.1, scheduledAppointments := vq.2, pass := st.pass + 1 }
        else
          Step.running
            { visited := st.visited, scheduledAppointments := rest, pass := st.pass + 1 }

/-- The `while` loop of `shortestPathDirections`, with fuel. -/
def pathLoop (G : Game) (top : TopChoice) (destination : Pos) :
    Nat → PathState → Option (PathExit × DirectionBooleans)
  | 0, _ => none
  | fuel + 1, st =>
    match pathStep G top destination st with
    | Step.running st1 => pathLoop G top destination fuel st1
    | Step.returned r => some r
    | Step.failed => none

/-- The state of the search after at most `n` passes through the loop body. -/
def pathAfter (G : Game) (top : TopChoice) (destination : Pos) : Nat → PathState → PathState
  | 0, st => st
  | n + 1, st =>
    match pathStep G top destination st with
    | Step.running st1 => pathAfter G top destination n st1
    | Step.returned _ => st
    | Step.failed => st

/-- The whole of `shortestPathDirections`, with the `return` it left through. -/
def pathSearch (G : Game) (top : TopChoice) (fuel : Nat) (source destination : Pos) :
    Option (PathExit × DirectionBooleans) :=
  (pathStart G source destination).bind (pathLoop G top destination fuel)

/-- `shortestPathDirections(source, destination)`. -/
def shortestPathDirections (G : Game) (top : TopChoice) (fuel : Nat) (source destination : Pos) :
    Option DirectionBooleans :=
  (pathSearch G top fuel source destination).map (fun r => r.2)

/-- `globalEvaluation(myUnit)`. -/
def globalEvaluation {α : Type} (G : Game) (P : Params α) (top : TopChoice) (fuel : Nat)
    (myUnit : Unit) : Option (DirectionEvaluation α) :=
  let estimatedClosestCityOrPath := closestCityOrPathEstimation G P myUnit.pos
  (if isNull estimatedClosestCityOrPath then some (DirectionBooleans.all false)
   else shortestPathDirections G top fuel myUnit.pos estimatedClosestCityOrPath).map
    (fun directionsToClosestCity =>
      DirectionEvaluation.ofFn (fun direction =>
        if directionsToClosestCity.get direction then P.GLOBAL_CITY_OR_PATH_EVALUATION
        else P.NULL_EVALUATION))

/-! ## The orchestrator -/

/-- A search routine called from `play`, with its range argument. -/
inductive SearchCall where
  | localEvaluation (RANGE : Int)
  | globalEvaluation
deriving DecidableEq, Repr

/-- The lambda of `play` (lines 118-125) for the budget fraction `cpuStatus`, the turn number
and one unit: the ghost list of the search routines the taken branch calls, in order, and
the vector it returns.  The literals `0.5`, `0.8` and `0.9` are read as rationals; a `double`
is below the `double` nearest to `0.8` (or `0.9`) exactly when it is below `4/5` (or `9/10`). -/
def playEvaluation {α : Type} [DoubleOps α] (G : Game) (P : Params α) (top : TopChoice)
    (fuel : Nat) (cpuStatus : ℚ) (round : Int) (u : Unit) :
    List SearchCall × Option (DirectionEvaluation α) :=
  if cpuStatus < 0.5 ∨ (cpuStatus < 0.8 ∧ round > 175) then
    ([SearchCall.localEvaluation P.LOCAL_BFS_RANGE, SearchCall.globalEvaluation],
      (localEvaluation G P fuel u P.LOCAL_BFS_RANGE).bind (fun a =>
        (globalEvaluation G P top fuel u).map (fun b => a.add (· + ·) b)))
  else if cpuStatus < 0.9 then
    ([SearchCall.localEvaluation 2], localEvaluation G P fuel u 2)
  else
    ([], some (DirectionEvaluation.all P.NULL_EVALUATION))

/-- `play()`: the `move(unitID, direction)` commands issued, in order; `none` when a search
ran out of fuel or failed an assertion. -/
def play {α : Type} [DoubleOps α] (G : Game) (P : Params α) (top : TopChoice)
    (fuel : Nat) : Option (List (Int × Dir)) :=
  let cpuStatus := G.status G.me
  (G.my_units G.me).mapM (fun unitID =>
    let u := G.unit unitID
    (playEvaluation G P top fuel cpuStatus G.round u).2.map (fun evaluation =>
      (unitID, chosenDirection evaluation)))


/-! ## Vocabulary of the statements -/

/-- The tiles that `closestCityOrPathEstimation` compares, in scan order: the tiles of the
cities `0, 1, ...` that are not owned by the mover (of every city when `GLOBAL_OWNED_CITIES`
is set), each city's tiles in list order, followed by the tiles of the paths selected and
ordered in the same way. -/
def qualifyingTiles {α : Type} (G : Game) (P : Params α) : List Pos :=
  ((List.range G.nb_cities.toNat).filter
      (fun (id : Nat) => decide (G.city_owner id ≠ G.me ∨ P.GLOBAL_OWNED_CITIES = true))).flatMap
    (fun (id : Nat) => G.city id) ++
  ((List.range G.nb_paths.toNat).filter
      (fun (id : Nat) => decide (G.path_owner id ≠ G.me ∨ P.GLOBAL_OWNED_CITIES = true))).flatMap
    (fun (id : Nat) => (G.path id).2)

/-! ## Boards of the worked examples -/

/-- An empty cell without unit, mask or virus. -/
def emptyCell : Cell := ⟨CellType.EMPTY, -1, false, 0⟩

/-- A wall cell. -/
def wallCell : Cell := ⟨CellType.WALL, -1, false, 0⟩

/-- A game for player 0 on a board given cell by cell, with one unit 0 of player 0 at
`(0,0)`, every other unit id resolving to a unit of player 1 at `(0,1)`, the cities listed
in `cities` (all owned by nobody, owner -1) and no path. -/
def exampleGame (cell : Pos → Cell) (cities : List (List Pos)) : Game where
  cell := cell
  unit := fun id => if id = 0 then ⟨⟨0, 0⟩, 100, 0, 0⟩ else ⟨⟨0, 1⟩, 100, 0, 1⟩
  me := 0
  status := fun _ => 0
  round := 0
  my_units := fun _ => [0]
  nb_cities := cities.length
  city_owner := fun _ => -1
  city := fun id => cities.getD id.toNat []
  nb_paths := 0
  path_owner := fun _ => -1
  path := fun _ => ((0, 0), [])

/-- An open board with a single city whose only tile is 99999999 rows below the origin. -/
def farCityGame : Game := exampleGame (fun _ => emptyCell) [[⟨99999999, 0⟩]]

/-- An open board with two cities: tiles `(0,3)`, `(2,0)` and tiles `(0,2)`, `(1,1)`. -/
def twoCityGame : Game := exampleGame (fun _ => emptyCell) [[⟨0, 3⟩, ⟨2, 0⟩], [⟨0, 2⟩, ⟨1, 1⟩]]

/-- The ticket a neighbour `p` of the scored cell holds after the inner loop of
`localEvaluation` has handled it, from the entry `old` it held before: a found entry keeps its
distance and accumulates the reachability set of the current ticket, an unseen cell gets a
new ticket unless it is a wall. -/
def floodBump (G : Game) (currentTicket : SearchTicket) (old : Option SearchTicket) (p : Pos) :
    Option SearchTicket :=
  match old with
  | some found => some ⟨found.distance, found.reachableFrom.or currentTicket.reachableFrom⟩
  | none =>
    if (G.cell p).type ≠ CellType.WALL then
      some ⟨currentTicket.distance + 1, currentTicket.reachableFrom⟩
    else none

/-- The neighbour `p` is new to the flood: it has no ticket and is no wall. -/
def floodNew (G : Game) (visited : Pos → Option SearchTicket) (p : Pos) : Bool :=
  (visited p).isNone && decide ((G.cell p).type ≠ CellType.WALL)

/-- The cell `p` is free: no wall and no unit on it.  A free neighbour of the unit is
enqueued by the seeding loops. -/
def freeCell (G : Game) (p : Pos) : Bool :=
  decide ((G.cell p).type ≠ CellType.WALL) && decide ((G.cell p).unit_id = -1)

/-- The cell `p` is a wall. -/
def isWall (G : Game) (p : Pos) : Prop := (G.cell p).type = CellType.WALL

instance (G : Game) (p : Pos) : Decidable (isWall G p) := by
  unfold isWall; infer_instance

/-- An open board with a single wall, directly below the origin. -/
def wallBelowGame : Game :=
  exampleGame (fun p => if p = ⟨1, 0⟩ then wallCell else emptyCell) []

/-- The ticket a neighbour `p` of the expanded cell holds after the inner loop of
`shortestPathDirections` has handled it, from the entry `old` it held before: a wall is only
marked visited, a found entry is relaxed, an unseen cell gets a new ticket. -/
def pathBump (G : Game) (destination : Pos) (currentTicket : PathTicket)
    (old : Option PathTicket) (p : Pos) : Option PathTicket :=
  if (G.cell p).type = CellType.WALL then
    some { old.getD PathTicket.fresh with visited := true }
  else
    match old with
    | some neighbourTicket =>
      some (if currentTicket.localGoal + 1 < neighbourTicket.localGoal then
          { neighbourTicket with
            localGoal := currentTicket.localGoal + 1
            globalGoal := currentTicket.localGoal + 1 + manhattanDistance p destination
            reachableFrom := currentTicket.reachableFrom }
        else if currentTicket.localGoal + 1 = neighbourTicket.localGoal then
          { neighbourTicket with
            reachableFrom := neighbourTicket.reachableFrom.or currentTicket.reachableFrom }
        else neighbourTicket)
    | none =>
      some ⟨currentTicket.localGoal + 1,
        currentTicket.localGoal + 1 + manhattanDistance p destination,
        currentTicket.reachableFrom, false⟩

/-- A walk from `p` to `q` by the steps `ds` all of whose cells after `p` satisfy `ok`. -/
def IsWalk (ok : Pos → Prop) : Pos → List Dir → Pos → Prop
  | p, [], q => p = q
  | p, d :: ds, q => ok (p.step d) ∧ IsWalk ok (p.step d) ds q

/-- The cell `p` can be walked on: it is no wall. -/
def Passable (G : Game) (p : Pos) : Prop := ¬ isWall G p

/-- The ticket map after the cell `c`, whose ticket `cur` has just been marked visited, has
been expanded: every neighbour of `c` is handled by `pathBump`, `c` holds `cur`. -/
def pathExpanded (G : Game) (D : Pos) (V : Pos → Option PathTicket) (c : Pos)
    (cur : PathTicket) : Pos → Option PathTicket :=
  fun p => if ∃ d ∈ POSSIBLE_DIRECTIONS, p = c.step d then pathBump G D cur (V p) p
    else mapSet V c cur p

/-- The invariant of the A* loop from the source `s` to the destination `D`, on boards where
every non-wall neighbour of the source was enqueued. -/
structure PathInv (G : Game) (s D : Pos) (st : PathState) : Prop where
  source : st.visited s =
    some ⟨0, manhattanDistance s D, DirectionBooleans.all false, true⟩
  nonneg : ∀ p t, st.visited p = some t → 0 ≤ t.localGoal
  queued : ∀ q ∈ st.scheduledAppointments, ¬ isWall G q ∧ ∃ t, st.visited q = some t
  priority : ∀ p t, st.visited p = some t → ¬ isWall G p →
    t.globalGoal = t.localGoal + manhattanDistance p D
  pending : ∀ p t, st.visited p = some t → ¬ isWall G p → t.visited = false →
    p ∈ st.scheduledAppointments
  walk : ∀ p t, st.visited p = some t → ¬ isWall G p →
    ∃ ds, IsWalk (Passable G) s ds p ∧ (ds.length : Int) = t.localGoal
  first : ∀ p t d, st.visited p = some t → ¬ isWall G p → t.reachableFrom.get d = true →
    ∃ ds, IsWalk (Passable G) s (d :: ds) p ∧ ((d :: ds).length : Int) = t.localGoal
  settled : ∀ p t, st.visited p = some t → ¬ isWall G p → t.visited = true →
    ∀ ds, IsWalk (Passable G) s ds p → t.localGoal ≤ ds.length
  closed : ∀ p t, st.visited p = some t → (p = s ∨ ¬ isWall G p) → t.visited = true →
    ∀ d, ¬ isWall G (p.step d) →
      ∃ t1, st.visited (p.step d) = some t1 ∧ t1.localGoal ≤ t.localGoal + 1

/-- An open board where the right neighbour `(0,1)` of the origin holds the enemy unit 1 and
the cells `(1,1)` and `(-1,1)` above and below that neighbour are walls. -/
def blockedGame : Game :=
  exampleGame (fun p =>
    if p = ⟨0, 1⟩ then ⟨CellType.EMPTY, 1, false, 0⟩
    else if p = ⟨1, 1⟩ ∨ p = ⟨-1, 1⟩ then wallCell else emptyCell) []

/-- The cells the flood of `localEvaluation` expands: every cell other than the unit's own
that is no wall and, when it is a neighbour of the unit, holds no unit. -/
def FloodCell (G : Game) (u : Unit) (p : Pos) : Prop :=
  p ≠ u.pos ∧ ¬ isWall G p ∧ ∀ d, p = u.pos.step d → (G.cell p).unit_id = -1

/-- The direction `d` is the first step of a shortest walk from the unit to `p` through the
cells the flood expands. -/
def FirstStep (G : Game) (u : Unit) (p : Pos) (d : Dir) : Prop :=
  ∃ ds, IsWalk (FloodCell G u) u.pos (d :: ds) p ∧
    ∀ ds1, IsWalk (FloodCell G u) u.pos ds1 p → (d :: ds).length ≤ ds1.length

/-- The distance on the ticket of `p` (0 when it has none). -/
def ticketDistance (visited : Pos → Option SearchTicket) (p : Pos) : Int :=
  match visited p with
  | some t => t.distance
  | none => 0

/-- The invariant of the flood loop of `localEvaluation`. -/
structure FloodInv {α : Type} (G : Game) (u : Unit) (st : FloodState α) : Prop where
  src : ∃ t, st.visited u.pos = some t ∧ t.distance = 0
  seed : ∀ d, ∃ t, st.visited (u.pos.step d) = some t ∧ t.distance = 1
  queued : ∀ q ∈ st.scheduledAppointments, FloodCell G u q ∧ ∃ t, st.visited q = some t
  live : ∀ p t, st.visited p = some t → FloodCell G u p →
    p ∈ st.scheduledAppointments ∨ ∃ e ∈ st.scored, e.1 = p
  walk : ∀ p t, st.visited p = some t → FloodCell G u p →
    ∃ ds, IsWalk (FloodCell G u) u.pos ds p ∧ (ds.length : Int) = t.distance
  first : ∀ q ∈ st.scheduledAppointments, ∀ t d, st.visited q = some t →
    t.reachableFrom.get d = true →
    ∃ ds, IsWalk (FloodCell G u) u.pos (d :: ds) q ∧ ((d :: ds).length : Int) = t.distance
  sorted : st.scheduledAppointments.Pairwise
    (fun a b => ticketDistance st.visited a ≤ ticketDistance st.visited b)
  span : ∀ q ∈ st.scheduledAppointments, ∀ p t, st.visited p = some t → FloodCell G u p →
    t.distance ≤ ticketDistance st.visited q + 1
  done : ∀ e ∈ st.scored, FloodCell G u e.1 ∧
    (∃ t, st.visited e.1 = some t ∧ t.distance = e.2.distance) ∧
    (∀ q ∈ st.scheduledAppointments, e.2.distance ≤ ticketDistance st.visited q) ∧
    (∀ d, FloodCell G u (e.1.step d) →
      ∃ t1, st.visited (e.1.step d) = some t1 ∧ t1.distance ≤ e.2.distance + 1)
  exact : ∀ e ∈ st.scored, ∀ d, e.2.reachableFrom.get d = true ↔ FirstStep G u e.1 d
  seeded : ∀ q ∈ st.scheduledAppointments, ∀ t d, st.visited q = some t → q = u.pos.step d →
    t.reachableFrom.get d = true
  inherited : ∀ q ∈ st.scheduledAppointments, ∀ t, st.visited q = some t →
    ∀ e ∈ st.scored, ∀ d1, e.1.step d1 = q → e.2.distance + 1 = t.distance →
      ∀ d, e.2.reachableFrom.get d = true → t.reachableFrom.get d = true

/-- The ticket map after the inner loop of `localEvaluation` has handled the neighbours of
the scored cell `c`, whose ticket is `tc`. -/
def floodSpread (G : Game) (V : Pos → Option SearchTicket) (c : Pos) (tc : SearchTicket) :
    Pos → Option SearchTicket :=
  fun p => if ∃ d ∈ POSSIBLE_DIRECTIONS, p = c.step d then floodBump G tc (V p) p else V p

/-- The weight of the enemy score in the words of the spec: the entry of the 2×2 table over
(evaluating unit infected?, enemy unit infected?), each constant filed under the case its
declaration names (lines 59-62). -/
def enemyWeight {α : Type} (P : Params α) (myUnit enemyUnit : Unit) : α :=
  match decide (myUnit.damage > 0), decide (enemyUnit.damage > 0) with
  | false, false => P.ENEMY_UNIT_EVALUATION
  | false, true => P.INFECTED_ENEMY_UNIT_EVALUATION
  | true, false => P.ENEMY_UNIT_EVALUATION_IF_INFECTED
  | true, true => P.INFECTED_ENEMY_UNIT_EVALUATION_IF_INFECTED

/-- The enemy score in the words of the spec:
`w * (100 + myUnit.health - enemyUnit.health) * (a - e)^5 / d^6`. -/
def enemyScoreSpec {α : Type} [DoubleOps α] (P : Params α) (d : Int) (myUnit enemyUnit : Unit)
    (a e : Int) : α :=
  enemyWeight P myUnit enemyUnit * DoubleOps.ofInt (100 + myUnit.health - enemyUnit.health)
    * powInt (a - e) 5 / powInt d 6

/-- An open board with the unit 0 of player 0 at `(5,5)` and two enemy units of player 1,
both healthy with 100 health points: unit 1 at `(5,7)`, two steps to the right, and unit 2
at `(3,5)`, two steps up.  There is no city and no path. -/
def twoEnemyGame : Game where
  cell := fun p =>
    if p = ⟨5, 5⟩ then ⟨CellType.EMPTY, 0, false, 0⟩
    else if p = ⟨5, 7⟩ then ⟨CellType.EMPTY, 1, false, 0⟩
    else if p = ⟨3, 5⟩ then ⟨CellType.EMPTY, 2, false, 0⟩
    else emptyCell
  unit := fun id =>
    if id = 0 then ⟨⟨5, 5⟩, 100, 0, 0⟩
    else if id = 1 then ⟨⟨5, 7⟩, 100, 0, 1⟩
    else ⟨⟨3, 5⟩, 100, 0, 1⟩
  me := 0
  status := fun _ => 0
  round := 0
  my_units := fun _ => [0]
  nb_cities := 0
  city_owner := fun _ => -1
  city := fun _ => []
  nb_paths := 0
  path_owner := fun _ => -1
  path := fun _ => ((0, 0), [])

/-- The score of direction `d` after the round of the seeding loop of `localEvaluation` for
`d`, from its score `x` before: a wall neighbour adds `ADJACENT_WALL_EVALUATION`, else a
neighbour holding a unit adds the constant for an ally or for an enemy, and a free neighbour
adds nothing. -/
def seedAdd {α : Type} [DoubleOps α] (G : Game) (P : Params α) (u : Unit) (x : α) (d : Dir) : α :=
  if (G.cell (u.pos.step d)).type = CellType.WALL then x + P.ADJACENT_WALL_EVALUATION
  else if (G.cell (u.pos.step d)).unit_id ≠ -1 then
    (if (G.unit (G.cell (u.pos.step d)).unit_id).player = G.me then
      x + P.ADJACENT_ALLIED_EVALUATION
     else x + P.ADJACENT_ENEMY_EVALUATION)
  else x

/-- A board on which the four neighbours of the origin are walls, with a single city whose
only tile is `(0,3)`. -/
def enclosedGame : Game :=
  exampleGame (fun p =>
    if p = ⟨1, 0⟩ ∨ p = ⟨0, 1⟩ ∨ p = ⟨-1, 0⟩ ∨ p = ⟨0, -1⟩ then wallCell else emptyCell)
    [[⟨0, 3⟩]]

/-- The flood handles every cell once: no cell is queued twice, none is scored twice, and a
scored cell is not queued again. -/
structure FloodOnce {α : Type} (st : FloodState α) : Prop where
  queue : st.scheduledAppointments.Nodup
  scored : (st.scored.map Prod.fst).Nodup
  apart : ∀ e ∈ st.scored, e.1 ∉ st.scheduledAppointments

/-- The indices that a valid `top()` may yield on the priorities `keys`: those holding a
least entry (index 0 stands for the call on an empty queue, which the loop never makes). -/
def topChoices (keys : List Int) : List Nat :=
  match keys with
  | [] => [0]
  | _ => (List.range keys.length).filter
      (fun i => keys.all (fun k => decide (keys.getD i 0 ≤ k)))

/-- The results of the `while` loop of `shortestPathDirections` over every way in which
`top()` may resolve ties, with fuel. -/
def pathOutcomes (G : Game) (destination : Pos) :
    Nat → PathState → List (Option (PathExit × DirectionBooleans))
  | 0, _ => [none]
  | fuel + 1, st =>
    (topChoices (st.scheduledAppointments.map (queueKey st.visited))).flatMap (fun index =>
      match pathStep G (fun _ _ => index) destination st with
      | Step.running st1 => pathOutcomes G destination fuel st1
      | Step.returned r => [some r]
      | Step.failed => [none])

/-- The results of `shortestPathDirections` over every way of resolving ties. -/
def pathSearchOutcomes (G : Game) (fuel : Nat) (source destination : Pos) :
    List (Option (PathExit × DirectionBooleans)) :=
  match pathStart G source destination with
  | none => [none]
  | some st0 => pathOutcomes G destination fuel st0

/-- An open board with the unit 0 of player 0 at `(5,5)` and a single city, owned by nobody,
whose only tile is the cell `(5,8)`; every other cell is empty, without unit, mask or virus,
and there is no path. -/
def rightCityGame : Game where
  cell := fun p =>
    if p = ⟨5, 5⟩ then ⟨CellType.EMPTY, 0, false, 0⟩
    else if p = ⟨5, 8⟩ then ⟨CellType.CITY, -1, false, 0⟩
    else emptyCell
  unit := fun _ => ⟨⟨5, 5⟩, 100, 0, 0⟩
  me := 0
  status := fun _ => 0
  round := 0
  my_units := fun _ => [0]
  nb_cities := 1
  city_owner := fun _ => -1
  city := fun id => if id = 0 then [⟨5, 8⟩] else []
  nb_paths := 0
  path_owner := fun _ => -1
  path := fun _ => ((0, 0), [])

/-- A board on which the cells above and to the left of the origin, `(-1,0)` and `(0,-1)`,
are walls and the right neighbour `(0,1)` of the origin holds the enemy unit 1. -/
def cornerEnemyGame : Game :=
  exampleGame (fun p =>
    if p = ⟨0, 1⟩ then ⟨CellType.EMPTY, 1, false, 0⟩
    else if p = ⟨-1, 0⟩ ∨ p = ⟨0, -1⟩ then wallCell else emptyCell) []

/-- The open board: every cell is empty, without unit, mask or virus; no city, no path. -/
def openGame : Game := exampleGame (fun _ => emptyCell) []

/-- The score of the cell `p` at distance `k` on the board with the single city tile `(5,8)`
under the default weights, for a unit that is infected or not: the city weight over `k^2`
on the city tile, and the flat virus weight over `k^3` for an infected unit. -/
def rightCityValue (infected : Bool) (p : Pos) (k : Int) : ℚ :=
  (if p = ⟨5, 8⟩ then (if infected then 25 else 50) / (k : ℚ) ^ 2 else 0) +
    (if infected then 5 / (k : ℚ) ^ 3 else 0)

/-- The total of the scores of the scored cells that have the direction `d` flagged. -/
def rightCitySum (infected : Bool) (d : Dir) (scored : List (Pos × SearchTicket)) : ℚ :=
  (scored.map (fun e =>
    if e.2.reachableFrom.get d then rightCityValue infected e.1 e.2.distance else 0)).sum

/-- The symmetry of the board about the cell `(5,5)` that turns the direction `d` into
RIGHT: the mirror image in the column 5 for LEFT, in a diagonal for BOTTOM and TOP. -/
def turnToRight (d : Dir) (p : Pos) : Pos :=
  match d with
  | Dir.BOTTOM => ⟨p.j, p.i⟩
  | Dir.RIGHT => p
  | Dir.TOP => ⟨10 - p.j, 10 - p.i⟩
  | Dir.LEFT => ⟨p.i, 10 - p.j⟩

/-- The invariant of the flood of the unit `u` on the board with one city: the invariants of
the flood, the range bound on the scored tickets, and each score is the total of the scores
of the scored cells that have its direction flagged. -/
def RightCityInv (u : Unit) (r : Int) (st : FloodState Score) : Prop :=
  FloodInv rightCityGame u st ∧ FloodOnce st ∧ (∀ e ∈ st.scored, e.2.distance ≤ r) ∧
    ∀ d, st.evaluation.get d =
      Score.fin (rightCitySum (decide (u.damage > 0)) d st.scored)

/-- The invariant of the A* loop that holds on every board, whatever the neighbours of the
source hold and however ties are resolved: the ticket of the source is never changed, the
queued cells are non-wall cells with a ticket that a walk over non-wall cells reaches from
the source, the tickets of the other non-wall cells have a cost of at least 1 and the
priority cost plus heuristic, and the tickets of the four neighbours of the source keep the
cost 1 and the reachability set of their own direction. -/
structure PathBasic (G : Game) (s D : Pos) (st : PathState) : Prop where
  source : st.visited s =
    some ⟨0, manhattanDistance s D, DirectionBooleans.all false, true⟩
  queued : ∀ q ∈ st.scheduledAppointments, ¬ isWall G q ∧ ∃ t, st.visited q = some t
  positive : ∀ p t, st.visited p = some t → ¬ isWall G p → p ≠ s → 1 ≤ t.localGoal
  priority : ∀ p t, st.visited p = some t → ¬ isWall G p →
    t.globalGoal = t.localGoal + manhattanDistance p D
  seeds : ∀ d, ∃ t, st.visited (s.step d) = some t ∧ t.localGoal = 1 ∧
    t.reachableFrom = DirectionBooleans.single d
  reachable : ∀ q ∈ st.scheduledAppointments, ∃ ds, IsWalk (Passable G) s ds q

/-- The cell that the pass of the A* loop from the state `st` expands (lines 410-443), if it
expands one: the cell that `top()` yields, when it is not the destination and its ticket is
not marked visited. -/
def pathExpands (top : TopChoice) (destination : Pos) (st : PathState) : Option Pos :=
  match st.scheduledAppointments.get?
      (top st.pass (st.scheduledAppointments.map (queueKey st.visited))) with
  | none => none
  | some currentPosition =>
    match st.visited currentPosition with
    | none => none
    | some currentTicket =>
      if currentPosition ≠ destination ∧ currentTicket.visited = false then
        some currentPosition
      else none

/-- The cells expanded by the first `n` passes of the A* loop from the state `st`, in the
order of their expansion. -/
def pathExpandedCells (G : Game) (top : TopChoice) (destination : Pos) :
    Nat → PathState → List Pos
  | 0, _ => []
  | n + 1, st =>
    match pathStep G top destination st with
    | Step.running st1 =>
      (pathExpands top destination st).toList ++ pathExpandedCells G top destination n st1
    | _ => []

/-- The number of queue insertions (lines 433 and 440) made by the first `n` passes of the
A* loop from the state `st`: one for each neighbour of an expanded cell that is no wall. -/
def pathInsertions (G : Game) (top : TopChoice) (destination : Pos) : Nat → PathState → Nat
  | 0, _ => 0
  | n + 1, st =>
    match pathStep G top destination st with
    | Step.running st1 =>
      (match pathExpands top destination st with
        | some c => (POSSIBLE_DIRECTIONS.filter (fun d => decide (¬ isWall G (c.step d)))).length
        | none => 0) + pathInsertions G top destination n st1
    | _ => 0

/-- A board whose only cells that are no wall are the origin and its right neighbour `(0,1)`,
both empty. -/
def roomGame : Game :=
  exampleGame (fun p => if p = ⟨0, 0⟩ ∨ p = ⟨0, 1⟩ then emptyCell else wallCell) []

/-- An open board where the unit 0 of the mover stands at the origin on the only tile of a
city that the mover does not own. -/
def ownTileGame : Game :=
  exampleGame (fun p => if p = ⟨0, 0⟩ then ⟨CellType.CITY, 0, false, 0⟩ else emptyCell)
    [[⟨0, 0⟩]]

/-- A choice behaves like `top()` at least in this: on a queue that is not empty it yields one
of its entries, of whatever priority. -/
def TopChoice.InRange (top : TopChoice) : Prop :=
  ∀ (n : Nat) (keys : List Int), keys ≠ [] → top n keys < keys.length

/-! # Theorems -/

/-! ## The decision rule and the orchestrator -/

theorem DirectionEvaluation.get_all {α : Type} (x : α) (d : Dir) :
    (DirectionEvaluation.all x).get d = x := by
  cases d <;> rfl

/-- The comparison tree of `chosenDirection` on the numeric values of comparable scores. -/
theorem chosenDirection_eq_of_comparable {α β : Type} [DoubleOps α] [LinearOrder β]
    (val : α → β) (e : DirectionEvaluation α) (h : Comparable val e) :
    chosenDirection e =
      if val e.right < val e.left then
        (if val e.top < val e.bottom then
          (if val e.bottom < val e.left then Dir.LEFT else Dir.BOTTOM)
         else (if val e.top < val e.left then Dir.LEFT else Dir.TOP))
      else
        (if val e.top < val e.bottom then
          (if val e.bottom < val e.right then Dir.RIGHT else Dir.BOTTOM)
         else (if val e.top < val e.right then Dir.RIGHT else Dir.TOP)) := by
  have hLR := h Dir.LEFT Dir.RIGHT
  have hBT := h Dir.BOTTOM Dir.TOP
  have hLB := h Dir.LEFT Dir.BOTTOM
  have hLT := h Dir.LEFT Dir.TOP
  have hRB := h Dir.RIGHT Dir.BOTTOM
  have hRT := h Dir.RIGHT Dir.TOP
  simp only [DirectionEvaluation.get] at hLR hBT hLB hLT hRB hRT
  simp only [chosenDirection, DirectionEvaluation.get]
  by_cases h1 : val e.right < val e.left <;> by_cases h2 : val e.top < val e.bottom
  · simp [hLR.mpr h1, hBT.mpr h2, h1, h2, DirectionEvaluation.get, hLB]
  · have h2f : DoubleOps.isgreater e.bottom e.top = false := by
      rw [Bool.eq_false_iff]; exact fun hc => h2 (hBT.mp hc)
    simp [hLR.mpr h1, h2f, h1, h2, DirectionEvaluation.get, hLT]
  · have h1f : DoubleOps.isgreater e.left e.right = false := by
      rw [Bool.eq_false_iff]; exact fun hc => h1 (hLR.mp hc)
    simp [h1f, hBT.mpr h2, h1, h2, DirectionEvaluation.get, hRB]
  · have h1f : DoubleOps.isgreater e.left e.right = false := by
      rw [Bool.eq_false_iff]; exact fun hc => h1 (hLR.mp hc)
    have h2f : DoubleOps.isgreater e.bottom e.top = false := by
      rw [Bool.eq_false_iff]; exact fun hc => h2 (hBT.mp hc)
    simp [h1f, h2f, h1, h2, DirectionEvaluation.get, hRT]

/-- C1: for comparable scores `chosenDirection` follows the fixed comparison tree.  LEFT is
returned exactly when it is strictly greater than RIGHT and than both vertical scores; RIGHT
exactly when LEFT is not strictly greater than it and it is strictly greater than both
vertical scores; BOTTOM exactly when it is strictly greater than TOP and no horizontal score
is strictly greater than it; TOP exactly when BOTTOM is not strictly greater than it and no
horizontal score is strictly greater than it.  Four equal scores resolve to TOP. -/
theorem chosenDirection_comparison_tree {α β : Type} [DoubleOps α] [LinearOrder β]
    (val : α → β) (e : DirectionEvaluation α) (h : Comparable val e) :
    (chosenDirection e = Dir.LEFT ↔
      val (e.get Dir.RIGHT) < val (e.get Dir.LEFT) ∧ val (e.get Dir.BOTTOM) < val (e.get Dir.LEFT) ∧
        val (e.get Dir.TOP) < val (e.get Dir.LEFT)) ∧
    (chosenDirection e = Dir.RIGHT ↔
      ¬ val (e.get Dir.RIGHT) < val (e.get Dir.LEFT) ∧
        val (e.get Dir.BOTTOM) < val (e.get Dir.RIGHT) ∧
        val (e.get Dir.TOP) < val (e.get Dir.RIGHT)) ∧
    (chosenDirection e = Dir.BOTTOM ↔
      val (e.get Dir.TOP) < val (e.get Dir.BOTTOM) ∧
        ¬ val (e.get Dir.BOTTOM) < val (e.get Dir.LEFT) ∧
        ¬ val (e.get Dir.BOTTOM) < val (e.get Dir.RIGHT)) ∧
    (chosenDirection e = Dir.TOP ↔
      ¬ val (e.get Dir.TOP) < val (e.get Dir.BOTTOM) ∧
        ¬ val (e.get Dir.TOP) < val (e.get Dir.LEFT) ∧
        ¬ val (e.get Dir.TOP) < val (e.get Dir.RIGHT)) ∧
    (val (e.get Dir.LEFT) = val (e.get Dir.RIGHT) ∧
      val (e.get Dir.RIGHT) = val (e.get Dir.BOTTOM) ∧
      val (e.get Dir.BOTTOM) = val (e.get Dir.TOP) → chosenDirection e = Dir.TOP) := by
  rw [chosenDirection_eq_of_comparable val e h]
  simp only [DirectionEvaluation.get]
  generalize val e.bottom = b
  generalize val e.right = r
  generalize val e.top = t
  generalize val e.left = l
  refine ⟨?_, ?_, ?_, ?_, ?_⟩
  · by_cases h1 : r < l <;> by_cases h2 : t < b <;> simp only [h1, h2, if_true, if_false]
    · by_cases h3 : b < l <;> simp [h3]
      exact lt_trans h2 h3
    · by_cases h3 : t < l <;> simp [h3]
      exact lt_of_le_of_lt (not_lt.mp h2) h3
    · by_cases h3 : b < r <;> simp [h3]
    · by_cases h3 : t < r <;> simp [h3]
  · by_cases h1 : r < l <;> by_cases h2 : t < b <;> simp only [h1, h2, if_true, if_false]
    · by_cases h3 : b < l <;> simp [h3]
    · by_cases h3 : t < l <;> simp [h3]
    · by_cases h3 : b < r <;> simp [h3]
      exact lt_trans h2 h3
    · by_cases h3 : t < r <;> simp [h3]
      exact lt_of_le_of_lt (not_lt.mp h2) h3
  · by_cases h1 : r < l <;> by_cases h2 : t < b <;> simp only [h1, h2, if_true, if_false]
    · by_cases h3 : b < l <;> simp [h3]
      exact le_trans (le_of_lt h1) (not_lt.mp h3)
    · by_cases h3 : t < l <;> simp [h3]
    · by_cases h3 : b < r <;> simp [h3]
      exact le_trans (not_lt.mp h1) (not_lt.mp h3)
    · by_cases h3 : t < r <;> simp [h3]
  · by_cases h1 : r < l <;> by_cases h2 : t < b <;> simp only [h1, h2, if_true, if_false]
    · by_cases h3 : b < l <;> simp [h3]
    · by_cases h3 : t < l <;> simp [h3]
      exact le_trans (le_of_lt h1) (not_lt.mp h3)
    · by_cases h3 : b < r <;> simp [h3]
    · by_cases h3 : t < r <;> simp [h3]
      exact le_trans (not_lt.mp h1) (not_lt.mp h3)
  · rintro ⟨h1, h2, h3⟩
    subst h1 h2 h3
    simp

/-- The scores 1, 2, 3, 4 (bottom, right, top, left) are comparable. -/
theorem comparable_example :
    Comparable Score.toRat
      (⟨Score.fin 1, Score.fin 2, Score.fin 3, Score.fin 4⟩ : DirectionEvaluation Score) := by
  intro d1 d2
  cases d1 <;> cases d2 <;>
    simp [DirectionEvaluation.get, DoubleOps.isgreater, Score.isgreater, Score.toRat]

/-- Witness of C1 at the scores 1, 2, 3, 4 (bottom, right, top, left): LEFT is chosen. -/
theorem chosenDirection_comparison_tree_witness :
    Comparable Score.toRat
        (⟨Score.fin 1, Score.fin 2, Score.fin 3, Score.fin 4⟩ : DirectionEvaluation Score) ∧
      chosenDirection
        (⟨Score.fin 1, Score.fin 2, Score.fin 3, Score.fin 4⟩ : DirectionEvaluation Score) =
        Dir.LEFT :=
  ⟨comparable_example,
    (chosenDirection_comparison_tree Score.toRat _ comparable_example).1.mpr
      (by norm_num [DirectionEvaluation.get, Score.toRat])⟩

/-- C3: for comparable scores `chosenDirection` returns an arg-max: the score of the returned
direction is greater than or equal to the score of each of the four directions, whatever the
signs of the scores and also when they are all equal. -/
theorem chosenDirection_argmax {α β : Type} [DoubleOps α] [LinearOrder β]
    (val : α → β) (e : DirectionEvaluation α) (h : Comparable val e) (d : Dir) :
    val (e.get d) ≤ val (e.get (chosenDirection e)) := by
  rw [chosenDirection_eq_of_comparable val e h]
  by_cases h1 : val e.right < val e.left <;> by_cases h2 : val e.top < val e.bottom <;>
    simp only [h1, h2, if_true, if_false]
  · by_cases h3 : val e.bottom < val e.left <;> simp only [h3, if_true, if_false] <;>
      cases d <;> simp only [DirectionEvaluation.get]
    · exact le_of_lt h3
    · exact le_of_lt h1
    · exact le_of_lt (lt_trans h2 h3)
    · exact le_refl _
    · exact le_refl _
    · exact le_trans (le_of_lt h1) (not_lt.mp h3)
    · exact le_of_lt h2
    · exact not_lt.mp h3
  · by_cases h3 : val e.top < val e.left <;> simp only [h3, if_true, if_false] <;>
      cases d <;> simp only [DirectionEvaluation.get]
    · exact le_trans (not_lt.mp h2) (le_of_lt h3)
    · exact le_of_lt h1
    · exact le_of_lt h3
    · exact le_refl _
    · exact not_lt.mp h2
    · exact le_trans (le_of_lt h1) (not_lt.mp h3)
    · exact le_refl _
    · exact not_lt.mp h3
  · by_cases h3 : val e.bottom < val e.right <;> simp only [h3, if_true, if_false] <;>
      cases d <;> simp only [DirectionEvaluation.get]
    · exact le_of_lt h3
    · exact le_refl _
    · exact le_of_lt (lt_trans h2 h3)
    · exact not_lt.mp h1
    · exact le_refl _
    · exact not_lt.mp h3
    · exact le_of_lt h2
    · exact le_trans (not_lt.mp h1) (not_lt.mp h3)
  · by_cases h3 : val e.top < val e.right <;> simp only [h3, if_true, if_false] <;>
      cases d <;> simp only [DirectionEvaluation.get]
    · exact le_trans (not_lt.mp h2) (le_of_lt h3)
    · exact le_refl _
    · exact le_of_lt h3
    · exact not_lt.mp h1
    · exact not_lt.mp h2
    · exact not_lt.mp h3
    · exact le_refl _
    · exact le_trans (not_lt.mp h1) (not_lt.mp h3)

/-- The scores -3, -1, -1, -2 (bottom, right, top, left) are comparable. -/
theorem comparable_negative_example :
    Comparable Score.toRat
      (⟨Score.fin (-3), Score.fin (-1), Score.fin (-1), Score.fin (-2)⟩ :
        DirectionEvaluation Score) := by
  intro d1 d2
  cases d1 <;> cases d2 <;>
    simp [DirectionEvaluation.get, DoubleOps.isgreater, Score.isgreater, Score.toRat]

/-- Witness of C3 at the non-positive scores -3, -1, -1, -2: the score of LEFT is at most
the score of the chosen direction. -/
theorem chosenDirection_argmax_witness :
    Comparable Score.toRat
        (⟨Score.fin (-3), Score.fin (-1), Score.fin (-1), Score.fin (-2)⟩ :
          DirectionEvaluation Score) ∧
      Score.toRat (Score.fin (-2)) ≤
        Score.toRat ((⟨Score.fin (-3), Score.fin (-1), Score.fin (-1), Score.fin (-2)⟩ :
          DirectionEvaluation Score).get
            (chosenDirection (⟨Score.fin (-3), Score.fin (-1), Score.fin (-1), Score.fin (-2)⟩ :
              DirectionEvaluation Score))) :=
  ⟨comparable_negative_example,
    chosenDirection_argmax Score.toRat _ comparable_negative_example Dir.LEFT⟩

/-- C4 (the code at the failing input): whatever the common score `x` of the four directions
is, zero as in idle mode, negative or minus infinity, `chosenDirection` returns the direction
TOP, and in idle mode (budget fraction 0.9) the direction computed for every unit is TOP: no
unit stays. -/
theorem chosenDirection_never_stays :
    (∀ x : Score, chosenDirection (DirectionEvaluation.all x) = Dir.TOP) ∧
    (∀ (G : Game) (top : TopChoice) (fuel : Nat) (round : Int) (u : Unit),
      (playEvaluation G (defaultParams Score) top fuel (9 / 10) round u).2 =
          some (DirectionEvaluation.all (Score.fin 0)) ∧
        (playEvaluation G (defaultParams Score) top fuel (9 / 10) round u).2.map
          chosenDirection = some Dir.TOP) := by
  have h : ∀ x : Score, chosenDirection (DirectionEvaluation.all x) = Dir.TOP := by
    intro x
    cases x <;>
      simp [chosenDirection, DirectionEvaluation.all, DirectionEvaluation.get,
        DoubleOps.isgreater, Score.isgreater]
  refine ⟨h, ?_⟩
  intro G top fuel round u
  have h1 : ¬ ((9 / 10 : ℚ) < 0.5 ∨ ((9 / 10 : ℚ) < 0.8 ∧ round > 175)) := by norm_num
  have h2 : ¬ ((9 / 10 : ℚ) < 0.9) := by norm_num
  simp only [playEvaluation, if_neg h1, if_neg h2, Option.map_some', h]
  exact ⟨by simp [defaultParams, DoubleOps.ofInt], trivial⟩

/-- C2: the branch of `play` taken for the budget fraction `s` and the turn number `t`.  The
searches run are the local flood at `LOCAL_BFS_RANGE` followed by the global evaluator exactly
when `s < 0.5` or (`s < 0.8` and `t > 175`), and then the vector is their elementwise sum; the
local flood at range 2 alone exactly when that condition is false and `s < 0.9`, and then the
vector is its result; no search at all exactly when both conditions are false, and then the
vector is the neutral baseline in all four directions.  `LOCAL_BFS_RANGE` is 25, and `play`
applies this branch to every owned unit. -/
theorem play_mode_selection {α : Type} [DoubleOps α] (G : Game) (P : Params α)
    (top : TopChoice) (fuel : Nat) (s : ℚ) (t : Int) (u : Unit) :
    ((playEvaluation G P top fuel s t u).1 =
        [SearchCall.localEvaluation P.LOCAL_BFS_RANGE, SearchCall.globalEvaluation] ↔
      (s < 0.5 ∨ (s < 0.8 ∧ t > 175))) ∧
    ((playEvaluation G P top fuel s t u).1 = [SearchCall.localEvaluation 2] ↔
      (¬ (s < 0.5 ∨ (s < 0.8 ∧ t > 175)) ∧ s < 0.9)) ∧
    ((playEvaluation G P top fuel s t u).1 = [] ↔
      (¬ (s < 0.5 ∨ (s < 0.8 ∧ t > 175)) ∧ ¬ s < 0.9)) ∧
    ((s < 0.5 ∨ (s < 0.8 ∧ t > 175)) →
      (playEvaluation G P top fuel s t u).2 =
        (localEvaluation G P fuel u P.LOCAL_BFS_RANGE).bind (fun a =>
          (globalEvaluation G P top fuel u).map (fun b =>
            DirectionEvaluation.ofFn (fun d => a.get d + b.get d)))) ∧
    ((¬ (s < 0.5 ∨ (s < 0.8 ∧ t > 175)) ∧ s < 0.9) →
      (playEvaluation G P top fuel s t u).2 = localEvaluation G P fuel u 2) ∧
    ((¬ (s < 0.5 ∨ (s < 0.8 ∧ t > 175)) ∧ ¬ s < 0.9) →
      (playEvaluation G P top fuel s t u).2 =
        some (DirectionEvaluation.ofFn (fun _ => P.NULL_EVALUATION))) ∧
    (defaultParams α).LOCAL_BFS_RANGE = 25 ∧
    play G P top fuel = (G.my_units G.me).mapM (fun unitID =>
      (playEvaluation G P top fuel (G.status G.me) G.round (G.unit unitID)).2.map
        (fun evaluation => (unitID, chosenDirection evaluation))) := by
  by_cases hfull : s < 0.5 ∨ (s < 0.8 ∧ t > 175)
  · simp [playEvaluation, hfull, DirectionEvaluation.add, defaultParams, play]
  · by_cases hcheap : s < 0.9
    · simp [playEvaluation, hfull, hcheap, defaultParams, play]
    · simp [playEvaluation, hfull, hcheap, defaultParams, play, DirectionEvaluation.all,
        DirectionEvaluation.ofFn]

/-! ## Nearest-target estimation -/

/-- The loop of `updateClosest` is one pass of `updateCandidates` over the tiles of the
selected ids. -/
theorem updateClosest_eq {α : Type} (G : Game) (P : Params α) (source : Pos) (n : Int)
    (ownerID : Int → Int) (positions : Int → List Pos) (acc : Pos × Int) :
    updateClosest G P source n ownerID positions acc =
      updateCandidates source acc
        (((List.range n.toNat).filter
          (fun (id : Nat) => decide (ownerID id ≠ G.me ∨ P.GLOBAL_OWNED_CITIES = true))).flatMap
          (fun (id : Nat) => positions id)) := by
  unfold updateClosest
  generalize List.range n.toNat = ids
  induction ids generalizing acc with
  | nil => rfl
  | cons id ids ih =>
    rw [List.foldl_cons, ih]
    by_cases hq : ownerID id ≠ G.me ∨ P.GLOBAL_OWNED_CITIES = true
    · rw [if_pos hq, List.filter_cons_of_pos (by simpa using hq), List.flatMap_cons]
      simp only [updateCandidates, List.foldl_append]
    · rw [if_neg hq, List.filter_cons_of_neg (by simpa using hq)]

/-- `closestCityOrPathEstimation` is one pass of `updateCandidates` over the scan order. -/
theorem closestCityOrPathEstimation_eq {α : Type} (G : Game) (P : Params α) (source : Pos) :
    closestCityOrPathEstimation G P source =
      (updateCandidates source (⟨-1, -1⟩, INT_INFINITY) (qualifyingTiles G P)).1 := by
  simp only [closestCityOrPathEstimation, updateClosest_eq, qualifyingTiles, updateCandidates,
    List.foldl_append]

/-- What a pass of `updateCandidates` returns: the accumulator it started from when no tile is
strictly nearer than it, and otherwise the first of the nearest tiles. -/
theorem updateCandidates_spec (source : Pos) (tiles : List Pos) (acc : Pos × Int) :
    (updateCandidates source acc tiles = acc ∧
        ∀ q ∈ tiles, acc.2 ≤ manhattanDistance source q) ∨
      (∃ before after, tiles = before ++ (updateCandidates source acc tiles).1 :: after ∧
        (updateCandidates source acc tiles).2 =
          manhattanDistance source (updateCandidates source acc tiles).1 ∧
        (updateCandidates source acc tiles).2 < acc.2 ∧
        (∀ q ∈ before, (updateCandidates source acc tiles).2 < manhattanDistance source q) ∧
        (∀ q ∈ after, (updateCandidates source acc tiles).2 ≤ manhattanDistance source q)) := by
  induction tiles generalizing acc with
  | nil => left; exact ⟨rfl, by simp⟩
  | cons p tiles ih =>
    have hstep : updateCandidates source acc (p :: tiles) =
        updateCandidates source
          (if manhattanDistance source p < acc.2 then (p, manhattanDistance source p) else acc)
          tiles := by
      simp only [updateCandidates, List.foldl_cons]
    rw [hstep]
    by_cases hp : manhattanDistance source p < acc.2
    · rw [if_pos hp]
      rcases ih (p, manhattanDistance source p) with ⟨heq, hall⟩ | ⟨before, after, hsplit, hd, hlt, hb, ha⟩
      · right
        refine ⟨[], tiles, ?_, ?_, ?_, ?_, ?_⟩
        · rw [heq]; rfl
        · rw [heq]
        · rw [heq]; exact hp
        · simp
        · rw [heq]; exact hall
      · right
        refine ⟨p :: before, after, ?_, hd, lt_trans hlt hp, ?_, ha⟩
        · rw [List.cons_append, ← hsplit]
        · intro q hq
          rcases List.mem_cons.mp hq with rfl | hq
          · exact hlt
          · exact hb q hq
    · rw [if_neg hp]
      rcases ih acc with ⟨heq, hall⟩ | ⟨before, after, hsplit, hd, hlt, hb, ha⟩
      · left
        refine ⟨heq, ?_⟩
        intro q hq
        rcases List.mem_cons.mp hq with rfl | hq
        · exact not_lt.mp hp
        · exact hall q hq
      · right
        refine ⟨p :: before, after, ?_, hd, hlt, ?_, ha⟩
        · rw [List.cons_append, ← hsplit]
        · intro q hq
          rcases List.mem_cons.mp hq with rfl | hq
          · exact lt_of_lt_of_le hlt (not_lt.mp hp)
          · exact hb q hq

/-- Which tiles are in the scan order: the tiles of a city, or of a path, with an index
below the count, that the mover does not own (or of any when `GLOBAL_OWNED_CITIES` is set). -/
theorem mem_qualifyingTiles {α : Type} (G : Game) (P : Params α) (p : Pos) :
    p ∈ qualifyingTiles G P ↔
      (∃ id : Nat, (id : Int) < G.nb_cities ∧
        (G.city_owner id ≠ G.me ∨ P.GLOBAL_OWNED_CITIES = true) ∧ p ∈ G.city id) ∨
      (∃ id : Nat, (id : Int) < G.nb_paths ∧
        (G.path_owner id ≠ G.me ∨ P.GLOBAL_OWNED_CITIES = true) ∧ p ∈ (G.path id).2) := by
  simp only [qualifyingTiles, List.mem_append, List.mem_flatMap, List.mem_filter, List.mem_range,
    decide_eq_true_eq, Int.lt_toNat]
  constructor
  · rintro (⟨id, ⟨h1, h2⟩, h3⟩ | ⟨id, ⟨h1, h2⟩, h3⟩)
    · exact Or.inl ⟨id, h1, h2, h3⟩
    · exact Or.inr ⟨id, h1, h2, h3⟩
  · rintro (⟨id, h1, h2, h3⟩ | ⟨id, h1, h2, h3⟩)
    · exact Or.inl ⟨id, ⟨h1, h2⟩, h3⟩
    · exact Or.inr ⟨id, ⟨h1, h2⟩, h3⟩

/-- C10 (counterexample): on an open board whose only city tile lies at Manhattan distance
99999999 from the source a tile qualifies, yet `closestCityOrPathEstimation` returns the
sentinel `(-1,-1)`, which is no qualifying tile. -/
theorem closest_far_tile_counterexample :
    qualifyingTiles farCityGame (defaultParams Score) = [⟨99999999, 0⟩] ∧
      closestCityOrPathEstimation farCityGame (defaultParams Score) ⟨0, 0⟩ = ⟨-1, -1⟩ ∧
      closestCityOrPathEstimation farCityGame (defaultParams Score) ⟨0, 0⟩ ∉
        qualifyingTiles farCityGame (defaultParams Score) := by
  have h1 : qualifyingTiles farCityGame (defaultParams Score) = [⟨99999999, 0⟩] := by
    simp [qualifyingTiles, farCityGame, exampleGame, defaultParams, List.range_succ]
  have h2 : closestCityOrPathEstimation farCityGame (defaultParams Score) ⟨0, 0⟩ = ⟨-1, -1⟩ := by
    rw [closestCityOrPathEstimation_eq, h1]
    simp [updateCandidates, manhattanDistance, INT_INFINITY]
  refine ⟨h1, h2, ?_⟩
  rw [h1, h2]
  simp

/-- C10 (amended): whenever some qualifying tile lies at Manhattan distance below
`INT_INFINITY = 99999999` from the source, `closestCityOrPathEstimation` returns a tile of a
city or path that the mover does not own (of any city or path when `GLOBAL_OWNED_CITIES` is
set) which is the first of the nearest tiles in scan order: every tile scanned before it is
strictly farther from the source and every tile scanned after it is at least as far. -/
theorem closest_is_first_nearest {α : Type} (G : Game) (P : Params α) (source : Pos)
    (h : ∃ p ∈ qualifyingTiles G P, manhattanDistance source p < INT_INFINITY) :
    ((∃ id : Nat, (id : Int) < G.nb_cities ∧
        (G.city_owner id ≠ G.me ∨ P.GLOBAL_OWNED_CITIES = true) ∧
        closestCityOrPathEstimation G P source ∈ G.city id) ∨
      (∃ id : Nat, (id : Int) < G.nb_paths ∧
        (G.path_owner id ≠ G.me ∨ P.GLOBAL_OWNED_CITIES = true) ∧
        closestCityOrPathEstimation G P source ∈ (G.path id).2)) ∧
    ∃ before after,
      qualifyingTiles G P = before ++ closestCityOrPathEstimation G P source :: after ∧
      (∀ q ∈ before, manhattanDistance source (closestCityOrPathEstimation G P source) <
        manhattanDistance source q) ∧
      (∀ q ∈ after, manhattanDistance source (closestCityOrPathEstimation G P source) ≤
        manhattanDistance source q) := by
  obtain ⟨p, hp, hlt⟩ := h
  rw [closestCityOrPathEstimation_eq]
  rcases updateCandidates_spec source (qualifyingTiles G P) (⟨-1, -1⟩, INT_INFINITY) with
    ⟨_, hall⟩ | ⟨before, after, hsplit, hd, _, hb, ha⟩
  · exact absurd hlt (not_lt.mpr (hall p hp))
  · refine ⟨?_, before, after, hsplit, ?_, ?_⟩
    · rw [← mem_qualifyingTiles]
      have hmem : (updateCandidates source (⟨-1, -1⟩, INT_INFINITY) (qualifyingTiles G P)).1 ∈
          before ++
            (updateCandidates source (⟨-1, -1⟩, INT_INFINITY) (qualifyingTiles G P)).1 :: after :=
        List.mem_append_right _ (List.mem_cons_self _ _)
      rw [← hsplit] at hmem
      exact hmem
    · intro q hq; rw [← hd]; exact hb q hq
    · intro q hq; rw [← hd]; exact ha q hq

/-- Witness of C10 (amended) on the board with the cities `(0,3), (2,0)` and `(0,2), (1,1)`,
from the source `(0,0)`: the tile `(0,3)` is nearer than 99999999. -/
theorem closest_is_first_nearest_witness :
    (∃ p ∈ qualifyingTiles twoCityGame (defaultParams Score),
        manhattanDistance ⟨0, 0⟩ p < INT_INFINITY) ∧
      ∃ before after,
        qualifyingTiles twoCityGame (defaultParams Score) =
          before ++ closestCityOrPathEstimation twoCityGame (defaultParams Score) ⟨0, 0⟩ ::
            after ∧
        (∀ q ∈ before,
          manhattanDistance ⟨0, 0⟩
              (closestCityOrPathEstimation twoCityGame (defaultParams Score) ⟨0, 0⟩) <
            manhattanDistance ⟨0, 0⟩ q) ∧
        (∀ q ∈ after,
          manhattanDistance ⟨0, 0⟩
              (closestCityOrPathEstimation twoCityGame (defaultParams Score) ⟨0, 0⟩) ≤
            manhattanDistance ⟨0, 0⟩ q) :=
  have h : ∃ p ∈ qualifyingTiles twoCityGame (defaultParams Score),
      manhattanDistance ⟨0, 0⟩ p < INT_INFINITY :=
    ⟨⟨0, 3⟩, by simp [qualifyingTiles, twoCityGame, exampleGame, defaultParams, List.range_succ],
      by simp [manhattanDistance, INT_INFINITY]⟩
  ⟨h, (closest_is_first_nearest twoCityGame (defaultParams Score) ⟨0, 0⟩ h).2⟩

/-! ## Geometry -/

theorem Pos.step_ne_self (p : Pos) (d : Dir) : p.step d ≠ p := by
  obtain ⟨i, j⟩ := p
  cases d <;> simp [Pos.step]

theorem Pos.step_injective (p : Pos) (d e : Dir) (h : p.step d = p.step e) : d = e := by
  obtain ⟨i, j⟩ := p
  cases d <;> cases e <;> simp only [Pos.step, Pos.mk.injEq] at h <;> first | rfl | omega

theorem mapSet_same {T : Type} (m : Pos → Option T) (p : Pos) (t : T) : mapSet m p t p = some t := by
  simp [mapSet]

theorem mapSet_other {T : Type} (m : Pos → Option T) (p q : Pos) (t : T) (h : q ≠ p) :
    mapSet m p t q = m q := by
  simp [mapSet, h]

/-! ## The flood: how one pass changes the state -/

/-- The effect of the inner loop of `localEvaluation` over a list of distinct directions. -/
theorem floodNeighbour_foldl (G : Game) (c : Pos) (tc : SearchTicket) (ds : List Dir)
    (hnd : ds.Nodup) (V : Pos → Option SearchTicket) (Q : List Pos) :
    (ds.foldl (floodNeighbour G c tc) (V, Q)).1 =
        (fun p => if ∃ d ∈ ds, p = c.step d then floodBump G tc (V p) p else V p) ∧
      (ds.foldl (floodNeighbour G c tc) (V, Q)).2 =
        Q ++ (ds.filter (fun d => floodNew G V (c.step d))).map c.step := by
  induction ds generalizing V Q with
  | nil => simp
  | cons d ds ih =>
    have hd : d ∉ ds := (List.nodup_cons.mp hnd).1
    have hds : ds.Nodup := (List.nodup_cons.mp hnd).2
    have hother : ∀ e ∈ ds, c.step e ≠ c.step d := by
      intro e he heq
      exact hd (Pos.step_injective c e d heq ▸ he)
    rw [List.foldl_cons]
    have hstep : floodNeighbour G c tc (V, Q) d =
        (fun p => if p = c.step d then floodBump G tc (V p) p else V p,
          Q ++ (if floodNew G V (c.step d) then [c.step d] else [])) := by
      unfold floodNeighbour floodBump floodNew
      cases hV : V (c.step d) with
      | some found =>
        simp only [hV, Option.isNone_some, Bool.false_and, List.append_nil, Bool.false_eq_true,
          if_false]
        congr 1
        funext p
        by_cases hp : p = c.step d
        · subst hp; simp [mapSet, hV]
        · simp [mapSet, hp]
      | none =>
        by_cases hw : (G.cell (c.step d)).type = CellType.WALL
        · simp only [hV, hw, ne_eq, not_true_eq_false, if_false, Option.isNone_none,
            decide_False, Bool.and_false, List.append_nil, Bool.false_eq_true]
          congr 1
          funext p
          by_cases hp : p = c.step d
          · subst hp; simp [hV, hw]
          · simp [hp]
        · simp only [hV, hw, ne_eq, not_false_eq_true, if_true, Option.isNone_none,
            decide_True, Bool.and_self]
          congr 1
          funext p
          by_cases hp : p = c.step d
          · subst hp; simp [mapSet, hV, hw]
          · simp [mapSet, hp]
    rw [hstep]
    obtain ⟨ih1, ih2⟩ := ih hds (fun p => if p = c.step d then floodBump G tc (V p) p else V p)
      (Q ++ (if floodNew G V (c.step d) then [c.step d] else []))
    constructor
    · rw [ih1]
      funext p
      by_cases hp : p = c.step d
      · subst hp
        have hno : ¬ ∃ e ∈ ds, c.step d = c.step e := by
          rintro ⟨e, he, heq⟩
          exact hother e he heq.symm
        simp [hno]
      · by_cases hex : ∃ e ∈ ds, p = c.step e
        · have hex2 : ∃ e ∈ d :: ds, p = c.step e := by
            obtain ⟨e, he, heq⟩ := hex
            exact ⟨e, List.mem_cons_of_mem _ he, heq⟩
          simp [hex, hex2, hp]
        · have hex2 : ¬ ∃ e ∈ d :: ds, p = c.step e := by
            rintro ⟨e, he, heq⟩
            rcases List.mem_cons.mp he with rfl | he
            · exact hp heq
            · exact hex ⟨e, he, heq⟩
          simp [hex, hex2, hp]
    · rw [ih2, List.filter_cons]
      have hcongr : ds.filter (fun e => floodNew G
            (fun p => if p = c.step d then floodBump G tc (V p) p else V p) (c.step e)) =
          ds.filter (fun e => floodNew G V (c.step e)) := by
        apply List.filter_congr
        intro e he
        simp [floodNew, hother e he]
      rw [hcongr]
      by_cases hn : floodNew G V (c.step d) = true
      · simp [hn]
      · simp [hn]

theorem possibleDirections_nodup : POSSIBLE_DIRECTIONS.Nodup := by
  simp [POSSIBLE_DIRECTIONS]

theorem mem_possibleDirections (d : Dir) : d ∈ POSSIBLE_DIRECTIONS := by
  cases d <;> simp [POSSIBLE_DIRECTIONS]

/-- A pass of the flood loop that keeps running: the front cell `c` of the queue holds a
ticket within range, it is scored with that ticket, and its neighbours are handled. -/
theorem floodStep_running {α : Type} [DoubleOps α] (G : Game) (P : Params α) (u : Unit)
    (RANGE : Int) (st st1 : FloodState α) (h : floodStep G P u RANGE st = Step.running st1) :
    ∃ c rest tc, st.scheduledAppointments = c :: rest ∧ st.visited c = some tc ∧
      tc.distance ≤ RANGE ∧
      st1.visited = (fun p => if ∃ d ∈ POSSIBLE_DIRECTIONS, p = c.step d then
        floodBump G tc (st.visited p) p else st.visited p) ∧
      st1.scheduledAppointments =
        rest ++ (POSSIBLE_DIRECTIONS.filter (fun d => floodNew G st.visited (c.step d))).map c.step ∧
      st1.scored = st.scored ++ [(c, tc)] := by
  unfold floodStep at h
  cases hq : st.scheduledAppointments with
  | nil => simp [hq] at h
  | cons c rest =>
    simp only [hq] at h
    cases hv : st.visited c with
    | none => simp [hv] at h
    | some tc =>
      simp only [hv] at h
      by_cases hr : tc.distance > RANGE
      · simp [hr] at h
      · simp only [hr, if_false] at h
        cases hc : cellEvaluation G P tc.distance (G.cell c) u tc.reachableFrom
            st.foundAlliesCounter st.foundEnemiesCounter with
        | none => simp [hc] at h
        | some r =>
          obtain ⟨cellScore, allies, enemies⟩ := r
          simp only [hc, Step.running.injEq] at h
          obtain ⟨h1, h2⟩ := floodNeighbour_foldl G c tc POSSIBLE_DIRECTIONS
            possibleDirections_nodup st.visited rest
          refine ⟨c, rest, tc, rfl, hv, not_lt.mp hr, ?_, ?_, ?_⟩
          · rw [← h]
            exact h1
          · rw [← h]
            exact h2
          · rw [← h]

/-- A pass of the flood loop that returns leaves the tickets and the record of scored cells
as they are, and the queue is the old one or its tail. -/
theorem floodStep_returned {α : Type} [DoubleOps α] (G : Game) (P : Params α) (u : Unit)
    (RANGE : Int) (st st1 : FloodState α) (h : floodStep G P u RANGE st = Step.returned st1) :
    st1.visited = st.visited ∧ st1.scored = st.scored ∧
      (∀ q ∈ st1.scheduledAppointments, q ∈ st.scheduledAppointments) := by
  unfold floodStep at h
  cases hq : st.scheduledAppointments with
  | nil =>
    simp only [hq, Step.returned.injEq] at h
    subst h
    exact ⟨rfl, rfl, fun q hq1 => by rw [hq] at hq1; exact hq1⟩
  | cons c rest =>
    simp only [hq] at h
    cases hv : st.visited c with
    | none => simp [hv] at h
    | some tc =>
      simp only [hv] at h
      by_cases hr : tc.distance > RANGE
      · simp only [hr, if_true, Step.returned.injEq] at h
        subst h
        refine ⟨rfl, rfl, ?_⟩
        intro q hq1
        exact List.mem_cons_of_mem _ hq1
      · simp only [hr, if_false] at h
        cases hc : cellEvaluation G P tc.distance (G.cell c) u tc.reachableFrom
            st.foundAlliesCounter st.foundEnemiesCounter with
        | none => simp [hc] at h
        | some r => simp [hc] at h

/-- A property of flood states that every pass of the loop preserves holds after any number
of passes. -/
theorem floodAfter_induction {α : Type} [DoubleOps α] (G : Game) (P : Params α) (u : Unit)
    (RANGE : Int) (Inv : FloodState α → Prop)
    (hrun : ∀ st st1, Inv st → floodStep G P u RANGE st = Step.running st1 → Inv st1)
    (hret : ∀ st st1, Inv st → floodStep G P u RANGE st = Step.returned st1 → Inv st1)
    (n : Nat) (st : FloodState α) (h : Inv st) : Inv (floodAfter G P u RANGE n st) := by
  induction n generalizing st with
  | zero => exact h
  | succ n ih =>
    unfold floodAfter
    cases hs : floodStep G P u RANGE st with
    | running st1 => exact ih st1 (hrun st st1 h hs)
    | returned st1 => exact hret st st1 h hs
    | failed => exact h

/-- The state in which `floodLoop` returns is the state after that many passes. -/
theorem floodLoop_eq_floodAfter {α : Type} [DoubleOps α] (G : Game) (P : Params α) (u : Unit)
    (RANGE : Int) (n : Nat) (st st1 : FloodState α) (h : floodLoop G P u RANGE n st = some st1) :
    st1 = floodAfter G P u RANGE n st := by
  induction n generalizing st with
  | zero => simp [floodLoop] at h
  | succ n ih =>
    unfold floodLoop at h
    unfold floodAfter
    cases hs : floodStep G P u RANGE st with
    | running st2 => rw [hs] at h; exact ih st2 h
    | returned st2 => rw [hs] at h; simpa using h.symm
    | failed => rw [hs] at h; simp at h

/-- One round of the seeding loop on a neighbour that has no ticket yet: the assertion
holds, the neighbour gets its ticket and it is enqueued exactly when it is free. -/
theorem floodSeed_spec {α : Type} [DoubleOps α] (G : Game) (P : Params α) (u : Unit)
    (st : FloodState α) (d : Dir) (hfresh : st.visited (u.pos.step d) = none) :
    ∃ st1, floodSeed G P u st d = some st1 ∧ st1.scored = st.scored ∧
      st1.visited = mapSet st.visited (u.pos.step d) ⟨1, DirectionBooleans.single d⟩ ∧
      st1.scheduledAppointments =
        st.scheduledAppointments ++ (if freeCell G (u.pos.step d) then [u.pos.step d] else []) := by
  unfold floodSeed
  simp only [hfresh]
  by_cases hw : (G.cell (u.pos.step d)).type = CellType.WALL
  · simp [hw, freeCell]
  · by_cases hu : (G.cell (u.pos.step d)).unit_id = -1
    · simp [hw, hu, freeCell]
    · simp [hw, hu, freeCell]

/-- The seeding loop over distinct directions whose neighbours have no ticket yet. -/
theorem floodSeed_foldlM {α : Type} [DoubleOps α] (G : Game) (P : Params α) (u : Unit)
    (ds : List Dir) (hnd : ds.Nodup) (st : FloodState α)
    (hfresh : ∀ d ∈ ds, st.visited (u.pos.step d) = none) :
    ∃ st1, ds.foldlM (floodSeed G P u) st = some st1 ∧ st1.scored = st.scored ∧
      (∀ d ∈ ds, st1.visited (u.pos.step d) = some ⟨1, DirectionBooleans.single d⟩) ∧
      (∀ p, (∀ d ∈ ds, p ≠ u.pos.step d) → st1.visited p = st.visited p) ∧
      st1.scheduledAppointments =
        st.scheduledAppointments ++ (ds.filter (fun d => freeCell G (u.pos.step d))).map u.pos.step := by
  induction ds generalizing st with
  | nil => exact ⟨st, rfl, rfl, by simp, by simp, by simp⟩
  | cons d ds ih =>
    have hd : d ∉ ds := (List.nodup_cons.mp hnd).1
    have hds : ds.Nodup := (List.nodup_cons.mp hnd).2
    have hother : ∀ e ∈ ds, u.pos.step e ≠ u.pos.step d := by
      intro e he heq
      exact hd (Pos.step_injective u.pos e d heq ▸ he)
    obtain ⟨st1, h1, hs1, hv1, hq1⟩ := floodSeed_spec G P u st d (hfresh d (List.mem_cons_self _ _))
    have hfresh1 : ∀ e ∈ ds, st1.visited (u.pos.step e) = none := by
      intro e he
      rw [hv1, mapSet_other _ _ _ _ (hother e he)]
      exact hfresh e (List.mem_cons_of_mem _ he)
    obtain ⟨st2, h2, hs2, hv2, hv2o, hq2⟩ := ih hds st1 hfresh1
    refine ⟨st2, ?_, ?_, ?_, ?_, ?_⟩
    · rw [List.foldlM_cons, h1]; exact h2
    · rw [hs2, hs1]
    · intro e he
      rcases List.mem_cons.mp he with rfl | he
      · rw [hv2o _ (fun e1 he1 => (hother e1 he1).symm), hv1, mapSet_same]
      · exact hv2 e he
    · intro p hp
      rw [hv2o p (fun e he => hp e (List.mem_cons_of_mem _ he)), hv1,
        mapSet_other _ _ _ _ (hp d (List.mem_cons_self _ _))]
    · rw [hq2, hq1, List.filter_cons]
      by_cases hf : freeCell G (u.pos.step d) = true
      · simp [hf]
      · simp [hf]

/-- The state in which the flood loop is entered: the seeding loop never fails its
assertion; the unit's cell holds the ticket of distance 0, each of its four neighbours the
ticket of distance 1 flagged with its own direction, no other cell has a ticket, and the
queue holds the free neighbours in the order of `POSSIBLE_DIRECTIONS`. -/
theorem floodStart_spec {α : Type} [DoubleOps α] (G : Game) (P : Params α) (u : Unit) :
    ∃ st0, floodStart G P u = some st0 ∧ st0.scored = [] ∧
      st0.visited u.pos = some ⟨0, DirectionBooleans.all false⟩ ∧
      (∀ d, st0.visited (u.pos.step d) = some ⟨1, DirectionBooleans.single d⟩) ∧
      (∀ p, p ≠ u.pos → (∀ d, p ≠ u.pos.step d) → st0.visited p = none) ∧
      st0.scheduledAppointments =
        (POSSIBLE_DIRECTIONS.filter (fun d => freeCell G (u.pos.step d))).map u.pos.step := by
  have hfresh : ∀ d ∈ POSSIBLE_DIRECTIONS, (floodInit P u).visited (u.pos.step d) = none := by
    intro d _
    simp [floodInit, mapSet, Pos.step_ne_self]
  obtain ⟨st0, h0, hs, hv, hvo, hq⟩ :=
    floodSeed_foldlM G P u POSSIBLE_DIRECTIONS possibleDirections_nodup (floodInit P u) hfresh
  refine ⟨st0, h0, ?_, ?_, ?_, ?_, ?_⟩
  · rw [hs]; rfl
  · rw [hvo u.pos (fun d _ => (Pos.step_ne_self u.pos d).symm)]
    simp [floodInit, mapSet]
  · intro d; exact hv d (mem_possibleDirections d)
  · intro p hp hpd
    rw [hvo p (fun d _ => hpd d)]
    simp [floodInit, mapSet, hp]
  · rw [hq]; simp [floodInit]

/-! ## The flood: range bound (C8) and walls (C9) -/

/-- The range invariant of the flood is kept by every pass of the loop. -/
theorem flood_range_invariant {α : Type} [DoubleOps α] (G : Game) (P : Params α) (u : Unit)
    (r : Int) (n : Nat) (st : FloodState α)
    (hv : ∀ p t, st.visited p = some t → t.distance ≤ r + 1)
    (hs : ∀ e ∈ st.scored, e.2.distance ≤ r) :
    (∀ p t, (floodAfter G P u r n st).visited p = some t → t.distance ≤ r + 1) ∧
      (∀ e ∈ (floodAfter G P u r n st).scored, e.2.distance ≤ r) := by
  refine floodAfter_induction G P u r
    (fun s => (∀ p t, s.visited p = some t → t.distance ≤ r + 1) ∧
      (∀ e ∈ s.scored, e.2.distance ≤ r)) ?_ ?_ n st ⟨hv, hs⟩
  · rintro s s1 ⟨hv1, hs1⟩ hstep
    obtain ⟨c, rest, tc, _, hc, hle, hvis, _, hsc⟩ := floodStep_running G P u r s s1 hstep
    constructor
    · intro p t hp
      rw [hvis] at hp
      simp only at hp
      split_ifs at hp with hn
      · unfold floodBump at hp
        cases hold : s.visited p with
        | some found =>
          rw [hold] at hp
          simp only [Option.some.injEq] at hp
          rw [← hp]
          exact hv1 p found hold
        | none =>
          rw [hold] at hp
          simp only at hp
          split_ifs at hp
          simp only [Option.some.injEq] at hp
          rw [← hp]
          simp only
          omega
      · exact hv1 p t hp
    · intro e he
      rw [hsc] at he
      rcases List.mem_append.mp he with he | he
      · exact hs1 e he
      · simp only [List.mem_singleton] at he
        rw [he]
        exact hle
  · rintro s s1 ⟨hv1, hs1⟩ hstep
    obtain ⟨hvis, hsc, _⟩ := floodStep_returned G P u r s s1 hstep
    rw [hvis, hsc]
    exact ⟨hv1, hs1⟩

/-- C8: for every board, unit and range `r ≥ 0`, in every state that `localEvaluation` passes
through (after any number `n` of passes through its loop, and so also in the state it
returns in) no ticket has a distance greater than `r + 1`, and no cell has been passed to the
cell scorer with a ticket distance greater than `r`. -/
theorem flood_range_bound {α : Type} [DoubleOps α] (G : Game) (P : Params α) (u : Unit)
    (r : Int) (hr : 0 ≤ r) :
    ∃ st0, floodStart G P u = some st0 ∧
      (∀ n p t, (floodAfter G P u r n st0).visited p = some t → t.distance ≤ r + 1) ∧
      (∀ n, ∀ e ∈ (floodAfter G P u r n st0).scored, e.2.distance ≤ r) ∧
      (∀ fuel st, localFlood G P fuel u r = some st →
        (∀ p t, st.visited p = some t → t.distance ≤ r + 1) ∧
        (∀ e ∈ st.scored, e.2.distance ≤ r)) := by
  obtain ⟨st0, h0, hs, hsrc, hseed, hnone, _⟩ := floodStart_spec G P u
  have hv0 : ∀ p t, st0.visited p = some t → t.distance ≤ r + 1 := by
    intro p t hp
    by_cases h1 : p = u.pos
    · rw [h1, hsrc] at hp
      simp only [Option.some.injEq] at hp
      rw [← hp]; simp only; omega
    · by_cases h2 : ∃ d, p = u.pos.step d
      · obtain ⟨d, rfl⟩ := h2
        rw [hseed d] at hp
        simp only [Option.some.injEq] at hp
        rw [← hp]; simp only; omega
      · rw [hnone p h1 (fun d hd => h2 ⟨d, hd⟩)] at hp
        simp at hp
  have hs0 : ∀ e ∈ st0.scored, e.2.distance ≤ r := by
    rw [hs]; simp
  refine ⟨st0, h0, ?_, ?_, ?_⟩
  · intro n; exact (flood_range_invariant G P u r n st0 hv0 hs0).1
  · intro n; exact (flood_range_invariant G P u r n st0 hv0 hs0).2
  · intro fuel st hst
    unfold localFlood at hst
    rw [h0] at hst
    simp only [Option.some_bind] at hst
    rw [floodLoop_eq_floodAfter G P u r fuel st0 st hst]
    exact flood_range_invariant G P u r fuel st0 hv0 hs0

/-- Witness of C8 for the default player on the open board with range 2. -/
theorem flood_range_bound_witness :
    (0 : Int) ≤ 2 ∧
      ∃ st0, floodStart twoCityGame (defaultParams Score) (twoCityGame.unit 0) = some st0 ∧
        (∀ n p t, (floodAfter twoCityGame (defaultParams Score) (twoCityGame.unit 0) 2 n
            st0).visited p = some t → t.distance ≤ 2 + 1) ∧
        (∀ n, ∀ e ∈ (floodAfter twoCityGame (defaultParams Score) (twoCityGame.unit 0) 2 n
            st0).scored, e.2.distance ≤ 2) :=
  ⟨by decide,
    (flood_range_bound twoCityGame (defaultParams Score) (twoCityGame.unit 0) 2 (by decide)).imp
      (fun _ h => ⟨h.1, h.2.1, h.2.2.1⟩)⟩

/-- The wall invariant of the flood is kept by every pass of the loop: walls are neither
queued nor scored, and a wall with a ticket is the unit's cell or a neighbour of it. -/
theorem flood_wall_invariant {α : Type} [DoubleOps α] (G : Game) (P : Params α) (u : Unit)
    (r : Int) (n : Nat) (st : FloodState α)
    (hv : ∀ p t, st.visited p = some t → isWall G p → p = u.pos ∨ ∃ d, p = u.pos.step d)
    (hq : ∀ q ∈ st.scheduledAppointments, ¬ isWall G q)
    (hs : ∀ e ∈ st.scored, ¬ isWall G e.1) :
    (∀ p t, (floodAfter G P u r n st).visited p = some t → isWall G p →
        p = u.pos ∨ ∃ d, p = u.pos.step d) ∧
      (∀ q ∈ (floodAfter G P u r n st).scheduledAppointments, ¬ isWall G q) ∧
      (∀ e ∈ (floodAfter G P u r n st).scored, ¬ isWall G e.1) := by
  refine floodAfter_induction G P u r
    (fun s => (∀ p t, s.visited p = some t → isWall G p → p = u.pos ∨ ∃ d, p = u.pos.step d) ∧
      (∀ q ∈ s.scheduledAppointments, ¬ isWall G q) ∧
      (∀ e ∈ s.scored, ¬ isWall G e.1)) ?_ ?_ n st ⟨hv, hq, hs⟩
  · rintro s s1 ⟨hv1, hq1, hs1⟩ hstep
    obtain ⟨c, rest, tc, hqc, hc, _, hvis, hque, hsc⟩ := floodStep_running G P u r s s1 hstep
    refine ⟨?_, ?_, ?_⟩
    · intro p t hp hw
      rw [hvis] at hp
      simp only at hp
      split_ifs at hp with hn
      · unfold floodBump at hp
        cases hold : s.visited p with
        | some found => exact hv1 p found hold hw
        | none =>
          rw [hold] at hp
          simp only at hp
          split_ifs at hp with hnw
          exact absurd hw hnw
      · exact hv1 p t hp hw
    · intro q hq2
      rw [hque] at hq2
      rcases List.mem_append.mp hq2 with hq2 | hq2
      · exact hq1 q (by rw [hqc]; exact List.mem_cons_of_mem _ hq2)
      · obtain ⟨d, hd, rfl⟩ := List.mem_map.mp hq2
        have hnew := (List.mem_filter.mp hd).2
        simp only [floodNew, Bool.and_eq_true, decide_eq_true_eq] at hnew
        exact hnew.2
    · intro e he
      rw [hsc] at he
      rcases List.mem_append.mp he with he | he
      · exact hs1 e he
      · simp only [List.mem_singleton] at he
        rw [he]
        exact hq1 c (by rw [hqc]; exact List.mem_cons_self _ _)
  · rintro s s1 ⟨hv1, hq1, hs1⟩ hstep
    obtain ⟨hvis, hsc, hque⟩ := floodStep_returned G P u r s s1 hstep
    rw [hvis, hsc]
    exact ⟨hv1, fun q hq2 => hq1 q (hque q hq2), hs1⟩

/-- Walls in the flood, from the start: in every state `localEvaluation` passes through no
wall is queued, no wall has been scored, and a wall that holds a ticket is the unit's own
cell or one of its four neighbours. -/
theorem flood_walls {α : Type} [DoubleOps α] (G : Game) (P : Params α) (u : Unit) (r : Int) :
    ∃ st0, floodStart G P u = some st0 ∧ ∀ n,
      (∀ p t, (floodAfter G P u r n st0).visited p = some t → isWall G p →
        p = u.pos ∨ ∃ d, p = u.pos.step d) ∧
      (∀ q ∈ (floodAfter G P u r n st0).scheduledAppointments, ¬ isWall G q) ∧
      (∀ e ∈ (floodAfter G P u r n st0).scored, ¬ isWall G e.1) := by
  obtain ⟨st0, h0, hs, hsrc, hseed, hnone, hq⟩ := floodStart_spec G P u
  refine ⟨st0, h0, fun n => flood_wall_invariant G P u r n st0 ?_ ?_ ?_⟩
  · intro p t hp hw
    by_cases h2 : ∃ d, p = u.pos.step d
    · exact Or.inr h2
    · by_cases h1 : p = u.pos
      · exact Or.inl h1
      · rw [hnone p h1 (fun d hd => h2 ⟨d, hd⟩)] at hp
        simp at hp
  · intro q hq1
    rw [hq] at hq1
    obtain ⟨d, hd, rfl⟩ := List.mem_map.mp hq1
    have hfree := (List.mem_filter.mp hd).2
    simp only [freeCell, Bool.and_eq_true, decide_eq_true_eq] at hfree
    exact hfree.1
  · rw [hs]; simp

/-! ## The A* search: how one pass changes the state -/

/-- The effect of the inner loop of `shortestPathDirections` over distinct directions. -/
theorem pathNeighbour_foldl (G : Game) (D c : Pos) (cur : PathTicket) (ds : List Dir)
    (hnd : ds.Nodup) (V : Pos → Option PathTicket) (Q : List Pos) :
    (ds.foldl (pathNeighbour G D c cur) (V, Q)).1 =
        (fun p => if ∃ d ∈ ds, p = c.step d then pathBump G D cur (V p) p else V p) ∧
      (ds.foldl (pathNeighbour G D c cur) (V, Q)).2 =
        Q ++ (ds.filter (fun d => decide (¬ isWall G (c.step d)))).map c.step := by
  induction ds generalizing V Q with
  | nil => simp
  | cons d ds ih =>
    have hd : d ∉ ds := (List.nodup_cons.mp hnd).1
    have hds : ds.Nodup := (List.nodup_cons.mp hnd).2
    have hother : ∀ e ∈ ds, c.step e ≠ c.step d := by
      intro e he heq
      exact hd (Pos.step_injective c e d heq ▸ he)
    rw [List.foldl_cons]
    have hstep : pathNeighbour G D c cur (V, Q) d =
        (fun p => if p = c.step d then pathBump G D cur (V p) p else V p,
          Q ++ (if ¬ isWall G (c.step d) then [c.step d] else [])) := by
      unfold pathNeighbour pathBump isWall
      by_cases hw : (G.cell (c.step d)).type = CellType.WALL
      · simp only [hw, if_true, not_true_eq_false, if_false, List.append_nil]
        congr 1
        funext p
        by_cases hp : p = c.step d
        · subst hp; simp [mapSet, hw]
        · simp [mapSet, hp]
      · cases hV : V (c.step d) with
        | some nt =>
          simp only [hw, if_false, not_false_eq_true, if_true, hV]
          congr 1
          funext p
          by_cases hp : p = c.step d
          · subst hp; simp [mapSet, hw, hV]
          · simp [mapSet, hp]
        | none =>
          simp only [hw, if_false, not_false_eq_true, if_true, hV]
          congr 1
          funext p
          by_cases hp : p = c.step d
          · subst hp; simp [mapSet, hw, hV]
          · simp [mapSet, hp]
    rw [hstep]
    obtain ⟨ih1, ih2⟩ := ih hds
      (fun p => if p = c.step d then pathBump G D cur (V p) p else V p)
      (Q ++ (if ¬ isWall G (c.step d) then [c.step d] else []))
    constructor
    · rw [ih1]
      funext p
      by_cases hp : p = c.step d
      · subst hp
        have hno : ¬ ∃ e ∈ ds, c.step d = c.step e := by
          rintro ⟨e, he, heq⟩
          exact hother e he heq.symm
        simp [hno]
      · by_cases hex : ∃ e ∈ ds, p = c.step e
        · have hex2 : ∃ e ∈ d :: ds, p = c.step e := by
            obtain ⟨e, he, heq⟩ := hex
            exact ⟨e, List.mem_cons_of_mem _ he, heq⟩
          simp [hex, hex2, hp]
        · have hex2 : ¬ ∃ e ∈ d :: ds, p = c.step e := by
            rintro ⟨e, he, heq⟩
            rcases List.mem_cons.mp he with rfl | he
            · exact hp heq
            · exact hex ⟨e, he, heq⟩
          simp [hex, hex2, hp]
    · rw [ih2, List.filter_cons]
      by_cases hn : isWall G (c.step d)
      · simp [hn]
      · simp [hn]

/-- One round of the seeding loop of the A* search on a neighbour without a ticket. -/
theorem pathSeed_spec (G : Game) (s D : Pos) (st : PathState) (d : Dir)
    (hfresh : st.visited (s.step d) = none) :
    ∃ st1, pathSeed G s D st d = some st1 ∧ st1.pass = st.pass ∧
      st1.visited = mapSet st.visited (s.step d)
        ⟨1, 1 + manhattanDistance (s.step d) D, DirectionBooleans.single d, false⟩ ∧
      st1.scheduledAppointments =
        st.scheduledAppointments ++ (if freeCell G (s.step d) then [s.step d] else []) := by
  unfold pathSeed
  simp only [hfresh]
  by_cases hw : (G.cell (s.step d)).type = CellType.WALL
  · simp [hw, freeCell]
  · by_cases hu : (G.cell (s.step d)).unit_id = -1
    · simp [hw, hu, freeCell]
    · simp [hw, hu, freeCell]

/-- The seeding loop of the A* search over distinct directions. -/
theorem pathSeed_foldlM (G : Game) (s D : Pos) (ds : List Dir) (hnd : ds.Nodup)
    (st : PathState) (hfresh : ∀ d ∈ ds, st.visited (s.step d) = none) :
    ∃ st1, ds.foldlM (pathSeed G s D) st = some st1 ∧ st1.pass = st.pass ∧
      (∀ d ∈ ds, st1.visited (s.step d) =
        some ⟨1, 1 + manhattanDistance (s.step d) D, DirectionBooleans.single d, false⟩) ∧
      (∀ p, (∀ d ∈ ds, p ≠ s.step d) → st1.visited p = st.visited p) ∧
      st1.scheduledAppointments =
        st.scheduledAppointments ++ (ds.filter (fun d => freeCell G (s.step d))).map s.step := by
  induction ds generalizing st with
  | nil => exact ⟨st, rfl, rfl, by simp, by simp, by simp⟩
  | cons d ds ih =>
    have hd : d ∉ ds := (List.nodup_cons.mp hnd).1
    have hds : ds.Nodup := (List.nodup_cons.mp hnd).2
    have hother : ∀ e ∈ ds, s.step e ≠ s.step d := by
      intro e he heq
      exact hd (Pos.step_injective s e d heq ▸ he)
    obtain ⟨st1, h1, hs1, hv1, hq1⟩ := pathSeed_spec G s D st d (hfresh d (List.mem_cons_self _ _))
    have hfresh1 : ∀ e ∈ ds, st1.visited (s.step e) = none := by
      intro e he
      rw [hv1, mapSet_other _ _ _ _ (hother e he)]
      exact hfresh e (List.mem_cons_of_mem _ he)
    obtain ⟨st2, h2, hs2, hv2, hv2o, hq2⟩ := ih hds st1 hfresh1
    refine ⟨st2, ?_, ?_, ?_, ?_, ?_⟩
    · rw [List.foldlM_cons, h1]; exact h2
    · rw [hs2, hs1]
    · intro e he
      rcases List.mem_cons.mp he with rfl | he
      · rw [hv2o _ (fun e1 he1 => (hother e1 he1).symm), hv1, mapSet_same]
      · exact hv2 e he
    · intro p hp
      rw [hv2o p (fun e he => hp e (List.mem_cons_of_mem _ he)), hv1,
        mapSet_other _ _ _ _ (hp d (List.mem_cons_self _ _))]
    · rw [hq2, hq1, List.filter_cons]
      by_cases hf : freeCell G (s.step d) = true
      · simp [hf]
      · simp [hf]

/-- The state in which the loop of the A* search is entered: the seeding loop never fails
its assertion; the source holds the visited ticket of cost 0, each of its four neighbours the
unvisited ticket of cost 1 flagged with its own direction, no other cell has a ticket, and
the queue holds the free neighbours in the order of `POSSIBLE_DIRECTIONS`. -/
theorem pathStart_spec (G : Game) (s D : Pos) :
    ∃ st0, pathStart G s D = some st0 ∧ st0.pass = 0 ∧
      st0.visited s = some ⟨0, manhattanDistance s D, DirectionBooleans.all false, true⟩ ∧
      (∀ d, st0.visited (s.step d) =
        some ⟨1, 1 + manhattanDistance (s.step d) D, DirectionBooleans.single d, false⟩) ∧
      (∀ p, p ≠ s → (∀ d, p ≠ s.step d) → st0.visited p = none) ∧
      st0.scheduledAppointments =
        (POSSIBLE_DIRECTIONS.filter (fun d => freeCell G (s.step d))).map s.step := by
  obtain ⟨st0, h0, hs, hv, hvo, hq⟩ :=
    pathSeed_foldlM G s D POSSIBLE_DIRECTIONS possibleDirections_nodup
      { visited := mapSet (fun _ => none) s
          ⟨0, manhattanDistance s D, DirectionBooleans.all false, true⟩
        scheduledAppointments := []
        pass := 0 }
      (by intro d _; simp [mapSet, Pos.step_ne_self])
  refine ⟨st0, h0, ?_, ?_, ?_, ?_, ?_⟩
  · rw [hs]
  · rw [hvo s (fun d _ => (Pos.step_ne_self s d).symm)]
    simp [mapSet]
  · intro d; exact hv d (mem_possibleDirections d)
  · intro p hp hpd
    rw [hvo p (fun d _ => hpd d)]
    simp [mapSet, hp]
  · rw [hq]; simp

/-- A pass of the A* loop that keeps running: the entry `c` that `top()` yields is not the
destination; if its ticket is unvisited it is marked visited and its neighbours are handled,
otherwise it is only removed from the queue. -/
theorem pathStep_running (G : Game) (top : TopChoice) (D : Pos) (st st1 : PathState)
    (h : pathStep G top D st = Step.running st1) :
    ∃ c tc,
      st.scheduledAppointments.get?
        (top st.pass (st.scheduledAppointments.map (queueKey st.visited))) = some c ∧
      st.visited c = some tc ∧ c ≠ D ∧ st1.pass = st.pass + 1 ∧
      ((tc.visited = false ∧
        st1.visited = (fun p =>
          if ∃ d ∈ POSSIBLE_DIRECTIONS, p = c.step d then
            pathBump G D { tc with visited := true }
              (mapSet st.visited c { tc with visited := true } p) p
          else mapSet st.visited c { tc with visited := true } p) ∧
        st1.scheduledAppointments =
          st.scheduledAppointments.eraseIdx
              (top st.pass (st.scheduledAppointments.map (queueKey st.visited))) ++
            (POSSIBLE_DIRECTIONS.filter (fun d => decide (¬ isWall G (c.step d)))).map c.step) ∨
      (tc.visited = true ∧ st1.visited = st.visited ∧
        st1.scheduledAppointments =
          st.scheduledAppointments.eraseIdx
            (top st.pass (st.scheduledAppointments.map (queueKey st.visited))))) := by
  unfold pathStep at h
  split at h
  · cases h
  · rename_i q qs hq
    rw [hq]
    simp only at h
    split at h
    · cases h
    · rename_i c hg
      split at h
      · cases h
      · rename_i tc hv
        split_ifs at h with hD hvis
        · have hvt : tc.visited = true := by simpa using hvis
          simp only [Step.running.injEq] at h
          refine ⟨c, tc, hg, hv, hD, ?_, Or.inr ⟨hvt, ?_, ?_⟩⟩
          · rw [← h]
          · rw [← h]
          · rw [← h]
        · have hvf : tc.visited = false := by simpa using hvis
          simp only [Step.running.injEq] at h
          obtain ⟨h1, h2⟩ := pathNeighbour_foldl G D c { tc with visited := true }
            POSSIBLE_DIRECTIONS possibleDirections_nodup
            (mapSet st.visited c { tc with visited := true })
            ((q :: qs).eraseIdx (top st.pass ((q :: qs).map (queueKey st.visited))))
          refine ⟨c, tc, hg, hv, hD, ?_, Or.inl ⟨hvf, ?_, ?_⟩⟩
          · rw [← h]
          · rw [← h]; exact h1
          · rw [← h]; exact h2

/-- A pass of the A* loop that returns: either the queue is empty and the set of the
destination's entry (all false when it has none) is returned, or `top()` yields the
destination and the set of its ticket is returned. -/
theorem pathStep_returned (G : Game) (top : TopChoice) (D : Pos) (st : PathState)
    (e : PathExit) (r : DirectionBooleans)
    (h : pathStep G top D st = Step.returned (e, r)) :
    (e = PathExit.exhausted ∧ st.scheduledAppointments = [] ∧
        r = ((st.visited D).getD PathTicket.fresh).reachableFrom) ∨
      (e = PathExit.dequeued ∧ ∃ tc,
        st.scheduledAppointments.get?
          (top st.pass (st.scheduledAppointments.map (queueKey st.visited))) = some D ∧
        st.visited D = some tc ∧ r = tc.reachableFrom) := by
  unfold pathStep at h
  split at h
  · rename_i hq
    simp only [Step.returned.injEq, Prod.mk.injEq] at h
    exact Or.inl ⟨h.1.symm, hq, h.2.symm⟩
  · rename_i q qs hq
    rw [hq]
    simp only at h
    split at h
    · cases h
    · rename_i c hg
      split at h
      · cases h
      · rename_i tc hv
        split_ifs at h with hD hvis
        · simp only [Step.returned.injEq, Prod.mk.injEq] at h
          subst hD
          exact Or.inr ⟨h.1.symm, tc, hg, hv, h.2.symm⟩

/-- A property of A* states that every running pass preserves holds after any number of
passes. -/
theorem pathAfter_induction (G : Game) (top : TopChoice) (D : Pos) (Inv : PathState → Prop)
    (hrun : ∀ st st1, Inv st → pathStep G top D st = Step.running st1 → Inv st1)
    (n : Nat) (st : PathState) (h : Inv st) : Inv (pathAfter G top D n st) := by
  induction n generalizing st with
  | zero => exact h
  | succ n ih =>
    unfold pathAfter
    cases hs : pathStep G top D st with
    | running st1 => exact ih st1 (hrun st st1 h hs)
    | returned r => exact h
    | failed => exact h

/-- When `pathLoop` returns, the returning pass starts from a state reached by running
passes. -/
theorem pathLoop_returned (G : Game) (top : TopChoice) (D : Pos) (n : Nat) (st : PathState)
    (res : PathExit × DirectionBooleans) (h : pathLoop G top D n st = some res) :
    ∃ m, pathStep G top D (pathAfter G top D m st) = Step.returned res := by
  induction n generalizing st with
  | zero => simp [pathLoop] at h
  | succ n ih =>
    unfold pathLoop at h
    cases hs : pathStep G top D st with
    | running st1 =>
      rw [hs] at h
      obtain ⟨m, hm⟩ := ih st1 h
      refine ⟨m + 1, ?_⟩
      unfold pathAfter
      rw [hs]
      exact hm
    | returned r =>
      rw [hs] at h
      simp only [Option.some.injEq] at h
      refine ⟨0, ?_⟩
      unfold pathAfter
      rw [hs, h]
    | failed => rw [hs] at h; simp at h

/-! ## Walks and the Manhattan heuristic -/

theorem isWalk_snoc (ok : Pos → Prop) (p q : Pos) (ds : List Dir) (e : Dir) :
    IsWalk ok p (ds ++ [e]) q ↔ ∃ r, IsWalk ok p ds r ∧ ok (r.step e) ∧ r.step e = q := by
  induction ds generalizing p with
  | nil =>
    simp only [List.nil_append, IsWalk]
    constructor
    · rintro ⟨h1, h2⟩; exact ⟨p, rfl, h1, h2⟩
    · rintro ⟨r, rfl, h1, h2⟩; exact ⟨h1, h2⟩
  | cons d ds ih =>
    show ok (p.step d) ∧ IsWalk ok (p.step d) (ds ++ [e]) q ↔
      ∃ r, (ok (p.step d) ∧ IsWalk ok (p.step d) ds r) ∧ ok (r.step e) ∧ r.step e = q
    rw [ih]
    constructor
    · rintro ⟨h1, r, h2, h3, h4⟩; exact ⟨r, ⟨h1, h2⟩, h3, h4⟩
    · rintro ⟨r, ⟨h1, h2⟩, h3, h4⟩; exact ⟨h1, r, h2, h3, h4⟩

theorem manhattanDistance_step_le (p D : Pos) (e : Dir) :
    manhattanDistance p D ≤ manhattanDistance (p.step e) D + 1 ∧
      manhattanDistance (p.step e) D ≤ manhattanDistance p D + 1 := by
  obtain ⟨pi, pj⟩ := p
  obtain ⟨di, dj⟩ := D
  cases e <;> simp only [manhattanDistance, Pos.step] <;>
    constructor <;>
    rcases abs_cases (pi - di) with ⟨h1, h2⟩ | ⟨h1, h2⟩ <;>
    rcases abs_cases (pj - dj) with ⟨h3, h4⟩ | ⟨h3, h4⟩ <;>
    first
    | (rcases abs_cases (pi + 1 - di) with ⟨h5, h6⟩ | ⟨h5, h6⟩ <;> omega)
    | (rcases abs_cases (pi - 1 - di) with ⟨h5, h6⟩ | ⟨h5, h6⟩ <;> omega)
    | (rcases abs_cases (pj + 1 - dj) with ⟨h5, h6⟩ | ⟨h5, h6⟩ <;> omega)
    | (rcases abs_cases (pj - 1 - dj) with ⟨h5, h6⟩ | ⟨h5, h6⟩ <;> omega)

theorem mem_eraseIdx_of_ne {p c : Pos} {l : List Pos} {i : Nat} (hp : p ∈ l)
    (hc : l.get? i = some c) (hne : p ≠ c) : p ∈ l.eraseIdx i := by
  obtain ⟨j, hj⟩ := List.mem_iff_getElem?.mp hp
  rw [List.mem_eraseIdx_iff_getElem?]
  refine ⟨j, ?_, hj⟩
  rintro rfl
  rw [List.get?_eq_getElem?] at hc
  rw [hc] at hj
  exact hne (Option.some.inj hj).symm

theorem DirectionBooleans.get_single (d e : Dir) :
    (DirectionBooleans.single d).get e = true ↔ e = d := by
  cases d <;> cases e <;> simp [DirectionBooleans.single, DirectionBooleans.get]

theorem DirectionBooleans.get_or (a b : DirectionBooleans) (d : Dir) :
    (a.or b).get d = (a.get d || b.get d) := by
  cases d <;> rfl

theorem DirectionBooleans.get_all_flag (b : Bool) (d : Dir) : (DirectionBooleans.all b).get d = b := by
  cases d <;> rfl

/-- What a valid choice yields has the least priority of the queue. -/
theorem TopChoice.Valid.least {top : TopChoice} (hvalid : top.Valid) (n : Nat)
    (V : Pos → Option PathTicket) (Q : List Pos) (c : Pos)
    (hc : Q.get? (top n (Q.map (queueKey V))) = some c) :
    ∀ r ∈ Q, queueKey V c ≤ queueKey V r := by
  intro r hr
  have hne : Q.map (queueKey V) ≠ [] := by
    intro h
    rw [List.map_eq_nil_iff] at h
    rw [h] at hr
    simp at hr
  obtain ⟨k, hk, hmin⟩ := hvalid n (Q.map (queueKey V)) hne
  rw [List.get?_eq_getElem?] at hc hk
  rw [List.getElem?_map, hc] at hk
  simp only [Option.map_some', Option.some.injEq] at hk
  rw [hk]
  exact hmin _ (List.mem_map_of_mem _ hr)

/-! ## The A* search: the invariant and the optimality of what `top()` yields -/

/-- Every walk from the source ends in a visited cell whose cost is at most the length of
the walk, or some queued cell has a priority of at most that length plus the heuristic of
the end of the walk. -/
theorem PathInv.frontier {G : Game} {s D : Pos} {st : PathState} (h : PathInv G s D st)
    (ds : List Dir) (q : Pos) (hw : IsWalk (Passable G) s ds q) :
    (∃ t, st.visited q = some t ∧ t.visited = true ∧ t.localGoal ≤ ds.length ∧
        (q = s ∨ ¬ isWall G q)) ∨
      (∃ r t, r ∈ st.scheduledAppointments ∧ st.visited r = some t ∧
        t.globalGoal ≤ ds.length + manhattanDistance q D) := by
  induction ds using List.reverseRecOn generalizing q with
  | nil =>
    simp only [IsWalk] at hw
    subst hw
    exact Or.inl ⟨_, h.source, rfl, by simp, Or.inl rfl⟩
  | append_singleton ds e ih =>
    obtain ⟨r0, hw0, hok, rfl⟩ := (isWalk_snoc _ _ _ _ _).mp hw
    have hlen : (((ds ++ [e]).length : Nat) : Int) = (ds.length : Int) + 1 := by
      simp
    rcases ih r0 hw0 with ⟨t, hv, hvis, hg, hsw⟩ | ⟨r, t, hr, hv, hg⟩
    · obtain ⟨t1, hv1, hg1⟩ := h.closed r0 t hv hsw hvis e hok
      by_cases hvis1 : t1.visited = true
      · exact Or.inl ⟨t1, hv1, hvis1, by omega, Or.inr hok⟩
      · have hq := h.pending _ t1 hv1 hok (by simpa using hvis1)
        have hp := h.priority _ t1 hv1 hok
        exact Or.inr ⟨_, t1, hq, hv1, by omega⟩
    · have hm := (manhattanDistance_step_le r0 D e).1
      exact Or.inr ⟨r, t, hr, hv, by omega⟩

/-- The cost of the entry that a valid `top()` yields is at most the length of every walk
from the source to it. -/
theorem PathInv.popped_optimal {G : Game} {s D : Pos} {st : PathState} (h : PathInv G s D st)
    {top : TopChoice} (hvalid : top.Valid) (c : Pos) (tc : PathTicket)
    (hc : st.scheduledAppointments.get?
      (top st.pass (st.scheduledAppointments.map (queueKey st.visited))) = some c)
    (hv : st.visited c = some tc) (ds : List Dir) (hw : IsWalk (Passable G) s ds c) :
    tc.localGoal ≤ ds.length := by
  have hcq : c ∈ st.scheduledAppointments := List.get?_mem hc
  have hcw := (h.queued c hcq).1
  have hp := h.priority c tc hv hcw
  rcases h.frontier ds c hw with ⟨t, hv1, _, hg, _⟩ | ⟨r, t, hr, hv1, hg⟩
  · rw [hv] at hv1
    simp only [Option.some.injEq] at hv1
    rw [hv1]; exact hg
  · have hleast := hvalid.least st.pass st.visited st.scheduledAppointments c hc r hr
    simp only [queueKey, hv, hv1, Option.getD_some] at hleast
    omega

/-- The invariant holds when the loop is entered, provided no neighbour of the source holds
a unit. -/
theorem pathInv_start (G : Game) (s D : Pos) (hfree : ∀ d, (G.cell (s.step d)).unit_id = -1) :
    ∃ st0, pathStart G s D = some st0 ∧ PathInv G s D st0 := by
  obtain ⟨st0, h0, _, hsrc, hseed, hnone, hq⟩ := pathStart_spec G s D
  have hcases : ∀ p t, st0.visited p = some t →
      (p = s ∧ t = ⟨0, manhattanDistance s D, DirectionBooleans.all false, true⟩) ∨
      (∃ d, p = s.step d ∧
        t = ⟨1, 1 + manhattanDistance (s.step d) D, DirectionBooleans.single d, false⟩) := by
    intro p t hp
    by_cases h1 : p = s
    · subst h1
      rw [hsrc] at hp
      exact Or.inl ⟨rfl, (Option.some.inj hp).symm⟩
    · by_cases h2 : ∃ d, p = s.step d
      · obtain ⟨d, rfl⟩ := h2
        rw [hseed d] at hp
        exact Or.inr ⟨d, rfl, (Option.some.inj hp).symm⟩
      · rw [hnone p h1 (fun d hd => h2 ⟨d, hd⟩)] at hp
        simp at hp
  have hmemq : ∀ d, ¬ isWall G (s.step d) → s.step d ∈ st0.scheduledAppointments := by
    intro d hw
    rw [hq]
    refine List.mem_map_of_mem _ (List.mem_filter.mpr ⟨mem_possibleDirections d, ?_⟩)
    simp only [freeCell, Bool.and_eq_true, decide_eq_true_eq]
    exact ⟨hw, hfree d⟩
  refine ⟨st0, h0, ?_⟩
  constructor
  · exact hsrc
  · intro p t hp
    rcases hcases p t hp with ⟨_, rfl⟩ | ⟨d, _, rfl⟩ <;> simp
  · intro q hq1
    rw [hq] at hq1
    obtain ⟨d, hd, rfl⟩ := List.mem_map.mp hq1
    have hf := (List.mem_filter.mp hd).2
    simp only [freeCell, Bool.and_eq_true, decide_eq_true_eq] at hf
    exact ⟨hf.1, _, hseed d⟩
  · intro p t hp _
    rcases hcases p t hp with ⟨rfl, rfl⟩ | ⟨d, rfl, rfl⟩ <;> simp
  · intro p t hp hw hvis
    rcases hcases p t hp with ⟨rfl, rfl⟩ | ⟨d, rfl, rfl⟩
    · simp at hvis
    · exact hmemq d hw
  · intro p t hp hw
    rcases hcases p t hp with ⟨rfl, rfl⟩ | ⟨d, rfl, rfl⟩
    · exact ⟨[], rfl, by simp⟩
    · exact ⟨[d], ⟨hw, rfl⟩, by simp⟩
  · intro p t d hp hw hd
    rcases hcases p t hp with ⟨rfl, rfl⟩ | ⟨e, rfl, rfl⟩
    · simp [DirectionBooleans.get_all_flag] at hd
    · simp only [DirectionBooleans.get_single] at hd
      subst hd
      exact ⟨[], ⟨hw, rfl⟩, by simp⟩
  · intro p t hp _ hvis ds _
    rcases hcases p t hp with ⟨rfl, rfl⟩ | ⟨d, rfl, rfl⟩
    · simp
    · simp at hvis
  · intro p t hp _ hvis d _
    rcases hcases p t hp with ⟨rfl, rfl⟩ | ⟨e, rfl, rfl⟩
    · exact ⟨_, hseed d, by simp⟩
    · simp at hvis

/-- The ticket map of an expanding pass is `pathExpanded`. -/
theorem pathExpanded_eq (G : Game) (D : Pos) (V : Pos → Option PathTicket) (c : Pos)
    (cur : PathTicket) :
    (fun p => if ∃ d ∈ POSSIBLE_DIRECTIONS, p = c.step d then
        pathBump G D cur (mapSet V c cur p) p else mapSet V c cur p) =
      pathExpanded G D V c cur := by
  funext p
  unfold pathExpanded
  by_cases hn : ∃ d ∈ POSSIBLE_DIRECTIONS, p = c.step d
  · obtain ⟨d, _, rfl⟩ := hn
    have hne : c.step d ≠ c := Pos.step_ne_self c d
    simp only [mapSet_other _ _ _ _ hne]
  · simp only [hn, if_false]

theorem isNeighbour_iff (c p : Pos) :
    (∃ d ∈ POSSIBLE_DIRECTIONS, p = c.step d) ↔ ∃ d, p = c.step d := by
  constructor
  · rintro ⟨d, _, h⟩; exact ⟨d, h⟩
  · rintro ⟨d, h⟩; exact ⟨d, mem_possibleDirections d, h⟩

/-- Where the ticket of a non-wall cell comes from after an expansion: it is the old one,
or the ticket of the expanded cell, or it was created or strictly improved through the
expanded cell, or it tied with the route through the expanded cell. -/
theorem pathExpanded_cases (G : Game) (D : Pos) (V : Pos → Option PathTicket) (c : Pos)
    (cur : PathTicket) (p : Pos) (t : PathTicket) (hw : ¬ isWall G p)
    (hp : pathExpanded G D V c cur p = some t) :
    (p ≠ c ∧ V p = some t) ∨ (p = c ∧ t = cur) ∨
    ((∃ e, p = c.step e) ∧ t.localGoal = cur.localGoal + 1 ∧
      t.globalGoal = cur.localGoal + 1 + manhattanDistance p D ∧
      t.reachableFrom = cur.reachableFrom ∧
      ((V p = none ∧ t.visited = false) ∨
        ∃ nt, V p = some nt ∧ cur.localGoal + 1 < nt.localGoal ∧ t.visited = nt.visited)) ∨
    ((∃ e, p = c.step e) ∧ ∃ nt, V p = some nt ∧ cur.localGoal + 1 = nt.localGoal ∧
      t = { nt with reachableFrom := nt.reachableFrom.or cur.reachableFrom }) := by
  unfold pathExpanded at hp
  by_cases hn : ∃ d ∈ POSSIBLE_DIRECTIONS, p = c.step d
  · have hn1 : ∃ e, p = c.step e := (isNeighbour_iff c p).mp hn
    have hpc : p ≠ c := by
      obtain ⟨e, rfl⟩ := hn1
      exact Pos.step_ne_self c e
    rw [if_pos hn] at hp
    unfold pathBump at hp
    rw [if_neg (show ¬ (G.cell p).type = CellType.WALL from hw)] at hp
    cases hold : V p with
    | none =>
      rw [hold] at hp
      simp only [Option.some.injEq] at hp
      subst hp
      exact Or.inr (Or.inr (Or.inl ⟨hn1, rfl, rfl, rfl, Or.inl ⟨rfl, rfl⟩⟩))
    | some nt =>
      rw [hold] at hp
      simp only [Option.some.injEq] at hp
      by_cases h1 : cur.localGoal + 1 < nt.localGoal
      · rw [if_pos h1] at hp
        subst hp
        exact Or.inr (Or.inr (Or.inl ⟨hn1, rfl, rfl, rfl, Or.inr ⟨nt, rfl, h1, rfl⟩⟩))
      · rw [if_neg h1] at hp
        by_cases h2 : cur.localGoal + 1 = nt.localGoal
        · rw [if_pos h2] at hp
          subst hp
          exact Or.inr (Or.inr (Or.inr ⟨hn1, nt, rfl, h2, rfl⟩))
        · rw [if_neg h2] at hp
          subst hp
          exact Or.inl ⟨hpc, rfl⟩
  · rw [if_neg hn] at hp
    by_cases hpc : p = c
    · subst hpc
      rw [mapSet_same] at hp
      exact Or.inr (Or.inl ⟨rfl, (Option.some.inj hp).symm⟩)
    · rw [mapSet_other _ _ _ _ hpc] at hp
      exact Or.inl ⟨hpc, hp⟩

/-- An expansion keeps every ticket of a non-wall cell, never raises its cost and changes
its visited flag only at the expanded cell. -/
theorem pathExpanded_keeps (G : Game) (D : Pos) (V : Pos → Option PathTicket) (c : Pos)
    (tc cur : PathTicket) (hc : V c = some tc) (hcur : cur.localGoal = tc.localGoal) (p : Pos)
    (nt : PathTicket) (hV : V p = some nt) (hw : ¬ isWall G p) :
    ∃ t1, pathExpanded G D V c cur p = some t1 ∧
      t1.localGoal ≤ nt.localGoal ∧ (p ≠ c → t1.visited = nt.visited) := by
  unfold pathExpanded
  by_cases hn : ∃ d ∈ POSSIBLE_DIRECTIONS, p = c.step d
  · rw [if_pos hn]
    unfold pathBump
    rw [if_neg (show ¬ (G.cell p).type = CellType.WALL from hw), hV]
    simp only
    by_cases h1 : cur.localGoal + 1 < nt.localGoal
    · rw [if_pos h1]
      exact ⟨_, rfl, le_of_lt h1, fun _ => rfl⟩
    · rw [if_neg h1]
      by_cases h2 : cur.localGoal + 1 = nt.localGoal
      · rw [if_pos h2]
        exact ⟨_, rfl, le_refl _, fun _ => rfl⟩
      · rw [if_neg h2]
        exact ⟨_, rfl, le_refl _, fun _ => rfl⟩
  · rw [if_neg hn]
    by_cases hpc : p = c
    · subst hpc
      rw [mapSet_same]
      rw [hc] at hV
      simp only [Option.some.injEq] at hV
      subst hV
      exact ⟨_, rfl, le_of_eq hcur, fun h => absurd rfl h⟩
    · rw [mapSet_other _ _ _ _ hpc]
      exact ⟨nt, hV, le_refl _, fun _ => rfl⟩

/-- After an expansion every non-wall neighbour of the expanded cell has a ticket whose cost
is at most one more than the cost of the expanded cell. -/
theorem pathExpanded_neighbour (G : Game) (D : Pos) (V : Pos → Option PathTicket) (c : Pos)
    (cur : PathTicket) (e : Dir) (hw : ¬ isWall G (c.step e)) :
    ∃ t1, pathExpanded G D V c cur (c.step e) = some t1 ∧
      t1.localGoal ≤ cur.localGoal + 1 := by
  unfold pathExpanded
  rw [if_pos ⟨e, mem_possibleDirections e, rfl⟩]
  unfold pathBump
  rw [if_neg (show ¬ (G.cell (c.step e)).type = CellType.WALL from hw)]
  cases hold : V (c.step e) with
  | none => exact ⟨_, rfl, le_refl _⟩
  | some nt =>
    simp only
    by_cases h1 : cur.localGoal + 1 < nt.localGoal
    · refine ⟨_, rfl, ?_⟩
      rw [if_pos h1]
    · by_cases h2 : cur.localGoal + 1 = nt.localGoal
      · refine ⟨_, rfl, ?_⟩
        rw [if_neg h1, if_pos h2]
        exact le_of_eq h2.symm
      · refine ⟨_, rfl, ?_⟩
        rw [if_neg h1, if_neg h2]
        omega

/-- An expansion leaves costs non-negative. -/
theorem pathExpanded_nonneg (G : Game) (D : Pos) (V : Pos → Option PathTicket) (c : Pos)
    (cur : PathTicket) (hV : ∀ p t, V p = some t → 0 ≤ t.localGoal) (hcur : 0 ≤ cur.localGoal)
    (p : Pos) (t : PathTicket) (hp : pathExpanded G D V c cur p = some t) :
    0 ≤ t.localGoal := by
  unfold pathExpanded at hp
  by_cases hn : ∃ d ∈ POSSIBLE_DIRECTIONS, p = c.step d
  · rw [if_pos hn] at hp
    unfold pathBump at hp
    by_cases hw : (G.cell p).type = CellType.WALL
    · rw [if_pos hw] at hp
      simp only [Option.some.injEq] at hp
      subst hp
      cases hold : V p with
      | none => simp [PathTicket.fresh]
      | some nt => simpa using hV p nt hold
    · rw [if_neg hw] at hp
      cases hold : V p with
      | none =>
        rw [hold] at hp
        simp only [Option.some.injEq] at hp
        subst hp
        show 0 ≤ cur.localGoal + 1
        omega
      | some nt =>
        rw [hold] at hp
        simp only [Option.some.injEq] at hp
        have hnt := hV p nt hold
        subst hp
        by_cases h1 : cur.localGoal + 1 < nt.localGoal
        · rw [if_pos h1]
          show 0 ≤ cur.localGoal + 1
          omega
        · rw [if_neg h1]
          by_cases h2 : cur.localGoal + 1 = nt.localGoal
          · rw [if_pos h2]; exact hnt
          · rw [if_neg h2]; exact hnt
  · rw [if_neg hn] at hp
    by_cases hpc : p = c
    · subst hpc
      rw [mapSet_same] at hp
      rw [← Option.some.inj hp]; exact hcur
    · rw [mapSet_other _ _ _ _ hpc] at hp
      exact hV p t hp

/-- An expansion leaves the ticket of the source as it is. -/
theorem pathExpanded_source (G : Game) (D : Pos) (V : Pos → Option PathTicket) (c : Pos)
    (cur : PathTicket) (s : Pos) (x : Int) (hs : V s = some ⟨0, x, DirectionBooleans.all false, true⟩)
    (hsc : s ≠ c) (hcur : 0 ≤ cur.localGoal) :
    pathExpanded G D V c cur s = some ⟨0, x, DirectionBooleans.all false, true⟩ := by
  unfold pathExpanded
  by_cases hn : ∃ d ∈ POSSIBLE_DIRECTIONS, s = c.step d
  · rw [if_pos hn]
    unfold pathBump
    by_cases hw : (G.cell s).type = CellType.WALL
    · rw [if_pos hw, hs]; rfl
    · rw [if_neg hw, hs]
      simp only
      have h1 : ¬ cur.localGoal + 1 < 0 := by omega
      have h2 : ¬ cur.localGoal + 1 = 0 := by omega
      simp only [h1, h2, if_false]
  · rw [if_neg hn, mapSet_other _ _ _ _ hsc]
    exact hs

/-- Every running pass of the A* loop under a valid `top()` preserves the invariant. -/
theorem PathInv.step {G : Game} {s D : Pos} {st st1 : PathState} (h : PathInv G s D st)
    {top : TopChoice} (hvalid : top.Valid)
    (hstep : pathStep G top D st = Step.running st1) : PathInv G s D st1 := by
  obtain ⟨c, tc, hc, hv, _, _, hexp | hskip⟩ := pathStep_running G top D st st1 hstep
  · obtain ⟨hvis, hV1, hQ1⟩ := hexp
    rw [pathExpanded_eq] at hV1
    obtain ⟨cur, hcur⟩ : ∃ cur : PathTicket, cur = { tc with visited := true } := ⟨_, rfl⟩
    rw [← hcur] at hV1
    have hcurg : cur.localGoal = tc.localGoal := by rw [hcur]
    have hcurf : cur.globalGoal = tc.globalGoal := by rw [hcur]
    have hcurr : cur.reachableFrom = tc.reachableFrom := by rw [hcur]
    have hcurv : cur.visited = true := by rw [hcur]
    have hcq : c ∈ st.scheduledAppointments := List.get?_mem hc
    have hcw : ¬ isWall G c := (h.queued c hcq).1
    have hcs : c ≠ s := by
      intro hcs
      rw [hcs, h.source] at hv
      rw [← Option.some.inj hv] at hvis
      simp at hvis
    have hg0 : 0 ≤ cur.localGoal := by rw [hcurg]; exact h.nonneg c tc hv
    have hcopt : ∀ ds, IsWalk (Passable G) s ds c → tc.localGoal ≤ ds.length :=
      h.popped_optimal hvalid c tc hc hv
    obtain ⟨wc, hwc, hwclen⟩ := h.walk c tc hv hcw
    have hext : ∀ e, ¬ isWall G (c.step e) → ∀ ds, IsWalk (Passable G) s ds c →
        IsWalk (Passable G) s (ds ++ [e]) (c.step e) := by
      intro e he ds hds
      exact (isWalk_snoc _ _ _ _ _).mpr ⟨c, hds, he, rfl⟩
    have hlen1 : ∀ (ds : List Dir) (e : Dir),
        (((ds ++ [e]).length : Nat) : Int) = (ds.length : Int) + 1 := by
      intro ds e; simp
    have hstable : ∀ p t, st1.visited p = some t → (p = s ∨ ¬ isWall G p) →
        t.visited = true → p ≠ c →
        ∃ t0, st.visited p = some t0 ∧ t0.visited = true ∧ t0.localGoal = t.localGoal := by
      intro p t hp hsw hvt hpc
      by_cases hps : p = s
      · subst hps
        rw [hV1, pathExpanded_source G D st.visited c cur p _ h.source hpc hg0] at hp
        exact ⟨_, h.source, rfl, by rw [← Option.some.inj hp]⟩
      · have hpw : ¬ isWall G p := hsw.resolve_left hps
        rw [hV1] at hp
        rcases pathExpanded_cases G D st.visited c cur p t hpw hp with
          ⟨_, hold⟩ | ⟨hpc1, _⟩ | ⟨⟨e, hpe⟩, hg, _, _, hnew | ⟨nt, hold, hlt, hvn⟩⟩ |
          ⟨_, nt, hold, _, ht⟩
        · exact ⟨t, hold, hvt, rfl⟩
        · exact absurd hpc1 hpc
        · rw [hnew.2] at hvt; simp at hvt
        · exfalso
          subst hpe
          have hsettled := h.settled _ nt hold hpw (by rw [← hvn]; exact hvt) (wc ++ [e])
            (hext e hpw wc hwc)
          rw [hlen1] at hsettled
          omega
        · subst ht
          exact ⟨nt, hold, hvt, rfl⟩
    constructor
    · rw [hV1]
      exact pathExpanded_source G D st.visited c cur s _ h.source hcs.symm hg0
    · intro p t hp
      rw [hV1] at hp
      exact pathExpanded_nonneg G D st.visited c cur h.nonneg hg0 p t hp
    · intro q hq
      rw [hQ1] at hq
      rcases List.mem_append.mp hq with hq | hq
      · have hq0 := List.mem_of_mem_eraseIdx hq
        obtain ⟨hqw, t0, ht0⟩ := h.queued q hq0
        obtain ⟨t1, ht1, _, _⟩ := pathExpanded_keeps G D st.visited c tc cur hv hcurg q t0 ht0 hqw
        exact ⟨hqw, t1, by rw [hV1]; exact ht1⟩
      · obtain ⟨e, he, rfl⟩ := List.mem_map.mp hq
        have hew : ¬ isWall G (c.step e) := by
          simpa using (List.mem_filter.mp he).2
        obtain ⟨t1, ht1, _⟩ := pathExpanded_neighbour G D st.visited c cur e hew
        exact ⟨hew, t1, by rw [hV1]; exact ht1⟩
    · intro p t hp hpw
      rw [hV1] at hp
      rcases pathExpanded_cases G D st.visited c cur p t hpw hp with
        ⟨_, hold⟩ | ⟨hpc1, ht⟩ | ⟨_, hg, hf, _, _⟩ | ⟨_, nt, hold, _, ht⟩
      · exact h.priority p t hold hpw
      · rw [ht, hcurf, hcurg, hpc1]
        exact h.priority c tc hv hcw
      · rw [hf, hg]
      · subst ht
        exact h.priority p nt hold hpw
    · intro p t hp hpw hvf
      rw [hV1] at hp
      rw [hQ1]
      rcases pathExpanded_cases G D st.visited c cur p t hpw hp with
        ⟨hpc, hold⟩ | ⟨_, ht⟩ | ⟨⟨e, hpe⟩, _⟩ | ⟨⟨e, hpe⟩, _⟩
      · exact List.mem_append_left _
          (mem_eraseIdx_of_ne (h.pending p t hold hpw hvf) hc hpc)
      · rw [ht, hcurv] at hvf; simp at hvf
      · subst hpe
        exact List.mem_append_right _ (List.mem_map_of_mem _
          (List.mem_filter.mpr ⟨mem_possibleDirections e, by simpa using hpw⟩))
      · subst hpe
        exact List.mem_append_right _ (List.mem_map_of_mem _
          (List.mem_filter.mpr ⟨mem_possibleDirections e, by simpa using hpw⟩))
    · intro p t hp hpw
      rw [hV1] at hp
      rcases pathExpanded_cases G D st.visited c cur p t hpw hp with
        ⟨_, hold⟩ | ⟨hpc1, ht⟩ | ⟨⟨e, hpe⟩, hg, _, _, _⟩ | ⟨_, nt, hold, _, ht⟩
      · exact h.walk p t hold hpw
      · rw [ht, hcurg, hpc1]
        exact ⟨wc, hwc, hwclen⟩
      · subst hpe
        refine ⟨wc ++ [e], hext e hpw wc hwc, ?_⟩
        rw [hg, hlen1]
        omega
      · subst ht
        exact h.walk p nt hold hpw
    · intro p t d hp hpw hd
      rw [hV1] at hp
      have hthrough : ∀ e, p = c.step e → tc.reachableFrom.get d = true →
          ∃ ds, IsWalk (Passable G) s (d :: ds) p ∧
            ((d :: ds).length : Int) = tc.localGoal + 1 := by
        intro e hpe hdc
        subst hpe
        obtain ⟨ds, hds, hlen⟩ := h.first c tc d hv hcw hdc
        refine ⟨ds ++ [e], hext e hpw (d :: ds) hds, ?_⟩
        have h2 := hlen1 (d :: ds) e
        rw [List.cons_append] at h2
        rw [h2, hlen]
      rcases pathExpanded_cases G D st.visited c cur p t hpw hp with
        ⟨_, hold⟩ | ⟨hpc1, ht⟩ | ⟨⟨e, hpe⟩, hg, _, hr, _⟩ | ⟨⟨e, hpe⟩, nt, hold, heq, ht⟩
      · exact h.first p t d hold hpw hd
      · rw [ht, hcurr] at hd
        rw [ht, hcurg, hpc1]
        exact h.first c tc d hv hcw hd
      · rw [hr, hcurr] at hd
        obtain ⟨ds, hds, hlen⟩ := hthrough e hpe hd
        exact ⟨ds, hds, by rw [hlen, hg, hcurg]⟩
      · subst ht
        simp only [DirectionBooleans.get_or, Bool.or_eq_true] at hd
        rcases hd with hd | hd
        · exact h.first p nt d hold hpw hd
        · rw [hcurr] at hd
          obtain ⟨ds, hds, hlen⟩ := hthrough e hpe hd
          refine ⟨ds, hds, ?_⟩
          rw [hlen]
          show tc.localGoal + 1 = nt.localGoal
          omega
    · intro p t hp hpw hvt ds hds
      by_cases hpc : p = c
      · subst hpc
        rw [hV1] at hp
        rcases pathExpanded_cases G D st.visited p cur p t hpw hp with
          ⟨hne, _⟩ | ⟨_, ht⟩ | ⟨⟨e, hpe⟩, _⟩ | ⟨⟨e, hpe⟩, _⟩
        · exact absurd rfl hne
        · rw [ht, hcurg]
          exact hcopt ds hds
        · exact absurd hpe.symm (Pos.step_ne_self p e)
        · exact absurd hpe.symm (Pos.step_ne_self p e)
      · obtain ⟨t0, ht0, hv0, hg0⟩ := hstable p t hp (Or.inr hpw) hvt hpc
        rw [← hg0]
        exact h.settled p t0 ht0 hpw hv0 ds hds
    · intro p t hp hsw hvt d hdw
      by_cases hpc : p = c
      · subst hpc
        have hpt : t = cur := by
          rw [hV1] at hp
          rcases pathExpanded_cases G D st.visited p cur p t hcw hp with
            ⟨hne, _⟩ | ⟨_, ht⟩ | ⟨⟨e, hpe⟩, _⟩ | ⟨⟨e, hpe⟩, _⟩
          · exact absurd rfl hne
          · exact ht
          · exact absurd hpe.symm (Pos.step_ne_self p e)
          · exact absurd hpe.symm (Pos.step_ne_self p e)
        obtain ⟨t1, ht1, hle⟩ := pathExpanded_neighbour G D st.visited p cur d hdw
        refine ⟨t1, by rw [hV1]; exact ht1, ?_⟩
        rw [hpt]
        exact hle
      · obtain ⟨t0, ht0, hv0, hg0⟩ := hstable p t hp hsw hvt hpc
        obtain ⟨t1, ht1, hle⟩ := h.closed p t0 ht0 hsw hv0 d hdw
        obtain ⟨t2, ht2, hle2, _⟩ := pathExpanded_keeps G D st.visited c tc cur hv hcurg
          (p.step d) t1 ht1 hdw
        refine ⟨t2, by rw [hV1]; exact ht2, ?_⟩
        omega
  · obtain ⟨hvis, hV1, hQ1⟩ := hskip
    constructor
    · rw [hV1]; exact h.source
    · rw [hV1]; exact h.nonneg
    · intro q hq
      rw [hQ1] at hq
      rw [hV1]
      exact h.queued q (List.mem_of_mem_eraseIdx hq)
    · rw [hV1]; exact h.priority
    · intro p t hp hpw hvf
      rw [hV1] at hp
      rw [hQ1]
      refine mem_eraseIdx_of_ne (h.pending p t hp hpw hvf) hc ?_
      intro hpc
      subst hpc
      rw [hv] at hp
      rw [Option.some.inj hp] at hvis
      rw [hvis] at hvf
      simp at hvf
    · rw [hV1]; exact h.walk
    · rw [hV1]; exact h.first
    · rw [hV1]; exact h.settled
    · rw [hV1]; exact h.closed

/-! ## The A* search: soundness of the flagged directions (C5) and ties (C6) -/

theorem firstMin_spec (keys : List Int) (hne : keys ≠ []) :
    ∃ k, keys.get? (firstMin keys) = some k ∧ ∀ k1 ∈ keys, k ≤ k1 := by
  induction keys with
  | nil => exact absurd rfl hne
  | cons k ks ih =>
    unfold firstMin
    by_cases hall : ks.all (fun k1 => decide (k ≤ k1)) = true
    · rw [if_pos hall]
      refine ⟨k, rfl, ?_⟩
      intro k1 hk1
      rcases List.mem_cons.mp hk1 with rfl | hk1
      · exact le_refl _
      · simpa using List.all_eq_true.mp hall k1 hk1
    · rw [if_neg hall]
      have hks : ks ≠ [] := by
        intro h; rw [h] at hall; simp at hall
      obtain ⟨m, hm, hmin⟩ := ih hks
      refine ⟨m, by simpa using hm, ?_⟩
      have hex : ∃ k1 ∈ ks, k1 < k := by
        by_contra hcon
        apply hall
        rw [List.all_eq_true]
        intro k1 hk1
        have : ¬ k1 < k := fun hlt => hcon ⟨k1, hk1, hlt⟩
        simpa using not_lt.mp this
      obtain ⟨k1, hk1, hlt⟩ := hex
      intro k2 hk2
      rcases List.mem_cons.mp hk2 with rfl | hk2
      · exact le_of_lt (lt_of_le_of_lt (hmin k1 hk1) hlt)
      · exact hmin k2 hk2

/-- Taking the first minimum is a valid way of breaking ties. -/
theorem firstMin_valid : TopChoice.Valid (fun _ => firstMin) :=
  fun _ keys hne => firstMin_spec keys hne

/-- Taking the last minimum is a valid way of breaking ties. -/
theorem lastMin_valid : TopChoice.Valid (fun _ => lastMin) := by
  intro _ keys hne
  have hrev : keys.reverse ≠ [] := by simpa using hne
  obtain ⟨k, hk, hmin⟩ := firstMin_spec keys.reverse hrev
  rw [List.get?_eq_getElem?] at hk
  obtain ⟨hlt, _⟩ := List.getElem?_eq_some.mp hk
  rw [List.length_reverse] at hlt
  refine ⟨k, ?_, ?_⟩
  · rw [List.get?_eq_getElem?]
    rw [List.getElem?_reverse hlt] at hk
    exact hk
  · intro k1 hk1
    exact hmin k1 (List.mem_reverse.mpr hk1)

/-- C5 (amended): on a board where no neighbour of the source holds a unit, with a `top()`
that yields an entry of least priority, whenever `shortestPathDirections` returns by
dequeuing the destination every direction flagged in the returned set is the first step of a
walk over non-wall cells from the source to the destination that is as short as any such
walk. -/
theorem shortestPath_flags_sound (G : Game) (top : TopChoice) (hvalid : top.Valid)
    (fuel : Nat) (s D : Pos) (hfree : ∀ d, (G.cell (s.step d)).unit_id = -1)
    (r : DirectionBooleans)
    (h : pathSearch G top fuel s D = some (PathExit.dequeued, r))
    (d : Dir) (hd : r.get d = true) :
    ∃ ds, IsWalk (Passable G) s (d :: ds) D ∧
      ∀ ds1, IsWalk (Passable G) s ds1 D → (d :: ds).length ≤ ds1.length := by
  obtain ⟨st0, h0, hinv0⟩ := pathInv_start G s D hfree
  unfold pathSearch at h
  rw [h0] at h
  simp only [Option.some_bind] at h
  obtain ⟨m, hm⟩ := pathLoop_returned G top D fuel st0 _ h
  have hinv : PathInv G s D (pathAfter G top D m st0) :=
    pathAfter_induction G top D (PathInv G s D) (fun st st1 hi hs => hi.step hvalid hs) m st0 hinv0
  rcases pathStep_returned G top D _ _ _ hm with ⟨he, _⟩ | ⟨_, tc, hc, hv, hr⟩
  · cases he
  · have hDq := List.get?_mem hc
    have hDw := (hinv.queued D hDq).1
    rw [hr] at hd
    obtain ⟨ds, hds, hlen⟩ := hinv.first D tc d hv hDw hd
    refine ⟨ds, hds, ?_⟩
    intro ds1 hds1
    have hopt := hinv.popped_optimal hvalid D tc hc hv ds1 hds1
    omega

/-- Witness of C5 (amended) on the open board: the search from `(0,0)` to the neighbour
`(0,1)` returns by dequeuing it, with RIGHT flagged. -/
theorem shortestPath_flags_sound_witness :
    TopChoice.Valid (fun _ => firstMin) ∧
      (∀ d, (twoCityGame.cell ((⟨0, 0⟩ : Pos).step d)).unit_id = -1) ∧
      pathSearch twoCityGame (fun _ => firstMin) 1 ⟨0, 0⟩ ⟨0, 1⟩ =
        some (PathExit.dequeued, ⟨false, true, false, false⟩) ∧
      ∃ ds, IsWalk (Passable twoCityGame) ⟨0, 0⟩ (Dir.RIGHT :: ds) ⟨0, 1⟩ ∧
        ∀ ds1, IsWalk (Passable twoCityGame) ⟨0, 0⟩ ds1 ⟨0, 1⟩ →
          (Dir.RIGHT :: ds).length ≤ ds1.length :=
  ⟨firstMin_valid, fun _ => rfl, by decide,
    shortestPath_flags_sound twoCityGame (fun _ => firstMin) firstMin_valid 1 ⟨0, 0⟩ ⟨0, 1⟩
      (fun _ => rfl) ⟨false, true, false, false⟩ (by decide) Dir.RIGHT rfl⟩

/-- C5 (counterexample): on the board where the right neighbour of the source `(0,0)` holds a
unit and is walled in above and below, the search for `(0,2)` returns by dequeuing the
destination with BOTTOM flagged; yet the walk RIGHT, RIGHT over non-wall cells reaches the
destination in 2 steps, and every walk that starts with BOTTOM takes more than 2 steps. -/
theorem shortestPath_blocked_counterexample :
    pathSearch blockedGame (fun _ => lastMin) 17 ⟨0, 0⟩ ⟨0, 2⟩ =
        some (PathExit.dequeued, ⟨true, false, false, false⟩) ∧
      IsWalk (Passable blockedGame) ⟨0, 0⟩ [Dir.RIGHT, Dir.RIGHT] ⟨0, 2⟩ ∧
      ∀ ds, IsWalk (Passable blockedGame) ⟨0, 0⟩ (Dir.BOTTOM :: ds) ⟨0, 2⟩ →
        2 < (Dir.BOTTOM :: ds).length := by
  refine ⟨by decide, ?_, ?_⟩
  · simp [IsWalk, Passable, isWall, blockedGame, exampleGame, Pos.step, emptyCell, wallCell]
  · intro ds hds
    rcases ds with _ | ⟨e, _ | ⟨e2, ds⟩⟩
    · simp [IsWalk, Pos.step] at hds
    · cases e <;> simp [IsWalk, Pos.step] at hds
    · simp

/-- C6 (the code at the failing input): on the open board with a single wall directly below
the source `(0,0)`, with `top()` resolving equal priorities to the last minimum (a valid way
of breaking ties), the search for `(2,0)` returns by dequeuing the destination with only LEFT
flagged.  Yet no walk over non-wall cells reaches the destination in fewer than 4 steps and
the walk RIGHT, BOTTOM, BOTTOM, LEFT reaches it in 4: RIGHT is the first step of a shortest
path and is not flagged. -/
theorem shortestPath_tie_missed :
    TopChoice.Valid (fun _ => lastMin) ∧
      pathSearch wallBelowGame (fun _ => lastMin) 7 ⟨0, 0⟩ ⟨2, 0⟩ =
        some (PathExit.dequeued, ⟨false, false, false, true⟩) ∧
      IsWalk (Passable wallBelowGame) ⟨0, 0⟩ [Dir.RIGHT, Dir.BOTTOM, Dir.BOTTOM, Dir.LEFT]
        ⟨2, 0⟩ ∧
      ∀ ds, IsWalk (Passable wallBelowGame) ⟨0, 0⟩ ds ⟨2, 0⟩ → 4 ≤ ds.length := by
  refine ⟨lastMin_valid, by decide, ?_, ?_⟩
  · simp [IsWalk, Passable, isWall, wallBelowGame, exampleGame, Pos.step, emptyCell, wallCell]
  · intro ds hds
    rcases ds with _ | ⟨a, _ | ⟨b, _ | ⟨c, _ | ⟨d, ds⟩⟩⟩⟩
    · simp [IsWalk] at hds
    · cases a <;> simp [IsWalk, Pos.step] at hds
    · cases a <;> cases b <;>
        simp [IsWalk, Pos.step, Passable, isWall, wallBelowGame, exampleGame, wallCell] at hds
    · cases a <;> cases b <;> cases c <;> simp [IsWalk, Pos.step] at hds
    · simp

/-! ## Walls in the A* search (C9) -/

/-- The wall invariant of the A* search is kept by every pass of the loop: walls are not
queued, and a wall with a ticket is the source, a neighbour of the source, or holds the
value-initialised ticket marked visited. -/
theorem path_wall_invariant (G : Game) (top : TopChoice) (s D : Pos) (n : Nat) (st : PathState)
    (hq : ∀ q ∈ st.scheduledAppointments, ¬ isWall G q)
    (hv : ∀ p t, st.visited p = some t → isWall G p →
      p = s ∨ (∃ d, p = s.step d) ∨ t = ⟨0, 0, DirectionBooleans.all false, true⟩) :
    (∀ q ∈ (pathAfter G top D n st).scheduledAppointments, ¬ isWall G q) ∧
      (∀ p t, (pathAfter G top D n st).visited p = some t → isWall G p →
        p = s ∨ (∃ d, p = s.step d) ∨ t = ⟨0, 0, DirectionBooleans.all false, true⟩) := by
  refine pathAfter_induction G top D
    (fun st => (∀ q ∈ st.scheduledAppointments, ¬ isWall G q) ∧
      (∀ p t, st.visited p = some t → isWall G p →
        p = s ∨ (∃ d, p = s.step d) ∨ t = ⟨0, 0, DirectionBooleans.all false, true⟩))
    ?_ n st ⟨hq, hv⟩
  rintro st0 st1 ⟨hq0, hv0⟩ hstep
  obtain ⟨c, tc, hc, hvc, _, _, hexp | hskip⟩ := pathStep_running G top D st0 st1 hstep
  · obtain ⟨_, hV1, hQ1⟩ := hexp
    rw [pathExpanded_eq] at hV1
    have hcw : ¬ isWall G c := hq0 c (List.get?_mem hc)
    constructor
    · intro q hq1
      rw [hQ1] at hq1
      rcases List.mem_append.mp hq1 with hq1 | hq1
      · exact hq0 q (List.mem_of_mem_eraseIdx hq1)
      · obtain ⟨e, he, rfl⟩ := List.mem_map.mp hq1
        simpa using (List.mem_filter.mp he).2
    · intro p t hp hpw
      rw [hV1] at hp
      unfold pathExpanded at hp
      by_cases hn : ∃ d ∈ POSSIBLE_DIRECTIONS, p = c.step d
      · rw [if_pos hn] at hp
        unfold pathBump at hp
        rw [if_pos (show (G.cell p).type = CellType.WALL from hpw)] at hp
        simp only [Option.some.injEq] at hp
        cases hold : st0.visited p with
        | none =>
          rw [hold] at hp
          right; right
          rw [← hp]; rfl
        | some t0 =>
          rw [hold] at hp
          rcases hv0 p t0 hold hpw with h1 | h1 | h1
          · exact Or.inl h1
          · exact Or.inr (Or.inl h1)
          · right; right
            rw [← hp, h1]; rfl
      · rw [if_neg hn] at hp
        by_cases hpc : p = c
        · exact absurd (hpc ▸ hpw) hcw
        · rw [mapSet_other _ _ _ _ hpc] at hp
          exact hv0 p t hp hpw
  · obtain ⟨_, hV1, hQ1⟩ := hskip
    constructor
    · intro q hq1
      rw [hQ1] at hq1
      exact hq0 q (List.mem_of_mem_eraseIdx hq1)
    · rw [hV1]; exact hv0

/-- C9 (counterexample): both searches give a ticket to a wall.  On the board with a wall at
`(1,0)`, directly below the unit at `(0,0)`, `localEvaluation` at range 0 returns with the
ticket of distance 1 for that wall in its map, and the seeding of `shortestPathDirections`
gives it the ticket of cost 1.  On the board with a wall at `(1,1)`, which is no neighbour of
the source `(0,0)`, the first expansion of `shortestPathDirections` gives that wall the
value-initialised ticket marked visited. -/
theorem wall_ticket_counterexample :
    isWall wallBelowGame ⟨1, 0⟩ ∧
      (localFlood wallBelowGame (defaultParams Score) 1 (wallBelowGame.unit 0) 0).map
          (fun st => st.visited ⟨1, 0⟩) =
        some (some ⟨1, DirectionBooleans.single Dir.BOTTOM⟩) ∧
      (pathStart wallBelowGame ⟨0, 0⟩ ⟨2, 0⟩).map (fun st => st.visited ⟨1, 0⟩) =
        some (some ⟨1, 2, DirectionBooleans.single Dir.BOTTOM, false⟩) ∧
      isWall blockedGame ⟨1, 1⟩ ∧
      (pathStart blockedGame ⟨0, 0⟩ ⟨0, 2⟩).map
          (fun st => (pathAfter blockedGame (fun _ => firstMin) ⟨0, 2⟩ 1 st).visited ⟨1, 1⟩) =
        some (some ⟨0, 0, DirectionBooleans.all false, true⟩) := by
  refine ⟨by decide, by decide, by decide, by decide, by decide⟩

/-- C9 (amended): in every state either search passes through, no wall cell is queued, and
so none is scored or expanded.  In `localEvaluation` a wall cell that is neither the unit's
own cell nor one of its four neighbours has no ticket.  In `shortestPathDirections` a wall
cell that is neither the source nor one of its four neighbours has no ticket other than the
value-initialised one marked visited. -/
theorem walls_never_scheduled {α : Type} [DoubleOps α] (G : Game) (P : Params α) (u : Unit)
    (r : Int) (top : TopChoice) (s D : Pos) :
    (∃ st0, floodStart G P u = some st0 ∧ ∀ n,
      (∀ q ∈ (floodAfter G P u r n st0).scheduledAppointments, ¬ isWall G q) ∧
      (∀ e ∈ (floodAfter G P u r n st0).scored, ¬ isWall G e.1) ∧
      (∀ p t, (floodAfter G P u r n st0).visited p = some t → isWall G p →
        p = u.pos ∨ ∃ d, p = u.pos.step d)) ∧
    (∃ st0, pathStart G s D = some st0 ∧ ∀ n,
      (∀ q ∈ (pathAfter G top D n st0).scheduledAppointments, ¬ isWall G q) ∧
      (∀ p t, (pathAfter G top D n st0).visited p = some t → isWall G p →
        p = s ∨ (∃ d, p = s.step d) ∨ t = ⟨0, 0, DirectionBooleans.all false, true⟩)) := by
  constructor
  · obtain ⟨st0, h0, hall⟩ := flood_walls G P u r
    exact ⟨st0, h0, fun n => ⟨(hall n).2.1, (hall n).2.2, (hall n).1⟩⟩
  · obtain ⟨st0, h0, _, hsrc, hseed, hnone, hq⟩ := pathStart_spec G s D
    refine ⟨st0, h0, fun n => path_wall_invariant G top s D n st0 ?_ ?_⟩
    · intro q hq1
      rw [hq] at hq1
      obtain ⟨d, hd, rfl⟩ := List.mem_map.mp hq1
      have hf := (List.mem_filter.mp hd).2
      simp only [freeCell, Bool.and_eq_true, decide_eq_true_eq] at hf
      exact hf.1
    · intro p t hp _
      by_cases h1 : p = s
      · exact Or.inl h1
      · by_cases h2 : ∃ d, p = s.step d
        · exact Or.inr (Or.inl h2)
        · rw [hnone p h1 (fun d hd => h2 ⟨d, hd⟩)] at hp
          simp at hp

/-! ## The flood: exactness of the reachability sets (C7) -/

/-- All walks between two cells have lengths of the same parity. -/
theorem isWalk_parity (ok : Pos → Prop) (s p : Pos) (ds : List Dir) (h : IsWalk ok s ds p) :
    ((ds.length : Int) - ((p.i + p.j) - (s.i + s.j))) % 2 = 0 := by
  induction ds generalizing s with
  | nil =>
    simp only [IsWalk] at h
    subst h
    simp
  | cons d ds ih =>
    obtain ⟨_, h2⟩ := h
    have h3 := ih (s.step d) h2
    have h4 : ((s.step d).i + (s.step d).j = s.i + s.j + 1) ∨
        ((s.step d).i + (s.step d).j = s.i + s.j - 1) := by
      cases d <;> simp only [Pos.step] <;> omega
    simp only [List.length_cons, Nat.cast_add, Nat.cast_one]
    omega

/-- A walk ends where it starts, or in a cell that satisfies the condition on its cells. -/
theorem isWalk_end (ok : Pos → Prop) (s p : Pos) (ds : List Dir) (h : IsWalk ok s ds p) :
    (ds = [] ∧ p = s) ∨ ok p := by
  induction ds using List.reverseRecOn with
  | nil => exact Or.inl ⟨rfl, h.symm⟩
  | append_singleton ds e _ =>
    obtain ⟨r, _, hok, rfl⟩ := (isWalk_snoc _ _ _ _ _).mp h
    exact Or.inr hok

theorem ticketDistance_some {V : Pos → Option SearchTicket} {p : Pos} {t : SearchTicket}
    (h : V p = some t) : ticketDistance V p = t.distance := by
  simp [ticketDistance, h]

/-- The inner loop of the flood keeps every ticket and its distance. -/
theorem floodBump_keeps (G : Game) (tc : SearchTicket) (t : SearchTicket) (p : Pos) :
    ∃ t1, floodBump G tc (some t) p = some t1 ∧ t1.distance = t.distance ∧
      ∀ d, t1.reachableFrom.get d = (t.reachableFrom.get d || tc.reachableFrom.get d) :=
  ⟨_, rfl, rfl, fun d => DirectionBooleans.get_or _ _ d⟩

/-- Lower bound: under the invariant the end of every walk from the unit either has a ticket
whose distance is at most the length of the walk, or has no ticket while some queued cell has
a distance below that length. -/
theorem FloodInv.lower_bound {α : Type} {G : Game} {u : Unit} {st : FloodState α}
    (h : FloodInv G u st) (ds : List Dir) (p : Pos)
    (hw : IsWalk (FloodCell G u) u.pos ds p) :
    (∃ t, st.visited p = some t ∧ t.distance ≤ ds.length) ∨
      (st.visited p = none ∧
        ∃ q ∈ st.scheduledAppointments, ticketDistance st.visited q + 1 ≤ ds.length) := by
  induction ds using List.reverseRecOn generalizing p with
  | nil =>
    simp only [IsWalk] at hw
    subst hw
    obtain ⟨t, ht, hd⟩ := h.src
    exact Or.inl ⟨t, ht, by rw [hd]; simp⟩
  | append_singleton ds e ih =>
    obtain ⟨p0, hw0, hok, rfl⟩ := (isWalk_snoc _ _ _ _ _).mp hw
    have hlen : (((ds ++ [e]).length : Nat) : Int) = (ds.length : Int) + 1 := by simp
    rw [hlen]
    rcases ih p0 hw0 with ⟨t0, ht0, hd0⟩ | ⟨_, q, hq, hdq⟩
    · rcases isWalk_end _ _ _ _ hw0 with ⟨_, hp0⟩ | hp0
      · subst hp0
        obtain ⟨t, ht, hd⟩ := h.seed e
        exact Or.inl ⟨t, ht, by omega⟩
      · rcases h.live p0 t0 ht0 hp0 with hq | ⟨e0, he0, he0p⟩
        · cases hV : st.visited (p0.step e) with
          | some t =>
            have := h.span p0 hq (p0.step e) t hV hok
            rw [ticketDistance_some ht0] at this
            exact Or.inl ⟨t, rfl, by omega⟩
          | none =>
            refine Or.inr ⟨rfl, p0, hq, ?_⟩
            rw [ticketDistance_some ht0]
            omega
        · obtain ⟨_, ⟨t, ht, htd⟩, _, hclosed⟩ := h.done e0 he0
          rw [he0p] at ht hclosed
          rw [ht0] at ht
          have hteq : t0 = t := Option.some.inj ht
          obtain ⟨t1, ht1, hd1⟩ := hclosed e hok
          exact Or.inl ⟨t1, ht1, by rw [← hteq] at htd; omega⟩
    · cases hV : st.visited (p0.step e) with
      | some t =>
        have := h.span q hq (p0.step e) t hV hok
        exact Or.inl ⟨t, rfl, by omega⟩
      | none => exact Or.inr ⟨rfl, q, hq, by omega⟩

/-- Under the invariant the distance on the ticket of a cell the flood expands is the length
of the shortest walk to it. -/
theorem FloodInv.distance_le {α : Type} {G : Game} {u : Unit} {st : FloodState α}
    (h : FloodInv G u st) (p : Pos) (t : SearchTicket) (hp : st.visited p = some t)
    (ds : List Dir) (hw : IsWalk (FloodCell G u) u.pos ds p) : t.distance ≤ ds.length := by
  rcases h.lower_bound ds p hw with ⟨t1, ht1, hd⟩ | ⟨hnone, _⟩
  · rw [hp] at ht1
    rw [Option.some.inj ht1]; exact hd
  · rw [hp] at hnone; simp at hnone

/-- The minimum distance is at the front of the queue. -/
theorem FloodInv.front_least {α : Type} {G : Game} {u : Unit} {st : FloodState α}
    (h : FloodInv G u st) (c : Pos) (rest : List Pos)
    (hq : st.scheduledAppointments = c :: rest) (q : Pos) (hqm : q ∈ st.scheduledAppointments) :
    ticketDistance st.visited c ≤ ticketDistance st.visited q := by
  have hs := h.sorted
  rw [hq] at hs hqm
  rcases List.mem_cons.mp hqm with rfl | hqm
  · exact le_refl _
  · exact (List.pairwise_cons.mp hs).1 q hqm

/-- Exactness at the front of the queue: the reachability set on the ticket of the cell
about to be scored flags exactly the first steps of the shortest walks to it. -/
theorem FloodInv.front_exact {α : Type} {G : Game} {u : Unit} {st : FloodState α}
    (h : FloodInv G u st) (c : Pos) (rest : List Pos) (tc : SearchTicket)
    (hq : st.scheduledAppointments = c :: rest) (hv : st.visited c = some tc) (d : Dir) :
    tc.reachableFrom.get d = true ↔ FirstStep G u c d := by
  have hcm : c ∈ st.scheduledAppointments := by rw [hq]; exact List.mem_cons_self _ _
  have hcell : FloodCell G u c := (h.queued c hcm).1
  have hcd : ticketDistance st.visited c = tc.distance := ticketDistance_some hv
  constructor
  · intro hd
    obtain ⟨ds, hw, hlen⟩ := h.first c hcm tc d hv hd
    refine ⟨ds, hw, fun ds1 h1 => ?_⟩
    have := h.distance_le c tc hv ds1 h1
    omega
  · rintro ⟨ds, hw, hmin⟩
    obtain ⟨wc, hwc, hwclen⟩ := h.walk c tc hv hcell
    have hle := hmin wc hwc
    have hge := h.distance_le c tc hv (d :: ds) hw
    have hL : (((d :: ds).length : Nat) : Int) = tc.distance := by omega
    rcases List.eq_nil_or_concat ds with rfl | ⟨ds0, e, rfl⟩
    · obtain ⟨_, hend⟩ := hw
      simp only [IsWalk] at hend
      exact h.seeded c hcm tc d hv hend.symm
    · rw [List.concat_eq_append, ← List.cons_append] at hw hL
      obtain ⟨p0, hw0, hok, hp0c⟩ := (isWalk_snoc _ _ _ _ _).mp hw
      have hlen0 : (((d :: ds0).length : Nat) : Int) = tc.distance - 1 := by
        rw [List.length_append] at hL
        simp only [List.length_singleton, Nat.cast_add, Nat.cast_one] at hL
        omega
      have hcell0 : FloodCell G u p0 := by
        rcases isWalk_end _ _ _ _ hw0 with ⟨hnil, _⟩ | hok0
        · simp at hnil
        · exact hok0
      rcases h.lower_bound (d :: ds0) p0 hw0 with ⟨t0, ht0, hd0⟩ | ⟨_, q, hqm, hdq⟩
      · obtain ⟨w0, hw0w, hw0len⟩ := h.walk p0 t0 ht0 hcell0
        have hext : IsWalk (FloodCell G u) u.pos (w0 ++ [e]) c :=
          (isWalk_snoc _ _ _ _ _).mpr ⟨p0, hw0w, hok, hp0c⟩
        have hge2 := h.distance_le c tc hv (w0 ++ [e]) hext
        rw [List.length_append] at hge2
        simp only [List.length_singleton, Nat.cast_add, Nat.cast_one] at hge2
        have ht0d : t0.distance = tc.distance - 1 := by omega
        rcases h.live p0 t0 ht0 hcell0 with hq0 | ⟨e0, he0, he0p⟩
        · have := h.front_least c rest hq p0 hq0
          rw [hcd, ticketDistance_some ht0] at this
          omega
        · obtain ⟨_, ⟨t, ht, htd⟩, _, _⟩ := h.done e0 he0
          rw [he0p, ht0] at ht
          have hteq : t0 = t := Option.some.inj ht
          have hfirst0 : FirstStep G u e0.1 d := by
            rw [he0p]
            refine ⟨ds0, hw0, fun ds2 h2 => ?_⟩
            have := h.distance_le p0 t0 ht0 ds2 h2
            omega
          have hflag := (h.exact e0 he0 d).mpr hfirst0
          refine h.inherited c hcm tc hv e0 he0 e (by rw [he0p]; exact hp0c) ?_ d hflag
          rw [← htd, ← hteq]
          omega
      · have := h.front_least c rest hq q hqm
        rw [hcd] at this
        omega

/-- Where a ticket comes from after the neighbours of the scored cell were handled: it is an
old ticket with its distance, unchanged away from the scored cell and with the set of the
scored cell accumulated next to it, or a new ticket of a non-wall neighbour. -/
theorem floodSpread_cases (G : Game) (V : Pos → Option SearchTicket) (c : Pos)
    (tc : SearchTicket) (p : Pos) (t1 : SearchTicket) (h : floodSpread G V c tc p = some t1) :
    (∃ t, V p = some t ∧ t1.distance = t.distance ∧
        (t1 = t ∨ ((∃ e, p = c.step e) ∧
          t1.reachableFrom = t.reachableFrom.or tc.reachableFrom))) ∨
      (V p = none ∧ (∃ e, p = c.step e) ∧ ¬ isWall G p ∧
        t1 = ⟨tc.distance + 1, tc.reachableFrom⟩) := by
  unfold floodSpread at h
  by_cases hn : ∃ d ∈ POSSIBLE_DIRECTIONS, p = c.step d
  · have hn1 := (isNeighbour_iff c p).mp hn
    rw [if_pos hn] at h
    unfold floodBump at h
    cases hold : V p with
    | some t =>
      rw [hold] at h
      simp only [Option.some.injEq] at h
      subst h
      exact Or.inl ⟨t, rfl, rfl, Or.inr ⟨hn1, rfl⟩⟩
    | none =>
      rw [hold] at h
      simp only at h
      by_cases hw : (G.cell p).type = CellType.WALL
      · simp [hw] at h
      · rw [if_pos hw] at h
        exact Or.inr ⟨rfl, hn1, hw, (Option.some.inj h).symm⟩
  · rw [if_neg hn] at h
    exact Or.inl ⟨t1, h, rfl, Or.inl rfl⟩

/-- Handling the neighbours keeps every ticket with its distance, and its set only grows. -/
theorem floodSpread_keeps (G : Game) (V : Pos → Option SearchTicket) (c : Pos)
    (tc : SearchTicket) (p : Pos) (t : SearchTicket) (h : V p = some t) :
    ∃ t1, floodSpread G V c tc p = some t1 ∧ t1.distance = t.distance ∧
      (∀ d, t.reachableFrom.get d = true → t1.reachableFrom.get d = true) ∧
      ((∃ e, p = c.step e) → ∀ d, tc.reachableFrom.get d = true →
        t1.reachableFrom.get d = true) := by
  unfold floodSpread
  by_cases hn : ∃ d ∈ POSSIBLE_DIRECTIONS, p = c.step d
  · rw [if_pos hn, h]
    refine ⟨_, rfl, rfl, ?_, ?_⟩
    · intro d hd
      rw [DirectionBooleans.get_or, hd]; rfl
    · intro _ d hd
      rw [DirectionBooleans.get_or, hd]; simp
  · rw [if_neg hn]
    refine ⟨t, h, rfl, fun d hd => hd, ?_⟩
    intro he
    exact absurd ((isNeighbour_iff c p).mpr he) hn

/-- Handling the neighbours gives a ticketless non-wall neighbour its new ticket. -/
theorem floodSpread_new (G : Game) (V : Pos → Option SearchTicket) (c : Pos)
    (tc : SearchTicket) (e : Dir) (h : V (c.step e) = none) (hw : ¬ isWall G (c.step e)) :
    floodSpread G V c tc (c.step e) = some ⟨tc.distance + 1, tc.reachableFrom⟩ := by
  unfold floodSpread
  rw [if_pos ⟨e, mem_possibleDirections e, rfl⟩]
  unfold floodBump
  rw [h]
  simp only
  rw [if_pos (show (G.cell (c.step e)).type ≠ CellType.WALL from hw)]

theorem mem_floodNew (G : Game) (V : Pos → Option SearchTicket) (c q : Pos) :
    q ∈ (POSSIBLE_DIRECTIONS.filter (fun d => floodNew G V (c.step d))).map c.step ↔
      ∃ e, q = c.step e ∧ V q = none ∧ ¬ isWall G q := by
  constructor
  · intro h
    obtain ⟨e, he, rfl⟩ := List.mem_map.mp h
    have hn := (List.mem_filter.mp he).2
    simp only [floodNew, Bool.and_eq_true, Option.isNone_iff_eq_none, decide_eq_true_eq] at hn
    exact ⟨e, rfl, hn.1, hn.2⟩
  · rintro ⟨e, rfl, hnone, hw⟩
    refine List.mem_map_of_mem _ (List.mem_filter.mpr ⟨mem_possibleDirections e, ?_⟩)
    simp only [floodNew, Bool.and_eq_true, Option.isNone_iff_eq_none, decide_eq_true_eq]
    exact ⟨hnone, hw⟩

theorem pairwise_of_all {β : Type} (R : β → β → Prop) (l : List β)
    (h : ∀ a ∈ l, ∀ b ∈ l, R a b) : l.Pairwise R := by
  induction l with
  | nil => exact List.Pairwise.nil
  | cons a l ih =>
    refine List.Pairwise.cons (fun b hb => h a (List.mem_cons_self _ _) b
      (List.mem_cons_of_mem _ hb)) (ih ?_)
    intro x hx y hy
    exact h x (List.mem_cons_of_mem _ hx) y (List.mem_cons_of_mem _ hy)

/-- Every running pass of the flood loop preserves the invariant. -/
theorem FloodInv.flood_pass {α : Type} [DoubleOps α] {G : Game} {P : Params α} {u : Unit} {r : Int}
    {st st1 : FloodState α} (h : FloodInv G u st)
    (hstep : floodStep G P u r st = Step.running st1) : FloodInv G u st1 := by
  obtain ⟨c, rest, tc, hq, hv, _, hV1, hQ1, hS1⟩ := floodStep_running G P u r st st1 hstep
  have hV : st1.visited = floodSpread G st.visited c tc := hV1
  clear hV1
  have hcm : c ∈ st.scheduledAppointments := by rw [hq]; exact List.mem_cons_self _ _
  have hcell : FloodCell G u c := (h.queued c hcm).1
  have hcd : ticketDistance st.visited c = tc.distance := ticketDistance_some hv
  have hrest : ∀ q ∈ rest, q ∈ st.scheduledAppointments := by
    intro q hq1; rw [hq]; exact List.mem_cons_of_mem _ hq1
  have hfront : ∀ q ∈ st.scheduledAppointments, tc.distance ≤ ticketDistance st.visited q := by
    intro q hq1
    have := h.front_least c rest hq q hq1
    rw [hcd] at this; exact this
  have hspan : ∀ p t, st.visited p = some t → FloodCell G u p → t.distance ≤ tc.distance + 1 := by
    intro p t hp hcellp
    have := h.span c hcm p t hp hcellp
    rw [hcd] at this; exact this
  obtain ⟨wc, hwc, hwclen⟩ := h.walk c tc hv hcell
  have hext : ∀ e, FloodCell G u (c.step e) → ∀ ds, IsWalk (FloodCell G u) u.pos ds c →
      IsWalk (FloodCell G u) u.pos (ds ++ [e]) (c.step e) := by
    intro e he ds hds
    exact (isWalk_snoc _ _ _ _ _).mpr ⟨c, hds, he, rfl⟩
  have hlen1 : ∀ (ds : List Dir) (e : Dir),
      (((ds ++ [e]).length : Nat) : Int) = (ds.length : Int) + 1 := by
    intro ds e; simp
  have hnewcell : ∀ q, (∃ e, q = c.step e ∧ st.visited q = none ∧ ¬ isWall G q) →
      FloodCell G u q := by
    rintro q ⟨e, _, hnone, hw⟩
    refine ⟨?_, hw, ?_⟩
    · intro hqs
      obtain ⟨t, ht, _⟩ := h.src
      rw [hqs, ht] at hnone; simp at hnone
    · intro d hqd
      obtain ⟨t, ht, _⟩ := h.seed d
      rw [hqd, ht] at hnone; simp at hnone
  have hmemQ1 : ∀ q, q ∈ st1.scheduledAppointments →
      (q ∈ rest ∧ ∃ t, st.visited q = some t) ∨
      (∃ e, q = c.step e ∧ st.visited q = none ∧ ¬ isWall G q) := by
    intro q hq1
    rw [hQ1] at hq1
    rcases List.mem_append.mp hq1 with hq1 | hq1
    · exact Or.inl ⟨hq1, (h.queued q (hrest q hq1)).2⟩
    · exact Or.inr ((mem_floodNew G st.visited c q).mp hq1)
  have hdist1 : ∀ q, q ∈ st1.scheduledAppointments →
      tc.distance ≤ ticketDistance st1.visited q ∧
      (∀ t, st.visited q = some t → ticketDistance st1.visited q = t.distance) := by
    intro q hq1
    rcases hmemQ1 q hq1 with ⟨hqr, t, ht⟩ | ⟨e, rfl, hnone, hw⟩
    · obtain ⟨t1, ht1, hd1, _⟩ := floodSpread_keeps G st.visited c tc q t ht
      rw [hV, ticketDistance_some ht1, hd1]
      have := hfront q (hrest q hqr)
      rw [ticketDistance_some ht] at this
      refine ⟨this, ?_⟩
      intro t2 ht2
      rw [ht] at ht2
      rw [Option.some.inj ht2]
    · rw [hV, ticketDistance_some (floodSpread_new G st.visited c tc e hnone hw)]
      refine ⟨by simp only; omega, ?_⟩
      intro t2 ht2
      rw [hnone] at ht2; simp at ht2
  have hthrough : ∀ q e d, q = c.step e → FloodCell G u q → tc.reachableFrom.get d = true →
      ∃ ds, IsWalk (FloodCell G u) u.pos (d :: ds) q ∧
        ((d :: ds).length : Int) = tc.distance + 1 := by
    intro q e d hqe hcellq hd
    subst hqe
    obtain ⟨ds, hds, hlen⟩ := h.first c hcm tc d hv hd
    refine ⟨ds ++ [e], hext e hcellq (d :: ds) hds, ?_⟩
    have h2 := hlen1 (d :: ds) e
    rw [List.cons_append] at h2
    rw [h2, hlen]
  constructor
  · obtain ⟨t, ht, hd⟩ := h.src
    obtain ⟨t1, ht1, hd1, _⟩ := floodSpread_keeps G st.visited c tc _ t ht
    exact ⟨t1, by rw [hV]; exact ht1, by rw [hd1, hd]⟩
  · intro d
    obtain ⟨t, ht, hd⟩ := h.seed d
    obtain ⟨t1, ht1, hd1, _⟩ := floodSpread_keeps G st.visited c tc _ t ht
    exact ⟨t1, by rw [hV]; exact ht1, by rw [hd1, hd]⟩
  · intro q hq1
    rcases hmemQ1 q hq1 with ⟨hqr, t, ht⟩ | hnew
    · obtain ⟨t1, ht1, _⟩ := floodSpread_keeps G st.visited c tc q t ht
      exact ⟨(h.queued q (hrest q hqr)).1, t1, by rw [hV]; exact ht1⟩
    · refine ⟨hnewcell q hnew, ?_⟩
      obtain ⟨e, rfl, hnone, hw⟩ := hnew
      exact ⟨_, by rw [hV]; exact floodSpread_new G st.visited c tc e hnone hw⟩
  · intro p t1 hp hcellp
    rw [hV] at hp
    rw [hQ1, hS1]
    rcases floodSpread_cases G st.visited c tc p t1 hp with
      ⟨t, ht, _, _⟩ | ⟨hnone, ⟨e, hpe⟩, hw, _⟩
    · rcases h.live p t ht hcellp with hpq | ⟨e0, he0, he0p⟩
      · rw [hq] at hpq
        rcases List.mem_cons.mp hpq with hpc | hpr
        · exact Or.inr ⟨(c, tc), List.mem_append_right _ (List.mem_singleton_self _), hpc.symm⟩
        · exact Or.inl (List.mem_append_left _ hpr)
      · exact Or.inr ⟨e0, List.mem_append_left _ he0, he0p⟩
    · exact Or.inl (List.mem_append_right _
        ((mem_floodNew G st.visited c p).mpr ⟨e, hpe, hnone, hw⟩))
  · intro p t1 hp hcellp
    rw [hV] at hp
    rcases floodSpread_cases G st.visited c tc p t1 hp with
      ⟨t, ht, hd, _⟩ | ⟨_, ⟨e, hpe⟩, _, ht1⟩
    · rw [hd]; exact h.walk p t ht hcellp
    · subst hpe
      refine ⟨wc ++ [e], hext e hcellp wc hwc, ?_⟩
      rw [hlen1, ht1, hwclen]
  · intro q hq1 t1 d hp hd
    have hcellq : FloodCell G u q := by
      rcases hmemQ1 q hq1 with ⟨hqr, _⟩ | hnew
      · exact (h.queued q (hrest q hqr)).1
      · exact hnewcell q hnew
    rw [hV] at hp
    rcases floodSpread_cases G st.visited c tc q t1 hp with
      ⟨t, ht, hdist, heq | ⟨⟨e, hqe⟩, hreach⟩⟩ | ⟨_, ⟨e, hqe⟩, _, ht1⟩
    · have hqm : q ∈ st.scheduledAppointments := by
        rcases hmemQ1 q hq1 with ⟨hqr, _⟩ | ⟨_, _, hnone, _⟩
        · exact hrest q hqr
        · rw [hnone] at ht; simp at ht
      rw [heq] at hd ⊢
      exact h.first q hqm t d ht hd
    · have hqm : q ∈ st.scheduledAppointments := by
        rcases hmemQ1 q hq1 with ⟨hqr, _⟩ | ⟨_, _, hnone, _⟩
        · exact hrest q hqr
        · rw [hnone] at ht; simp at ht
      rw [hreach, DirectionBooleans.get_or, Bool.or_eq_true] at hd
      rw [hdist]
      rcases hd with hd | hd
      · exact h.first q hqm t d ht hd
      · obtain ⟨ds, hds, hlen⟩ := hthrough q e d hqe hcellq hd
        refine ⟨ds, hds, ?_⟩
        obtain ⟨wq, hwq, hwqlen⟩ := h.walk q t ht hcellq
        have hp1 := isWalk_parity _ _ _ _ hds
        have hp2 := isWalk_parity _ _ _ _ hwq
        have hge := hfront q hqm
        rw [ticketDistance_some ht] at hge
        have hle := hspan q t ht hcellq
        omega
    · rw [ht1] at hd ⊢
      obtain ⟨ds, hds, hlen⟩ := hthrough q e d hqe hcellq hd
      exact ⟨ds, hds, hlen⟩
  · rw [hQ1, List.pairwise_append]
    refine ⟨?_, ?_, ?_⟩
    · have hs := h.sorted
      rw [hq] at hs
      have hs2 := (List.pairwise_cons.mp hs).2
      refine hs2.imp_of_mem ?_
      intro a b ha hb hab
      obtain ⟨_, ta, hta⟩ := h.queued a (hrest a ha)
      obtain ⟨_, tb, htb⟩ := h.queued b (hrest b hb)
      have ha1 := (hdist1 a (by rw [hQ1]; exact List.mem_append_left _ ha)).2 ta hta
      have hb1 := (hdist1 b (by rw [hQ1]; exact List.mem_append_left _ hb)).2 tb htb
      rw [ticketDistance_some hta, ticketDistance_some htb] at hab
      rw [ha1, hb1]; exact hab
    · apply pairwise_of_all
      intro a ha b hb
      obtain ⟨ea, rfl, hna, hwa⟩ := (mem_floodNew G st.visited c a).mp ha
      obtain ⟨eb, rfl, hnb, hwb⟩ := (mem_floodNew G st.visited c b).mp hb
      rw [hV, ticketDistance_some (floodSpread_new G st.visited c tc ea hna hwa),
        ticketDistance_some (floodSpread_new G st.visited c tc eb hnb hwb)]
    · intro a ha b hb
      obtain ⟨hcella, ta, hta⟩ := h.queued a (hrest a ha)
      have ha1 := (hdist1 a (by rw [hQ1]; exact List.mem_append_left _ ha)).2 ta hta
      obtain ⟨eb, rfl, hnb, hwb⟩ := (mem_floodNew G st.visited c b).mp hb
      rw [ha1, hV, ticketDistance_some (floodSpread_new G st.visited c tc eb hnb hwb)]
      exact hspan a ta hta hcella
  · intro q hq1 p t1 hp hcellp
    have hqd := (hdist1 q hq1).1
    rw [hV] at hp
    rcases floodSpread_cases G st.visited c tc p t1 hp with
      ⟨t, ht, hd, _⟩ | ⟨_, _, _, ht1⟩
    · have := hspan p t ht hcellp
      omega
    · rw [ht1]; simp only; omega
  · intro e0 he0
    rw [hS1] at he0
    rcases List.mem_append.mp he0 with he0 | he0
    · obtain ⟨hcell0, ⟨t, ht, htd⟩, hleast, hclosed⟩ := h.done e0 he0
      refine ⟨hcell0, ?_, ?_, ?_⟩
      · obtain ⟨t1, ht1, hd1, _⟩ := floodSpread_keeps G st.visited c tc _ t ht
        exact ⟨t1, by rw [hV]; exact ht1, by rw [hd1, htd]⟩
      · intro q hq1
        have hc0 := hleast c hcm
        rw [hcd] at hc0
        have := (hdist1 q hq1).1
        omega
      · intro d hcelld
        obtain ⟨t1, ht1, hle⟩ := hclosed d hcelld
        obtain ⟨t2, ht2, hd2, _⟩ := floodSpread_keeps G st.visited c tc _ t1 ht1
        exact ⟨t2, by rw [hV]; exact ht2, by rw [hd2]; exact hle⟩
    · simp only [List.mem_singleton] at he0
      subst he0
      refine ⟨hcell, ?_, ?_, ?_⟩
      · obtain ⟨t1, ht1, hd1, _⟩ := floodSpread_keeps G st.visited c tc _ tc hv
        exact ⟨t1, by rw [hV]; exact ht1, hd1⟩
      · intro q hq1
        exact (hdist1 q hq1).1
      · intro d hcelld
        cases hold : st.visited (c.step d) with
        | some t =>
          obtain ⟨t1, ht1, hd1, _⟩ := floodSpread_keeps G st.visited c tc _ t hold
          refine ⟨t1, by rw [hV]; exact ht1, ?_⟩
          rw [hd1]
          exact hspan _ t hold hcelld
        | none =>
          exact ⟨_, by rw [hV]; exact floodSpread_new G st.visited c tc d hold hcelld.2.1,
            le_refl _⟩
  · intro e0 he0 d
    rw [hS1] at he0
    rcases List.mem_append.mp he0 with he0 | he0
    · exact h.exact e0 he0 d
    · simp only [List.mem_singleton] at he0
      subst he0
      exact h.front_exact c rest tc hq hv d
  · intro q hq1 t1 d hp hqd
    rw [hV] at hp
    rcases floodSpread_cases G st.visited c tc q t1 hp with
      ⟨t, ht, _, _⟩ | ⟨hnone, _, _, _⟩
    · have hqm : q ∈ st.scheduledAppointments := by
        rcases hmemQ1 q hq1 with ⟨hqr, _⟩ | ⟨_, _, hnone, _⟩
        · exact hrest q hqr
        · rw [hnone] at ht; simp at ht
      obtain ⟨t2, ht2, _, hsub, _⟩ := floodSpread_keeps G st.visited c tc q t ht
      rw [hp] at ht2
      rw [Option.some.inj ht2]
      exact hsub d (h.seeded q hqm t d ht hqd)
    · obtain ⟨t, ht, _⟩ := h.seed d
      rw [hqd, ht] at hnone; simp at hnone
  · intro q hq1 t1 hp e0 he0 d1 hstepq hdist d hd
    have hcellq : FloodCell G u q := by
      rcases hmemQ1 q hq1 with ⟨hqr, _⟩ | hnew
      · exact (h.queued q (hrest q hqr)).1
      · exact hnewcell q hnew
    rw [hV] at hp
    rw [hS1] at he0
    rcases List.mem_append.mp he0 with he0 | he0
    · rcases floodSpread_cases G st.visited c tc q t1 hp with
        ⟨t, ht, htd, _⟩ | ⟨hnone, _, _, _⟩
      · have hqm : q ∈ st.scheduledAppointments := by
          rcases hmemQ1 q hq1 with ⟨hqr, _⟩ | ⟨_, _, hnone, _⟩
          · exact hrest q hqr
          · rw [hnone] at ht; simp at ht
        obtain ⟨t2, ht2, _, hsub, _⟩ := floodSpread_keeps G st.visited c tc q t ht
        rw [hp] at ht2
        rw [Option.some.inj ht2]
        exact hsub d (h.inherited q hqm t ht e0 he0 d1 hstepq (by rw [← htd]; exact hdist) d hd)
      · obtain ⟨_, _, _, hclosed⟩ := h.done e0 he0
        obtain ⟨t, ht, _⟩ := hclosed d1 (by rw [hstepq]; exact hcellq)
        rw [hstepq, hnone] at ht; simp at ht
    · simp only [List.mem_singleton] at he0
      subst he0
      simp only at hstepq hd
      rcases floodSpread_cases G st.visited c tc q t1 hp with
        ⟨t, ht, _, _⟩ | ⟨_, _, _, ht1⟩
      · obtain ⟨t2, ht2, _, _, hnb⟩ := floodSpread_keeps G st.visited c tc q t ht
        rw [hp] at ht2
        rw [Option.some.inj ht2]
        exact hnb ⟨d1, hstepq.symm⟩ d hd
      · rw [ht1]; exact hd

/-- The invariant holds when the flood loop is entered. -/
theorem floodInv_start {α : Type} [DoubleOps α] (G : Game) (P : Params α) (u : Unit) :
    ∃ st0, floodStart G P u = some st0 ∧ FloodInv G u st0 := by
  obtain ⟨st0, h0, hs, hsrc, hseed, hnone, hq⟩ := floodStart_spec G P u
  have hcases : ∀ p t, st0.visited p = some t →
      (p = u.pos ∧ t = ⟨0, DirectionBooleans.all false⟩) ∨
      (∃ d, p = u.pos.step d ∧ t = ⟨1, DirectionBooleans.single d⟩) := by
    intro p t hp
    by_cases h1 : p = u.pos
    · subst h1
      rw [hsrc] at hp
      exact Or.inl ⟨rfl, (Option.some.inj hp).symm⟩
    · by_cases h2 : ∃ d, p = u.pos.step d
      · obtain ⟨d, rfl⟩ := h2
        rw [hseed d] at hp
        exact Or.inr ⟨d, rfl, (Option.some.inj hp).symm⟩
      · rw [hnone p h1 (fun d hd => h2 ⟨d, hd⟩)] at hp
        simp at hp
  have hmem : ∀ q, q ∈ st0.scheduledAppointments ↔ ∃ d, q = u.pos.step d ∧ freeCell G q = true := by
    intro q
    rw [hq]
    constructor
    · intro hq1
      obtain ⟨d, hd, rfl⟩ := List.mem_map.mp hq1
      exact ⟨d, rfl, (List.mem_filter.mp hd).2⟩
    · rintro ⟨d, rfl, hf⟩
      exact List.mem_map_of_mem _ (List.mem_filter.mpr ⟨mem_possibleDirections d, hf⟩)
  have hfreecell : ∀ d, freeCell G (u.pos.step d) = true → FloodCell G u (u.pos.step d) := by
    intro d hf
    simp only [freeCell, Bool.and_eq_true, decide_eq_true_eq] at hf
    exact ⟨Pos.step_ne_self u.pos d, hf.1, fun _ _ => hf.2⟩
  have hcellfree : ∀ d, FloodCell G u (u.pos.step d) → freeCell G (u.pos.step d) = true := by
    intro d hc
    simp only [freeCell, Bool.and_eq_true, decide_eq_true_eq]
    exact ⟨hc.2.1, hc.2.2 d rfl⟩
  have hqdist : ∀ q ∈ st0.scheduledAppointments, ticketDistance st0.visited q = 1 := by
    intro q hq1
    obtain ⟨d, rfl, _⟩ := (hmem q).mp hq1
    rw [ticketDistance_some (hseed d)]
  refine ⟨st0, h0, ?_⟩
  constructor
  · exact ⟨_, hsrc, rfl⟩
  · intro d; exact ⟨_, hseed d, rfl⟩
  · intro q hq1
    obtain ⟨d, rfl, hf⟩ := (hmem q).mp hq1
    exact ⟨hfreecell d hf, _, hseed d⟩
  · intro p t hp hcell
    rcases hcases p t hp with ⟨hps, _⟩ | ⟨d, rfl, _⟩
    · exact absurd hps hcell.1
    · exact Or.inl ((hmem _).mpr ⟨d, rfl, hcellfree d hcell⟩)
  · intro p t hp hcell
    rcases hcases p t hp with ⟨hps, _⟩ | ⟨d, rfl, rfl⟩
    · exact absurd hps hcell.1
    · exact ⟨[d], ⟨hcell, rfl⟩, by simp⟩
  · intro q hq1 t d hp hd
    obtain ⟨hcell, _⟩ : FloodCell G u q ∧ True := by
      obtain ⟨d0, rfl, hf⟩ := (hmem q).mp hq1
      exact ⟨hfreecell d0 hf, trivial⟩
    rcases hcases q t hp with ⟨hps, _⟩ | ⟨d0, rfl, rfl⟩
    · exact absurd hps hcell.1
    · simp only [DirectionBooleans.get_single] at hd
      subst hd
      exact ⟨[], ⟨hcell, rfl⟩, by simp⟩
  · apply pairwise_of_all
    intro a ha b hb
    rw [hqdist a ha, hqdist b hb]
  · intro q hq1 p t hp hcell
    rw [hqdist q hq1]
    rcases hcases p t hp with ⟨hps, _⟩ | ⟨d, rfl, rfl⟩
    · exact absurd hps hcell.1
    · simp
  · intro e he; rw [hs] at he; simp at he
  · intro e he; rw [hs] at he; simp at he
  · intro q _ t d hp hqd
    rw [hqd, hseed d] at hp
    rw [← Option.some.inj hp]
    exact (DirectionBooleans.get_single d d).mpr rfl
  · intro q _ t _ e he; rw [hs] at he; simp at he

/-- The cells scored after any number of passes of the flood are the cells scored in a state
that satisfies the invariant. -/
theorem FloodInv.after {α : Type} [DoubleOps α] {G : Game} {P : Params α} {u : Unit} {r : Int}
    (n : Nat) (st : FloodState α) (h : FloodInv G u st) :
    ∃ st1 : FloodState α, FloodInv G u st1 ∧ (floodAfter G P u r n st).scored = st1.scored := by
  induction n generalizing st with
  | zero => exact ⟨st, h, rfl⟩
  | succ n ih =>
    unfold floodAfter
    cases hs : floodStep G P u r st with
    | running st1 => exact ih st1 (h.flood_pass hs)
    | returned st1 =>
      exact ⟨st, h, (floodStep_returned G P u r st st1 hs).2.1⟩
    | failed => exact ⟨st, h, rfl⟩

/-- The vector `cellEvaluation` returns holds one common score in the flagged directions and
the neutral baseline in the others. -/
theorem cellEvaluation_flagged {α : Type} [DoubleOps α] (G : Game) (P : Params α)
    (distance : Int) (c : Cell) (u : Unit) (reachableFrom : DirectionBooleans) (a e : Int)
    (v : DirectionEvaluation α) (a1 e1 : Int)
    (h : cellEvaluation G P distance c u reachableFrom a e = some (v, a1, e1)) :
    ∃ x, ∀ d, v.get d = if reachableFrom.get d = true then x else P.NULL_EVALUATION := by
  have key : ∀ (x : α) (w : DirectionEvaluation α),
      DirectionEvaluation.ofFn (fun direction =>
        if reachableFrom.get direction = true then x else P.NULL_EVALUATION) = w →
      ∃ x, ∀ d, w.get d = if reachableFrom.get d = true then x else P.NULL_EVALUATION := by
    intro x w hw
    refine ⟨x, fun d => ?_⟩
    rw [← hw]
    cases d <;> rfl
  unfold cellEvaluation at h
  cases h1 : LOCAL_CELLTYPE_EVALUATION_FUNCTION P distance u c.type with
  | none => simp [h1] at h
  | some x1 =>
    cases h4 : VIRUS_EVALUATION_FUNCTION P distance c.virus u with
    | none =>
      by_cases hu : c.unit_id = -1 <;> by_cases hm : c.mask = true <;>
        simp [h1, h4, hu, hm, Option.bind_eq_some] at h
    | some x4 =>
      by_cases hu : c.unit_id = -1
      · by_cases hm : c.mask = true
        · cases h3 : MASK_EVALUATION_FUNCTION P distance u with
          | none => simp [h1, h4, hu, hm, h3] at h
          | some x3 =>
            simp only [h1, h4, hu, hm, h3, Option.bind_eq_bind, Option.some_bind,
              Option.pure_def, Option.some.injEq, Prod.mk.injEq, ne_eq, not_true_eq_false,
              if_false, if_true] at h
            exact key _ _ h.1
        · simp only [h1, h4, hu, hm, Option.bind_eq_bind, Option.some_bind,
            Option.pure_def, Option.some.injEq, Prod.mk.injEq, ne_eq, not_true_eq_false,
            if_false, Bool.false_eq_true] at h
          exact key _ _ h.1
      · cases h2 : LOCAL_UNIT_EVALUATION_FUNCTION G P distance u (G.unit c.unit_id) a e with
        | none => simp [h1, h4, hu, h2] at h
        | some y =>
          by_cases hm : c.mask = true
          · cases h3 : MASK_EVALUATION_FUNCTION P distance u with
            | none => simp [h1, h4, hu, hm, h2, h3] at h
            | some x3 =>
              simp only [h1, h4, hu, hm, h2, h3, Option.bind_eq_bind, Option.some_bind,
                Option.pure_def, Option.some.injEq, Prod.mk.injEq, ne_eq, not_false_eq_true,
                if_true] at h
              exact key _ _ h.1
          · simp only [h1, h4, hu, hm, h2, Option.bind_eq_bind, Option.some_bind,
              Option.pure_def, Option.some.injEq, Prod.mk.injEq, ne_eq, not_false_eq_true,
              if_true, if_false, Bool.false_eq_true] at h
            exact key _ _ h.1

/-- C7: for every board, unit and range, in every state `localEvaluation` passes through
(after any number `n` of passes of its loop, and in the state it returns in), each cell that
has been scored was scored with a reachability set that flags the direction `d` if and only
if `d` is the first step of a shortest walk from the unit's position to that cell through
the cells the flood expands, and with the length of such a walk as distance.  The vector
the cell scorer returns holds the score of the cell in the flagged directions and the
neutral baseline in all others. -/
theorem flood_reachability_exact {α : Type} [DoubleOps α] (G : Game) (P : Params α) (u : Unit)
    (r : Int) :
    (∃ st0, floodStart G P u = some st0 ∧
      (∀ n, ∀ e ∈ (floodAfter G P u r n st0).scored,
        (∀ d, e.2.reachableFrom.get d = true ↔ FirstStep G u e.1 d) ∧
        (∃ ds, IsWalk (FloodCell G u) u.pos ds e.1 ∧ (ds.length : Int) = e.2.distance) ∧
        (∀ ds, IsWalk (FloodCell G u) u.pos ds e.1 → e.2.distance ≤ ds.length)) ∧
      (∀ fuel st, localFlood G P fuel u r = some st → ∀ e ∈ st.scored,
        ∀ d, e.2.reachableFrom.get d = true ↔ FirstStep G u e.1 d)) ∧
    (∀ distance c reachableFrom a e v a1 e1,
      cellEvaluation G P distance c u reachableFrom a e = some (v, a1, e1) →
      ∃ x, ∀ d, v.get d = if reachableFrom.get d = true then x else P.NULL_EVALUATION) := by
  refine ⟨?_, fun distance c reachableFrom a e v a1 e1 h =>
    cellEvaluation_flagged G P distance c u reachableFrom a e v a1 e1 h⟩
  obtain ⟨st0, h0, hinv0⟩ := floodInv_start G P u
  have hall : ∀ n, ∀ e ∈ (floodAfter G P u r n st0).scored,
      (∀ d, e.2.reachableFrom.get d = true ↔ FirstStep G u e.1 d) ∧
      (∃ ds, IsWalk (FloodCell G u) u.pos ds e.1 ∧ (ds.length : Int) = e.2.distance) ∧
      (∀ ds, IsWalk (FloodCell G u) u.pos ds e.1 → e.2.distance ≤ ds.length) := by
    intro n e he
    obtain ⟨st1, hinv, hsc⟩ := FloodInv.after (P := P) (r := r) n st0 hinv0
    rw [hsc] at he
    obtain ⟨hcell, ⟨t, ht, htd⟩, _, _⟩ := hinv.done e he
    refine ⟨hinv.exact e he, ?_, ?_⟩
    · rw [← htd]; exact hinv.walk e.1 t ht hcell
    · intro ds hds
      rw [← htd]; exact hinv.distance_le e.1 t ht ds hds
  refine ⟨st0, h0, hall, ?_⟩
  intro fuel st hst e he
  unfold localFlood at hst
  rw [h0] at hst
  simp only [Option.some_bind] at hst
  rw [floodLoop_eq_floodAfter G P u r fuel st0 st hst] at he
  exact (hall fuel e he).1

/-- A run of the flood on the open board at range 2: the twelve cells within distance 2 are
scored in breadth-first order, the diagonal ones with both of their first steps flagged. -/
theorem flood_open_board_example :
    (localFlood twoCityGame (defaultParams Score) 13 (twoCityGame.unit 0) 2).map
        (fun st => st.scored.map (fun e => (e.1, e.2.distance, e.2.reachableFrom))) =
      some [(⟨1, 0⟩, 1, ⟨true, false, false, false⟩), (⟨0, 1⟩, 1, ⟨false, true, false, false⟩),
        (⟨-1, 0⟩, 1, ⟨false, false, true, false⟩), (⟨0, -1⟩, 1, ⟨false, false, false, true⟩),
        (⟨2, 0⟩, 2, ⟨true, false, false, false⟩), (⟨1, 1⟩, 2, ⟨true, true, false, false⟩),
        (⟨1, -1⟩, 2, ⟨true, false, false, true⟩), (⟨0, 2⟩, 2, ⟨false, true, false, false⟩),
        (⟨-1, 1⟩, 2, ⟨false, true, true, false⟩), (⟨-2, 0⟩, 2, ⟨false, false, true, false⟩),
        (⟨-1, -1⟩, 2, ⟨false, false, true, true⟩), (⟨0, -2⟩, 2, ⟨false, false, false, true⟩)] := by
  decide

/-! ## The scorers (C11, C12, C14) -/

/-- A search without fuel returns nothing. -/
theorem shortestPathDirections_zero (G : Game) (top : TopChoice) (s D : Pos) :
    shortestPathDirections G top 0 s D = none := by
  unfold shortestPathDirections pathSearch
  cases pathStart G s D <;> rfl

/-- C11: when every qualifying tile is a position of the board (none is the sentinel) at
Manhattan distance below 99999999 from the unit, `closestCityOrPathEstimation` returns the
sentinel `(-1,-1)` if and only if no tile qualifies, that is, if and only if every city and
every path that the mover does not own (every city and path when `GLOBAL_OWNED_CITIES` is
set) has no tile.  In that case `globalEvaluation` returns the neutral baseline in all four
directions whichever fuel the search is given, also with no fuel at all, with which every
search fails: no search is run. -/
theorem closest_sentinel_iff {α : Type} (G : Game) (P : Params α) (myUnit : Unit)
    (hboard : ∀ p ∈ qualifyingTiles G P, p ≠ ⟨-1, -1⟩)
    (hdist : ∀ p ∈ qualifyingTiles G P, manhattanDistance myUnit.pos p < INT_INFINITY) :
    (closestCityOrPathEstimation G P myUnit.pos = ⟨-1, -1⟩ ↔ qualifyingTiles G P = []) ∧
    (qualifyingTiles G P = [] ↔
      (∀ id : Nat, (id : Int) < G.nb_cities →
        (G.city_owner id ≠ G.me ∨ P.GLOBAL_OWNED_CITIES = true) → G.city id = []) ∧
      (∀ id : Nat, (id : Int) < G.nb_paths →
        (G.path_owner id ≠ G.me ∨ P.GLOBAL_OWNED_CITIES = true) → (G.path id).2 = [])) ∧
    (qualifyingTiles G P = [] →
      (∀ top fuel, globalEvaluation G P top fuel myUnit =
        some (DirectionEvaluation.all P.NULL_EVALUATION)) ∧
      ∀ top s D, shortestPathDirections G top 0 s D = none) := by
  have h1 : closestCityOrPathEstimation G P myUnit.pos = ⟨-1, -1⟩ ↔ qualifyingTiles G P = [] := by
    rw [closestCityOrPathEstimation_eq]
    rcases updateCandidates_spec myUnit.pos (qualifyingTiles G P) (⟨-1, -1⟩, INT_INFINITY) with
      ⟨heq, hall⟩ | ⟨before, after, hsplit, _⟩
    · have hnil : qualifyingTiles G P = [] := by
        apply List.eq_nil_iff_forall_not_mem.mpr
        intro q hq
        exact absurd (hdist q hq) (not_lt.mpr (hall q hq))
      rw [heq]
      exact ⟨fun _ => hnil, fun _ => rfl⟩
    · have hmem : (updateCandidates myUnit.pos (⟨-1, -1⟩, INT_INFINITY) (qualifyingTiles G P)).1 ∈
          qualifyingTiles G P := by
        have : (updateCandidates myUnit.pos (⟨-1, -1⟩, INT_INFINITY) (qualifyingTiles G P)).1 ∈
            before ++
              (updateCandidates myUnit.pos (⟨-1, -1⟩, INT_INFINITY) (qualifyingTiles G P)).1 ::
                after :=
          List.mem_append_right _ (List.mem_cons_self _ _)
        rw [← hsplit] at this
        exact this
      constructor
      · intro h
        exact absurd h (hboard _ hmem)
      · intro h
        rw [h] at hmem
        exact absurd hmem (List.not_mem_nil _)
  refine ⟨h1, ?_, ?_⟩
  · rw [List.eq_nil_iff_forall_not_mem]
    constructor
    · intro h
      constructor
      · intro id hid hown
        apply List.eq_nil_iff_forall_not_mem.mpr
        intro p hp
        exact h p ((mem_qualifyingTiles G P p).mpr (Or.inl ⟨id, hid, hown, hp⟩))
      · intro id hid hown
        apply List.eq_nil_iff_forall_not_mem.mpr
        intro p hp
        exact h p ((mem_qualifyingTiles G P p).mpr (Or.inr ⟨id, hid, hown, hp⟩))
    · rintro ⟨hc, hp⟩ p hmem
      rcases (mem_qualifyingTiles G P p).mp hmem with ⟨id, hid, hown, hin⟩ | ⟨id, hid, hown, hin⟩
      · rw [hc id hid hown] at hin
        exact absurd hin (List.not_mem_nil _)
      · rw [hp id hid hown] at hin
        exact absurd hin (List.not_mem_nil _)
  · intro hnil
    refine ⟨fun top fuel => ?_, fun top s D => shortestPathDirections_zero G top s D⟩
    unfold globalEvaluation
    simp only [h1.mpr hnil]
    rfl

/-- Witness of C11 on the board with the cities `(0,3), (2,0)` and `(0,2), (1,1)`: all four
tiles are board positions near the unit at `(0,0)`, so the sentinel is not returned. -/
theorem closest_sentinel_iff_witness :
    (∀ p ∈ qualifyingTiles twoCityGame (defaultParams Score), p ≠ ⟨-1, -1⟩) ∧
    (∀ p ∈ qualifyingTiles twoCityGame (defaultParams Score),
      manhattanDistance (twoCityGame.unit 0).pos p < INT_INFINITY) ∧
    (closestCityOrPathEstimation twoCityGame (defaultParams Score) (twoCityGame.unit 0).pos =
        ⟨-1, -1⟩ ↔ qualifyingTiles twoCityGame (defaultParams Score) = []) :=
  have hq : qualifyingTiles twoCityGame (defaultParams Score) =
      [⟨0, 3⟩, ⟨2, 0⟩, ⟨0, 2⟩, ⟨1, 1⟩] := by
    simp [qualifyingTiles, twoCityGame, exampleGame, defaultParams, List.range_succ]
  have hb : ∀ p ∈ qualifyingTiles twoCityGame (defaultParams Score), p ≠ ⟨-1, -1⟩ := by
    rw [hq]; decide
  have hd : ∀ p ∈ qualifyingTiles twoCityGame (defaultParams Score),
      manhattanDistance (twoCityGame.unit 0).pos p < INT_INFINITY := by
    rw [hq]; decide
  ⟨hb, hd, (closest_sentinel_iff twoCityGame (defaultParams Score) (twoCityGame.unit 0) hb hd).1⟩

/-- The product of two scores does not depend on the order of the factors. -/
theorem Score.mul_swap (x y : Score) : x * y = y * x := by
  show Score.mul x y = Score.mul y x
  cases x <;> cases y <;> simp [Score.mul, mul_comm]

/-- C12: on a carrier whose product is commutative (as the product of two `double`s is), for
every distance `d > 1`, units and counters `a` and `e`, `ENEMY_UNIT_EVALUATION_FUNCTION`
returns `w * (100 + myUnit.health - enemyUnit.health) * (a - e)^5 / d^6`, where `w` is the
entry of the 2×2 table over (`myUnit.damage > 0`, `enemyUnit.damage > 0`); for `d ≤ 1` its
assertion fails. -/
theorem enemy_score_formula {α : Type} [DoubleOps α] (P : Params α)
    (hcomm : ∀ x y : α, x * y = y * x) (d : Int) (myUnit enemyUnit : Unit) (a e : Int) :
    (1 < d → ENEMY_UNIT_EVALUATION_FUNCTION P d myUnit enemyUnit a e =
      some (enemyScoreSpec P d myUnit enemyUnit a e)) ∧
    (d ≤ 1 → ENEMY_UNIT_EVALUATION_FUNCTION P d myUnit enemyUnit a e = none) := by
  constructor
  · intro hd
    have hd1 : ¬ ¬ d > 1 := not_not.mpr hd
    unfold ENEMY_UNIT_EVALUATION_FUNCTION enemyScoreSpec enemyWeight
    rw [if_neg hd1]
    have hsum : 100 + (myUnit.health - enemyUnit.health) =
        100 + myUnit.health - enemyUnit.health := by omega
    simp only [hsum]
    by_cases h1 : myUnit.damage > 0 <;> by_cases h2 : enemyUnit.damage > 0 <;>
      simp only [h1, h2, if_true, if_false, decide_True, decide_False] <;>
      rw [hcomm (DoubleOps.ofInt (100 + myUnit.health - enemyUnit.health))]
  · intro hd
    unfold ENEMY_UNIT_EVALUATION_FUNCTION
    rw [if_pos (by omega)]

/-- Witness of C12 on the carrier `Score` with the default weights: two healthy units of
100 health points at distance 2, no ally and one enemy counted. -/
theorem enemy_score_formula_witness :
    (∀ x y : Score, x * y = y * x) ∧
    ENEMY_UNIT_EVALUATION_FUNCTION (defaultParams Score) 2 (twoCityGame.unit 0)
        (twoCityGame.unit 1) 0 1 =
      some (enemyScoreSpec (defaultParams Score) 2 (twoCityGame.unit 0) (twoCityGame.unit 1)
        0 1) :=
  ⟨Score.mul_swap,
    (enemy_score_formula (defaultParams Score) Score.mul_swap 2 (twoCityGame.unit 0)
      (twoCityGame.unit 1) 0 1).1 (by decide)⟩

/-- C14 (counterexample): for an empty cell the cell-type score at distance 0 is the neutral
baseline, returned without any precondition violation. -/
theorem celltype_empty_counterexample :
    LOCAL_CELLTYPE_EVALUATION_FUNCTION (defaultParams Score) 0 (twoCityGame.unit 0)
      CellType.EMPTY = some (Score.fin 0) := by
  rfl

/-- C14 (amended): for every unit, at distance 0 the cell-type score fails with a
precondition violation for a city, a path and a wall cell; for an empty cell it returns the
neutral baseline at every distance, distance 0 included.  At every distance other than 0 it
returns a value for the other three cell types as well. -/
theorem celltype_distance_zero {α : Type} [DoubleOps α] (P : Params α) (myUnit : Unit) :
    LOCAL_CELLTYPE_EVALUATION_FUNCTION P 0 myUnit CellType.CITY = none ∧
    LOCAL_CELLTYPE_EVALUATION_FUNCTION P 0 myUnit CellType.PATH = none ∧
    LOCAL_CELLTYPE_EVALUATION_FUNCTION P 0 myUnit CellType.WALL = none ∧
    (∀ d, LOCAL_CELLTYPE_EVALUATION_FUNCTION P d myUnit CellType.EMPTY =
      some P.NULL_EVALUATION) ∧
    (∀ d cellType, d ≠ 0 →
      (LOCAL_CELLTYPE_EVALUATION_FUNCTION P d myUnit cellType).isSome = true) := by
  refine ⟨rfl, rfl, rfl, fun _ => rfl, ?_⟩
  intro d cellType hd
  cases cellType <;>
    simp [LOCAL_CELLTYPE_EVALUATION_FUNCTION, LOCAL_CITY_EVALUATION_FUNCTION,
      LOCAL_PATH_EVALUATION_FUNCTION, LOCAL_WALL_EVALUATION_FUNCTION, hd]

/-! ## The combat score over the flood (C13) -/

/-- C13 (counterexample): on the open board with the unit at `(5,5)`, no ally and two enemy
units of equal health and infection state at `(5,7)` and `(3,5)`, `localEvaluation` at
range 2 scores the enemy at `(5,7)` at distance 2 with only RIGHT flagged and then the enemy
at `(3,5)` at distance 2 with only TOP flagged.  The first adds `-625/16` to RIGHT and the
second adds `-1250` to TOP, which are also the scores returned for these directions: the two
magnitudes differ. -/
theorem enemy_symmetry_counterexample :
    (localFlood twoEnemyGame (defaultParams Score) 13 (twoEnemyGame.unit 0) 2).map
        (fun st => (st.scored.filter (fun e => decide ((twoEnemyGame.cell e.1).unit_id ≠ -1)),
          st.evaluation)) =
      some ([(⟨5, 7⟩, ⟨2, DirectionBooleans.single Dir.RIGHT⟩),
          (⟨3, 5⟩, ⟨2, DirectionBooleans.single Dir.TOP⟩)],
        ⟨Score.fin 0, Score.fin (-625 / 16), Score.fin (-1250), Score.fin 0⟩) ∧
    cellEvaluation twoEnemyGame (defaultParams Score) 2 (twoEnemyGame.cell ⟨5, 7⟩)
        (twoEnemyGame.unit 0) (DirectionBooleans.single Dir.RIGHT) 0 0 =
      some (⟨Score.fin 0, Score.fin (-625 / 16), Score.fin 0, Score.fin 0⟩, 0, 1) ∧
    cellEvaluation twoEnemyGame (defaultParams Score) 2 (twoEnemyGame.cell ⟨3, 5⟩)
        (twoEnemyGame.unit 0) (DirectionBooleans.single Dir.TOP) 0 1 =
      some (⟨Score.fin 0, Score.fin 0, Score.fin (-1250), Score.fin 0⟩, 0, 2) ∧
    |(-625 / 16 : ℚ)| ≠ |(-1250 : ℚ)| := by
  refine ⟨by decide!, by decide!, by decide!, ?_⟩
  rw [abs_of_neg (by norm_num), abs_of_neg (by norm_num)]
  norm_num

/-- C13 (amended): the enemy score depends on the order in which enemies are met.  For two
enemy units of equal health and equal infection state scored at the same distance `d > 1`,
the unit scorer called with `a` allies and `e` enemies counted so far returns
`k * (a - (e + 1))^5 / d^6` for the first and counts it, and called next it returns
`k * (a - (e + 2))^5 / d^6` for the second, with the same factor `k` (weight times
`100 + myUnit.health - enemy.health`): the two scores differ in the counter term only. -/
theorem enemy_score_counts_order {α : Type} [DoubleOps α] (G : Game) (P : Params α) (d : Int)
    (hd : 1 < d) (myUnit first second : Unit) (hfirst : first.player ≠ G.me)
    (hsecond : second.player ≠ G.me) (hhealth : first.health = second.health)
    (hinf : first.damage > 0 ↔ second.damage > 0) (a e : Int) :
    ∃ k : α,
      LOCAL_UNIT_EVALUATION_FUNCTION G P d myUnit first a e =
        some (k * powInt (a - (e + 1)) 5 / powInt d 6, a, e + 1) ∧
      LOCAL_UNIT_EVALUATION_FUNCTION G P d myUnit second a (e + 1) =
        some (k * powInt (a - (e + 1 + 1)) 5 / powInt d 6, a, e + 1 + 1) := by
  have hd1 : ¬ ¬ d > 1 := not_not.mpr hd
  refine ⟨DoubleOps.ofInt (100 + (myUnit.health - first.health)) *
    (if myUnit.damage > 0 then
      (if first.damage > 0 then P.INFECTED_ENEMY_UNIT_EVALUATION_IF_INFECTED
       else P.ENEMY_UNIT_EVALUATION_IF_INFECTED)
     else
      (if first.damage > 0 then P.INFECTED_ENEMY_UNIT_EVALUATION
       else P.ENEMY_UNIT_EVALUATION)), ?_, ?_⟩
  · unfold LOCAL_UNIT_EVALUATION_FUNCTION ENEMY_UNIT_EVALUATION_FUNCTION
    simp only [hfirst, decide_False, Bool.false_eq_true, if_false, if_neg hd1, Option.map_some']
  · unfold LOCAL_UNIT_EVALUATION_FUNCTION ENEMY_UNIT_EVALUATION_FUNCTION
    simp only [hsecond, decide_False, Bool.false_eq_true, if_false, if_neg hd1,
      Option.map_some', ← hhealth]
    by_cases h1 : first.damage > 0
    · simp only [h1, hinf.mp h1, if_true]
    · have h2 : ¬ second.damage > 0 := fun h => h1 (hinf.mpr h)
      simp only [h1, h2, if_false]

/-- Witness of C13 (amended) for the units of the board with two enemies: scored in this
order at distance 2 with no ally, unit 1 gets `-625/16` and unit 2 gets `-1250`. -/
theorem enemy_score_counts_order_witness :
    ∃ k : Score,
      LOCAL_UNIT_EVALUATION_FUNCTION twoEnemyGame (defaultParams Score) 2 (twoEnemyGame.unit 0)
          (twoEnemyGame.unit 1) 0 0 =
        some (k * powInt (0 - (0 + 1)) 5 / powInt 2 6, 0, 0 + 1) ∧
      LOCAL_UNIT_EVALUATION_FUNCTION twoEnemyGame (defaultParams Score) 2 (twoEnemyGame.unit 0)
          (twoEnemyGame.unit 2) 0 (0 + 1) =
        some (k * powInt (0 - (0 + 1 + 1)) 5 / powInt 2 6, 0, 0 + 1 + 1) :=
  enemy_score_counts_order twoEnemyGame (defaultParams Score) 2 (by decide)
    (twoEnemyGame.unit 0) (twoEnemyGame.unit 1) (twoEnemyGame.unit 2) (by decide) (by decide)
    (by decide) (by decide) 0 0

/-! ## The scores of `localEvaluation` -/

theorem DirectionEvaluation.get_addAt {α : Type} (plus : α → α → α) (e : DirectionEvaluation α)
    (d d1 : Dir) (x : α) :
    (e.addAt plus d x).get d1 = if d1 = d then plus (e.get d) x else e.get d1 := by
  cases d <;> cases d1 <;> rfl

theorem DirectionEvaluation.get_ofFn {α : Type} (f : Dir → α) (d : Dir) :
    (DirectionEvaluation.ofFn f).get d = f d := by
  cases d <;> rfl

theorem DirectionEvaluation.get_add {α : Type} (plus : α → α → α) (a b : DirectionEvaluation α)
    (d : Dir) : (a.add plus b).get d = plus (a.get d) (b.get d) := by
  cases d <;> rfl

theorem DirectionEvaluation.ext_get {α : Type} (a b : DirectionEvaluation α)
    (h : ∀ d, a.get d = b.get d) : a = b := by
  obtain ⟨a1, a2, a3, a4⟩ := a
  obtain ⟨b1, b2, b3, b4⟩ := b
  have h1 := h Dir.BOTTOM
  have h2 := h Dir.RIGHT
  have h3 := h Dir.TOP
  have h4 := h Dir.LEFT
  simp only [DirectionEvaluation.get] at h1 h2 h3 h4
  rw [h1, h2, h3, h4]

/-- One round of the seeding loop changes the score of its own direction only. -/
theorem floodSeed_evaluation {α : Type} [DoubleOps α] (G : Game) (P : Params α) (u : Unit)
    (st st1 : FloodState α) (d : Dir) (h : floodSeed G P u st d = some st1) (e : Dir) :
    st1.evaluation.get e =
      if e = d then seedAdd G P u (st.evaluation.get d) d else st.evaluation.get e := by
  unfold floodSeed at h
  cases hv : st.visited (u.pos.step d) with
  | some t => simp [hv] at h
  | none =>
    simp only [hv] at h
    unfold seedAdd
    by_cases hw : (G.cell (u.pos.step d)).type = CellType.WALL
    · simp only [hw, if_true, Option.some.injEq] at h
      subst h
      simp only [DirectionEvaluation.get_addAt, hw, if_true]
    · by_cases hu : (G.cell (u.pos.step d)).unit_id = -1
      · simp only [hw, hu, if_false, ne_eq, not_true_eq_false, Option.some.injEq] at h
        subst h
        simp only [hw, hu, if_false, ne_eq, not_true_eq_false]
        by_cases hed : e = d
        · rw [if_pos hed, hed]
        · rw [if_neg hed]
      · simp only [hw, hu, if_false, ne_eq, not_false_eq_true, if_true, Option.some.injEq] at h
        subst h
        simp only [DirectionEvaluation.get_addAt, hw, hu, if_false, ne_eq, not_false_eq_true,
          if_true, ADJACENT_COMBAT_EVALUATION]
        by_cases hp : (G.unit (G.cell (u.pos.step d)).unit_id).player = G.me
        · simp only [hp, decide_True, if_true]
        · simp only [hp, decide_False, if_false, Bool.false_eq_true]

/-- The seeding loop over distinct directions: each of them gets its adjacency constant. -/
theorem floodSeed_foldlM_evaluation {α : Type} [DoubleOps α] (G : Game) (P : Params α)
    (u : Unit) (ds : List Dir) (hnd : ds.Nodup) (st st1 : FloodState α)
    (h : ds.foldlM (floodSeed G P u) st = some st1) (e : Dir) :
    st1.evaluation.get e =
      if e ∈ ds then seedAdd G P u (st.evaluation.get e) e else st.evaluation.get e := by
  induction ds generalizing st with
  | nil =>
    simp only [List.foldlM_nil, Option.pure_def, Option.some.injEq] at h
    subst h
    simp
  | cons d ds ih =>
    have hd : d ∉ ds := (List.nodup_cons.mp hnd).1
    rw [List.foldlM_cons] at h
    cases h1 : floodSeed G P u st d with
    | none => simp [h1] at h
    | some st2 =>
      rw [h1] at h
      simp only [Option.bind_eq_bind, Option.some_bind] at h
      rw [ih (List.nodup_cons.mp hnd).2 st2 h]
      have h2 := floodSeed_evaluation G P u st st2 d h1 e
      by_cases hed : e = d
      · subst hed
        simp only [hd, if_false, List.mem_cons, true_or, if_true]
        rw [h2, if_pos rfl]
      · rw [h2, if_neg hed]
        simp only [List.mem_cons, hed, false_or]

/-- The scores when the flood loop is entered: the neutral baseline plus the adjacency
constant of each blocked neighbour. -/
theorem floodStart_evaluation {α : Type} [DoubleOps α] (G : Game) (P : Params α) (u : Unit)
    (st0 : FloodState α) (h : floodStart G P u = some st0) (d : Dir) :
    st0.evaluation.get d = seedAdd G P u P.NULL_EVALUATION d := by
  have h1 := floodSeed_foldlM_evaluation G P u POSSIBLE_DIRECTIONS possibleDirections_nodup
    (floodInit P u) st0 h d
  rw [h1, if_pos (mem_possibleDirections d)]
  simp only [floodInit, DirectionEvaluation.get_all]

/-! ## A unit enclosed by walls (C16) -/

/-- When the four neighbours of the unit are walls, the flood loop is entered with an empty
queue. -/
theorem floodStart_enclosed {α : Type} [DoubleOps α] (G : Game) (P : Params α) (u : Unit)
    (hwalls : ∀ d, isWall G (u.pos.step d)) :
    ∃ st0, floodStart G P u = some st0 ∧ st0.scheduledAppointments = [] ∧
      st0.evaluation =
        DirectionEvaluation.all (P.NULL_EVALUATION + P.ADJACENT_WALL_EVALUATION) := by
  obtain ⟨st0, h0, _, _, _, _, hq⟩ := floodStart_spec G P u
  refine ⟨st0, h0, ?_, ?_⟩
  · rw [hq]
    have : POSSIBLE_DIRECTIONS.filter (fun d => freeCell G (u.pos.step d)) = [] := by
      apply List.filter_eq_nil_iff.mpr
      intro d _
      have hw : (G.cell (u.pos.step d)).type = CellType.WALL := hwalls d
      simp [freeCell, hw]
    rw [this]
    rfl
  · apply DirectionEvaluation.ext_get
    intro d
    have hw : (G.cell (u.pos.step d)).type = CellType.WALL := hwalls d
    rw [floodStart_evaluation G P u st0 h0 d, DirectionEvaluation.get_all]
    unfold seedAdd
    rw [if_pos hw]

/-- When the four neighbours of the source are walls, the search loop is entered with an
empty queue and the destination, unless it is one of these neighbours, holds no ticket with
a flagged direction. -/
theorem pathStart_enclosed (G : Game) (s D : Pos) (hwalls : ∀ d, isWall G (s.step d))
    (hD : ∀ d, D ≠ s.step d) :
    ∃ st0, pathStart G s D = some st0 ∧ st0.scheduledAppointments = [] ∧
      ((st0.visited D).getD PathTicket.fresh).reachableFrom = DirectionBooleans.all false := by
  obtain ⟨st0, h0, _, hsrc, _, hnone, hq⟩ := pathStart_spec G s D
  refine ⟨st0, h0, ?_, ?_⟩
  · rw [hq]
    have : POSSIBLE_DIRECTIONS.filter (fun d => freeCell G (s.step d)) = [] := by
      apply List.filter_eq_nil_iff.mpr
      intro d _
      have hw : (G.cell (s.step d)).type = CellType.WALL := hwalls d
      simp [freeCell, hw]
    rw [this]
    rfl
  · by_cases hs : D = s
    · rw [hs, hsrc]
      rfl
    · rw [hnone D hs hD]
      rfl

/-- C16: for a unit whose four neighbours are all walls and whose global target is not one of
them, whatever the range, the tie-break of the queue and the fuel (at least one pass):
`localEvaluation` returns the neutral baseline plus `ADJACENT_WALL_EVALUATION` in each of the
four directions; `shortestPathDirections` to any destination that is not one of the four
neighbours enters its loop with an empty queue, so it expands no cell, and returns the
all-false set through the exit after the loop; `globalEvaluation` returns the neutral
baseline in all four directions; and the four combined scores of the full mode are the same
value. -/
theorem enclosed_unit_scores {α : Type} [DoubleOps α] (G : Game) (P : Params α) (u : Unit)
    (top : TopChoice) (fuel : Nat) (r : Int) (hwalls : ∀ d, isWall G (u.pos.step d))
    (htarget : ∀ d, closestCityOrPathEstimation G P u.pos ≠ u.pos.step d) :
    localEvaluation G P (fuel + 1) u r =
      some (DirectionEvaluation.all (P.NULL_EVALUATION + P.ADJACENT_WALL_EVALUATION)) ∧
    (∀ D, (∀ d, D ≠ u.pos.step d) →
      (∃ st0, pathStart G u.pos D = some st0 ∧ st0.scheduledAppointments = []) ∧
      pathSearch G top (fuel + 1) u.pos D =
        some (PathExit.exhausted, DirectionBooleans.all false)) ∧
    globalEvaluation G P top (fuel + 1) u = some (DirectionEvaluation.all P.NULL_EVALUATION) ∧
    ∀ cpuStatus round, (cpuStatus < 0.5 ∨ (cpuStatus < 0.8 ∧ round > 175)) →
      (playEvaluation G P top (fuel + 1) cpuStatus round u).2 =
        some (DirectionEvaluation.all
          (P.NULL_EVALUATION + P.ADJACENT_WALL_EVALUATION + P.NULL_EVALUATION)) := by
  have hlocal : ∀ r1, localEvaluation G P (fuel + 1) u r1 =
      some (DirectionEvaluation.all (P.NULL_EVALUATION + P.ADJACENT_WALL_EVALUATION)) := by
    intro r1
    obtain ⟨st0, h0, hq, hev⟩ := floodStart_enclosed G P u hwalls
    unfold localEvaluation localFlood
    rw [h0]
    simp only [Option.some_bind]
    unfold floodLoop floodStep
    simp only [hq, Option.map_some', hev]
  have hpath : ∀ D, (∀ d, D ≠ u.pos.step d) →
      pathSearch G top (fuel + 1) u.pos D =
        some (PathExit.exhausted, DirectionBooleans.all false) := by
    intro D hD
    obtain ⟨st0, h0, hq, hres⟩ := pathStart_enclosed G u.pos D hwalls hD
    unfold pathSearch
    rw [h0]
    simp only [Option.some_bind]
    unfold pathLoop pathStep
    simp only [hq, hres]
  have hglobal : globalEvaluation G P top (fuel + 1) u =
      some (DirectionEvaluation.all P.NULL_EVALUATION) := by
    unfold globalEvaluation
    by_cases hnull : isNull (closestCityOrPathEstimation G P u.pos) = true
    · simp only [hnull, if_true, Option.map_some']
      rfl
    · simp only [hnull, if_false, Bool.false_eq_true, shortestPathDirections,
        hpath _ htarget, Option.map_some']
      rfl
  refine ⟨hlocal r, fun D hD => ⟨?_, hpath D hD⟩, hglobal, ?_⟩
  · obtain ⟨st0, h0, hq, _⟩ := pathStart_enclosed G u.pos D hwalls hD
    exact ⟨st0, h0, hq⟩
  · intro cpuStatus round hfull
    unfold playEvaluation
    rw [if_pos hfull]
    simp only [hlocal, hglobal, Option.some_bind, Option.map_some']
    rfl

/-- Witness of C16 on the board whose origin is enclosed by four walls, with the city tile
`(0,3)` as global target: in the full mode the four combined scores are all `-∞`. -/
theorem enclosed_unit_scores_witness :
    (∀ d, isWall enclosedGame ((enclosedGame.unit 0).pos.step d)) ∧
    (∀ d, closestCityOrPathEstimation enclosedGame (defaultParams Score) (enclosedGame.unit 0).pos
      ≠ (enclosedGame.unit 0).pos.step d) ∧
    (playEvaluation enclosedGame (defaultParams Score) (fun _ => firstMin) (0 + 1) 0 0
        (enclosedGame.unit 0)).2 =
      some (DirectionEvaluation.all Score.negInf) :=
  have hw : ∀ d, isWall enclosedGame ((enclosedGame.unit 0).pos.step d) := by
    intro d; cases d <;> decide
  have ht : ∀ d, closestCityOrPathEstimation enclosedGame (defaultParams Score)
      (enclosedGame.unit 0).pos ≠ (enclosedGame.unit 0).pos.step d := by
    intro d; cases d <;> decide
  ⟨hw, ht,
    (enclosed_unit_scores enclosedGame (defaultParams Score) (enclosedGame.unit 0)
      (fun _ => firstMin) 0 25 hw ht).2.2.2 0 0 (Or.inl (by norm_num))⟩

/-! ## The flood never fails and comes to an end -/

/-- The cell scorer returns a value whenever the distance is not 0 and a cell that holds a
unit is scored at a distance above 1. -/
theorem cellEvaluation_isSome {α : Type} [DoubleOps α] (G : Game) (P : Params α)
    (distance : Int) (c : Cell) (u : Unit) (reachableFrom : DirectionBooleans) (a e : Int)
    (hd : distance ≠ 0) (hu : c.unit_id ≠ -1 → 1 < distance) :
    ∃ r, cellEvaluation G P distance c u reachableFrom a e = some r := by
  obtain ⟨x1, h1⟩ : ∃ x1, LOCAL_CELLTYPE_EVALUATION_FUNCTION P distance u c.type = some x1 := by
    cases c.type <;>
      simp [LOCAL_CELLTYPE_EVALUATION_FUNCTION, LOCAL_CITY_EVALUATION_FUNCTION,
        LOCAL_PATH_EVALUATION_FUNCTION, LOCAL_WALL_EVALUATION_FUNCTION, hd]
  obtain ⟨x3, h3⟩ : ∃ x3, MASK_EVALUATION_FUNCTION P distance u = some x3 := by
    simp [MASK_EVALUATION_FUNCTION, hd]
  obtain ⟨x4, h4⟩ : ∃ x4, VIRUS_EVALUATION_FUNCTION P distance c.virus u = some x4 := by
    simp [VIRUS_EVALUATION_FUNCTION, hd]
  unfold cellEvaluation
  by_cases hid : c.unit_id = -1
  · by_cases hm : c.mask = true
    · simp [h1, h3, h4, hid, hm]
    · simp [h1, h4, hid, hm]
  · have hd1 : ¬ ¬ distance > 1 := not_not.mpr (hu hid)
    obtain ⟨y, h2⟩ : ∃ y, LOCAL_UNIT_EVALUATION_FUNCTION G P distance u (G.unit c.unit_id) a e =
        some y := by
      unfold LOCAL_UNIT_EVALUATION_FUNCTION
      by_cases hp : (G.unit c.unit_id).player = G.me
      · simp [hp, ALLIED_UNIT_EVALUATION_FUNCTION, hd]
      · simp [hp, ENEMY_UNIT_EVALUATION_FUNCTION, hd1]
    by_cases hm : c.mask = true
    · simp [h1, h2, h3, h4, hid, hm]
    · simp [h1, h2, h4, hid, hm]

/-- A pass of the flood loop that keeps running adds the vector of the cell scorer for the
front cell to the scores and takes over its counters. -/
theorem floodStep_running_score {α : Type} [DoubleOps α] (G : Game) (P : Params α) (u : Unit)
    (RANGE : Int) (st st1 : FloodState α) (h : floodStep G P u RANGE st = Step.running st1) :
    ∃ c rest tc v a e, st.scheduledAppointments = c :: rest ∧ st.visited c = some tc ∧
      cellEvaluation G P tc.distance (G.cell c) u tc.reachableFrom st.foundAlliesCounter
        st.foundEnemiesCounter = some (v, a, e) ∧
      st1.evaluation = st.evaluation.add (· + ·) v ∧
      st1.foundAlliesCounter = a ∧ st1.foundEnemiesCounter = e := by
  unfold floodStep at h
  cases hq : st.scheduledAppointments with
  | nil => simp [hq] at h
  | cons c rest =>
    simp only [hq] at h
    cases hv : st.visited c with
    | none => simp [hv] at h
    | some tc =>
      simp only [hv] at h
      by_cases hr : tc.distance > RANGE
      · simp [hr] at h
      · simp only [hr, if_false] at h
        cases hc : cellEvaluation G P tc.distance (G.cell c) u tc.reachableFrom
            st.foundAlliesCounter st.foundEnemiesCounter with
        | none => simp [hc] at h
        | some r =>
          obtain ⟨cellScore, allies, enemies⟩ := r
          simp only [hc, Step.running.injEq] at h
          refine ⟨c, rest, tc, cellScore, allies, enemies, rfl, hv, hc, ?_, ?_, ?_⟩ <;>
            rw [← h]

/-- What a pass of the flood loop does when the front cell has a ticket and the cell scorer
returns a value for it: it returns when the queue is empty or the front ticket is out of
range and keeps running otherwise. -/
theorem floodStep_cases {α : Type} [DoubleOps α] (G : Game) (P : Params α) (u : Unit)
    (RANGE : Int) (st : FloodState α)
    (hfront : ∀ c rest, st.scheduledAppointments = c :: rest →
      ∃ tc, st.visited c = some tc ∧
        ∃ r, cellEvaluation G P tc.distance (G.cell c) u tc.reachableFrom
          st.foundAlliesCounter st.foundEnemiesCounter = some r) :
    (∃ st1, floodStep G P u RANGE st = Step.returned st1) ∨
      (∃ st1, floodStep G P u RANGE st = Step.running st1) := by
  unfold floodStep
  cases hq : st.scheduledAppointments with
  | nil => exact Or.inl ⟨_, rfl⟩
  | cons c rest =>
    obtain ⟨tc, hv, r, hc⟩ := hfront c rest hq
    simp only [hv]
    by_cases hr : tc.distance > RANGE
    · simp only [hr, if_true]
      exact Or.inl ⟨_, rfl⟩
    · simp only [hr, if_false, hc]
      exact Or.inr ⟨_, rfl⟩

/-- The front cell of the queue can be scored: its distance is at least 1, and above 1 when
the cell holds a unit. -/
theorem FloodInv.front_scorable {α : Type} {G : Game} {u : Unit} {st : FloodState α}
    (h : FloodInv G u st) (c : Pos) (hc : c ∈ st.scheduledAppointments) :
    ∃ tc, st.visited c = some tc ∧ 1 ≤ tc.distance ∧
      ((G.cell c).unit_id ≠ -1 → 1 < tc.distance) := by
  obtain ⟨hcell, tc, hv⟩ := h.queued c hc
  obtain ⟨ds, hw, hlen⟩ := h.walk c tc hv hcell
  refine ⟨tc, hv, ?_, ?_⟩
  · rcases ds with _ | ⟨d, ds⟩
    · exact absurd hw.symm hcell.1
    · rw [← hlen]; simp only [List.length_cons, Nat.cast_add, Nat.cast_one]; omega
  · intro hunit
    rcases ds with _ | ⟨d, _ | ⟨d1, ds⟩⟩
    · exact absurd hw.symm hcell.1
    · have hcd : c = u.pos.step d := hw.2.symm
      exact absurd (hcell.2.2 d hcd) hunit
    · rw [← hlen]; simp only [List.length_cons, Nat.cast_add, Nat.cast_one]; omega

/-- Under the invariant no pass of the flood loop fails an assertion. -/
theorem FloodInv.step_cases {α : Type} [DoubleOps α] {G : Game} {u : Unit} {st : FloodState α}
    (h : FloodInv G u st) (P : Params α) (r : Int) :
    (∃ st1, floodStep G P u r st = Step.returned st1) ∨
      (∃ st1, floodStep G P u r st = Step.running st1) := by
  apply floodStep_cases
  intro c rest hq
  obtain ⟨tc, hv, h1, h2⟩ := h.front_scorable c (by rw [hq]; exact List.mem_cons_self _ _)
  exact ⟨tc, hv, cellEvaluation_isSome G P tc.distance (G.cell c) u tc.reachableFrom _ _
    (by omega) h2⟩

/-- Every running pass of the flood loop keeps the cells handled once. -/
theorem FloodOnce.once_pass {α : Type} [DoubleOps α] {G : Game} {P : Params α} {u : Unit}
    {r : Int} {st st1 : FloodState α} (hinv : FloodInv G u st) (h : FloodOnce st)
    (hstep : floodStep G P u r st = Step.running st1) : FloodOnce st1 := by
  obtain ⟨c, rest, tc, hq, hv, _, _, hq1, hs1⟩ := floodStep_running G P u r st st1 hstep
  have hnd : (c :: rest).Nodup := hq ▸ h.queue
  have hcrest : c ∉ rest := (List.nodup_cons.mp hnd).1
  have hticket : ∀ q ∈ rest, ∃ t, st.visited q = some t := by
    intro q hqm
    exact (hinv.queued q (by rw [hq]; exact List.mem_cons_of_mem _ hqm)).2
  have hnew : ∀ q, q ∈ (POSSIBLE_DIRECTIONS.filter
      (fun d => floodNew G st.visited (c.step d))).map c.step → st.visited q = none := by
    intro q hqm
    obtain ⟨_, _, hn, _⟩ := (mem_floodNew G st.visited c q).mp hqm
    exact hn
  constructor
  · rw [hq1, List.nodup_append]
    refine ⟨(List.nodup_cons.mp hnd).2, ?_, ?_⟩
    · exact (possibleDirections_nodup.filter _).map (fun d e hde => Pos.step_injective c d e hde)
    · intro q hqr hqn
      obtain ⟨t, ht⟩ := hticket q hqr
      rw [hnew q hqn] at ht
      simp at ht
  · rw [hs1, List.map_append, List.nodup_append]
    refine ⟨h.scored, by simp, ?_⟩
    intro p hp hpc
    simp only [List.map_cons, List.map_nil, List.mem_singleton] at hpc
    obtain ⟨e, he, hep⟩ := List.mem_map.mp hp
    apply h.apart e he
    rw [hep, hpc, hq]
    exact List.mem_cons_self _ _
  · intro e he
    rw [hs1] at he
    rw [hq1]
    intro hmem
    rcases List.mem_append.mp he with he | he
    · rcases List.mem_append.mp hmem with hm | hm
      · exact h.apart e he (by rw [hq]; exact List.mem_cons_of_mem _ hm)
      · obtain ⟨_, ⟨t, ht, _⟩, _⟩ := hinv.done e he
        rw [hnew e.1 hm] at ht
        simp at ht
    · simp only [List.mem_singleton] at he
      rw [he] at hmem
      rcases List.mem_append.mp hmem with hm | hm
      · exact hcrest hm
      · have := hnew c hm
        rw [hv] at this
        simp at this

/-- The cells are handled once when the flood loop is entered. -/
theorem floodOnce_start {α : Type} [DoubleOps α] (G : Game) (P : Params α) (u : Unit)
    (st0 : FloodState α) (h : floodStart G P u = some st0) : FloodOnce st0 := by
  obtain ⟨st, h0, hs, _, _, _, hq⟩ := floodStart_spec G P u
  rw [h] at h0
  have hst : st0 = st := Option.some.inj h0
  subst hst
  constructor
  · rw [hq]
    exact (possibleDirections_nodup.filter _).map
      (fun d e hde => Pos.step_injective u.pos d e hde)
  · rw [hs]; simp
  · intro e he; rw [hs] at he; simp at he

/-- A walk is at least as long as the Manhattan distance between its ends. -/
theorem manhattan_le_walk (ok : Pos → Prop) (s p : Pos) (ds : List Dir)
    (h : IsWalk ok s ds p) : manhattanDistance s p ≤ ds.length := by
  induction ds generalizing s with
  | nil =>
    have hsp : s = p := h
    rw [hsp]
    simp [manhattanDistance]
  | cons d ds ih =>
    have h1 := ih (s.step d) h.2
    have h2 := (manhattanDistance_step_le s p d).1
    simp only [List.length_cons, Nat.cast_add, Nat.cast_one]
    omega

/-- A list of distinct positions within Manhattan distance `r` of `c` has at most
`(2r+1)^2` entries. -/
theorem nodup_box_length (l : List Pos) (c : Pos) (r : Int) (hnd : l.Nodup)
    (hbox : ∀ p ∈ l, manhattanDistance c p ≤ r) : l.length ≤ (2 * r + 1).toNat ^ 2 := by
  have hinj : Function.Injective (fun p : Pos => (p.i, p.j)) := by
    intro p q hpq
    obtain ⟨pi, pj⟩ := p
    obtain ⟨qi, qj⟩ := q
    simp only [Prod.mk.injEq] at hpq
    rw [hpq.1, hpq.2]
  have hnd1 : (l.map (fun p : Pos => (p.i, p.j))).Nodup := hnd.map hinj
  have hcard : (l.map (fun p : Pos => (p.i, p.j))).toFinset.card = l.length := by
    rw [List.toFinset_card_of_nodup hnd1, List.length_map]
  have hsub : (l.map (fun p : Pos => (p.i, p.j))).toFinset ⊆
      Finset.Icc (c.i - r) (c.i + r) ×ˢ Finset.Icc (c.j - r) (c.j + r) := by
    intro x hx
    rw [List.mem_toFinset] at hx
    obtain ⟨p, hp, rfl⟩ := List.mem_map.mp hx
    have hb := hbox p hp
    unfold manhattanDistance at hb
    have h1 := abs_nonneg (c.i - p.i)
    have h2 := abs_nonneg (c.j - p.j)
    have h3 := abs_le.mp (show |c.i - p.i| ≤ r by omega)
    have h4 := abs_le.mp (show |c.j - p.j| ≤ r by omega)
    simp only [Finset.mem_product, Finset.mem_Icc]
    omega
  have hle := Finset.card_le_card hsub
  rw [hcard, Finset.card_product, Int.card_Icc, Int.card_Icc] at hle
  have e1 : c.i + r + 1 - (c.i - r) = 2 * r + 1 := by ring
  have e2 : c.j + r + 1 - (c.j - r) = 2 * r + 1 := by ring
  rw [e1, e2] at hle
  rw [sq]
  exact hle

/-- Under the invariant every scored cell lies within the range of the unit, when the
distances it was scored at do. -/
theorem FloodInv.scored_bound {α : Type} {G : Game} {u : Unit} {st : FloodState α}
    (h : FloodInv G u st) (honce : FloodOnce st) (r : Int)
    (hr : ∀ e ∈ st.scored, e.2.distance ≤ r) : st.scored.length ≤ (2 * r + 1).toNat ^ 2 := by
  have hlen : st.scored.length = (st.scored.map Prod.fst).length := by
    rw [List.length_map]
  rw [hlen]
  apply nodup_box_length _ u.pos r honce.scored
  intro p hp
  obtain ⟨e, he, rfl⟩ := List.mem_map.mp hp
  obtain ⟨hcell, ⟨t, ht, htd⟩, _, _⟩ := h.done e he
  obtain ⟨ds, hw, hl⟩ := h.walk e.1 t ht hcell
  have h1 := manhattan_le_walk _ _ _ _ hw
  have h2 := hr e he
  omega

/-- The flood loop either returns within the given fuel or makes that many running passes,
each of which scores one more cell within range. -/
theorem flood_runs_or_returns {α : Type} [DoubleOps α] (G : Game) (P : Params α) (u : Unit)
    (r : Int) (fuel : Nat) (st : FloodState α) (hinv : FloodInv G u st)
    (honce : FloodOnce st) (hr : ∀ e ∈ st.scored, e.2.distance ≤ r) :
    (∃ s, floodLoop G P u r fuel st = some s) ∨
      (∃ st1 : FloodState α, FloodInv G u st1 ∧ FloodOnce st1 ∧
        (∀ e ∈ st1.scored, e.2.distance ≤ r) ∧
        st1.scored.length = st.scored.length + fuel) := by
  induction fuel generalizing st with
  | zero => exact Or.inr ⟨st, hinv, honce, hr, rfl⟩
  | succ fuel ih =>
    rcases hinv.step_cases P r with ⟨st1, h1⟩ | ⟨st1, h1⟩
    · left
      unfold floodLoop
      rw [h1]
      exact ⟨st1, rfl⟩
    · obtain ⟨c, rest, tc, _, _, htc, _, _, hs1⟩ := floodStep_running G P u r st st1 h1
      have hr1 : ∀ e ∈ st1.scored, e.2.distance ≤ r := by
        intro e he
        rw [hs1] at he
        rcases List.mem_append.mp he with he | he
        · exact hr e he
        · simp only [List.mem_singleton] at he
          rw [he]; exact htc
      rcases ih st1 (hinv.flood_pass h1) (honce.once_pass hinv h1) hr1 with ⟨s, hs⟩ | hrun
      · left
        unfold floodLoop
        rw [h1]
        exact ⟨s, hs⟩
      · right
        obtain ⟨st2, i2, o2, r2, l2⟩ := hrun
        refine ⟨st2, i2, o2, r2, ?_⟩
        rw [l2, hs1, List.length_append]
        simp only [List.length_singleton]
        omega

/-- Termination of `localEvaluation`: for every board, unit and range the flood returns
within `(2r+1)^2 + 1` passes of its loop, without failing any assertion. -/
theorem localFlood_terminates {α : Type} [DoubleOps α] (G : Game) (P : Params α) (u : Unit)
    (r : Int) : ∃ st, localFlood G P ((2 * r + 1).toNat ^ 2 + 1) u r = some st := by
  obtain ⟨st0, h0, hinv0⟩ := floodInv_start G P u
  have honce0 := floodOnce_start G P u st0 h0
  obtain ⟨_, _, hs, _⟩ := floodStart_spec G P u
  have hs0 : st0.scored = [] := by
    obtain ⟨st, h1, hs1, _⟩ := floodStart_spec G P u
    rw [h0] at h1
    rw [Option.some.inj h1]
    exact hs1
  have hr0 : ∀ e ∈ st0.scored, e.2.distance ≤ r := by
    intro e he; rw [hs0] at he; simp at he
  unfold localFlood
  rw [h0]
  simp only [Option.some_bind]
  rcases flood_runs_or_returns G P u r ((2 * r + 1).toNat ^ 2 + 1) st0 hinv0 honce0 hr0 with
    h | ⟨st1, i1, o1, r1, l1⟩
  · exact h
  · have hb := i1.scored_bound o1 r r1
    rw [l1, hs0] at hb
    simp only [List.length_nil] at hb
    omega

/-- More fuel does not change what the flood loop returns. -/
theorem floodLoop_mono {α : Type} [DoubleOps α] (G : Game) (P : Params α) (u : Unit) (r : Int)
    (fuel k : Nat) (st s : FloodState α) (h : floodLoop G P u r fuel st = some s) :
    floodLoop G P u r (fuel + k) st = some s := by
  induction fuel generalizing st with
  | zero => simp [floodLoop] at h
  | succ fuel ih =>
    rw [Nat.add_right_comm]
    unfold floodLoop at h ⊢
    cases hs : floodStep G P u r st with
    | running st1 => rw [hs] at h; exact ih st1 h
    | returned st1 => rw [hs] at h; exact h
    | failed => rw [hs] at h; simp at h

/-- A pass of the flood loop that returns leaves the scores and the counters as they are. -/
theorem floodStep_returned_evaluation {α : Type} [DoubleOps α] (G : Game) (P : Params α)
    (u : Unit) (RANGE : Int) (st st1 : FloodState α)
    (h : floodStep G P u RANGE st = Step.returned st1) :
    st1.evaluation = st.evaluation ∧ st1.foundAlliesCounter = st.foundAlliesCounter ∧
      st1.foundEnemiesCounter = st.foundEnemiesCounter := by
  unfold floodStep at h
  cases hq : st.scheduledAppointments with
  | nil =>
    simp only [hq, Step.returned.injEq] at h
    subst h
    exact ⟨rfl, rfl, rfl⟩
  | cons c rest =>
    simp only [hq] at h
    cases hv : st.visited c with
    | none => simp [hv] at h
    | some tc =>
      simp only [hv] at h
      by_cases hr : tc.distance > RANGE
      · simp only [hr, if_true, Step.returned.injEq] at h
        subst h
        exact ⟨rfl, rfl, rfl⟩
      · simp only [hr, if_false] at h
        cases hc : cellEvaluation G P tc.distance (G.cell c) u tc.reachableFrom
            st.foundAlliesCounter st.foundEnemiesCounter with
        | none => simp [hc] at h
        | some r => simp [hc] at h

/-- Induction over the passes of the flood loop with a property `S` of the states the loop
keeps running from and a property `W` of every state, the one it returns in included. -/
theorem floodAfter_induction2 {α : Type} [DoubleOps α] (G : Game) (P : Params α) (u : Unit)
    (RANGE : Int) (S W : FloodState α → Prop) (hSW : ∀ st, S st → W st)
    (hrun : ∀ st st1, S st → floodStep G P u RANGE st = Step.running st1 → S st1)
    (hret : ∀ st st1, S st → floodStep G P u RANGE st = Step.returned st1 → W st1)
    (n : Nat) (st : FloodState α) (h : S st) : W (floodAfter G P u RANGE n st) := by
  induction n generalizing st with
  | zero => exact hSW st h
  | succ n ih =>
    unfold floodAfter
    cases hs : floodStep G P u RANGE st with
    | running st1 => exact ih st1 (hrun st st1 h hs)
    | returned st1 => exact hret st st1 h hs
    | failed => exact hSW st h

/-- Under the invariant, a direction whose neighbour is a wall or holds a unit is flagged in
no scored ticket, and that neighbour is neither queued nor scored. -/
theorem FloodInv.blocked {α : Type} {G : Game} {u : Unit} {st : FloodState α}
    (h : FloodInv G u st) (d : Dir)
    (hblocked : isWall G (u.pos.step d) ∨ (G.cell (u.pos.step d)).unit_id ≠ -1) :
    u.pos.step d ∉ st.scheduledAppointments ∧
      ∀ e ∈ st.scored, e.1 ≠ u.pos.step d ∧ e.2.reachableFrom.get d = false := by
  have hno : ¬ FloodCell G u (u.pos.step d) := by
    intro hc
    rcases hblocked with hw | hu
    · exact hc.2.1 hw
    · exact hu (hc.2.2 d rfl)
  refine ⟨fun hq => hno (h.queued _ hq).1, ?_⟩
  intro e he
  refine ⟨fun heq => hno (heq ▸ (h.done e he).1), ?_⟩
  cases hflag : e.2.reachableFrom.get d with
  | false => rfl
  | true =>
    obtain ⟨ds, hw, _⟩ := (h.exact e he d).mp hflag
    exact absurd hw.1 hno

/-! ## Blocked directions (C17) -/

/-- Adding the neutral baseline 0 leaves a score as it is. -/
theorem Score.add_null (x : Score) : x + (defaultParams Score).NULL_EVALUATION = x := by
  show Score.add x (Score.fin ((0 : Int) : ℚ)) = x
  cases x <;> simp [Score.add]

/-- C17: when the neutral baseline is neutral for the sum of scores (as 0 is), for every
board, unit, range and direction `d` whose neighbouring cell is a wall or holds a unit:
`localEvaluation` returns, and the score it returns for `d` is the neutral baseline plus
`ADJACENT_WALL_EVALUATION` for a wall, else plus `ADJACENT_ALLIED_EVALUATION` for a unit of
the mover and `ADJACENT_ENEMY_EVALUATION` for another unit; in every state the flood passes
through that neighbour is neither queued nor scored, and no scored ticket has `d` flagged. -/
theorem blocked_direction_score {α : Type} [DoubleOps α] (G : Game) (P : Params α) (u : Unit)
    (r : Int) (d : Dir) (hnull : ∀ x : α, x + P.NULL_EVALUATION = x)
    (hblocked : isWall G (u.pos.step d) ∨ (G.cell (u.pos.step d)).unit_id ≠ -1) :
    (∃ fuel ev, localEvaluation G P fuel u r = some ev) ∧
    (∀ fuel ev, localEvaluation G P fuel u r = some ev →
      ev.get d = P.NULL_EVALUATION +
        (if isWall G (u.pos.step d) then P.ADJACENT_WALL_EVALUATION
         else if (G.unit (G.cell (u.pos.step d)).unit_id).player = G.me then
           P.ADJACENT_ALLIED_EVALUATION
         else P.ADJACENT_ENEMY_EVALUATION)) ∧
    (∃ st0, floodStart G P u = some st0 ∧ ∀ n,
      u.pos.step d ∉ (floodAfter G P u r n st0).scheduledAppointments ∧
      ∀ e ∈ (floodAfter G P u r n st0).scored,
        e.1 ≠ u.pos.step d ∧ e.2.reachableFrom.get d = false) := by
  obtain ⟨st0, h0, hinv0⟩ := floodInv_start G P u
  have hK : seedAdd G P u P.NULL_EVALUATION d = P.NULL_EVALUATION +
      (if isWall G (u.pos.step d) then P.ADJACENT_WALL_EVALUATION
       else if (G.unit (G.cell (u.pos.step d)).unit_id).player = G.me then
         P.ADJACENT_ALLIED_EVALUATION
       else P.ADJACENT_ENEMY_EVALUATION) := by
    unfold seedAdd
    by_cases hw : (G.cell (u.pos.step d)).type = CellType.WALL
    · rw [if_pos hw, if_pos (show isWall G (u.pos.step d) from hw)]
    · have hu : (G.cell (u.pos.step d)).unit_id ≠ -1 := by
        rcases hblocked with h | h
        · exact absurd h hw
        · exact h
      rw [if_neg hw, if_pos hu, if_neg (show ¬ isWall G (u.pos.step d) from hw)]
      by_cases hp : (G.unit (G.cell (u.pos.step d)).unit_id).player = G.me
      · rw [if_pos hp, if_pos hp]
      · rw [if_neg hp, if_neg hp]
  have hall : ∀ n, (floodAfter G P u r n st0).evaluation.get d =
        seedAdd G P u P.NULL_EVALUATION d ∧
      u.pos.step d ∉ (floodAfter G P u r n st0).scheduledAppointments ∧
      ∀ e ∈ (floodAfter G P u r n st0).scored,
        e.1 ≠ u.pos.step d ∧ e.2.reachableFrom.get d = false := by
    intro n
    apply floodAfter_induction2 G P u r
      (fun st => FloodInv G u st ∧ st.evaluation.get d = seedAdd G P u P.NULL_EVALUATION d)
      (fun st => st.evaluation.get d = seedAdd G P u P.NULL_EVALUATION d ∧
        u.pos.step d ∉ st.scheduledAppointments ∧
        ∀ e ∈ st.scored, e.1 ≠ u.pos.step d ∧ e.2.reachableFrom.get d = false)
    · rintro st ⟨hinv, hev⟩
      exact ⟨hev, hinv.blocked d hblocked⟩
    · rintro st st1 ⟨hinv, hev⟩ hstep
      have hinv1 := hinv.flood_pass hstep
      refine ⟨hinv1, ?_⟩
      obtain ⟨c, rest, tc, v, a, e, hq, hv, hcell, hev1, _, _⟩ :=
        floodStep_running_score G P u r st st1 hstep
      obtain ⟨c1, rest1, tc1, hq1, hv1, _, _, _, hs1⟩ := floodStep_running G P u r st st1 hstep
      have hcc : c1 = c := by
        rw [hq] at hq1
        exact (List.cons.inj hq1).1.symm
      have htt : tc1 = tc := by
        rw [hcc, hv] at hv1
        exact (Option.some.inj hv1).symm
      have hmem : (c, tc) ∈ st1.scored := by
        rw [hs1, hcc, htt]
        exact List.mem_append_right _ (List.mem_singleton_self _)
      have hflag := ((hinv1.blocked d hblocked).2 (c, tc) hmem).2
      obtain ⟨x, hx⟩ := cellEvaluation_flagged G P _ _ _ _ _ _ v a e hcell
      rw [hev1, DirectionEvaluation.get_add, hx d]
      simp only [hflag, Bool.false_eq_true, if_false]
      rw [hnull, hev]
    · rintro st st1 ⟨hinv, hev⟩ hstep
      obtain ⟨hv, hs, hq⟩ := floodStep_returned G P u r st st1 hstep
      obtain ⟨he, _, _⟩ := floodStep_returned_evaluation G P u r st st1 hstep
      obtain ⟨hb1, hb2⟩ := hinv.blocked d hblocked
      refine ⟨by rw [he, hev], fun hmem => hb1 (hq _ hmem), ?_⟩
      rw [hs]
      exact hb2
    · exact ⟨hinv0, floodStart_evaluation G P u st0 h0 d⟩
  refine ⟨?_, ?_, st0, h0, fun n => (hall n).2⟩
  · obtain ⟨st, hst⟩ := localFlood_terminates G P u r
    exact ⟨_, st.evaluation, by unfold localEvaluation; rw [hst]; rfl⟩
  · intro fuel ev hev
    unfold localEvaluation at hev
    cases hst : localFlood G P fuel u r with
    | none => rw [hst] at hev; simp at hev
    | some st =>
      rw [hst] at hev
      simp only [Option.map_some', Option.some.injEq] at hev
      unfold localFlood at hst
      rw [h0] at hst
      simp only [Option.some_bind] at hst
      rw [← hev, floodLoop_eq_floodAfter G P u r fuel st0 st hst, (hall fuel).1, hK]

/-- Witness of C17 on the open board with a single wall directly below the unit, for the
direction BOTTOM at range 2: the score returned for BOTTOM is `0 + (-∞)`. -/
theorem blocked_direction_score_witness :
    (∀ x : Score, x + (defaultParams Score).NULL_EVALUATION = x) ∧
    (isWall wallBelowGame ((wallBelowGame.unit 0).pos.step Dir.BOTTOM) ∨
      (wallBelowGame.cell ((wallBelowGame.unit 0).pos.step Dir.BOTTOM)).unit_id ≠ -1) ∧
    ∃ fuel ev, localEvaluation wallBelowGame (defaultParams Score) fuel (wallBelowGame.unit 0) 2 =
      some ev :=
  ⟨Score.add_null, Or.inl (by decide),
    (blocked_direction_score wallBelowGame (defaultParams Score) (wallBelowGame.unit 0) 2
      Dir.BOTTOM Score.add_null (Or.inl (by decide))).1⟩

/-! ## Every cell is handled once (C18) -/

/-- A cell that has a ticket keeps it, with the same distance, through one pass. -/
theorem floodStep_ticket_kept {α : Type} [DoubleOps α] (G : Game) (P : Params α) (u : Unit)
    (r : Int) (st st1 : FloodState α) (p : Pos) (t : SearchTicket)
    (hp : st.visited p = some t)
    (hstep : floodStep G P u r st = Step.running st1 ∨ floodStep G P u r st = Step.returned st1) :
    ∃ t1, st1.visited p = some t1 ∧ t1.distance = t.distance := by
  rcases hstep with hstep | hstep
  · obtain ⟨c, rest, tc, _, _, _, hv1, _, _⟩ := floodStep_running G P u r st st1 hstep
    rw [hv1]
    by_cases hn : ∃ d ∈ POSSIBLE_DIRECTIONS, p = c.step d
    · simp only [hn, if_true, hp]
      obtain ⟨t1, h1, h2, _⟩ := floodBump_keeps G tc t p
      exact ⟨t1, h1, h2⟩
    · simp only [hn, if_false]
      exact ⟨t, hp, rfl⟩
  · obtain ⟨hv1, _, _⟩ := floodStep_returned G P u r st st1 hstep
    rw [hv1]
    exact ⟨t, hp, rfl⟩

/-- A cell that has a ticket keeps it, with the same distance, through any number of passes. -/
theorem flood_ticket_persists {α : Type} [DoubleOps α] (G : Game) (P : Params α) (u : Unit)
    (r : Int) (m : Nat) (st : FloodState α) (p : Pos) (t : SearchTicket)
    (hp : st.visited p = some t) :
    ∃ t1, (floodAfter G P u r m st).visited p = some t1 ∧ t1.distance = t.distance := by
  induction m generalizing st t with
  | zero => exact ⟨t, hp, rfl⟩
  | succ m ih =>
    unfold floodAfter
    cases hs : floodStep G P u r st with
    | running st1 =>
      obtain ⟨t1, h1, h2⟩ := floodStep_ticket_kept G P u r st st1 p t hp (Or.inl hs)
      obtain ⟨t2, h3, h4⟩ := ih st1 t1 h1
      exact ⟨t2, h3, by rw [h4, h2]⟩
    | returned st1 => exact floodStep_ticket_kept G P u r st st1 p t hp (Or.inr hs)
    | failed => exact ⟨t, hp, rfl⟩

/-- A ticket found after `n` passes is still there, with the same distance, after `n + m`. -/
theorem flood_ticket_kept {α : Type} [DoubleOps α] (G : Game) (P : Params α) (u : Unit)
    (r : Int) (n m : Nat) (st : FloodState α) (p : Pos) (t : SearchTicket)
    (hp : (floodAfter G P u r n st).visited p = some t) :
    ∃ t1, (floodAfter G P u r (n + m) st).visited p = some t1 ∧ t1.distance = t.distance := by
  induction n generalizing st with
  | zero =>
    rw [Nat.zero_add]
    exact flood_ticket_persists G P u r m st p t hp
  | succ n ih =>
    rw [Nat.add_right_comm]
    unfold floodAfter at hp ⊢
    cases hs : floodStep G P u r st with
    | running st1 => rw [hs] at hp; exact ih st1 hp
    | returned st1 => rw [hs] at hp; exact ⟨t, hp, rfl⟩
    | failed => rw [hs] at hp; exact ⟨t, hp, rfl⟩

/-- C18: in `localEvaluation` with any range, in every state the flood passes through (after
any number `n` of passes, the state it returns in included): no cell has been scored
twice; a cell that holds a ticket keeps it with the same distance in every later state,
so that no cell receives a ticket twice and no recorded distance is ever changed; no wall
cell is queued or has been scored; and every scored cell was scored at the distance its
ticket still records, which is the length of a shortest walk from the unit's position to
the cell through the cells the flood expands. -/
theorem flood_once_shortest {α : Type} [DoubleOps α] (G : Game) (P : Params α) (u : Unit)
    (r : Int) :
    ∃ st0, floodStart G P u = some st0 ∧ ∀ n,
      ((floodAfter G P u r n st0).scored.map Prod.fst).Nodup ∧
      (∀ m p t, (floodAfter G P u r n st0).visited p = some t →
        ∃ t1, (floodAfter G P u r (n + m) st0).visited p = some t1 ∧
          t1.distance = t.distance) ∧
      (∀ q ∈ (floodAfter G P u r n st0).scheduledAppointments, ¬ isWall G q) ∧
      (∀ e ∈ (floodAfter G P u r n st0).scored, ¬ isWall G e.1) ∧
      (∀ e ∈ (floodAfter G P u r n st0).scored,
        (∃ t, (floodAfter G P u r n st0).visited e.1 = some t ∧ t.distance = e.2.distance) ∧
        (∃ ds, IsWalk (FloodCell G u) u.pos ds e.1 ∧ (ds.length : Int) = e.2.distance) ∧
        (∀ ds, IsWalk (FloodCell G u) u.pos ds e.1 → e.2.distance ≤ ds.length)) := by
  obtain ⟨st0, h0, hinv0⟩ := floodInv_start G P u
  have honce0 := floodOnce_start G P u st0 h0
  refine ⟨st0, h0, fun n => ?_⟩
  have hmain : ((floodAfter G P u r n st0).scored.map Prod.fst).Nodup ∧
      (∀ q ∈ (floodAfter G P u r n st0).scheduledAppointments, ¬ isWall G q) ∧
      (∀ e ∈ (floodAfter G P u r n st0).scored, ¬ isWall G e.1 ∧
        (∃ t, (floodAfter G P u r n st0).visited e.1 = some t ∧ t.distance = e.2.distance) ∧
        (∃ ds, IsWalk (FloodCell G u) u.pos ds e.1 ∧ (ds.length : Int) = e.2.distance) ∧
        (∀ ds, IsWalk (FloodCell G u) u.pos ds e.1 → e.2.distance ≤ ds.length)) := by
    have hW : ∀ st : FloodState α, FloodInv G u st → FloodOnce st →
        (st.scored.map Prod.fst).Nodup ∧
        (∀ q ∈ st.scheduledAppointments, ¬ isWall G q) ∧
        (∀ e ∈ st.scored, ¬ isWall G e.1 ∧
          (∃ t, st.visited e.1 = some t ∧ t.distance = e.2.distance) ∧
          (∃ ds, IsWalk (FloodCell G u) u.pos ds e.1 ∧ (ds.length : Int) = e.2.distance) ∧
          (∀ ds, IsWalk (FloodCell G u) u.pos ds e.1 → e.2.distance ≤ ds.length)) := by
      intro st hinv honce
      refine ⟨honce.scored, fun q hq => (hinv.queued q hq).1.2.1, ?_⟩
      intro e he
      obtain ⟨hcell, ⟨t, ht, htd⟩, _, _⟩ := hinv.done e he
      refine ⟨hcell.2.1, ⟨t, ht, htd⟩, ?_, ?_⟩
      · rw [← htd]; exact hinv.walk e.1 t ht hcell
      · intro ds hds
        rw [← htd]; exact hinv.distance_le e.1 t ht ds hds
    apply floodAfter_induction2 G P u r (fun st => FloodInv G u st ∧ FloodOnce st)
      (fun st => (st.scored.map Prod.fst).Nodup ∧
        (∀ q ∈ st.scheduledAppointments, ¬ isWall G q) ∧
        (∀ e ∈ st.scored, ¬ isWall G e.1 ∧
          (∃ t, st.visited e.1 = some t ∧ t.distance = e.2.distance) ∧
          (∃ ds, IsWalk (FloodCell G u) u.pos ds e.1 ∧ (ds.length : Int) = e.2.distance) ∧
          (∀ ds, IsWalk (FloodCell G u) u.pos ds e.1 → e.2.distance ≤ ds.length)))
    · rintro st ⟨hinv, honce⟩
      exact hW st hinv honce
    · rintro st st1 ⟨hinv, honce⟩ hstep
      exact ⟨hinv.flood_pass hstep, honce.once_pass hinv hstep⟩
    · rintro st st1 ⟨hinv, honce⟩ hstep
      obtain ⟨hv, hs, hq⟩ := floodStep_returned G P u r st st1 hstep
      obtain ⟨w1, w2, w3⟩ := hW st hinv honce
      simp only [hs, hv]
      exact ⟨w1, fun q hq1 => w2 q (hq q hq1), w3⟩
    · exact ⟨hinv0, honce0⟩
  refine ⟨hmain.1, ?_, hmain.2.1, fun e he => (hmain.2.2 e he).1,
    fun e he => (hmain.2.2 e he).2⟩
  intro m p t hp
  exact flood_ticket_kept G P u r n m st0 p t hp

/-! ## The A* search over every way of resolving ties -/

/-- A pass of the A* loop depends on `top` only through the index it yields. -/
theorem pathStep_index (G : Game) (top : TopChoice) (D : Pos) (st : PathState) :
    pathStep G top D st =
      pathStep G (fun _ _ => top st.pass (st.scheduledAppointments.map (queueKey st.visited)))
        D st := by
  unfold pathStep
  cases st.scheduledAppointments <;> rfl

/-- On an empty queue a pass of the A* loop does not depend on `top`. -/
theorem pathStep_nil (G : Game) (top top1 : TopChoice) (D : Pos) (st : PathState)
    (hq : st.scheduledAppointments = []) : pathStep G top D st = pathStep G top1 D st := by
  unfold pathStep
  rw [hq]

/-- The index a valid `top()` yields is one of `topChoices`. -/
theorem TopChoice.Valid.mem_topChoices {top : TopChoice} (h : top.Valid) (n : Nat)
    (keys : List Int) (hne : keys ≠ []) : top n keys ∈ topChoices keys := by
  obtain ⟨k, hk, hmin⟩ := h n keys hne
  have hlt : top n keys < keys.length := by
    by_contra hge
    rw [List.get?_eq_none.mpr (not_lt.mp hge)] at hk
    simp at hk
  have hget : keys.getD (top n keys) 0 = k := by
    rw [List.getD_eq_getElem?_getD, ← List.get?_eq_getElem?, hk]
    rfl
  cases keys with
  | nil => exact absurd rfl hne
  | cons a l =>
    unfold topChoices
    simp only [List.mem_filter, List.mem_range, List.all_eq_true, decide_eq_true_eq]
    exact ⟨hlt, fun k1 hk1 => by rw [hget]; exact hmin k1 hk1⟩

/-- The result of the A* loop under a valid `top()` is one of `pathOutcomes`. -/
theorem pathLoop_mem_outcomes (G : Game) (top : TopChoice) (hvalid : top.Valid) (D : Pos)
    (fuel : Nat) (st : PathState) :
    pathLoop G top D fuel st ∈ pathOutcomes G D fuel st := by
  induction fuel generalizing st with
  | zero => simp [pathLoop, pathOutcomes]
  | succ fuel ih =>
    unfold pathLoop pathOutcomes
    rw [List.mem_flatMap]
    by_cases hq : st.scheduledAppointments = []
    · refine ⟨0, by simp [hq, topChoices], ?_⟩
      rw [pathStep_nil G top (fun _ _ => 0) D st hq]
      cases hs : pathStep G (fun _ _ => 0) D st with
      | running st1 =>
        have := pathStep_running G (fun _ _ => 0) D st st1 hs
        obtain ⟨c, _, hc, _⟩ := this
        rw [hq] at hc
        simp at hc
      | returned r => simp
      | failed => simp
    · refine ⟨top st.pass (st.scheduledAppointments.map (queueKey st.visited)),
        hvalid.mem_topChoices _ _ (by simpa using hq), ?_⟩
      rw [pathStep_index G top D st]
      cases hs : pathStep G
          (fun _ _ => top st.pass (st.scheduledAppointments.map (queueKey st.visited))) D st with
      | running st1 => exact ih st1
      | returned r => simp
      | failed => simp

/-- The result of `shortestPathDirections` under a valid `top()` is one of
`pathSearchOutcomes`. -/
theorem pathSearch_mem_outcomes (G : Game) (top : TopChoice) (hvalid : top.Valid) (fuel : Nat)
    (s D : Pos) : pathSearch G top fuel s D ∈ pathSearchOutcomes G fuel s D := by
  unfold pathSearch pathSearchOutcomes
  cases pathStart G s D with
  | none => simp
  | some st0 => exact pathLoop_mem_outcomes G top hvalid D fuel st0

/-- More fuel does not change what the A* loop returns. -/
theorem pathLoop_mono (G : Game) (top : TopChoice) (D : Pos) (fuel k : Nat) (st : PathState)
    (r : PathExit × DirectionBooleans) (h : pathLoop G top D fuel st = some r) :
    pathLoop G top D (fuel + k) st = some r := by
  induction fuel generalizing st with
  | zero => simp [pathLoop] at h
  | succ fuel ih =>
    rw [Nat.add_right_comm]
    unfold pathLoop at h ⊢
    cases hs : pathStep G top D st with
    | running st1 => rw [hs] at h; exact ih st1 h
    | returned r1 => rw [hs] at h; exact h
    | failed => rw [hs] at h; simp at h

/-- On the open board with the city tile `(5,8)`, whichever way ties are resolved the search
from `(5,5)` to `(5,8)` returns within 8 passes by dequeuing the destination, with RIGHT and
no other direction flagged. -/
theorem rightCity_outcomes :
    ∀ o ∈ pathSearchOutcomes rightCityGame 8 ⟨5, 5⟩ ⟨5, 8⟩,
      o = some (PathExit.dequeued, ⟨false, true, false, false⟩) := by
  decide

/-! ## The open board with one city (C15) -/

/-- On the open board with one city the flood of a unit at `(5,5)` expands every other
cell. -/
theorem rightCity_floodCell (u : Unit) (hu : u.pos = ⟨5, 5⟩) (p : Pos) (hp : p ≠ ⟨5, 5⟩) :
    FloodCell rightCityGame u p := by
  have hcell : rightCityGame.cell p =
      if p = ⟨5, 8⟩ then ⟨CellType.CITY, -1, false, 0⟩ else emptyCell := by
    unfold rightCityGame
    simp only [if_neg hp]
  refine ⟨by rw [hu]; exact hp, ?_, ?_⟩
  · show ¬ (rightCityGame.cell p).type = CellType.WALL
    rw [hcell]
    by_cases h8 : p = ⟨5, 8⟩
    · rw [if_pos h8]; decide
    · rw [if_neg h8]; decide
  · intro _ _
    rw [hcell]
    by_cases h8 : p = ⟨5, 8⟩
    · rw [if_pos h8]
    · rw [if_neg h8]; rfl

/-- More fuel does not change what `localEvaluation` returns. -/
theorem localEvaluation_mono {α : Type} [DoubleOps α] (G : Game) (P : Params α) (u : Unit)
    (r : Int) (fuel k : Nat) (ev : DirectionEvaluation α)
    (h : localEvaluation G P fuel u r = some ev) :
    localEvaluation G P (fuel + k) u r = some ev := by
  unfold localEvaluation localFlood at h ⊢
  cases h0 : floodStart G P u with
  | none => rw [h0] at h; simp at h
  | some st0 =>
    rw [h0] at h
    simp only [Option.some_bind] at h ⊢
    cases hl : floodLoop G P u r fuel st0 with
    | none => rw [hl] at h; simp at h
    | some s =>
      rw [hl] at h
      rw [floodLoop_mono G P u r fuel k st0 s hl]
      exact h

/-- More fuel does not change what `shortestPathDirections` returns. -/
theorem pathSearch_mono (G : Game) (top : TopChoice) (s D : Pos) (fuel k : Nat)
    (r : PathExit × DirectionBooleans) (h : pathSearch G top fuel s D = some r) :
    pathSearch G top (fuel + k) s D = some r := by
  unfold pathSearch at h ⊢
  cases h0 : pathStart G s D with
  | none => rw [h0] at h; simp at h
  | some st0 =>
    rw [h0] at h
    simp only [Option.some_bind] at h ⊢
    exact pathLoop_mono G top D fuel k st0 r h

/-! ## Occupied first steps and settled tickets (C19, C20) -/

/-- On the board with walls above and to the left of the source `(0,0)` and an enemy unit on
its right neighbour, whichever way ties are resolved the search for `(0,2)` returns within 8
passes by dequeuing the destination, with RIGHT and no other direction flagged. -/
theorem cornerEnemy_outcomes :
    ∀ o ∈ pathSearchOutcomes cornerEnemyGame 8 ⟨0, 0⟩ ⟨0, 2⟩,
      o = some (PathExit.dequeued, ⟨false, true, false, false⟩) := by
  decide

/-- C19 (the code at the failing input): on the board with walls above and to the left of
the source `(0,0)` and an enemy unit on its right neighbour `(0,1)`, for every `top()` that
yields an entry of least priority, `shortestPathDirections` to `(0,2)` returns the set in
which RIGHT is flagged, although the neighbour in direction RIGHT holds a unit: the occupied
neighbour, kept out of the queue by the seeding loop, is enqueued when `(1,1)` is expanded
and then expanded itself. -/
theorem occupied_first_step_flagged (top : TopChoice) (hvalid : top.Valid) :
    (cornerEnemyGame.cell ((⟨0, 0⟩ : Pos).step Dir.RIGHT)).unit_id ≠ -1 ∧
    (∃ st0, pathStart cornerEnemyGame ⟨0, 0⟩ ⟨0, 2⟩ = some st0 ∧
      st0.scheduledAppointments = [⟨1, 0⟩]) ∧
    pathSearch cornerEnemyGame top 8 ⟨0, 0⟩ ⟨0, 2⟩ =
      some (PathExit.dequeued, ⟨false, true, false, false⟩) ∧
    (⟨false, true, false, false⟩ : DirectionBooleans).get Dir.RIGHT = true := by
  refine ⟨by decide, ?_, ?_, rfl⟩
  · obtain ⟨st0, h0, _, _, _, _, hq⟩ := pathStart_spec cornerEnemyGame ⟨0, 0⟩ ⟨0, 2⟩
    refine ⟨st0, h0, ?_⟩
    rw [hq]
    decide
  · exact cornerEnemy_outcomes _
      (pathSearch_mem_outcomes cornerEnemyGame top hvalid 8 ⟨0, 0⟩ ⟨0, 2⟩)

/-- Witness of C19 (the failing input) with the first-minimum `top()`. -/
theorem occupied_first_step_flagged_witness :
    TopChoice.Valid (fun _ => firstMin) ∧
    pathSearch cornerEnemyGame (fun _ => firstMin) 8 ⟨0, 0⟩ ⟨0, 2⟩ =
      some (PathExit.dequeued, ⟨false, true, false, false⟩) :=
  ⟨firstMin_valid, (occupied_first_step_flagged (fun _ => firstMin) firstMin_valid).2.2.1⟩

/-- C20 (the code at the failing input): on the open board, in the search from `(0,0)` to
`(2,1)` with `top()` resolving equal priorities to the last minimum (a valid way of breaking
ties), the cell `(1,1)` holds the unvisited ticket of cost 2 flagged RIGHT after two passes,
is settled by the third pass (marked visited), and the fourth pass, which expands `(1,0)`,
changes the reachability set of its ticket from RIGHT to BOTTOM and RIGHT. -/
theorem settled_ticket_modified :
    TopChoice.Valid (fun _ => lastMin) ∧
    (pathStart openGame ⟨0, 0⟩ ⟨2, 1⟩).map (fun st0 =>
        ((pathAfter openGame (fun _ => lastMin) ⟨2, 1⟩ 2 st0).visited ⟨1, 1⟩,
          (pathAfter openGame (fun _ => lastMin) ⟨2, 1⟩ 3 st0).visited ⟨1, 1⟩,
          (pathAfter openGame (fun _ => lastMin) ⟨2, 1⟩ 4 st0).visited ⟨1, 1⟩,
          (pathAfter openGame (fun _ => lastMin) ⟨2, 1⟩ 4 st0).pass)) =
      some (some ⟨2, 3, ⟨false, true, false, false⟩, false⟩,
        some ⟨2, 3, ⟨false, true, false, false⟩, true⟩,
        some ⟨2, 3, ⟨true, true, false, false⟩, true⟩, 4) := by
  refine ⟨lastMin_valid, by decide⟩

/-! ## Walks on an open board -/

/-- A walk stays a walk under a weaker condition on its cells. -/
theorem isWalk_mono (ok ok1 : Pos → Prop) (hok : ∀ q, ok q → ok1 q) (s p : Pos) (ds : List Dir)
    (h : IsWalk ok s ds p) : IsWalk ok1 s ds p := by
  induction ds generalizing s with
  | nil => exact h
  | cons d ds ih => exact ⟨hok _ h.1, ih _ h.2⟩

/-- From a cell other than `p` some step leads nearer to `p`. -/
theorem exists_closer_step (a p : Pos) (h : a ≠ p) :
    ∃ d, manhattanDistance (a.step d) p + 1 = manhattanDistance a p := by
  obtain ⟨ai, aj⟩ := a
  obtain ⟨pi, pj⟩ := p
  have hne : ai ≠ pi ∨ aj ≠ pj := by
    by_contra hc
    push_neg at hc
    exact h (by rw [hc.1, hc.2])
  rcases lt_trichotomy ai pi with hi | hi | hi
  · refine ⟨Dir.BOTTOM, ?_⟩
    simp only [manhattanDistance, Pos.step]
    rw [abs_of_neg (by omega : ai - pi < 0), abs_of_nonpos (by omega : ai + 1 - pi ≤ 0)]
    omega
  · rcases lt_or_gt_of_ne (hne.resolve_left (not_not.mpr hi)) with hj | hj
    · refine ⟨Dir.RIGHT, ?_⟩
      simp only [manhattanDistance, Pos.step]
      rw [abs_of_neg (by omega : aj - pj < 0), abs_of_nonpos (by omega : aj + 1 - pj ≤ 0)]
      omega
    · refine ⟨Dir.LEFT, ?_⟩
      simp only [manhattanDistance, Pos.step]
      rw [abs_of_pos (by omega : 0 < aj - pj), abs_of_nonneg (by omega : 0 ≤ aj - 1 - pj)]
      omega
  · refine ⟨Dir.TOP, ?_⟩
    simp only [manhattanDistance, Pos.step]
    rw [abs_of_pos (by omega : 0 < ai - pi), abs_of_nonneg (by omega : 0 ≤ ai - 1 - pi)]
    omega

/-- The Manhattan distance is not negative, and it is 0 only between a cell and itself. -/
theorem manhattanDistance_nonneg (a p : Pos) : 0 ≤ manhattanDistance a p := by
  unfold manhattanDistance
  have h1 := abs_nonneg (a.i - p.i)
  have h2 := abs_nonneg (a.j - p.j)
  omega

theorem manhattanDistance_eq_zero (a p : Pos) (h : manhattanDistance a p = 0) : a = p := by
  unfold manhattanDistance at h
  have h1 := abs_nonneg (a.i - p.i)
  have h2 := abs_nonneg (a.j - p.j)
  have h3 : |a.i - p.i| = 0 := by omega
  have h4 : |a.j - p.j| = 0 := by omega
  obtain ⟨ai, aj⟩ := a
  obtain ⟨pi, pj⟩ := p
  simp only [abs_eq_zero] at h3 h4
  have e1 : ai = pi := by omega
  have e2 : aj = pj := by omega
  rw [e1, e2]

/-- Between any two cells there is a walk as long as their Manhattan distance, all of whose
cells are nearer to the end than the start is. -/
theorem monotone_walk (n : Nat) (a p : Pos) (hn : manhattanDistance a p = n) :
    ∃ ds : List Dir, (ds.length : Int) = manhattanDistance a p ∧
      IsWalk (fun q => manhattanDistance q p < manhattanDistance a p) a ds p := by
  induction n generalizing a with
  | zero =>
    refine ⟨[], ?_, manhattanDistance_eq_zero a p (by simpa using hn)⟩
    rw [hn]; rfl
  | succ n ih =>
    have hne : a ≠ p := by
      intro h
      rw [h] at hn
      have : manhattanDistance p p = 0 := by simp [manhattanDistance]
      rw [this] at hn
      simp only [Nat.cast_add, Nat.cast_one] at hn
      omega
    obtain ⟨d, hd⟩ := exists_closer_step a p hne
    have hn1 : manhattanDistance (a.step d) p = n := by
      rw [hn] at hd
      simp only [Nat.cast_add, Nat.cast_one] at hd
      omega
    obtain ⟨ds, hlen, hw⟩ := ih (a.step d) hn1
    refine ⟨d :: ds, ?_, ?_, ?_⟩
    · simp only [List.length_cons, Nat.cast_add, Nat.cast_one]
      omega
    · show manhattanDistance (a.step d) p < manhattanDistance a p
      omega
    · exact isWalk_mono _ _ (fun q hq => by omega) _ _ _ hw

/-- On the open board with one city every cell other than `(5,5)` is reached from `(5,5)` by
a walk through expanded cells as long as the Manhattan distance. -/
theorem rightCity_shortest (u : Unit) (hu : u.pos = ⟨5, 5⟩) (p : Pos) :
    ∃ ds, IsWalk (FloodCell rightCityGame u) u.pos ds p ∧
      (ds.length : Int) = manhattanDistance u.pos p := by
  have hnn := manhattanDistance_nonneg u.pos p
  obtain ⟨ds, hlen, hw⟩ := monotone_walk (manhattanDistance u.pos p).toNat u.pos p
    (by rw [Int.toNat_of_nonneg hnn])
  refine ⟨ds, isWalk_mono _ _ ?_ _ _ _ hw, hlen⟩
  intro q hq
  apply rightCity_floodCell u hu
  intro hq5
  rw [hq5, ← hu] at hq
  exact lt_irrefl _ hq

/-- On the open board with one city a scored cell was scored at its Manhattan distance. -/
theorem rightCity_scored_distance {α : Type} (u : Unit) (hu : u.pos = ⟨5, 5⟩)
    (st : FloodState α) (hinv : FloodInv rightCityGame u st) (e : Pos × SearchTicket)
    (he : e ∈ st.scored) : e.2.distance = manhattanDistance u.pos e.1 := by
  obtain ⟨hcell, ⟨t, ht, htd⟩, _, _⟩ := hinv.done e he
  obtain ⟨ds, hw, hl⟩ := hinv.walk e.1 t ht hcell
  obtain ⟨ds1, hw1, hl1⟩ := rightCity_shortest u hu e.1
  have h1 := manhattan_le_walk _ _ _ _ hw
  have h2 := hinv.distance_le e.1 t ht ds1 hw1
  omega

/-- On the open board with one city the first steps of the shortest walks to a cell are the
steps that lead nearer to it. -/
theorem rightCity_firstStep_iff (u : Unit) (hu : u.pos = ⟨5, 5⟩) (p : Pos) (d : Dir) :
    FirstStep rightCityGame u p d ↔
      manhattanDistance (u.pos.step d) p < manhattanDistance u.pos p := by
  constructor
  · rintro ⟨ds, hw, hmin⟩
    obtain ⟨ds1, hw1, hl1⟩ := rightCity_shortest u hu p
    have h1 := hmin ds1 hw1
    have h2 := manhattan_le_walk _ _ _ _ hw.2
    simp only [List.length_cons] at h1
    omega
  · intro hlt
    have hstep := (manhattanDistance_step_le u.pos p d).1
    have hnn := manhattanDistance_nonneg (u.pos.step d) p
    obtain ⟨ds, hlen, hw⟩ := monotone_walk (manhattanDistance (u.pos.step d) p).toNat
      (u.pos.step d) p (by rw [Int.toNat_of_nonneg hnn])
    have hfirst : FloodCell rightCityGame u (u.pos.step d) :=
      rightCity_floodCell u hu _ (by rw [← hu]; exact Pos.step_ne_self u.pos d)
    refine ⟨ds, ⟨hfirst, isWalk_mono _ _ ?_ _ _ _ hw⟩, ?_⟩
    · intro q hq
      apply rightCity_floodCell u hu
      intro hq5
      rw [hq5, ← hu] at hq
      omega
    · intro ds1 hw1
      have h3 := manhattan_le_walk _ _ _ _ hw1
      have h4 : ((d :: ds).length : Int) ≤ ds1.length := by
        simp only [List.length_cons, Nat.cast_add, Nat.cast_one]
        omega
      exact_mod_cast h4

/-- On the open board with the city tile `(5,8)`, under the default weights, the vector of
the cell scorer for a cell other than `(5,5)` at a distance `k ≠ 0`: the score
`rightCityValue` of the cell in the flagged directions and 0 in the others. -/
theorem rightCity_cellValue (u : Unit) (k : Int) (hk : k ≠ 0) (c : Pos)
    (hc : c ≠ ⟨5, 5⟩) (reachableFrom : DirectionBooleans) (a e : Int) :
    cellEvaluation rightCityGame (defaultParams Score) k (rightCityGame.cell c) u
        reachableFrom a e =
      some (DirectionEvaluation.ofFn (fun d =>
        if reachableFrom.get d then Score.fin (rightCityValue (decide (u.damage > 0)) c k)
        else Score.fin 0), a, e) := by
  have hkq : (k : ℚ) ≠ 0 := by exact_mod_cast hk
  have hadd : ∀ x y : ℚ, (Score.fin x : Score) + Score.fin y = Score.fin (x + y) := by
    intro x y; rfl
  have hmul : ∀ x y : ℚ, (Score.fin x : Score) * Score.fin y = Score.fin (x * y) := by
    intro x y; rfl
  have hdiv : ∀ x y : ℚ, y ≠ 0 → (Score.fin x : Score) / Score.fin y = Score.fin (x / y) := by
    intro x y hy
    show Score.div (Score.fin x) (Score.fin y) = Score.fin (x / y)
    simp [Score.div, hy]
  have hpow3 : (powInt k 3 : Score) = Score.fin ((k : ℚ) ^ 3) := by
    show Score.pow (Score.fin (k : ℚ)) (Score.fin ((3 : Int) : ℚ)) = _
    simp [Score.pow]
  have hpow2 : (powInt k 2 : Score) = Score.fin ((k : ℚ) ^ 2) := by
    show Score.pow (Score.fin (k : ℚ)) (Score.fin ((2 : Int) : ℚ)) = _
    simp [Score.pow]
  have hvirus : VIRUS_EVALUATION_FUNCTION (defaultParams Score) k 0 u =
      some (Score.fin (if u.damage > 0 then 5 / (k : ℚ) ^ 3 else 0)) := by
    unfold VIRUS_EVALUATION_FUNCTION
    rw [if_neg hk]
    by_cases hdmg : u.damage > 0
    · simp only [hdmg, if_true, hpow3]
      show some ((Score.fin ((5 : Int) : ℚ) : Score) / Score.fin ((k : ℚ) ^ 3)) = _
      rw [hdiv _ _ (pow_ne_zero 3 hkq)]
      simp
    · simp only [hdmg, if_false, hpow3]
      show some ((Score.fin ((-20 : Int) : ℚ) : Score) * Score.fin ((0 : Int) : ℚ) /
        Score.fin ((k : ℚ) ^ 3)) = _
      rw [hmul, hdiv _ _ (pow_ne_zero 3 hkq)]
      simp
  by_cases h8 : c = ⟨5, 8⟩
  · have hcell : rightCityGame.cell c = ⟨CellType.CITY, -1, false, 0⟩ := by
      rw [h8]; rfl
    have hcity : LOCAL_CELLTYPE_EVALUATION_FUNCTION (defaultParams Score) k u CellType.CITY =
        some (Score.fin ((if u.damage > 0 then 25 else 50) / (k : ℚ) ^ 2)) := by
      unfold LOCAL_CELLTYPE_EVALUATION_FUNCTION LOCAL_CITY_EVALUATION_FUNCTION
      simp only [if_neg hk, hpow2]
      by_cases hdmg : u.damage > 0
      · simp only [hdmg, if_true]
        show some ((Score.fin ((25 : Int) : ℚ) : Score) / Score.fin ((k : ℚ) ^ 2)) = _
        rw [hdiv _ _ (pow_ne_zero 2 hkq)]
        simp
      · simp only [hdmg, if_false]
        show some ((Score.fin ((50 : Int) : ℚ) : Score) / Score.fin ((k : ℚ) ^ 2)) = _
        rw [hdiv _ _ (pow_ne_zero 2 hkq)]
        simp
    rw [hcell]
    unfold cellEvaluation rightCityValue
    simp only [hcity, hvirus, Option.bind_eq_bind, Option.some_bind, ne_eq, not_true_eq_false,
      if_false, Bool.false_eq_true, Option.pure_def, if_pos h8]
    show some (DirectionEvaluation.ofFn (fun d => if reachableFrom.get d = true then
      (Score.fin ((if u.damage > 0 then 25 else 50) / (k : ℚ) ^ 2) : Score) +
        Score.fin ((0 : Int) : ℚ) + Score.fin ((0 : Int) : ℚ) +
        Score.fin (if u.damage > 0 then 5 / (k : ℚ) ^ 3 else 0)
      else Score.fin ((0 : Int) : ℚ)), a, e) = _
    by_cases hdmg : u.damage > 0 <;>
      simp only [hadd, Int.cast_zero, add_zero, hdmg, if_true, if_false, decide_True,
        decide_False, Bool.false_eq_true]
  · have hcell : rightCityGame.cell c = emptyCell := by
      unfold rightCityGame
      simp only [if_neg hc, if_neg h8]
    rw [hcell]
    unfold cellEvaluation rightCityValue
    simp only [emptyCell, LOCAL_CELLTYPE_EVALUATION_FUNCTION, hvirus, Option.bind_eq_bind,
      Option.some_bind, ne_eq, not_true_eq_false, if_false, Bool.false_eq_true,
      Option.pure_def, if_neg h8]
    show some (DirectionEvaluation.ofFn (fun d => if reachableFrom.get d = true then
      (Score.fin ((0 : Int) : ℚ) : Score) + Score.fin ((0 : Int) : ℚ) +
        Score.fin ((0 : Int) : ℚ) + Score.fin (if u.damage > 0 then 5 / (k : ℚ) ^ 3 else 0)
      else Score.fin ((0 : Int) : ℚ)), a, e) = _
    by_cases hdmg : u.damage > 0 <;>
      simp only [hadd, Int.cast_zero, add_zero, zero_add, hdmg, if_true, if_false, decide_True,
        decide_False, Bool.false_eq_true]

/-! ## The state in which the flood returns -/

/-- A pass of the flood loop returns because the queue is empty or because the ticket of
the front cell is out of range. -/
theorem floodStep_returned_cases {α : Type} [DoubleOps α] (G : Game) (P : Params α) (u : Unit)
    (RANGE : Int) (st st1 : FloodState α) (h : floodStep G P u RANGE st = Step.returned st1) :
    st.scheduledAppointments = [] ∨
      ∃ c rest tc, st.scheduledAppointments = c :: rest ∧ st.visited c = some tc ∧
        RANGE < tc.distance := by
  unfold floodStep at h
  cases hq : st.scheduledAppointments with
  | nil => exact Or.inl rfl
  | cons c rest =>
    right
    simp only [hq] at h
    cases hv : st.visited c with
    | none => simp [hv] at h
    | some tc =>
      simp only [hv] at h
      by_cases hr : tc.distance > RANGE
      · exact ⟨c, rest, tc, rfl, hv, hr⟩
      · simp only [hr, if_false] at h
        cases hc : cellEvaluation G P tc.distance (G.cell c) u tc.reachableFrom
            st.foundAlliesCounter st.foundEnemiesCounter with
        | none => simp [hc] at h
        | some r => simp [hc] at h

/-- The state the flood loop returns comes from a pass that returns, made in a state that has
every property the running passes keep. -/
theorem floodLoop_returned {α : Type} [DoubleOps α] (G : Game) (P : Params α) (u : Unit)
    (RANGE : Int) (S : FloodState α → Prop)
    (hrun : ∀ st st1, S st → floodStep G P u RANGE st = Step.running st1 → S st1)
    (fuel : Nat) (st s : FloodState α) (h : S st)
    (hl : floodLoop G P u RANGE fuel st = some s) :
    ∃ st1, S st1 ∧ floodStep G P u RANGE st1 = Step.returned s := by
  induction fuel generalizing st with
  | zero => simp [floodLoop] at hl
  | succ fuel ih =>
    unfold floodLoop at hl
    cases hs : floodStep G P u RANGE st with
    | running st1 => rw [hs] at hl; exact ih st1 (hrun st st1 h hs) hl
    | returned st1 =>
      rw [hs] at hl
      simp only [Option.some.injEq] at hl
      exact ⟨st, h, by rw [hs, hl]⟩
    | failed => rw [hs] at hl; simp at hl

/-- When the flood returns, every cell reached by a walk through expanded cells within the
range has been scored. -/
theorem FloodInv.complete {α : Type} [DoubleOps α] {G : Game} {P : Params α} {u : Unit}
    {r : Int} {st s : FloodState α} (h : FloodInv G u st)
    (hret : floodStep G P u r st = Step.returned s) (p : Pos) (ds : List Dir)
    (hw : IsWalk (FloodCell G u) u.pos ds p) (hp : p ≠ u.pos) (hlen : (ds.length : Int) ≤ r) :
    ∃ e ∈ st.scored, e.1 = p := by
  have hcell : FloodCell G u p := by
    rcases isWalk_end _ _ _ _ hw with ⟨_, hps⟩ | hok
    · exact absurd hps hp
    · exact hok
  rcases floodStep_returned_cases G P u r st s hret with hq | ⟨c, rest, tc, hq, hv, hr⟩
  · rcases h.lower_bound ds p hw with ⟨t, ht, _⟩ | ⟨_, q, hqm, _⟩
    · rcases h.live p t ht hcell with hm | hs
      · rw [hq] at hm
        exact absurd hm (List.not_mem_nil _)
      · exact hs
    · rw [hq] at hqm
      exact absurd hqm (List.not_mem_nil _)
  · have hfront : ∀ q ∈ st.scheduledAppointments, r < ticketDistance st.visited q := by
      intro q hqm
      have h1 := h.front_least c rest hq q hqm
      rw [ticketDistance_some hv] at h1
      omega
    rcases h.lower_bound ds p hw with ⟨t, ht, htl⟩ | ⟨_, q, hqm, hql⟩
    · rcases h.live p t ht hcell with hm | hs
      · have h2 := hfront p hm
        rw [ticketDistance_some ht] at h2
        omega
      · exact hs
    · have h2 := hfront q hqm
      omega

/-! ## The symmetry of the open board -/

theorem abs_step_lt (a b : Int) :
    (|a + 1 - b| < |a - b| ↔ a < b) ∧ (|a - 1 - b| < |a - b| ↔ b < a) := by
  rcases abs_cases (a + 1 - b) with h1 | h1 <;> rcases abs_cases (a - b) with h2 | h2 <;>
    rcases abs_cases (a - 1 - b) with h3 | h3 <;>
    refine ⟨⟨fun h => by omega, fun h => by omega⟩, ⟨fun h => by omega, fun h => by omega⟩⟩

/-- A step from `(5,5)` leads nearer to `p` exactly when `p` lies on its side of `(5,5)`. -/
theorem closer_iff (p : Pos) (d : Dir) :
    manhattanDistance ((⟨5, 5⟩ : Pos).step d) p < manhattanDistance ⟨5, 5⟩ p ↔
      match d with
      | Dir.BOTTOM => 5 < p.i
      | Dir.RIGHT => 5 < p.j
      | Dir.TOP => p.i < 5
      | Dir.LEFT => p.j < 5 := by
  cases d <;> simp only [manhattanDistance, Pos.step]
  · rw [← (abs_step_lt 5 p.i).1]; constructor <;> intro h <;> omega
  · rw [← (abs_step_lt 5 p.j).1]; constructor <;> intro h <;> omega
  · rw [← (abs_step_lt 5 p.i).2]; constructor <;> intro h <;> omega
  · rw [← (abs_step_lt 5 p.j).2]; constructor <;> intro h <;> omega

/-- The symmetry keeps the Manhattan distance to `(5,5)`. -/
theorem turnToRight_distance (d : Dir) (p : Pos) :
    manhattanDistance ⟨5, 5⟩ (turnToRight d p) = manhattanDistance ⟨5, 5⟩ p := by
  cases d <;> simp only [manhattanDistance, turnToRight]
  · omega
  · have h1 : (5 : Int) - (10 - p.j) = -(5 - p.j) := by ring
    have h2 : (5 : Int) - (10 - p.i) = -(5 - p.i) := by ring
    rw [h1, h2, abs_neg, abs_neg]
    omega
  · have h1 : (5 : Int) - (10 - p.j) = -(5 - p.j) := by ring
    rw [h1, abs_neg]

theorem turnToRight_injective (d : Dir) : Function.Injective (turnToRight d) := by
  intro p q h
  obtain ⟨pi, pj⟩ := p
  obtain ⟨qi, qj⟩ := q
  cases d <;> simp only [turnToRight, Pos.mk.injEq] at h ⊢
  · exact ⟨h.2, h.1⟩
  · exact h
  · constructor <;> omega
  · constructor <;> omega

/-- The symmetry sends the cells on the side of `d` to the cells on the side of RIGHT, and
none of the former is the city tile `(5,8)` unless `d` is RIGHT. -/
theorem turnToRight_closer (d : Dir) (p : Pos)
    (h : manhattanDistance ((⟨5, 5⟩ : Pos).step d) p < manhattanDistance ⟨5, 5⟩ p) :
    manhattanDistance ((⟨5, 5⟩ : Pos).step Dir.RIGHT) (turnToRight d p) <
        manhattanDistance ⟨5, 5⟩ (turnToRight d p) ∧
      (d ≠ Dir.RIGHT → p ≠ ⟨5, 8⟩) := by
  rw [closer_iff] at h ⊢
  cases d <;> simp only [turnToRight] at h ⊢
  · refine ⟨h, fun _ hp => ?_⟩
    rw [hp] at h; simp only at h; omega
  · exact ⟨h, fun hd => absurd rfl hd⟩
  · refine ⟨by omega, fun _ hp => ?_⟩
    rw [hp] at h; simp only at h; omega
  · refine ⟨by omega, fun _ hp => ?_⟩
    rw [hp] at h; simp only at h; omega

/-- The score of a cell at its Manhattan distance from `(5,5)` is not negative. -/
theorem rightCityValue_nonneg (infected : Bool) (p : Pos) :
    0 ≤ rightCityValue infected p (manhattanDistance ⟨5, 5⟩ p) := by
  have hk : (0 : ℚ) ≤ (manhattanDistance ⟨5, 5⟩ p : ℚ) := by
    exact_mod_cast manhattanDistance_nonneg ⟨5, 5⟩ p
  unfold rightCityValue
  apply add_nonneg
  · by_cases h8 : p = ⟨5, 8⟩
    · rw [if_pos h8]
      apply div_nonneg _ (pow_nonneg hk 2)
      cases infected <;> simp
    · rw [if_neg h8]
  · cases infected
    · simp
    · simp only [if_true]
      exact div_nonneg (by norm_num) (pow_nonneg hk 3)

/-- On the open board with one city, when the flood has scored every cell within its range,
the total scored for any direction is not negative and at most the total scored for
RIGHT. -/
theorem rightCity_sum_le {α : Type} (u : Unit) (hu : u.pos = ⟨5, 5⟩) (r : Int)
    (st : FloodState α) (hinv : FloodInv rightCityGame u st) (honce : FloodOnce st)
    (hr : ∀ e ∈ st.scored, e.2.distance ≤ r)
    (hcomplete : ∀ p, p ≠ u.pos → manhattanDistance u.pos p ≤ r → ∃ e ∈ st.scored, e.1 = p)
    (infected : Bool) (d : Dir) :
    0 ≤ rightCitySum infected d st.scored ∧
      rightCitySum infected d st.scored ≤ rightCitySum infected Dir.RIGHT st.scored := by
  have hterm : ∀ e ∈ st.scored, ∀ d1 : Dir,
      (if e.2.reachableFrom.get d1 = true then rightCityValue infected e.1 e.2.distance else 0) =
      (if manhattanDistance ((⟨5, 5⟩ : Pos).step d1) e.1 < manhattanDistance ⟨5, 5⟩ e.1 then
        rightCityValue infected e.1 (manhattanDistance ⟨5, 5⟩ e.1) else 0) := by
    intro e he d1
    have hdist := rightCity_scored_distance u hu st hinv e he
    have hflag := (hinv.exact e he d1).trans (rightCity_firstStep_iff u hu e.1 d1)
    rw [hu] at hdist hflag
    rw [hdist]
    by_cases hf : e.2.reachableFrom.get d1 = true
    · rw [if_pos hf, if_pos (hflag.mp hf)]
    · rw [if_neg hf, if_neg (fun h => hf (hflag.mpr h))]
  have hsum : ∀ d1 : Dir, rightCitySum infected d1 st.scored =
      (st.scored.map Prod.fst).toFinset.sum (fun p =>
        if manhattanDistance ((⟨5, 5⟩ : Pos).step d1) p < manhattanDistance ⟨5, 5⟩ p then
          rightCityValue infected p (manhattanDistance ⟨5, 5⟩ p) else 0) := by
    intro d1
    rw [List.sum_toFinset _ honce.scored, List.map_map]
    unfold rightCitySum
    congr 1
    apply List.map_congr_left
    intro e he
    exact hterm e he d1
  have hG : ∀ (d1 : Dir) (p : Pos),
      (0 : ℚ) ≤ (if manhattanDistance ((⟨5, 5⟩ : Pos).step d1) p < manhattanDistance ⟨5, 5⟩ p then
        rightCityValue infected p (manhattanDistance ⟨5, 5⟩ p) else 0) := by
    intro d1 p
    by_cases h : manhattanDistance ((⟨5, 5⟩ : Pos).step d1) p < manhattanDistance ⟨5, 5⟩ p
    · rw [if_pos h]; exact rightCityValue_nonneg infected p
    · rw [if_neg h]
  have hmem : ∀ p, p ∈ (st.scored.map Prod.fst).toFinset →
      p ≠ ⟨5, 5⟩ ∧ manhattanDistance ⟨5, 5⟩ p ≤ r := by
    intro p hp
    rw [List.mem_toFinset] at hp
    obtain ⟨e, he, rfl⟩ := List.mem_map.mp hp
    have h1 := (hinv.done e he).1.1
    have h2 := rightCity_scored_distance u hu st hinv e he
    have h3 := hr e he
    rw [hu] at h1 h2
    exact ⟨h1, by omega⟩
  have himage : (st.scored.map Prod.fst).toFinset.image (turnToRight d) ⊆
      (st.scored.map Prod.fst).toFinset := by
    intro q hq
    obtain ⟨p, hp, rfl⟩ := Finset.mem_image.mp hq
    obtain ⟨hp5, hpr⟩ := hmem p hp
    have hd := turnToRight_distance d p
    have hq5 : turnToRight d p ≠ u.pos := by
      rw [hu]
      intro h
      rw [h] at hd
      have h0 : manhattanDistance ⟨5, 5⟩ ⟨5, 5⟩ = 0 := by decide
      exact hp5 (manhattanDistance_eq_zero _ _ (by omega)).symm
    obtain ⟨e, he, heq⟩ := hcomplete (turnToRight d p) hq5 (by rw [hu]; omega)
    rw [List.mem_toFinset]
    exact List.mem_map.mpr ⟨e, he, heq⟩
  refine ⟨by rw [hsum]; exact Finset.sum_nonneg (fun p _ => hG d p), ?_⟩
  rw [hsum d, hsum Dir.RIGHT]
  calc (st.scored.map Prod.fst).toFinset.sum (fun p =>
        if manhattanDistance ((⟨5, 5⟩ : Pos).step d) p < manhattanDistance ⟨5, 5⟩ p then
          rightCityValue infected p (manhattanDistance ⟨5, 5⟩ p) else 0)
      ≤ (st.scored.map Prod.fst).toFinset.sum (fun p =>
        if manhattanDistance ((⟨5, 5⟩ : Pos).step Dir.RIGHT) (turnToRight d p) <
            manhattanDistance ⟨5, 5⟩ (turnToRight d p) then
          rightCityValue infected (turnToRight d p)
            (manhattanDistance ⟨5, 5⟩ (turnToRight d p)) else 0) := by
        apply Finset.sum_le_sum
        intro p _
        by_cases h : manhattanDistance ((⟨5, 5⟩ : Pos).step d) p < manhattanDistance ⟨5, 5⟩ p
        · obtain ⟨h1, h2⟩ := turnToRight_closer d p h
          rw [if_pos h, if_pos h1]
          by_cases hd : d = Dir.RIGHT
          · rw [hd]
            exact le_refl _
          · have hp8 := h2 hd
            have hk : (0 : ℚ) ≤ (manhattanDistance ⟨5, 5⟩ p : ℚ) := by
              exact_mod_cast manhattanDistance_nonneg ⟨5, 5⟩ p
            rw [turnToRight_distance]
            unfold rightCityValue
            rw [if_neg hp8, zero_add]
            apply le_add_of_nonneg_left
            by_cases h8 : turnToRight d p = ⟨5, 8⟩
            · rw [if_pos h8]
              apply div_nonneg _ (pow_nonneg hk 2)
              cases infected <;> simp
            · rw [if_neg h8]
        · rw [if_neg h]
          exact hG Dir.RIGHT _
    _ = ((st.scored.map Prod.fst).toFinset.image (turnToRight d)).sum (fun q =>
        if manhattanDistance ((⟨5, 5⟩ : Pos).step Dir.RIGHT) q < manhattanDistance ⟨5, 5⟩ q then
          rightCityValue infected q (manhattanDistance ⟨5, 5⟩ q) else 0) := by
        rw [Finset.sum_image]
        intro p _ q _ hpq
        exact turnToRight_injective d hpq
    _ ≤ (st.scored.map Prod.fst).toFinset.sum (fun q =>
        if manhattanDistance ((⟨5, 5⟩ : Pos).step Dir.RIGHT) q < manhattanDistance ⟨5, 5⟩ q then
          rightCityValue infected q (manhattanDistance ⟨5, 5⟩ q) else 0) :=
        Finset.sum_le_sum_of_subset_of_nonneg himage (fun q _ _ => hG Dir.RIGHT q)

/-! ## The scenario of the single city (C15) -/

/-- The invariant of the flood on the board with one city holds when the loop is entered. -/
theorem rightCityInv_start (u : Unit) (hu : u.pos = ⟨5, 5⟩) (r : Int) (st0 : FloodState Score)
    (h0 : floodStart rightCityGame (defaultParams Score) u = some st0) :
    RightCityInv u r st0 := by
  obtain ⟨st, h1, hinv0⟩ := floodInv_start rightCityGame (defaultParams Score) u
  rw [h0] at h1
  have hst : st0 = st := Option.some.inj h1
  subst hst
  obtain ⟨st, h2, hs, _⟩ := floodStart_spec rightCityGame (defaultParams Score) u
  rw [h0] at h2
  have hst : st0 = st := Option.some.inj h2
  subst hst
  refine ⟨hinv0, floodOnce_start _ _ u st0 h0, ?_, ?_⟩
  · intro e he; rw [hs] at he; simp at he
  · intro d
    rw [floodStart_evaluation _ _ _ st0 h0 d, hs]
    have hfree : (rightCityGame.cell (u.pos.step d)).type ≠ CellType.WALL ∧
        (rightCityGame.cell (u.pos.step d)).unit_id = -1 := by
      have hc := rightCity_floodCell u hu (u.pos.step d)
        (by rw [← hu]; exact Pos.step_ne_self u.pos d)
      exact ⟨hc.2.1, hc.2.2 d rfl⟩
    unfold seedAdd
    rw [if_neg hfree.1, if_neg (not_not.mpr hfree.2)]
    show Score.fin ((0 : Int) : ℚ) = Score.fin (rightCitySum _ d [])
    simp [rightCitySum]

/-- Every running pass keeps the invariant of the flood on the board with one city. -/
theorem rightCityInv_pass (u : Unit) (hu : u.pos = ⟨5, 5⟩) (r : Int) (st st1 : FloodState Score)
    (h : RightCityInv u r st)
    (hstep : floodStep rightCityGame (defaultParams Score) u r st = Step.running st1) :
    RightCityInv u r st1 := by
  obtain ⟨hinv, honce, hr, hev⟩ := h
  obtain ⟨c, rest, tc, v, a, e, hq, hv, hcell, hev1, _, _⟩ :=
    floodStep_running_score _ _ _ r st st1 hstep
  obtain ⟨c1, rest1, tc1, hq1, hv1, htc1, _, _, hs1⟩ := floodStep_running _ _ _ r st st1 hstep
  have hcc : c1 = c := by
    rw [hq] at hq1
    exact (List.cons.inj hq1).1.symm
  have htt : tc1 = tc := by
    rw [hcc, hv] at hv1
    exact (Option.some.inj hv1).symm
  rw [hcc, htt] at hs1
  rw [htt] at htc1
  have hcq : c ∈ st.scheduledAppointments := by rw [hq]; exact List.mem_cons_self _ _
  obtain ⟨tc2, hv2, hk1, _⟩ := hinv.front_scorable c hcq
  have htc2 : tc2 = tc := by
    rw [hv] at hv2
    exact (Option.some.inj hv2).symm
  rw [htc2] at hk1
  have hc5 : c ≠ ⟨5, 5⟩ := by
    have := (hinv.queued c hcq).1.1
    rw [hu] at this
    exact this
  rw [rightCity_cellValue u tc.distance (by omega) c hc5] at hcell
  have hv3 := (Prod.mk.inj (Option.some.inj hcell)).1
  refine ⟨hinv.flood_pass hstep, honce.once_pass hinv hstep, ?_, ?_⟩
  · intro e1 he1
    rw [hs1] at he1
    rcases List.mem_append.mp he1 with he1 | he1
    · exact hr e1 he1
    · simp only [List.mem_singleton] at he1
      rw [he1]; exact htc1
  · intro d
    rw [hev1, DirectionEvaluation.get_add, hev d, ← hv3, DirectionEvaluation.get_ofFn, hs1]
    have hadd : ∀ x y : ℚ, (Score.fin x : Score) + Score.fin y = Score.fin (x + y) := by
      intro x y; rfl
    unfold rightCitySum
    rw [List.map_append, List.sum_append]
    simp only [List.map_cons, List.map_nil, List.sum_cons, List.sum_nil, add_zero]
    by_cases hf : tc.reachableFrom.get d = true
    · simp only [hf, if_true, hadd]
    · simp only [hf, if_false, hadd, Bool.false_eq_true]

/-- On the board with one city `localEvaluation` returns, for a unit at `(5,5)` and every
range, four numbers that are not negative, and none exceeds the one for RIGHT. -/
theorem rightCity_local (u : Unit) (hu : u.pos = ⟨5, 5⟩) (r : Int) (fuel : Nat)
    (ev : DirectionEvaluation Score)
    (hev : localEvaluation rightCityGame (defaultParams Score) fuel u r = some ev) :
    ∃ b x t l : ℚ, ev = ⟨Score.fin b, Score.fin x, Score.fin t, Score.fin l⟩ ∧
      0 ≤ b ∧ 0 ≤ t ∧ 0 ≤ l ∧ b ≤ x ∧ t ≤ x ∧ l ≤ x := by
  unfold localEvaluation at hev
  cases hst : localFlood rightCityGame (defaultParams Score) fuel u r with
  | none => rw [hst] at hev; simp at hev
  | some s =>
    rw [hst] at hev
    simp only [Option.map_some', Option.some.injEq] at hev
    unfold localFlood at hst
    cases h0 : floodStart rightCityGame (defaultParams Score) u with
    | none => rw [h0] at hst; simp at hst
    | some st0 =>
      rw [h0] at hst
      simp only [Option.some_bind] at hst
      obtain ⟨st1, ⟨hinv, honce, hr, hsum⟩, hret⟩ :=
        floodLoop_returned rightCityGame (defaultParams Score) u r (RightCityInv u r)
          (fun st st1 h hs => rightCityInv_pass u hu r st st1 h hs) fuel st0 s
          (rightCityInv_start u hu r st0 h0) hst
      obtain ⟨he, _, _⟩ := floodStep_returned_evaluation _ _ _ r st1 s hret
      have hcomplete : ∀ p, p ≠ u.pos → manhattanDistance u.pos p ≤ r →
          ∃ e ∈ st1.scored, e.1 = p := by
        intro p hp hpr
        obtain ⟨ds, hw, hl⟩ := rightCity_shortest u hu p
        exact hinv.complete hret p ds hw hp (by omega)
      have hle := rightCity_sum_le u hu r st1 hinv honce hr hcomplete (decide (u.damage > 0))
      refine ⟨_, _, _, _, ?_, (hle Dir.BOTTOM).1, (hle Dir.TOP).1, (hle Dir.LEFT).1,
        (hle Dir.BOTTOM).2, (hle Dir.TOP).2, (hle Dir.LEFT).2⟩
      rw [← hev, he]
      apply DirectionEvaluation.ext_get
      intro d
      rw [hsum d]
      cases d <;> rfl

/-- C15: on the board whose cells are all empty, unoccupied, mask-free and virus-free except
the unit's own cell `(5,5)` and a single city cell at `(5,8)` that the mover does not own,
for every unit at `(5,5)`, under the default weights and with every `top()` that yields an
entry of least priority: `shortestPathDirections` from `(5,5)` to `(5,8)` returns, by
dequeuing the destination, the set with RIGHT and no other direction flagged (with any fuel
of at least 8 passes); `localEvaluation` returns at every range, in particular at ranges 2
and 25, and the four scores it returns are numbers of which none exceeds the score of
RIGHT; and in the full mode, with enough fuel, the combined vector resolves through
`chosenDirection` to RIGHT. -/
theorem right_city_scenario (top : TopChoice) (hvalid : top.Valid) (u : Unit)
    (hu : u.pos = ⟨5, 5⟩) :
    (∀ fuel, 8 ≤ fuel →
      shortestPathDirections rightCityGame top fuel ⟨5, 5⟩ ⟨5, 8⟩ =
          some ⟨false, true, false, false⟩ ∧
        pathSearch rightCityGame top fuel ⟨5, 5⟩ ⟨5, 8⟩ =
          some (PathExit.dequeued, ⟨false, true, false, false⟩)) ∧
    (∀ r : Int,
      (∃ fuel ev, localEvaluation rightCityGame (defaultParams Score) fuel u r = some ev) ∧
      ∀ fuel ev, localEvaluation rightCityGame (defaultParams Score) fuel u r = some ev →
        ∃ b x t l : ℚ, ev = ⟨Score.fin b, Score.fin x, Score.fin t, Score.fin l⟩ ∧
          b ≤ x ∧ t ≤ x ∧ l ≤ x) ∧
    (∃ fuel0, ∀ fuel, fuel0 ≤ fuel → ∀ (cpuStatus : ℚ) (round : Int),
      (cpuStatus < 0.5 ∨ (cpuStatus < 0.8 ∧ round > 175)) →
      ∃ ev, (playEvaluation rightCityGame (defaultParams Score) top fuel cpuStatus round u).2 =
          some ev ∧
        chosenDirection ev = Dir.RIGHT) := by
  have hpath : ∀ fuel, 8 ≤ fuel →
      pathSearch rightCityGame top fuel ⟨5, 5⟩ ⟨5, 8⟩ =
        some (PathExit.dequeued, ⟨false, true, false, false⟩) := by
    intro fuel hfuel
    have h8 := rightCity_outcomes _
      (pathSearch_mem_outcomes rightCityGame top hvalid 8 ⟨5, 5⟩ ⟨5, 8⟩)
    obtain ⟨k, rfl⟩ := Nat.exists_eq_add_of_le hfuel
    exact pathSearch_mono rightCityGame top ⟨5, 5⟩ ⟨5, 8⟩ 8 k _ h8
  have hterm : ∀ r : Int, ∃ ev, localEvaluation rightCityGame (defaultParams Score)
      ((2 * r + 1).toNat ^ 2 + 1) u r = some ev := by
    intro r
    obtain ⟨st, hst⟩ := localFlood_terminates rightCityGame (defaultParams Score) u r
    exact ⟨st.evaluation, by unfold localEvaluation; rw [hst]; rfl⟩
  refine ⟨fun fuel hfuel => ⟨?_, hpath fuel hfuel⟩, fun r => ⟨?_, ?_⟩, ?_⟩
  · unfold shortestPathDirections
    rw [hpath fuel hfuel]
    rfl
  · obtain ⟨ev, hev⟩ := hterm r
    exact ⟨_, ev, hev⟩
  · intro fuel ev hev
    obtain ⟨b, x, t, l, he, _, _, _, hb, ht, hl⟩ := rightCity_local u hu r fuel ev hev
    exact ⟨b, x, t, l, he, hb, ht, hl⟩
  · refine ⟨(2 * (25 : Int) + 1).toNat ^ 2 + 1 + 8, ?_⟩
    intro fuel hfuel cpuStatus round hfull
    obtain ⟨k, rfl⟩ := Nat.exists_eq_add_of_le hfuel
    obtain ⟨ev, hev⟩ := hterm 25
    have hloc := localEvaluation_mono _ _ _ 25 _ (8 + k) ev hev
    rw [← Nat.add_assoc] at hloc
    obtain ⟨b, x, t, l, hxe, hb0, ht0, hl0, hb, ht, hl⟩ := rightCity_local u hu 25 _ ev hloc
    have hglob : globalEvaluation rightCityGame (defaultParams Score) top
        ((2 * (25 : Int) + 1).toNat ^ 2 + 1 + 8 + k) u =
        some ⟨Score.fin 0, Score.fin 70, Score.fin 0, Score.fin 0⟩ := by
      have hclosest : closestCityOrPathEstimation rightCityGame (defaultParams Score) ⟨5, 5⟩ =
          ⟨5, 8⟩ := by decide
      unfold globalEvaluation shortestPathDirections
      simp only [hu, hclosest]
      rw [hpath _ (by omega)]
      rfl
    have hadd : ∀ x y : ℚ, (Score.fin x : Score) + Score.fin y = Score.fin (x + y) := by
      intro x y; rfl
    refine ⟨⟨Score.fin b, Score.fin (x + 70), Score.fin t, Score.fin l⟩, ?_, ?_⟩
    · unfold playEvaluation
      rw [if_pos hfull]
      show (localEvaluation rightCityGame (defaultParams Score) _ _ 25).bind _ = _
      rw [hloc, hglob, hxe]
      simp only [Option.some_bind, Option.map_some', Option.some.injEq]
      apply DirectionEvaluation.ext_get
      intro d
      rw [DirectionEvaluation.get_add]
      cases d <;> simp [DirectionEvaluation.get, hadd]
    · have h1 : decide (x + 70 < l) = false := decide_eq_false (by linarith)
      have h2 : decide (b < x + 70) = true := decide_eq_true (by linarith)
      have h3 : decide (t < x + 70) = true := decide_eq_true (by linarith)
      by_cases hbt : t < b
      · simp [chosenDirection, DoubleOps.isgreater, Score.isgreater, DirectionEvaluation.get,
          h1, h2, h3, hbt]
      · simp [chosenDirection, DoubleOps.isgreater, Score.isgreater, DirectionEvaluation.get,
          h1, h2, h3, hbt]

/-- Witness of C15 with the first-minimum `top()`, the unit 0 of the board and 8 passes of
fuel for the search. -/
theorem right_city_scenario_witness :
    TopChoice.Valid (fun _ => firstMin) ∧ (rightCityGame.unit 0).pos = ⟨5, 5⟩ ∧
    pathSearch rightCityGame (fun _ => firstMin) 8 ⟨5, 5⟩ ⟨5, 8⟩ =
      some (PathExit.dequeued, ⟨false, true, false, false⟩) :=
  ⟨firstMin_valid, rfl,
    ((right_city_scenario (fun _ => firstMin) firstMin_valid (rightCityGame.unit 0) rfl).1 8
      (le_refl 8)).2⟩

/-! ## No assertion fails in `localEvaluation` (C21) -/

/-- A scored cell was scored at a distance of at least 1, and above 1 when it holds a
unit. -/
theorem FloodInv.scored_scorable {α : Type} {G : Game} {u : Unit} {st : FloodState α}
    (h : FloodInv G u st) (e : Pos × SearchTicket) (he : e ∈ st.scored) :
    1 ≤ e.2.distance ∧ ((G.cell e.1).unit_id ≠ -1 → 1 < e.2.distance) := by
  obtain ⟨hcell, ⟨t, ht, htd⟩, _, _⟩ := h.done e he
  obtain ⟨ds, hw, hlen⟩ := h.walk e.1 t ht hcell
  rw [← htd, ← hlen]
  constructor
  · rcases ds with _ | ⟨d, ds⟩
    · exact absurd hw.symm hcell.1
    · simp only [List.length_cons, Nat.cast_add, Nat.cast_one]; omega
  · intro hunit
    rcases ds with _ | ⟨d, _ | ⟨d1, ds⟩⟩
    · exact absurd hw.symm hcell.1
    · exact absurd (hcell.2.2 d hw.2.symm) hunit
    · simp only [List.length_cons, Nat.cast_add, Nat.cast_one]; omega

/-- C21: for every board, unit and range no assertion fails during `localEvaluation`.  The
seeding loop passes its four assertions: the four neighbours of the unit are distinct cells
other than the unit's own, and each is inserted as a new ticket.  In every state the flood
passes through (after any number `n` of passes, the state it returns in included) the next
pass of the loop does not fail, every cell that has been scored was scored at a distance of
at least 1, at a distance above 1 when it holds a unit, so that the enemy scorer is only
called at distances above 1, and the cell scorer with all the scorers it calls returns a
value at such a call whatever the counters are.  And `localEvaluation` runs to its return. -/
theorem flood_assertions_hold {α : Type} [DoubleOps α] (G : Game) (P : Params α) (u : Unit)
    (r : Int) :
    (∀ d, u.pos.step d ≠ u.pos) ∧ (∀ d e, u.pos.step d = u.pos.step e → d = e) ∧
    (∃ st0, floodStart G P u = some st0 ∧
      (∀ d, st0.visited (u.pos.step d) = some ⟨1, DirectionBooleans.single d⟩) ∧
      ∀ n,
        floodStep G P u r (floodAfter G P u r n st0) ≠ Step.failed ∧
        ∀ e ∈ (floodAfter G P u r n st0).scored,
          1 ≤ e.2.distance ∧ ((G.cell e.1).unit_id ≠ -1 → 1 < e.2.distance) ∧
          ∀ a b, ∃ res, cellEvaluation G P e.2.distance (G.cell e.1) u e.2.reachableFrom a b =
            some res) ∧
    (∃ fuel ev, localEvaluation G P fuel u r = some ev) := by
  refine ⟨Pos.step_ne_self u.pos, Pos.step_injective u.pos, ?_, ?_⟩
  · obtain ⟨st0, h0, hinv0⟩ := floodInv_start G P u
    obtain ⟨st, h1, _, _, hseed, _, _⟩ := floodStart_spec G P u
    rw [h0] at h1
    have hst : st0 = st := Option.some.inj h1
    subst hst
    refine ⟨st0, h0, hseed, fun n => ?_⟩
    have hW : (∀ c ∈ (floodAfter G P u r n st0).scheduledAppointments,
          ∃ tc, (floodAfter G P u r n st0).visited c = some tc ∧ 1 ≤ tc.distance ∧
            ((G.cell c).unit_id ≠ -1 → 1 < tc.distance)) ∧
        ∀ e ∈ (floodAfter G P u r n st0).scored,
          1 ≤ e.2.distance ∧ ((G.cell e.1).unit_id ≠ -1 → 1 < e.2.distance) := by
      apply floodAfter_induction2 G P u r (fun st => FloodInv G u st)
        (fun st => (∀ c ∈ st.scheduledAppointments,
            ∃ tc, st.visited c = some tc ∧ 1 ≤ tc.distance ∧
              ((G.cell c).unit_id ≠ -1 → 1 < tc.distance)) ∧
          ∀ e ∈ st.scored,
            1 ≤ e.2.distance ∧ ((G.cell e.1).unit_id ≠ -1 → 1 < e.2.distance))
      · intro st hinv
        exact ⟨fun c hc => hinv.front_scorable c hc, fun e he => hinv.scored_scorable e he⟩
      · intro st st1 hinv hstep
        exact hinv.flood_pass hstep
      · intro st st1 hinv hstep
        obtain ⟨hv, hs, hq⟩ := floodStep_returned G P u r st st1 hstep
        simp only [hv, hs]
        exact ⟨fun c hc => hinv.front_scorable c (hq c hc),
          fun e he => hinv.scored_scorable e he⟩
      · exact hinv0
    obtain ⟨hWq, hWs⟩ := hW
    constructor
    · have hcases := floodStep_cases G P u r (floodAfter G P u r n st0) (by
        intro c rest hq
        obtain ⟨tc, hv, h1, h2⟩ := hWq c (by rw [hq]; exact List.mem_cons_self _ _)
        exact ⟨tc, hv, cellEvaluation_isSome G P tc.distance (G.cell c) u tc.reachableFrom _ _
          (by omega) h2⟩)
      intro hfail
      rcases hcases with ⟨st1, h1⟩ | ⟨st1, h1⟩ <;> rw [hfail] at h1 <;> simp at h1
    · intro e he
      obtain ⟨h1, h2⟩ := hWs e he
      exact ⟨h1, h2, fun a b =>
        cellEvaluation_isSome G P e.2.distance (G.cell e.1) u e.2.reachableFrom a b
          (by omega) h2⟩
  · obtain ⟨st, hst⟩ := localFlood_terminates G P u r
    exact ⟨_, st.evaluation, by unfold localEvaluation; rw [hst]; rfl⟩

/-! ## The A* search on every board -/

/-- Expanding a non-wall cell only marks the ticket of a wall as visited. -/
theorem pathExpanded_wall (G : Game) (D : Pos) (V : Pos → Option PathTicket) (c : Pos)
    (cur : PathTicket) (p : Pos) (t : PathTicket) (hw : isWall G p) (hcw : ¬ isWall G c)
    (hV : V p = some t) :
    ∃ t1, pathExpanded G D V c cur p = some t1 ∧ t1.localGoal = t.localGoal ∧
      t1.globalGoal = t.globalGoal ∧ t1.reachableFrom = t.reachableFrom ∧
      (t.visited = true → t1.visited = true) := by
  have hpc : p ≠ c := fun h => hcw (h ▸ hw)
  have hw1 : (G.cell p).type = CellType.WALL := hw
  unfold pathExpanded
  by_cases hn : ∃ d ∈ POSSIBLE_DIRECTIONS, p = c.step d
  · rw [if_pos hn]
    unfold pathBump
    rw [if_pos hw1, hV]
    exact ⟨_, rfl, rfl, rfl, rfl, fun _ => rfl⟩
  · rw [if_neg hn, mapSet_other _ _ _ _ hpc, hV]
    exact ⟨t, rfl, rfl, rfl, rfl, fun h => h⟩

/-- The basic invariant holds when the A* loop is entered. -/
theorem pathBasic_start (G : Game) (s D : Pos) :
    ∃ st0, pathStart G s D = some st0 ∧ PathBasic G s D st0 ∧
      st0.scheduledAppointments =
        (POSSIBLE_DIRECTIONS.filter (fun d => freeCell G (s.step d))).map s.step ∧
      st0.pass = 0 := by
  obtain ⟨st0, h0, hpass, hsrc, hseed, hnone, hq⟩ := pathStart_spec G s D
  have hcases : ∀ p t, st0.visited p = some t →
      p = s ∨ ∃ d, p = s.step d ∧
        t = ⟨1, 1 + manhattanDistance (s.step d) D, DirectionBooleans.single d, false⟩ := by
    intro p t hp
    by_cases h1 : p = s
    · exact Or.inl h1
    · by_cases h2 : ∃ d, p = s.step d
      · obtain ⟨d, rfl⟩ := h2
        rw [hseed d] at hp
        exact Or.inr ⟨d, rfl, (Option.some.inj hp).symm⟩
      · rw [hnone p h1 (fun d hd => h2 ⟨d, hd⟩)] at hp
        simp at hp
  have hmem : ∀ q ∈ st0.scheduledAppointments, ∃ d, q = s.step d ∧ ¬ isWall G q := by
    intro q hq1
    rw [hq] at hq1
    obtain ⟨d, hd, rfl⟩ := List.mem_map.mp hq1
    have hf := (List.mem_filter.mp hd).2
    simp only [freeCell, Bool.and_eq_true, decide_eq_true_eq] at hf
    exact ⟨d, rfl, hf.1⟩
  refine ⟨st0, h0, ?_, hq, hpass⟩
  constructor
  · exact hsrc
  · intro q hq1
    obtain ⟨d, rfl, hw⟩ := hmem q hq1
    exact ⟨hw, _, hseed d⟩
  · intro p t hp _ hps
    rcases hcases p t hp with h | ⟨d, _, rfl⟩
    · exact absurd h hps
    · exact le_refl _
  · intro p t hp _
    rcases hcases p t hp with h | ⟨d, hpd, rfl⟩
    · rw [h, hsrc] at hp
      rw [← Option.some.inj hp, h]
      simp
    · rw [hpd]
  · intro d
    exact ⟨_, hseed d, rfl, rfl⟩
  · intro q hq1
    obtain ⟨d, rfl, hw⟩ := hmem q hq1
    exact ⟨[d], hw, rfl⟩

/-- Every running pass of the A* loop keeps the basic invariant. -/
theorem PathBasic.pass_kept {G : Game} {s D : Pos} {st st1 : PathState}
    (h : PathBasic G s D st) {top : TopChoice}
    (hstep : pathStep G top D st = Step.running st1) : PathBasic G s D st1 := by
  obtain ⟨c, tc, hc, hv, _, _, hexp | hskip⟩ := pathStep_running G top D st st1 hstep
  · obtain ⟨hvis, hV1, hQ1⟩ := hexp
    rw [pathExpanded_eq] at hV1
    obtain ⟨cur, hcur⟩ : ∃ cur : PathTicket, cur = { tc with visited := true } := ⟨_, rfl⟩
    rw [← hcur] at hV1
    have hcurg : cur.localGoal = tc.localGoal := by rw [hcur]
    have hcurf : cur.globalGoal = tc.globalGoal := by rw [hcur]
    have hcurr : cur.reachableFrom = tc.reachableFrom := by rw [hcur]
    have hcq : c ∈ st.scheduledAppointments := List.get?_mem hc
    have hcw : ¬ isWall G c := (h.queued c hcq).1
    have hcs : c ≠ s := by
      intro hcs
      rw [hcs, h.source] at hv
      rw [← Option.some.inj hv] at hvis
      simp at hvis
    have hg1 : 1 ≤ cur.localGoal := by rw [hcurg]; exact h.positive c tc hv hcw hcs
    constructor
    · rw [hV1]
      exact pathExpanded_source G D st.visited c cur s _ h.source hcs.symm (by omega)
    · intro q hq
      rw [hQ1] at hq
      rcases List.mem_append.mp hq with hq | hq
      · have hq0 := List.mem_of_mem_eraseIdx hq
        obtain ⟨hqw, t0, ht0⟩ := h.queued q hq0
        obtain ⟨t1, ht1, _, _⟩ := pathExpanded_keeps G D st.visited c tc cur hv hcurg q t0 ht0 hqw
        exact ⟨hqw, t1, by rw [hV1]; exact ht1⟩
      · obtain ⟨e, he, rfl⟩ := List.mem_map.mp hq
        have hew : ¬ isWall G (c.step e) := by
          simpa using (List.mem_filter.mp he).2
        obtain ⟨t1, ht1, _⟩ := pathExpanded_neighbour G D st.visited c cur e hew
        exact ⟨hew, t1, by rw [hV1]; exact ht1⟩
    · intro p t hp hpw hps
      rw [hV1] at hp
      rcases pathExpanded_cases G D st.visited c cur p t hpw hp with
        ⟨_, hold⟩ | ⟨_, ht⟩ | ⟨_, hg, _, _, _⟩ | ⟨_, nt, hold, _, ht⟩
      · exact h.positive p t hold hpw hps
      · rw [ht]; exact hg1
      · omega
      · subst ht
        exact h.positive p nt hold hpw hps
    · intro p t hp hpw
      rw [hV1] at hp
      rcases pathExpanded_cases G D st.visited c cur p t hpw hp with
        ⟨_, hold⟩ | ⟨hpc1, ht⟩ | ⟨_, hg, hf, _, _⟩ | ⟨_, nt, hold, _, ht⟩
      · exact h.priority p t hold hpw
      · rw [ht, hcurf, hcurg, hpc1]
        exact h.priority c tc hv hcw
      · rw [hf, hg]
      · subst ht
        exact h.priority p nt hold hpw
    · intro d
      obtain ⟨t, ht, htl, htr⟩ := h.seeds d
      rw [hV1]
      by_cases hpw : isWall G (s.step d)
      · obtain ⟨t1, h1, h2, _, h4, _⟩ :=
          pathExpanded_wall G D st.visited c cur (s.step d) t hpw hcw ht
        exact ⟨t1, h1, by rw [h2, htl], by rw [h4, htr]⟩
      · obtain ⟨t1, h1, _, _⟩ :=
          pathExpanded_keeps G D st.visited c tc cur hv hcurg (s.step d) t ht hpw
        refine ⟨t1, h1, ?_⟩
        rcases pathExpanded_cases G D st.visited c cur (s.step d) t1 hpw h1 with
          ⟨_, hold⟩ | ⟨hpc1, ht1⟩ | ⟨_, hg, _, _, hnew | ⟨nt, hold, hlt, _⟩⟩ |
          ⟨_, nt, hold, heq, _⟩
        · rw [ht] at hold
          rw [← Option.some.inj hold]
          exact ⟨htl, htr⟩
        · rw [hpc1, hv] at ht
          rw [ht1, hcurg, hcurr, Option.some.inj ht]
          exact ⟨htl, htr⟩
        · rw [ht] at hnew
          simp at hnew
        · rw [ht] at hold
          rw [← Option.some.inj hold] at hlt
          omega
        · rw [ht] at hold
          rw [← Option.some.inj hold] at heq
          omega
    · intro q hq
      rw [hQ1] at hq
      rcases List.mem_append.mp hq with hq | hq
      · exact h.reachable q (List.mem_of_mem_eraseIdx hq)
      · obtain ⟨e, he, rfl⟩ := List.mem_map.mp hq
        have hew : ¬ isWall G (c.step e) := by
          simpa using (List.mem_filter.mp he).2
        obtain ⟨ds, hds⟩ := h.reachable c hcq
        exact ⟨ds ++ [e], (isWalk_snoc _ _ _ _ _).mpr ⟨c, hds, hew, rfl⟩⟩
  · obtain ⟨_, hV1, hQ1⟩ := hskip
    constructor
    · rw [hV1]; exact h.source
    · intro q hq
      rw [hQ1] at hq
      rw [hV1]
      exact h.queued q (List.mem_of_mem_eraseIdx hq)
    · rw [hV1]; exact h.positive
    · rw [hV1]; exact h.priority
    · rw [hV1]; exact h.seeds
    · intro q hq
      rw [hQ1] at hq
      exact h.reachable q (List.mem_of_mem_eraseIdx hq)

/-- The basic invariant holds after any number of passes of the A* loop. -/
theorem pathBasic_after (G : Game) (top : TopChoice) (s D : Pos) (n : Nat) (st : PathState)
    (h : PathBasic G s D st) : PathBasic G s D (pathAfter G top D n st) :=
  pathAfter_induction G top D (PathBasic G s D) (fun _ _ hst hstep => hst.pass_kept hstep) n st h

/-- A valid `top()` yields an entry of a queue that is not empty. -/
theorem TopChoice.Valid.picks {top : TopChoice} (hvalid : top.Valid) (n : Nat)
    (V : Pos → Option PathTicket) (Q : List Pos) (hQ : Q ≠ []) :
    ∃ c, Q.get? (top n (Q.map (queueKey V))) = some c := by
  have hne : Q.map (queueKey V) ≠ [] := by
    intro h
    exact hQ (List.map_eq_nil_iff.mp h)
  obtain ⟨k, hk, _⟩ := hvalid n (Q.map (queueKey V)) hne
  rw [List.get?_eq_getElem?, List.getElem?_map] at hk
  cases hget : Q[top n (Q.map (queueKey V))]? with
  | none => rw [hget] at hk; simp at hk
  | some c => exact ⟨c, by rw [List.get?_eq_getElem?]; exact hget⟩

/-- What a pass of the A* loop does when `top()` yields a queued cell `c` that has a ticket:
it returns when `c` is the destination, and keeps running otherwise. -/
theorem pathStep_picked (G : Game) (top : TopChoice) (D : Pos) (st : PathState) (c : Pos)
    (tc : PathTicket)
    (hc : st.scheduledAppointments.get?
      (top st.pass (st.scheduledAppointments.map (queueKey st.visited))) = some c)
    (hv : st.visited c = some tc) :
    (c = D ∧ pathStep G top D st = Step.returned (PathExit.dequeued, tc.reachableFrom)) ∨
      (c ≠ D ∧ ∃ st1, pathStep G top D st = Step.running st1) := by
  unfold pathStep
  cases hq : st.scheduledAppointments with
  | nil => rw [hq] at hc; simp at hc
  | cons q qs =>
    rw [hq] at hc
    simp only [hc, hv]
    by_cases hD : c = D
    · left
      exact ⟨hD, by rw [if_pos hD]⟩
    · right
      refine ⟨hD, ?_⟩
      rw [if_neg hD]
      by_cases hvis : tc.visited = true
      · simp only [hvis, not_true_eq_false, if_false]
        exact ⟨_, rfl⟩
      · simp only [hvis, not_false_eq_true, if_true]
        exact ⟨_, rfl⟩

/-- A choice that always yields an entry of least priority yields an entry. -/
theorem TopChoice.Valid.inRange {top : TopChoice} (hvalid : top.Valid) : top.InRange := by
  intro n keys hne
  obtain ⟨k, hk, _⟩ := hvalid n keys hne
  by_contra hge
  rw [List.get?_eq_none.mpr (not_lt.mp hge)] at hk
  simp at hk

/-- A `top()` that yields an entry yields a queued cell when the queue is not empty. -/
theorem TopChoice.InRange.queued {top : TopChoice} (hrange : top.InRange) (n : Nat)
    (V : Pos → Option PathTicket) (Q : List Pos) (hQ : Q ≠ []) :
    ∃ c, Q.get? (top n (Q.map (queueKey V))) = some c := by
  have hne : Q.map (queueKey V) ≠ [] := by
    intro h
    exact hQ (List.map_eq_nil_iff.mp h)
  have hlt := hrange n (Q.map (queueKey V)) hne
  rw [List.length_map] at hlt
  exact ⟨Q.get ⟨_, hlt⟩, List.get?_eq_get hlt⟩

/-- Under the basic invariant and a `top()` that yields an entry of the queue, of whatever
priority, no pass of the A* loop fails. -/
theorem PathBasic.never_fails {G : Game} {s D : Pos} {st : PathState} (h : PathBasic G s D st)
    {top : TopChoice} (hrange : top.InRange) :
    (∃ r, pathStep G top D st = Step.returned r) ∨
      (∃ st1, pathStep G top D st = Step.running st1) := by
  by_cases hq : st.scheduledAppointments = []
  · left
    unfold pathStep
    rw [hq]
    exact ⟨_, rfl⟩
  · obtain ⟨c, hc⟩ := hrange.queued st.pass st.visited st.scheduledAppointments hq
    obtain ⟨_, tc, hv⟩ := h.queued c (List.get?_mem hc)
    rcases pathStep_picked G top D st c tc hc hv with ⟨_, hr⟩ | ⟨_, hr⟩
    · exact Or.inl ⟨_, hr⟩
    · exact Or.inr hr

/-- Whatever `shortestPathDirections` returns, it returns from a state that satisfies the
basic invariant, and it is the reachability set on the ticket of the destination when the
destination has one. -/
theorem pathSearch_result (G : Game) (top : TopChoice) (s D : Pos) (fuel : Nat)
    (r : PathExit × DirectionBooleans) (h : pathSearch G top fuel s D = some r) :
    ∃ st, PathBasic G s D st ∧ pathStep G top D st = Step.returned r ∧
      ∀ t, st.visited D = some t → r.2 = t.reachableFrom := by
  obtain ⟨st0, h0, hb0, _, _⟩ := pathBasic_start G s D
  unfold pathSearch at h
  rw [h0] at h
  simp only [Option.some_bind] at h
  obtain ⟨m, hm⟩ := pathLoop_returned G top D fuel st0 r h
  refine ⟨pathAfter G top D m st0, pathBasic_after G top s D m st0 hb0, hm, ?_⟩
  intro t ht
  obtain ⟨e, res⟩ := r
  rcases pathStep_returned G top D _ e res hm with ⟨_, _, hr⟩ | ⟨_, tc, _, hv, hr⟩
  · rw [hr, ht]
    rfl
  · rw [ht] at hv
    rw [hr, ← Option.some.inj hv]

/-- Two different neighbours of a cell are at Manhattan distance 2 from each other. -/
theorem manhattan_neighbours (s : Pos) (d e : Dir) (h : e ≠ d) :
    manhattanDistance (s.step e) (s.step d) = 2 := by
  cases d <;> cases e <;> first
    | exact absurd rfl h
    | (simp only [manhattanDistance, Pos.step]; ring_nf; simp)

/-! ## Termination of the A* search (C24) -/

/-- A running pass of the A* loop either expands the cell that `pathExpands` names, which
was queued with an unvisited ticket and is marked visited afterwards, and the queue loses
one entry and gains one for each neighbour that is no wall; or it expands nothing, the
tickets stay as they are and the queue loses one entry. -/
theorem pathStep_running_expands (G : Game) (top : TopChoice) (D : Pos) (st st1 : PathState)
    (h : pathStep G top D st = Step.running st1) :
    st1.pass = st.pass + 1 ∧
    ((∃ c tc, pathExpands top D st = some c ∧ c ∈ st.scheduledAppointments ∧
        st.visited c = some tc ∧ tc.visited = false ∧
        (∃ t1, st1.visited c = some t1 ∧ t1.visited = true) ∧
        st1.scheduledAppointments.length + 1 = st.scheduledAppointments.length +
          (POSSIBLE_DIRECTIONS.filter (fun d => decide (¬ isWall G (c.step d)))).length) ∨
      (pathExpands top D st = none ∧ st1.visited = st.visited ∧
        st1.scheduledAppointments.length + 1 = st.scheduledAppointments.length)) := by
  obtain ⟨c, tc, hc, hv, hcD, hpass, hexp | hskip⟩ := pathStep_running G top D st st1 h
  · obtain ⟨hvis, hV1, hQ1⟩ := hexp
    have hlt : top st.pass (st.scheduledAppointments.map (queueKey st.visited)) <
        st.scheduledAppointments.length := by
      by_contra hge
      rw [List.get?_eq_none.mpr (not_lt.mp hge)] at hc
      simp at hc
    refine ⟨hpass, Or.inl ⟨c, tc, ?_, List.get?_mem hc, hv, hvis, ?_, ?_⟩⟩
    · unfold pathExpands
      simp only [hc, hv]
      rw [if_pos ⟨hcD, hvis⟩]
    · rw [pathExpanded_eq] at hV1
      rw [hV1]
      unfold pathExpanded
      have hn : ¬ ∃ d ∈ POSSIBLE_DIRECTIONS, c = c.step d := by
        rintro ⟨d, _, hd⟩
        exact Pos.step_ne_self c d hd.symm
      rw [if_neg hn, mapSet_same]
      exact ⟨_, rfl, rfl⟩
    · rw [hQ1, List.length_append, List.length_map, List.length_eraseIdx, if_pos hlt]
      omega
  · obtain ⟨hvis, hV1, hQ1⟩ := hskip
    have hlt : top st.pass (st.scheduledAppointments.map (queueKey st.visited)) <
        st.scheduledAppointments.length := by
      by_contra hge
      rw [List.get?_eq_none.mpr (not_lt.mp hge)] at hc
      simp at hc
    refine ⟨hpass, Or.inr ⟨?_, hV1, ?_⟩⟩
    · unfold pathExpands
      simp only [hc, hv]
      rw [if_neg]
      rintro ⟨_, hf⟩
      rw [hvis] at hf
      simp at hf
    · rw [hQ1, List.length_eraseIdx, if_pos hlt]
      omega

/-- A ticket marked visited stays marked visited through a running pass of the A* loop. -/
theorem PathBasic.visited_kept {G : Game} {s D : Pos} {st st1 : PathState}
    (h : PathBasic G s D st) {top : TopChoice}
    (hstep : pathStep G top D st = Step.running st1) (p : Pos) (t : PathTicket)
    (hp : st.visited p = some t) (ht : t.visited = true) :
    ∃ t1, st1.visited p = some t1 ∧ t1.visited = true := by
  obtain ⟨c, tc, hc, hv, _, _, hexp | hskip⟩ := pathStep_running G top D st st1 hstep
  · obtain ⟨hvis, hV1, _⟩ := hexp
    rw [pathExpanded_eq] at hV1
    have hcw : ¬ isWall G c := (h.queued c (List.get?_mem hc)).1
    rw [hV1]
    by_cases hpw : isWall G p
    · obtain ⟨t1, h1, _, _, _, h5⟩ := pathExpanded_wall G D st.visited c _ p t hpw hcw hp
      exact ⟨t1, h1, h5 ht⟩
    · obtain ⟨t1, h1, _, h3⟩ := pathExpanded_keeps G D st.visited c tc
        { tc with visited := true } hv rfl p t hp hpw
      refine ⟨t1, h1, ?_⟩
      by_cases hpc : p = c
      · rw [hpc, hv] at hp
        rw [← Option.some.inj hp] at ht
        rw [hvis] at ht
        simp at ht
      · rw [h3 hpc]; exact ht
  · obtain ⟨_, hV1, _⟩ := hskip
    rw [hV1]
    exact ⟨t, hp, ht⟩

/-- The bookkeeping of the queue of the A* loop: every running pass takes one entry out, and
the entries put in are the ones counted by `pathInsertions`. -/
theorem pathAfter_queue_count (G : Game) (top : TopChoice) (D : Pos) (n : Nat) :
    ∀ st : PathState,
      (pathAfter G top D n st).scheduledAppointments.length + (pathAfter G top D n st).pass =
        st.scheduledAppointments.length + st.pass + pathInsertions G top D n st := by
  induction n with
  | zero => intro st; rfl
  | succ n ih =>
    intro st
    cases hstep : pathStep G top D st with
    | running st1 =>
      have h1 := ih st1
      obtain ⟨hpass, ⟨c, tc, hexp, _, _, _, _, hlen⟩ | ⟨hexp, _, hlen⟩⟩ :=
        pathStep_running_expands G top D st st1 hstep
      · simp only [pathAfter, pathInsertions, hstep, hexp]
        omega
      · simp only [pathAfter, pathInsertions, hstep, hexp]
        omega
    | returned r => simp only [pathAfter, pathInsertions, hstep]; omega
    | failed => simp only [pathAfter, pathInsertions, hstep]; omega

/-- Every expansion makes at most four queue insertions. -/
theorem pathInsertions_le (G : Game) (top : TopChoice) (D : Pos) (n : Nat) :
    ∀ st : PathState,
      pathInsertions G top D n st ≤ 4 * (pathExpandedCells G top D n st).length := by
  induction n with
  | zero => intro st; simp [pathInsertions, pathExpandedCells]
  | succ n ih =>
    intro st
    cases hstep : pathStep G top D st with
    | running st1 =>
      have h1 := ih st1
      simp only [pathInsertions, pathExpandedCells, hstep, List.length_append]
      cases hexp : pathExpands top D st with
      | none => simp only [Option.toList, List.length_nil]; omega
      | some c =>
        have h4 : (POSSIBLE_DIRECTIONS.filter
            (fun d => decide (¬ isWall G (c.step d)))).length ≤ 4 :=
          List.length_filter_le _ _
        simp only [Option.toList, List.length_singleton]
        omega
    | returned r => simp [pathInsertions, pathExpandedCells, hstep]
    | failed => simp [pathInsertions, pathExpandedCells, hstep]

/-- Every cell that the A* loop expands from a state with the basic invariant is reached from
the source by a walk over non-wall cells, and its ticket is not yet marked visited in that
state. -/
theorem pathExpandedCells_fresh (G : Game) (top : TopChoice) (s D : Pos) (n : Nat) :
    ∀ st : PathState, PathBasic G s D st → ∀ c ∈ pathExpandedCells G top D n st,
      (∃ ds, IsWalk (Passable G) s ds c) ∧
        ¬ ∃ t, st.visited c = some t ∧ t.visited = true := by
  induction n with
  | zero => intro st _ c hc; simp [pathExpandedCells] at hc
  | succ n ih =>
    intro st hst c hc
    cases hstep : pathStep G top D st with
    | running st1 =>
      simp only [pathExpandedCells, hstep, List.mem_append] at hc
      rcases hc with hc | hc
      · obtain ⟨_, ⟨c1, tc, hexp, hq, hv, hvis, _, _⟩ | ⟨hexp, _, _⟩⟩ :=
          pathStep_running_expands G top D st st1 hstep
        · rw [hexp] at hc
          simp only [Option.toList, List.mem_singleton] at hc
          subst hc
          refine ⟨hst.reachable c hq, ?_⟩
          rintro ⟨t, ht, htv⟩
          rw [hv] at ht
          rw [Option.some.inj ht, htv] at hvis
          simp at hvis
        · rw [hexp] at hc
          simp [Option.toList] at hc
      · obtain ⟨hw, hnv⟩ := ih st1 (hst.pass_kept hstep) c hc
        refine ⟨hw, ?_⟩
        rintro ⟨t, ht, htv⟩
        exact hnv (hst.visited_kept hstep c t ht htv)
    | returned r => simp [pathExpandedCells, hstep] at hc
    | failed => simp [pathExpandedCells, hstep] at hc

/-- No cell is expanded twice by the A* loop. -/
theorem pathExpandedCells_nodup (G : Game) (top : TopChoice) (s D : Pos) (n : Nat) :
    ∀ st : PathState, PathBasic G s D st → (pathExpandedCells G top D n st).Nodup := by
  induction n with
  | zero => intro st _; simp [pathExpandedCells]
  | succ n ih =>
    intro st hst
    cases hstep : pathStep G top D st with
    | running st1 =>
      simp only [pathExpandedCells, hstep]
      have h1 := ih st1 (hst.pass_kept hstep)
      obtain ⟨_, ⟨c1, tc, hexp, _, _, _, hvis1, _⟩ | ⟨hexp, _, _⟩⟩ :=
        pathStep_running_expands G top D st st1 hstep
      · rw [hexp]
        simp only [Option.toList, List.singleton_append, List.nodup_cons]
        refine ⟨?_, h1⟩
        intro hmem
        exact (pathExpandedCells_fresh G top s D n st1 (hst.pass_kept hstep) c1 hmem).2 hvis1
      · rw [hexp]
        simpa [Option.toList] using h1
    | returned r => simp [pathExpandedCells, hstep]
    | failed => simp [pathExpandedCells, hstep]

/-- When the fuel runs out, under the basic invariant and a `top()` that yields an entry of
the queue, every one of the passes allowed by the fuel was a running pass. -/
theorem pathLoop_none_pass (G : Game) (top : TopChoice) (hrange : top.InRange) (s D : Pos)
    (fuel : Nat) :
    ∀ st : PathState, PathBasic G s D st → pathLoop G top D fuel st = none →
      (pathAfter G top D fuel st).pass = st.pass + fuel := by
  induction fuel with
  | zero => intro st _ _; rfl
  | succ n ih =>
    intro st hst hnone
    rcases hst.never_fails hrange with ⟨r, hr⟩ | ⟨st1, hr⟩
    · simp [pathLoop, hr] at hnone
    · simp only [pathLoop, hr] at hnone
      have h1 := ih st1 (hst.pass_kept hr) hnone
      obtain ⟨hpass, _⟩ := pathStep_running_expands G top D st st1 hr
      simp only [pathAfter, hr]
      omega

/-- A list without repetition whose elements all lie in another list is no longer than it. -/
theorem nodup_length_le (l cells : List Pos) (hnd : l.Nodup) (hsub : ∀ p ∈ l, p ∈ cells) :
    l.length ≤ cells.length :=
  (hnd.subperm hsub).length_le

/-- The number of cells expanded by the A* loop is at most the number of non-wall cells that
can be reached from the source. -/
theorem pathExpandedCells_length (G : Game) (top : TopChoice) (s D : Pos) (cells : List Pos)
    (hfin : ∀ p ds, IsWalk (Passable G) s ds p → p ∈ cells) (n : Nat) (st : PathState)
    (hst : PathBasic G s D st) : (pathExpandedCells G top D n st).length ≤ cells.length := by
  apply nodup_length_le _ _ (pathExpandedCells_nodup G top s D n st hst)
  intro c hc
  obtain ⟨⟨ds, hds⟩, _⟩ := pathExpandedCells_fresh G top s D n st hst c hc
  exact hfin c ds hds

/-- On a board where the non-wall cells that can be reached from the source all lie in a
finite list, `shortestPathDirections` returns within four passes for each cell of the list,
plus five. -/
theorem pathSearch_terminates (G : Game) (top : TopChoice) (hrange : top.InRange) (s D : Pos)
    (cells : List Pos) (hfin : ∀ p ds, IsWalk (Passable G) s ds p → p ∈ cells) :
    ∃ r, pathSearch G top (4 + 4 * cells.length + 1) s D = some r := by
  obtain ⟨st0, h0, hb0, hq0, hp0⟩ := pathBasic_start G s D
  have hq4 : st0.scheduledAppointments.length ≤ 4 := by
    rw [hq0, List.length_map]
    exact List.length_filter_le _ _
  unfold pathSearch
  rw [h0]
  simp only [Option.some_bind]
  cases hloop : pathLoop G top D (4 + 4 * cells.length + 1) st0 with
  | some r => exact ⟨r, rfl⟩
  | none =>
    exfalso
    have h1 := pathLoop_none_pass G top hrange s D _ st0 hb0 hloop
    have h2 := pathAfter_queue_count G top D (4 + 4 * cells.length + 1) st0
    have h3 := pathInsertions_le G top D (4 + 4 * cells.length + 1) st0
    have h4 := pathExpandedCells_length G top s D cells hfin (4 + 4 * cells.length + 1) st0 hb0
    omega

/-- The only cells of the room board that are no wall are the origin and `(0,1)`. -/
theorem roomGame_passable (q : Pos) (h : Passable roomGame q) : q = ⟨0, 0⟩ ∨ q = ⟨0, 1⟩ := by
  by_contra hq
  apply h
  show (roomGame.cell q).type = CellType.WALL
  simp only [roomGame, exampleGame, if_neg hq, wallCell]

/-- Every walk over non-wall cells from the origin of the room board ends in the room. -/
theorem roomGame_walk (p : Pos) (ds : List Dir) (h : IsWalk (Passable roomGame) ⟨0, 0⟩ ds p) :
    p ∈ [(⟨0, 0⟩ : Pos), ⟨0, 1⟩] := by
  have key : ∀ (ds : List Dir) (a : Pos), a = ⟨0, 0⟩ ∨ a = ⟨0, 1⟩ →
      IsWalk (Passable roomGame) a ds p → p = ⟨0, 0⟩ ∨ p = ⟨0, 1⟩ := by
    intro ds
    induction ds with
    | nil => intro a ha hw; rw [← (show a = p from hw)]; exact ha
    | cons d ds ih => intro a _ hw; exact ih (a.step d) (roomGame_passable _ hw.1) hw.2
  rcases key ds ⟨0, 0⟩ (Or.inl rfl) h with h1 | h1 <;> simp [h1]

/-- C24: on every board where the cells that a walk over non-wall cells reaches from the
source all lie in a finite list `cells`, and with a `top()` that yields an entry of the
queue, of whatever priority, `shortestPathDirections` returns for every destination, within
`4 + 4 * cells.length + 1` passes of its loop. Over any number `n` of passes, no cell is
expanded twice, every expanded cell lies in `cells`, the queue length plus the number of
passes made equals the number of insertions (the seeds plus those of the expansions), and
the number of insertions is at most 4 plus 4 times the number of expanded cells. -/
theorem shortestPath_terminates (G : Game) (top : TopChoice) (hrange : top.InRange) (s D : Pos)
    (cells : List Pos) (hfin : ∀ p ds, IsWalk (Passable G) s ds p → p ∈ cells) :
    (∃ r, shortestPathDirections G top (4 + 4 * cells.length + 1) s D = some r) ∧
    ∃ st0, pathStart G s D = some st0 ∧ ∀ n,
      (pathExpandedCells G top D n st0).Nodup ∧
      (∀ c ∈ pathExpandedCells G top D n st0, c ∈ cells) ∧
      (pathAfter G top D n st0).scheduledAppointments.length + (pathAfter G top D n st0).pass =
        st0.scheduledAppointments.length + pathInsertions G top D n st0 ∧
      st0.scheduledAppointments.length + pathInsertions G top D n st0 ≤
        4 + 4 * (pathExpandedCells G top D n st0).length := by
  obtain ⟨st0, h0, hb0, hq0, hp0⟩ := pathBasic_start G s D
  have hq4 : st0.scheduledAppointments.length ≤ 4 := by
    rw [hq0, List.length_map]
    exact List.length_filter_le _ _
  constructor
  · obtain ⟨r, hr⟩ := pathSearch_terminates G top hrange s D cells hfin
    exact ⟨r.2, by unfold shortestPathDirections; rw [hr]; rfl⟩
  · refine ⟨st0, h0, fun n => ⟨pathExpandedCells_nodup G top s D n st0 hb0, ?_, ?_, ?_⟩⟩
    · intro c hc
      obtain ⟨⟨ds, hds⟩, _⟩ := pathExpandedCells_fresh G top s D n st0 hb0 c hc
      exact hfin c ds hds
    · have h2 := pathAfter_queue_count G top D n st0
      omega
    · have h3 := pathInsertions_le G top D n st0
      omega

/-- On the room board, with the unreachable destination `(5,5)` and ties resolved towards the
entry inserted first, the search from the origin returns and expands no cell twice. -/
theorem shortestPath_terminates_witness :
    TopChoice.InRange (fun _ => firstMin) ∧
    (∀ p ds, IsWalk (Passable roomGame) ⟨0, 0⟩ ds p → p ∈ [(⟨0, 0⟩ : Pos), ⟨0, 1⟩]) ∧
    (∃ r, shortestPathDirections roomGame (fun _ => firstMin) 13 ⟨0, 0⟩ ⟨5, 5⟩ = some r) ∧
    ∃ st0, pathStart roomGame ⟨0, 0⟩ ⟨5, 5⟩ = some st0 ∧ ∀ n,
      (pathExpandedCells roomGame (fun _ => firstMin) ⟨5, 5⟩ n st0).Nodup ∧
      (∀ c ∈ pathExpandedCells roomGame (fun _ => firstMin) ⟨5, 5⟩ n st0,
        c ∈ [(⟨0, 0⟩ : Pos), ⟨0, 1⟩]) ∧
      (pathAfter roomGame (fun _ => firstMin) ⟨5, 5⟩ n st0).scheduledAppointments.length +
          (pathAfter roomGame (fun _ => firstMin) ⟨5, 5⟩ n st0).pass =
        st0.scheduledAppointments.length +
          pathInsertions roomGame (fun _ => firstMin) ⟨5, 5⟩ n st0 ∧
      st0.scheduledAppointments.length +
          pathInsertions roomGame (fun _ => firstMin) ⟨5, 5⟩ n st0 ≤
        4 + 4 * (pathExpandedCells roomGame (fun _ => firstMin) ⟨5, 5⟩ n st0).length :=
  ⟨firstMin_valid.inRange, fun p ds h => roomGame_walk p ds h,
    shortestPath_terminates roomGame (fun _ => firstMin) firstMin_valid.inRange ⟨0, 0⟩ ⟨5, 5⟩
      [⟨0, 0⟩, ⟨0, 1⟩] (fun p ds h => roomGame_walk p ds h)⟩

/-! ## A destination next to the source, or on it (C22, C23) -/

/-- Whatever the search towards a neighbour of the source returns, it returns the set of the
direction of that neighbour. -/
theorem pathSearch_neighbour_result (G : Game) (top : TopChoice) (s : Pos) (d : Dir)
    (fuel : Nat) (r : PathExit × DirectionBooleans)
    (h : pathSearch G top fuel s (s.step d) = some r) : r.2 = DirectionBooleans.single d := by
  obtain ⟨st, hst, _, hres⟩ := pathSearch_result G top s (s.step d) fuel r h
  obtain ⟨t, ht, _, htr⟩ := hst.seeds d
  rw [hres t ht, htr]

/-- Whatever the search towards the source itself returns, it returns the all-false set. -/
theorem pathSearch_source_result (G : Game) (top : TopChoice) (s : Pos)
    (fuel : Nat) (r : PathExit × DirectionBooleans)
    (h : pathSearch G top fuel s s = some r) : r.2 = DirectionBooleans.all false := by
  obtain ⟨st, hst, _, hres⟩ := pathSearch_result G top s s fuel r h
  rw [hres _ hst.source]

/-- A free neighbour of the source that is the destination is dequeued by the first pass of
the A* loop: its priority 1 is below the priority 3 of the other seeds. -/
theorem pathSearch_free_neighbour (G : Game) (top : TopChoice) (hvalid : top.Valid) (s : Pos)
    (d : Dir) (hfree : freeCell G (s.step d) = true) (fuel : Nat) :
    pathSearch G top (fuel + 1) s (s.step d) =
      some (PathExit.dequeued, DirectionBooleans.single d) := by
  obtain ⟨st0, h0, hpass, hsrc, hseed, hnone, hq⟩ := pathStart_spec G s (s.step d)
  have hdq : s.step d ∈ st0.scheduledAppointments := by
    rw [hq]
    refine List.mem_map.mpr ⟨d, List.mem_filter.mpr ⟨?_, hfree⟩, rfl⟩
    cases d <;> simp [POSSIBLE_DIRECTIONS]
  have hne : st0.scheduledAppointments ≠ [] := by
    intro hnil
    rw [hnil] at hdq
    simp at hdq
  obtain ⟨c, hc⟩ := hvalid.picks st0.pass st0.visited st0.scheduledAppointments hne
  have hleast := hvalid.least st0.pass st0.visited st0.scheduledAppointments c hc (s.step d) hdq
  have hcq : c ∈ st0.scheduledAppointments := List.get?_mem hc
  rw [hq] at hcq
  obtain ⟨e, _, hce⟩ := List.mem_map.mp hcq
  have hkd : queueKey st0.visited (s.step d) = 1 := by
    unfold queueKey
    rw [hseed d]
    simp [manhattanDistance]
  have hed : e = d := by
    by_contra hne1
    have hke : queueKey st0.visited c = 3 := by
      unfold queueKey
      rw [← hce, hseed e]
      simp [manhattan_neighbours s d e hne1]
    omega
  rw [hed] at hce
  have hstep := pathStep_picked G top (s.step d) st0 c _ hc (by rw [← hce]; exact hseed d)
  rcases hstep with ⟨_, hret⟩ | ⟨hcD, _⟩
  · unfold pathSearch
    rw [h0]
    simp only [Option.some_bind, pathLoop, hret]
  · exact absurd hce.symm hcD

/-- C22: when the destination is the neighbour of the source in the direction `d`, with a
`top()` that yields an entry of the queue: whatever `shortestPathDirections` returns is the
singleton set of `d`, on every board and through either `return`; when the neighbour is
free and `top()` yields an entry of least priority, it is dequeued by the first pass; and on
every board where the non-wall cells that can be reached from the source lie in a finite
list, the search returns the singleton set of `d`, also when the neighbour holds a unit or
is a wall and so was not enqueued as a seed. -/
theorem neighbour_destination_single (G : Game) (top : TopChoice) (hrange : top.InRange)
    (s : Pos) (d : Dir) :
    (∀ fuel r, shortestPathDirections G top fuel s (s.step d) = some r →
      r = DirectionBooleans.single d) ∧
    (top.Valid → freeCell G (s.step d) = true → ∀ fuel,
      pathSearch G top (fuel + 1) s (s.step d) =
        some (PathExit.dequeued, DirectionBooleans.single d)) ∧
    (∀ cells : List Pos, (∀ p ds, IsWalk (Passable G) s ds p → p ∈ cells) →
      shortestPathDirections G top (4 + 4 * cells.length + 1) s (s.step d) =
        some (DirectionBooleans.single d)) := by
  refine ⟨?_, fun hvalid hfree fuel => pathSearch_free_neighbour G top hvalid s d hfree fuel, ?_⟩
  · intro fuel r hr
    unfold shortestPathDirections at hr
    cases hp : pathSearch G top fuel s (s.step d) with
    | none => rw [hp] at hr; simp at hr
    | some r1 =>
      rw [hp] at hr
      simp only [Option.map_some', Option.some.injEq] at hr
      rw [← hr]
      exact pathSearch_neighbour_result G top s d fuel r1 hp
  · intro cells hfin
    obtain ⟨r, hr⟩ := pathSearch_terminates G top hrange s (s.step d) cells hfin
    unfold shortestPathDirections
    rw [hr, Option.map_some', pathSearch_neighbour_result G top s d _ r hr]

/-- On the room board the search from the origin towards its free right neighbour dequeues
it in the first pass and returns the set of `RIGHT`, and the search towards its left
neighbour, a wall, returns the set of `LEFT`. -/
theorem neighbour_destination_single_witness :
    TopChoice.Valid (fun _ => firstMin) ∧
    freeCell roomGame ⟨0, 1⟩ = true ∧
    pathSearch roomGame (fun _ => firstMin) 1 ⟨0, 0⟩ ⟨0, 1⟩ =
      some (PathExit.dequeued, DirectionBooleans.single Dir.RIGHT) ∧
    shortestPathDirections roomGame (fun _ => firstMin) 13 ⟨0, 0⟩ ⟨0, 1⟩ =
      some (DirectionBooleans.single Dir.RIGHT) ∧
    freeCell roomGame ⟨0, -1⟩ = false ∧
    shortestPathDirections roomGame (fun _ => firstMin) 13 ⟨0, 0⟩ ⟨0, -1⟩ =
      some (DirectionBooleans.single Dir.LEFT) :=
  ⟨firstMin_valid, by decide,
    (neighbour_destination_single roomGame (fun _ => firstMin) firstMin_valid.inRange ⟨0, 0⟩
      Dir.RIGHT).2.1 firstMin_valid (by decide) 0,
    (neighbour_destination_single roomGame (fun _ => firstMin) firstMin_valid.inRange ⟨0, 0⟩
      Dir.RIGHT).2.2 [⟨0, 0⟩, ⟨0, 1⟩] (fun p ds h => roomGame_walk p ds h),
    by decide,
    (neighbour_destination_single roomGame (fun _ => firstMin) firstMin_valid.inRange ⟨0, 0⟩
      Dir.LEFT).2.2 [⟨0, 0⟩, ⟨0, 1⟩] (fun p ds h => roomGame_walk p ds h)⟩

/-- Each neighbour of a cell has that cell as a neighbour. -/
theorem Pos.step_back (s : Pos) (d : Dir) : ∃ e ∈ POSSIBLE_DIRECTIONS, (s.step d).step e = s := by
  obtain ⟨i, j⟩ := s
  cases d
  · exact ⟨Dir.TOP, by simp [POSSIBLE_DIRECTIONS], by simp [Pos.step]⟩
  · exact ⟨Dir.LEFT, by simp [POSSIBLE_DIRECTIONS], by simp [Pos.step]⟩
  · exact ⟨Dir.BOTTOM, by simp [POSSIBLE_DIRECTIONS], by simp [Pos.step]⟩
  · exact ⟨Dir.RIGHT, by simp [POSSIBLE_DIRECTIONS], by simp [Pos.step]⟩

/-- In a state with the basic invariant whose queue holds the source, a pass of the A* loop
towards the source dequeues the source: its priority 0 is below every other priority. -/
theorem PathBasic.source_dequeued {G : Game} {s : Pos} {st : PathState}
    (h : PathBasic G s s st) {top : TopChoice} (hvalid : top.Valid)
    (hs : s ∈ st.scheduledAppointments) :
    pathStep G top s st = Step.returned (PathExit.dequeued, DirectionBooleans.all false) := by
  have hne : st.scheduledAppointments ≠ [] := by
    intro hnil
    rw [hnil] at hs
    simp at hs
  obtain ⟨c, hc⟩ := hvalid.picks st.pass st.visited st.scheduledAppointments hne
  have hleast := hvalid.least st.pass st.visited st.scheduledAppointments c hc s hs
  have hks : queueKey st.visited s = 0 := by
    unfold queueKey
    rw [h.source]
    simp [manhattanDistance]
  obtain ⟨hcw, tc, hv⟩ := h.queued c (List.get?_mem hc)
  have hcs : c = s := by
    by_contra hne1
    have h1 := h.positive c tc hv hcw hne1
    have h2 := h.priority c tc hv hcw
    have h3 := manhattanDistance_nonneg c s
    have hkc : queueKey st.visited c = tc.globalGoal := by
      unfold queueKey
      rw [hv]
      rfl
    omega
  rcases pathStep_picked G top s st c tc hc hv with ⟨_, hret⟩ | ⟨hcD, _⟩
  · rw [hcs, h.source] at hv
    rw [hret, ← Option.some.inj hv]
  · exact absurd hcs hcD

/-- When the source is no wall, the search from the source towards itself returns within two
passes of the A* loop. -/
theorem pathSearch_source_returns (G : Game) (top : TopChoice) (hvalid : top.Valid) (s : Pos)
    (hs : ¬ isWall G s) : ∃ r, pathSearch G top 2 s s = some r := by
  obtain ⟨st0, h0, hpass, hsrc, hseed, hnone, hq⟩ := pathStart_spec G s s
  obtain ⟨st0b, h0b, hb0, _, _⟩ := pathBasic_start G s s
  rw [h0] at h0b
  rw [← Option.some.inj h0b] at hb0
  unfold pathSearch
  rw [h0]
  simp only [Option.some_bind]
  rcases hb0.never_fails hvalid.inRange with ⟨r, hr⟩ | ⟨st1, hr⟩
  · exact ⟨r, by simp only [pathLoop, hr]⟩
  · have hb1 := hb0.pass_kept hr
    obtain ⟨c, tc, hc, hv, _, _, hexp | hskip⟩ := pathStep_running G top s st0 st1 hr
    · obtain ⟨_, _, hQ1⟩ := hexp
      have hcq : c ∈ st0.scheduledAppointments := List.get?_mem hc
      rw [hq] at hcq
      obtain ⟨d, _, hcd⟩ := List.mem_map.mp hcq
      obtain ⟨e, he, hback⟩ := Pos.step_back s d
      have hs1 : s ∈ st1.scheduledAppointments := by
        rw [hQ1]
        apply List.mem_append_right
        refine List.mem_map.mpr ⟨e, List.mem_filter.mpr ⟨he, ?_⟩, by rw [← hcd, hback]⟩
        rw [← hcd, hback]
        simpa using hs
      exact ⟨(PathExit.dequeued, DirectionBooleans.all false),
        by simp only [pathLoop, hr, hb1.source_dequeued hvalid hs1]⟩
    · obtain ⟨hvis, _, _⟩ := hskip
      have hcq : c ∈ st0.scheduledAppointments := List.get?_mem hc
      rw [hq] at hcq
      obtain ⟨d, _, hcd⟩ := List.mem_map.mp hcq
      rw [← hcd, hseed d] at hv
      rw [← Option.some.inj hv] at hvis
      simp at hvis

/-- The scores that `globalEvaluation` makes of the all-false set: the neutral baseline in
every direction. -/
theorem globalScores_all_false {α : Type} (P : Params α) :
    DirectionEvaluation.ofFn (fun direction =>
      if (DirectionBooleans.all false).get direction then P.GLOBAL_CITY_OR_PATH_EVALUATION
      else P.NULL_EVALUATION) = DirectionEvaluation.all P.NULL_EVALUATION := by
  simp [DirectionEvaluation.ofFn, DirectionEvaluation.all, DirectionBooleans.all,
    DirectionBooleans.get]

/-- Whatever the search from the source towards the source itself returns is the all-false
set, in terms of `shortestPathDirections`. -/
theorem shortestPath_source_result (G : Game) (top : TopChoice) (s : Pos) (fuel : Nat)
    (r : DirectionBooleans) (hr : shortestPathDirections G top fuel s s = some r) :
    r = DirectionBooleans.all false := by
  unfold shortestPathDirections at hr
  cases hp : pathSearch G top fuel s s with
  | none => rw [hp] at hr; simp at hr
  | some r1 =>
    rw [hp] at hr
    simp only [Option.map_some', Option.some.injEq] at hr
    rw [← hr]
    exact pathSearch_source_result G top s fuel r1 hp

/-- When the source is no wall, `shortestPathDirections` from the source towards itself
returns the all-false set with any fuel of two passes or more. -/
theorem shortestPath_source_returns (G : Game) (top : TopChoice) (hvalid : top.Valid) (s : Pos)
    (hs : ¬ isWall G s) (fuel : Nat) :
    shortestPathDirections G top (fuel + 2) s s = some (DirectionBooleans.all false) := by
  obtain ⟨r, hr⟩ := pathSearch_source_returns G top hvalid s hs
  have h2 := pathSearch_mono G top s s 2 fuel r hr
  rw [Nat.add_comm 2 fuel] at h2
  unfold shortestPathDirections
  rw [h2, Option.map_some', pathSearch_source_result G top s _ r h2]

/-- C23: when the destination is the source, the position of the unit `u`, with a `top()`
that yields an entry of the queue: whatever `shortestPathDirections` returns is the
all-false set, on every board; it returns on every board where the non-wall cells that can
be reached from the source lie in a finite list, and within two passes when the cell of the
unit is no wall and `top()` yields an entry of least priority; and when
`closestCityOrPathEstimation` yields the position of the unit, whatever `globalEvaluation`
returns is the neutral baseline `NULL_EVALUATION` in every direction, and it returns that
with any fuel of two passes or more when the cell of the unit is no wall and `top()` yields
an entry of least priority. -/
theorem source_destination_neutral {α : Type} (G : Game) (P : Params α) (top : TopChoice)
    (hrange : top.InRange) (u : Unit) :
    (∀ fuel r, shortestPathDirections G top fuel u.pos u.pos = some r →
      r = DirectionBooleans.all false) ∧
    (top.Valid → ¬ isWall G u.pos → ∀ fuel,
      shortestPathDirections G top (fuel + 2) u.pos u.pos = some (DirectionBooleans.all false)) ∧
    (∀ cells : List Pos, (∀ p ds, IsWalk (Passable G) u.pos ds p → p ∈ cells) →
      shortestPathDirections G top (4 + 4 * cells.length + 1) u.pos u.pos =
        some (DirectionBooleans.all false)) ∧
    (closestCityOrPathEstimation G P u.pos = u.pos →
      (∀ fuel ev, globalEvaluation G P top fuel u = some ev →
        ev = DirectionEvaluation.all P.NULL_EVALUATION) ∧
      (top.Valid → ¬ isWall G u.pos → ∀ fuel,
        globalEvaluation G P top (fuel + 2) u =
          some (DirectionEvaluation.all P.NULL_EVALUATION))) := by
  refine ⟨fun fuel r hr => shortestPath_source_result G top u.pos fuel r hr,
    fun hvalid hs fuel => shortestPath_source_returns G top hvalid u.pos hs fuel, ?_, ?_⟩
  · intro cells hfin
    obtain ⟨r, hr⟩ := pathSearch_terminates G top hrange u.pos u.pos cells hfin
    unfold shortestPathDirections
    rw [hr, Option.map_some', pathSearch_source_result G top u.pos _ r hr]
  · intro hclosest
    constructor
    · intro fuel ev hev
      simp only [globalEvaluation, hclosest] at hev
      by_cases hnull : isNull u.pos = true
      · rw [if_pos hnull] at hev
        simp only [Option.map_some', Option.some.injEq] at hev
        rw [← hev]
        exact globalScores_all_false P
      · rw [if_neg hnull] at hev
        cases hsp : shortestPathDirections G top fuel u.pos u.pos with
        | none => rw [hsp] at hev; simp at hev
        | some r =>
          rw [hsp] at hev
          simp only [Option.map_some', Option.some.injEq] at hev
          rw [← hev, shortestPath_source_result G top u.pos fuel r hsp]
          exact globalScores_all_false P
    · intro hvalid hs fuel
      simp only [globalEvaluation, hclosest]
      by_cases hnull : isNull u.pos = true
      · rw [if_pos hnull, Option.map_some', globalScores_all_false P]
      · rw [if_neg hnull, shortestPath_source_returns G top hvalid u.pos hs fuel,
          Option.map_some', globalScores_all_false P]

/-- On the open board where the unit 0 stands on the tile of a city it does not own, the
nearest qualifying tile is its own cell, the search returns the all-false set and
`globalEvaluation` returns the neutral baseline in every direction. -/
theorem source_destination_neutral_witness :
    TopChoice.Valid (fun _ => firstMin) ∧
    ¬ isWall ownTileGame (ownTileGame.unit 0).pos ∧
    closestCityOrPathEstimation ownTileGame (defaultParams Score) (ownTileGame.unit 0).pos =
      (ownTileGame.unit 0).pos ∧
    shortestPathDirections ownTileGame (fun _ => firstMin) 2 (ownTileGame.unit 0).pos
      (ownTileGame.unit 0).pos = some (DirectionBooleans.all false) ∧
    globalEvaluation ownTileGame (defaultParams Score) (fun _ => firstMin) 2
      (ownTileGame.unit 0) =
        some (DirectionEvaluation.all (defaultParams Score).NULL_EVALUATION) :=
  have hw : ¬ isWall ownTileGame (ownTileGame.unit 0).pos := by
    simp [isWall, ownTileGame, exampleGame]
  have hq : qualifyingTiles ownTileGame (defaultParams Score) = [⟨0, 0⟩] := by
    simp [qualifyingTiles, ownTileGame, exampleGame, defaultParams, List.range_succ]
  have hc : closestCityOrPathEstimation ownTileGame (defaultParams Score)
      (ownTileGame.unit 0).pos = (ownTileGame.unit 0).pos := by
    rw [closestCityOrPathEstimation_eq, hq]
    simp [updateCandidates, manhattanDistance, INT_INFINITY, ownTileGame, exampleGame]
  ⟨firstMin_valid, hw, hc,
    (source_destination_neutral ownTileGame (defaultParams Score) (fun _ => firstMin)
      firstMin_valid.inRange (ownTileGame.unit 0)).2.1 firstMin_valid hw 0,
    ((source_destination_neutral ownTileGame (defaultParams Score) (fun _ => firstMin)
      firstMin_valid.inRange (ownTileGame.unit 0)).2.2.2 hc).2 firstMin_valid hw 0⟩

end Rufus
